import Mathlib

/-!
# Sensitive-word matching automatons

A shallow embedding of the two matchers of the repository
(`algorithm/ac` and `algorithm/dfa`) together with the properties that the
specification states about them.

Modelling conventions

* A Go `string` is represented by the sequence of code points that
  `[]rune(s)` yields; a `rune` taken from a string is a code point.
* A `rune` that a caller passes (the replacement of `Replace`) is any
  `int32`, an `Int` here; `string(runes)` writes U+FFFD for a value that
  is no code point.
* Pointers to trie nodes are indices into a heap (`List Node`,
  `List State`); `nil` is `none`.
* A Go `map[rune]*Node` is an association list; the order in which a
  `range` statement visits it is left open and enters as a parameter.
* `unicode.ToLower` belongs to the Go standard library and enters as a
  parameter `toLower`.
* Loops whose termination depends on the shape of the heap carry a step
  budget; `none` stands for a run that does not finish normally
  (nil dereference, index out of range, or budget exhausted).
-/

namespace GoSensitive

/-- A Go `rune` holding a Unicode code point. -/
abbrev Rune := Char

/-- The conversion `[]rune(s)`. -/
def runes (s : String) : List Rune := s.data

/-- The conversion `string(rs)`. -/
def ofRunes (rs : List Rune) : String := String.mk rs

/-- The value of the rune literal for the code point `c`, as the `int32`
that a caller passes. -/
def runeValue (c : Rune) : Int := Int.ofNat c.toNat

/-- The code point that the conversion `string(runes)` writes for an element
`r` of the slice: `r` itself when it is a Unicode scalar value, U+FFFD when it
is a surrogate or lies outside the Unicode range. -/
def encodedRune (r : Int) : Rune :=
  if 0 ≤ r ∧ (r < 0xD800 ∨ (0xDFFF < r ∧ r < 0x110000)) then Char.ofNat r.toNat
  else Char.ofNat 0xFFFD

/-- The call `strings.Map(f, s)` for a mapping that drops no code point. For
`f = unicode.ToLower` this is also what `strings.ToLower(s)` computes. -/
def mapRunes (f : Rune → Rune) (s : String) : String := ofRunes ((runes s).map f)

/-- The order in which a `range` over a children map visits its entries. -/
abbrev RangeOrder := List (Rune × Nat) → List (Rune × Nat)

/-- A visiting order only rearranges the entries of the map. -/
def RangeOrder.Valid (visit : RangeOrder) : Prop := ∀ l, (visit l).Perm l

/-- Case mapping restricted to the ASCII letters, on which it agrees with
`unicode.ToLower`; used for evaluating concrete ASCII examples. -/
def asciiToLower (r : Rune) : Rune :=
  if 65 ≤ r.toNat ∧ r.toNat ≤ 90 then Char.ofNat (r.toNat + 32) else r

/-! ## `dict.Word` and `algorithm.MatchResult` -/

/-- The type `dict.Word`. -/
structure Word where
  Text : String
  Category : Int
  Level : Int
  Tags : List String
deriving DecidableEq, Repr

/-- The type `algorithm.MatchResult`. -/
structure MatchResult where
  Word : String
  Start : Int
  End : Int
  Category : Int
  Level : Int
deriving DecidableEq, Repr

/-- Constant `dict.CategoryOther` (`1 << 6`). -/
def CategoryOther : Int := 64

/-- Constant `dict.LevelMedium`. -/
def LevelMedium : Int := 1

/-! ## `algorithm/ac/node.go` -/

/-- The type `ac.Node`. -/
structure Node where
  children : List (Rune × Nat)
  fail : Option Nat
  word : Option Word
  isEnd : Bool
deriving DecidableEq, Repr

/-- Function `newNode`. -/
def newNode : Node := { children := [], fail := none, word := none, isEnd := false }

/-- Dereference of a node pointer. -/
def Node.get (nodes : List Node) (p : Nat) : Node := nodes.getD p newNode

/-- Method `Node.getChild`. -/
def Node.getChild (nodes : List Node) (n : Nat) (r : Rune) : Option Nat :=
  (Node.get nodes n).children.lookup r

/-- Method `Node.hasChild`. -/
def Node.hasChild (nodes : List Node) (n : Nat) (r : Rune) : Bool :=
  (Node.getChild nodes n r).isSome

/-- Method `Node.addChild`: the heap after the call and the returned pointer. -/
def Node.addChild (nodes : List Node) (n : Nat) (r : Rune) : List Node × Nat :=
  match Node.getChild nodes n r with
  | some child => (nodes, child)
  | none =>
    let child := nodes.length
    let nd := Node.get nodes n
    ((nodes ++ [newNode]).set n { nd with children := nd.children ++ [(r, child)] }, child)

/-- Method `Node.setWord`. -/
def Node.setWord (nodes : List Node) (n : Nat) (word : Word) : List Node :=
  nodes.set n { Node.get nodes n with word := some word, isEnd := true }

/-- The assignment `n.fail = f`. -/
def Node.setFail (nodes : List Node) (n : Nat) (f : Nat) : List Node :=
  nodes.set n { Node.get nodes n with fail := some f }

/-! ## `algorithm/ac/ac.go` -/

/-- The type `ac.ACMatcher`. -/
structure ACMatcher where
  nodes : List Node
  root : Nat
  caseSensitive : Bool
deriving DecidableEq, Repr

/-- Function `NewACMatcher`. -/
def NewACMatcher (caseSensitive : Bool) : ACMatcher :=
  { nodes := [newNode], root := 0, caseSensitive := caseSensitive }

/-- Method `ACMatcher.insert`. -/
def ACMatcher.insert (toLower : Rune → Rune) (m : ACMatcher) (word : Word) : ACMatcher :=
  let text := if !m.caseSensitive then mapRunes toLower word.Text else word.Text
  let walked := (runes text).foldl (fun (acc : List Node × Nat) r => Node.addChild acc.1 acc.2 r)
    (m.nodes, m.root)
  { m with nodes := Node.setWord walked.1 walked.2 word }

/-- The inner loop `for failNode != nil` of `buildFailurePointers`, for the
child reached by `r`: `some (some f)` when `child.fail = f` is assigned,
`some none` when the loop ends without an assignment. -/
def ACMatcher.findFail (nodes : List Node) (root : Nat) (r : Rune) :
    Nat → Option Nat → Option (Option Nat)
  | _, none => some none
  | 0, some _ => none
  | fuel + 1, some failNode =>
    match Node.getChild nodes failNode r with
    | some next => some (some next)
    | none =>
      if failNode = root then some (some root)
      else ACMatcher.findFail nodes root r fuel (Node.get nodes failNode).fail

/-- The loop `for r, child := range current.children` of
`buildFailurePointers`, over the entries still to be visited. -/
def ACMatcher.linkChildren (root current : Nat) :
    List (Rune × Nat) → List Node → List Nat → Option (List Node × List Nat)
  | [], nodes, queue => some (nodes, queue)
  | (r, child) :: rest, nodes, queue =>
    match ACMatcher.findFail nodes root r nodes.length (Node.get nodes current).fail with
    | none => none
    | some none => ACMatcher.linkChildren root current rest nodes (queue ++ [child])
    | some (some f) =>
      ACMatcher.linkChildren root current rest (Node.setFail nodes child f) (queue ++ [child])

/-- The loop `for len(queue) > 0` of `buildFailurePointers`. -/
def ACMatcher.bfs (visit : RangeOrder) (root : Nat) :
    Nat → List Node → List Nat → Option (List Node)
  | _, nodes, [] => some nodes
  | 0, _, _ :: _ => none
  | fuel + 1, nodes, current :: queue =>
    match ACMatcher.linkChildren root current (visit (Node.get nodes current).children)
        nodes queue with
    | none => none
    | some (nodes1, queue1) => ACMatcher.bfs visit root fuel nodes1 queue1

/-- The loop `for _, child := range m.root.children` of `buildFailurePointers`. -/
def ACMatcher.initQueue (root : Nat) :
    List (Rune × Nat) → List Node → List Nat → List Node × List Nat
  | [], nodes, queue => (nodes, queue)
  | (_, child) :: rest, nodes, queue =>
    ACMatcher.initQueue root rest (Node.setFail nodes child root) (queue ++ [child])

/-- Method `ACMatcher.buildFailurePointers`. -/
def ACMatcher.buildFailurePointers (visit : RangeOrder) (m : ACMatcher) : Option ACMatcher :=
  let start := ACMatcher.initQueue m.root (visit (Node.get m.nodes m.root).children) m.nodes []
  (ACMatcher.bfs visit m.root start.1.length start.1 start.2).map
    (fun ns => { m with nodes := ns })

/-- Method `ACMatcher.Build`, applied to a matcher `m`; the result is the
matcher after the call (the Go method always returns a nil error). -/
def ACMatcher.Build (visit : RangeOrder) (toLower : Rune → Rune) (m : ACMatcher)
    (words : List Word) : Option ACMatcher :=
  ACMatcher.buildFailurePointers visit (words.foldl (ACMatcher.insert toLower) m)

/-- The loop `for node != m.root && !node.hasChild(r)` of `Match` and `Validate`. -/
def ACMatcher.followFail (nodes : List Node) (root : Nat) (r : Rune) : Nat → Nat → Option Nat
  | 0, node => if node ≠ root ∧ Node.hasChild nodes node r = false then none else some node
  | fuel + 1, node =>
    if node ≠ root ∧ Node.hasChild nodes node r = false then
      match (Node.get nodes node).fail with
      | none => none
      | some f => ACMatcher.followFail nodes root r fuel f
    else some node

/-- The loop `for tempNode != m.root` of `Match`, at rune index `i`. -/
def ACMatcher.emitMatches (nodes : List Node) (root : Nat) (i : Nat) :
    Nat → Nat → List MatchResult → Option (List MatchResult)
  | 0, tempNode, results => if tempNode = root then some results else none
  | fuel + 1, tempNode, results =>
    if tempNode = root then some results
    else
      let nd := Node.get nodes tempNode
      let results1 :=
        match nd.isEnd, nd.word with
        | true, some w =>
          results ++ [{ Word := w.Text
                        Start := (i : Int) - ((runes w.Text).length : Int) + 1
                        End := (i : Int) + 1
                        Category := w.Category
                        Level := w.Level }]
        | _, _ => results
      match nd.fail with
      | none => none
      | some f => ACMatcher.emitMatches nodes root i fuel f results1

/-- The loop `for i, r := range runes` of `Match`, from index `i` on. -/
def ACMatcher.matchLoop (nodes : List Node) (root : Nat) :
    List Rune → Nat → Nat → List MatchResult → Option (List MatchResult)
  | [], _, _, results => some results
  | r :: rest, i, node, results =>
    match ACMatcher.followFail nodes root r nodes.length node with
    | none => none
    | some node1 =>
      match Node.getChild nodes node1 r with
      | none => ACMatcher.matchLoop nodes root rest (i + 1) root results
      | some child =>
        match ACMatcher.emitMatches nodes root i nodes.length child results with
        | none => none
        | some results1 => ACMatcher.matchLoop nodes root rest (i + 1) child results1

/-- Method `ACMatcher.Match`. -/
def ACMatcher.Match (toLower : Rune → Rune) (m : ACMatcher) (text : String) :
    Option (List MatchResult) :=
  let text1 := if !m.caseSensitive then mapRunes toLower text else text
  ACMatcher.matchLoop m.nodes m.root (runes text1) 0 m.root []

/-- The inner loop `for i := match.Start; i < match.End; i++` of `Replace`,
with `count` iterations left. -/
def markRange : Nat → Int → List Bool → Option (List Bool)
  | 0, _, toReplace => some toReplace
  | count + 1, i, toReplace =>
    if 0 ≤ i ∧ i < (toReplace.length : Int) then
      markRange count (i + 1) (toReplace.set i.toNat true)
    else none

/-- The loop `for _, match := range matches` of `Replace`. -/
def markAll : List MatchResult → List Bool → Option (List Bool)
  | [], toReplace => some toReplace
  | m :: ms, toReplace =>
    match markRange (m.End - m.Start).toNat m.Start toReplace with
    | none => none
    | some toReplace1 => markAll ms toReplace1

/-- The loop `for i := range runes` of `Replace`, on code points: `repl` is
the code point that `string(runes)` writes for the replacement. -/
def substitute (rs : List Rune) (toReplace : List Bool) (repl : Rune) : List Rune :=
  List.zipWith (fun r b => if b then repl else r) rs toReplace

/-- Method `ACMatcher.Replace`; the replacement `repl` is any `int32`, and
the returned `string(runes)` holds `encodedRune repl` where it was written. -/
def ACMatcher.Replace (toLower : Rune → Rune) (m : ACMatcher) (text : String) (repl : Int) :
    Option String :=
  let processedText := if !m.caseSensitive then mapRunes toLower text else text
  let rs := runes processedText
  match ACMatcher.Match toLower m text with
  | none => none
  | some found =>
    match markAll found (List.replicate rs.length false) with
    | none => none
    | some toReplace => some (ofRunes (substitute rs toReplace (encodedRune repl)))

/-- The loop `for tempNode != m.root` of `Validate`: `some true` when a
terminal node is met (the method then returns false). -/
def ACMatcher.hasEnd (nodes : List Node) (root : Nat) : Nat → Nat → Option Bool
  | 0, tempNode => if tempNode = root then some false else none
  | fuel + 1, tempNode =>
    if tempNode = root then some false
    else if (Node.get nodes tempNode).isEnd then some true
    else
      match (Node.get nodes tempNode).fail with
      | none => none
      | some f => ACMatcher.hasEnd nodes root fuel f

/-- The loop `for _, r := range runes` of `Validate`. -/
def ACMatcher.validateLoop (nodes : List Node) (root : Nat) : List Rune → Nat → Option Bool
  | [], _ => some true
  | r :: rest, node =>
    match ACMatcher.followFail nodes root r nodes.length node with
    | none => none
    | some node1 =>
      match Node.getChild nodes node1 r with
      | none => ACMatcher.validateLoop nodes root rest root
      | some child =>
        match ACMatcher.hasEnd nodes root nodes.length child with
        | none => none
        | some true => some false
        | some false => ACMatcher.validateLoop nodes root rest child

/-- Method `ACMatcher.Validate`. -/
def ACMatcher.Validate (toLower : Rune → Rune) (m : ACMatcher) (text : String) : Option Bool :=
  let text1 := if !m.caseSensitive then mapRunes toLower text else text
  ACMatcher.validateLoop m.nodes m.root (runes text1) m.root

/-! ## `algorithm/dfa/state.go` -/

/-- The type `dfa.State`. -/
structure State where
  transitions : List (Rune × Nat)
  word : Option Word
  isEnd : Bool
deriving DecidableEq, Repr

/-- Function `newState`. -/
def newState : State := { transitions := [], word := none, isEnd := false }

/-- Dereference of a state pointer. -/
def State.get (states : List State) (p : Nat) : State := states.getD p newState

/-- Method `State.isEndState`. -/
def State.isEndState (states : List State) (s : Nat) : Bool := (State.get states s).isEnd

/-- Method `State.getWord`. -/
def State.getWord (states : List State) (s : Nat) : Option Word := (State.get states s).word

/-- Method `State.setWord`. -/
def State.setWord (states : List State) (s : Nat) (word : Word) : List State :=
  states.set s { State.get states s with word := some word, isEnd := true }

/-- Method `State.transition`. -/
def State.transition (states : List State) (s : Nat) (r : Rune) : Option Nat :=
  (State.get states s).transitions.lookup r

/-- The map assignment `m[r] = next`. -/
def mapAssign (r : Rune) (next : Nat) : List (Rune × Nat) → List (Rune × Nat)
  | [] => [(r, next)]
  | (k, v) :: rest => if k = r then (k, next) :: rest else (k, v) :: mapAssign r next rest

/-- Method `State.addTransition`. -/
def State.addTransition (states : List State) (s : Nat) (r : Rune) (next : Nat) : List State :=
  states.set s { State.get states s with
    transitions := mapAssign r next (State.get states s).transitions }

/-! ## `algorithm/dfa/dfa.go` -/

/-- The type `dfa.DFAMatcher`. -/
structure DFAMatcher where
  states : List State
  root : Nat
  caseSensitive : Bool
deriving DecidableEq, Repr

/-- Function `NewDFAMatcher`. -/
def NewDFAMatcher (caseSensitive : Bool) : DFAMatcher :=
  { states := [newState], root := 0, caseSensitive := caseSensitive }

/-- One iteration of the loop `for _, r := range runes` of `DFAMatcher.insert`. -/
def DFAMatcher.insertStep (acc : List State × Nat) (r : Rune) : List State × Nat :=
  match State.transition acc.1 acc.2 r with
  | some next => (acc.1, next)
  | none =>
    let nextState := acc.1.length
    (State.addTransition (acc.1 ++ [newState]) acc.2 r nextState, nextState)

/-- Method `DFAMatcher.insert`. -/
def DFAMatcher.insert (toLower : Rune → Rune) (m : DFAMatcher) (word : Word) : DFAMatcher :=
  let text := if !m.caseSensitive then mapRunes toLower word.Text else word.Text
  let walked := (runes text).foldl DFAMatcher.insertStep (m.states, m.root)
  { m with states := State.setWord walked.1 walked.2 word }

/-- Method `DFAMatcher.Build`, applied to a matcher `m`; the result is the
matcher after the call (the Go method always returns a nil error). -/
def DFAMatcher.Build (toLower : Rune → Rune) (m : DFAMatcher) (words : List Word) : DFAMatcher :=
  words.foldl (DFAMatcher.insert toLower) m

/-- The inner loop `for j < len(runes)` of `DFAMatcher.Match`; `rest` holds
`runes[j:]`. -/
def DFAMatcher.scanFrom (states : List State) (i : Nat) :
    List Rune → Nat → Nat → List MatchResult → List MatchResult
  | [], _, _, results => results
  | r :: rest, j, state, results =>
    match State.transition states state r with
    | none => results
    | some next =>
      let results1 :=
        match State.isEndState states next, State.getWord states next with
        | true, some word =>
          results ++ [{ Word := word.Text
                        Start := (i : Int)
                        End := ((j + 1 : Nat) : Int)
                        Category := word.Category
                        Level := word.Level }]
        | _, _ => results
      DFAMatcher.scanFrom states i rest (j + 1) next results1

/-- The outer loop `for i := 0; i < len(runes); i++` of `DFAMatcher.Match`;
`rest` holds `runes[i:]`. -/
def DFAMatcher.matchLoop (states : List State) (root : Nat) :
    List Rune → Nat → List MatchResult → List MatchResult
  | [], _, results => results
  | r :: rest, i, results =>
    DFAMatcher.matchLoop states root rest (i + 1)
      (DFAMatcher.scanFrom states i (r :: rest) i root results)

/-- Method `DFAMatcher.Match`. -/
def DFAMatcher.Match (toLower : Rune → Rune) (m : DFAMatcher) (text : String) :
    List MatchResult :=
  let text1 := if !m.caseSensitive then mapRunes toLower text else text
  DFAMatcher.matchLoop m.states m.root (runes text1) 0 []

/-- Method `DFAMatcher.Replace`; the replacement `repl` is any `int32`, and
the returned `string(runes)` holds `encodedRune repl` where it was written. -/
def DFAMatcher.Replace (toLower : Rune → Rune) (m : DFAMatcher) (text : String) (repl : Int) :
    Option String :=
  let processedText := if !m.caseSensitive then mapRunes toLower text else text
  let rs := runes processedText
  match markAll (DFAMatcher.Match toLower m text) (List.replicate rs.length false) with
  | none => none
  | some toReplace => some (ofRunes (substitute rs toReplace (encodedRune repl)))

/-- The inner loop `for j < len(runes)` of `DFAMatcher.Validate`: true when
an end state is met (the method then returns false). -/
def DFAMatcher.hitsEnd (states : List State) : List Rune → Nat → Bool
  | [], _ => false
  | r :: rest, state =>
    match State.transition states state r with
    | none => false
    | some next =>
      if State.isEndState states next then true else DFAMatcher.hitsEnd states rest next

/-- The outer loop of `DFAMatcher.Validate`. -/
def DFAMatcher.validateLoop (states : List State) (root : Nat) : List Rune → Bool
  | [] => true
  | r :: rest =>
    if DFAMatcher.hitsEnd states (r :: rest) root then false
    else DFAMatcher.validateLoop states root rest

/-- Method `DFAMatcher.Validate`. -/
def DFAMatcher.Validate (toLower : Rune → Rune) (m : DFAMatcher) (text : String) : Bool :=
  let text1 := if !m.caseSensitive then mapRunes toLower text else text
  DFAMatcher.validateLoop m.states m.root (runes text1)

/-! ## Building a matcher and using it -/

/-- The calls `m := NewACMatcher(cs); m.Build(words); m.Match(text)`. -/
def acMatch (visit : RangeOrder) (toLower : Rune → Rune) (cs : Bool) (words : List Word)
    (text : String) : Option (List MatchResult) :=
  (ACMatcher.Build visit toLower (NewACMatcher cs) words).bind
    (fun m => ACMatcher.Match toLower m text)

/-- The calls `m := NewACMatcher(cs); m.Build(words); m.Validate(text)`. -/
def acValidate (visit : RangeOrder) (toLower : Rune → Rune) (cs : Bool) (words : List Word)
    (text : String) : Option Bool :=
  (ACMatcher.Build visit toLower (NewACMatcher cs) words).bind
    (fun m => ACMatcher.Validate toLower m text)

/-- The calls `m := NewACMatcher(cs); m.Build(words); m.Replace(text, repl)`. -/
def acReplace (visit : RangeOrder) (toLower : Rune → Rune) (cs : Bool) (words : List Word)
    (text : String) (repl : Int) : Option String :=
  (ACMatcher.Build visit toLower (NewACMatcher cs) words).bind
    (fun m => ACMatcher.Replace toLower m text repl)

/-- The calls `m := NewDFAMatcher(cs); m.Build(words); m.Match(text)`. -/
def dfaMatch (toLower : Rune → Rune) (cs : Bool) (words : List Word) (text : String) :
    List MatchResult :=
  DFAMatcher.Match toLower (DFAMatcher.Build toLower (NewDFAMatcher cs) words) text

/-- The calls `m := NewDFAMatcher(cs); m.Build(words); m.Validate(text)`. -/
def dfaValidate (toLower : Rune → Rune) (cs : Bool) (words : List Word) (text : String) : Bool :=
  DFAMatcher.Validate toLower (DFAMatcher.Build toLower (NewDFAMatcher cs) words) text

/-- The calls `m := NewDFAMatcher(cs); m.Build(words); m.Replace(text, repl)`. -/
def dfaReplace (toLower : Rune → Rune) (cs : Bool) (words : List Word) (text : String)
    (repl : Int) : Option String :=
  DFAMatcher.Replace toLower (DFAMatcher.Build toLower (NewDFAMatcher cs) words) text repl

/-- A dictionary entry with the given text, category `other`, level `medium`. -/
def mkWord (text : String) : Word :=
  { Text := text, Category := CategoryOther, Level := LevelMedium, Tags := [] }

/-- A match result for an entry made by `mkWord`. -/
def mkResult (text : String) (start stop : Int) : MatchResult :=
  { Word := text, Start := start, End := stop, Category := CategoryOther, Level := LevelMedium }

/-! ## Notions used to state and prove the properties -/

/-- The code points under which `insert` stores an entry text and under which
`Match` scans a text: lower-cased unless the matcher is case-sensitive. -/
def foldText (toLower : Rune → Rune) (caseSensitive : Bool) (s : String) : List Rune :=
  runes (if !caseSensitive then mapRunes toLower s else s)

/-- The node reached from `n` along the code points `p`, if every edge exists. -/
def Node.walk (nodes : List Node) : Nat → List Rune → Option Nat
  | n, [] => some n
  | n, r :: rs =>
    match Node.getChild nodes n r with
    | none => none
    | some c => Node.walk nodes c rs

/-- The last entry of `ws` whose key is `p`. -/
def lastWith (key : Word → List Rune) (ws : List Word) (p : List Rune) : Option Word :=
  ws.foldl (fun acc w => if key w = p then some w else acc) none

/-- The heap is a tree rooted at node 0 in which `P` gives the path of every node. -/
structure Shape (nodes : List Node) (P : Nat → List Rune) : Prop where
  pos : 0 < nodes.length
  root : P 0 = []
  child : ∀ n r c, Node.getChild nodes n r = some c →
    n < nodes.length ∧ c < nodes.length ∧ P c = P n ++ [r]
  parent : ∀ c, c < nodes.length → c ≠ 0 → ∃ n r, Node.getChild nodes n r = some c
  inj : ∀ a b, a < nodes.length → b < nodes.length → P a = P b → a = b
  keys : ∀ n, ((Node.get nodes n).children.map Prod.fst).Nodup
  depth_le : ∀ c, c < nodes.length → (P c).length ≤ c

/-- The terminal marks of the heap are those of the entries `ws` under `key`. -/
structure Content (key : Word → List Rune) (nodes : List Node) (P : Nat → List Rune)
    (ws : List Word) : Prop where
  word : ∀ c, c < nodes.length → (Node.get nodes c).word = lastWith key ws (P c)
  isEnd : ∀ c, (Node.get nodes c).isEnd = (Node.get nodes c).word.isSome
  mem : ∀ w, w ∈ ws → ∃ c, c < nodes.length ∧ P c = key w

/-- The heap `nodes'` with paths `P'` extends the heap `nodes` with paths `P`
without touching marks or failure links. -/
structure Ext (nodes : List Node) (P : Nat → List Rune) (nodes' : List Node)
    (P' : Nat → List Rune) : Prop where
  len_le : nodes.length ≤ nodes'.length
  path_eq : ∀ a, a < nodes.length → P' a = P a
  word_eq : ∀ a, (Node.get nodes' a).word = (Node.get nodes a).word
  isEnd_eq : ∀ a, (Node.get nodes' a).isEnd = (Node.get nodes a).isEnd
  fail_eq : ∀ a, (Node.get nodes' a).fail = (Node.get nodes a).fail

/-- The heap is the trie of the entries `ws`, with no failure link set. -/
def TrieInv (key : Word → List Rune) (nodes : List Node) (ws : List Word) : Prop :=
  ∃ P, Shape nodes P ∧ Content key nodes P ws ∧ ∀ c, (Node.get nodes c).fail = none

/-- The code points `i .. j-1` of `t`. -/
def slice (t : List Rune) (i j : Nat) : List Rune := (t.drop i).take (j - i)

/-- The result reported for entry `w` at the offsets `[i, j)`. -/
def mkMatch (w : Word) (i j : Nat) : MatchResult :=
  { Word := w.Text, Start := (i : Int), End := (j : Int), Category := w.Category,
    Level := w.Level }

/-- The result, if any, for the code points `i .. j-1` of the scanned text `t`:
the last entry whose key they spell. -/
def resultAt (key : Word → List Rune) (ws : List Word) (t : List Rune) (i j : Nat) :
    Option MatchResult :=
  (lastWith key ws (slice t i j)).map (fun w => mkMatch w i j)

/-- All occurrences in `t`, by increasing start and then increasing end. -/
def occByStart (key : Word → List Rune) (ws : List Word) (t : List Rune) : List MatchResult :=
  (List.range t.length).flatMap
    (fun i => (List.range' (i + 1) (t.length - i)).filterMap (fun j => resultAt key ws t i j))

/-- All occurrences in `t`, by increasing end and then increasing start. -/
def occByEnd (key : Word → List Rune) (ws : List Word) (t : List Rune) : List MatchResult :=
  (List.range' 1 t.length).flatMap
    (fun j => (List.range j).filterMap (fun i => resultAt key ws t i j))

/-- The DFA state holding the trie part of an AC node. -/
def Node.toState (n : Node) : State :=
  { transitions := n.children, word := n.word, isEnd := n.isEnd }

/-- The failure link of node `c` is set and leads to the node whose path is
the longest proper suffix of the path of `c` that is a path of the trie. -/
def Linked (nodes : List Node) (P : Nat → List Rune) (c : Nat) : Prop :=
  ∃ k, (Node.get nodes c).fail = some k ∧ k < nodes.length ∧ P k <:+ P c ∧
    (P k).length < (P c).length ∧
    ∀ c', c' < nodes.length → P c' <:+ P c → (P c').length < (P c).length →
      (P c').length ≤ (P k).length

/-- Two heaps hold the same trie; they may differ in failure links only. -/
structure SameTrie (nodes nodes' : List Node) : Prop where
  length_eq : nodes'.length = nodes.length
  children_eq : ∀ c, (Node.get nodes' c).children = (Node.get nodes c).children
  word_eq : ∀ c, (Node.get nodes' c).word = (Node.get nodes c).word
  isEnd_eq : ∀ c, (Node.get nodes' c).isEnd = (Node.get nodes c).isEnd

/-- The state of the breadth-first loop: `nodes` is the heap, `queue` the
queue, `done` the nodes already taken from the queue; `nodes0` is the heap
before any failure link was set. -/
structure BInv (nodes0 : List Node) (P : Nat → List Rune) (nodes : List Node)
    (done queue : List Nat) : Prop where
  same : SameTrie nodes0 nodes
  linked : ∀ c, (Node.get nodes c).fail ≠ none → Linked nodes P c
  seen : ∀ c, (Node.get nodes c).fail ≠ none ↔ c ∈ done ++ queue
  nodup : (done ++ queue).Nodup
  valid : ∀ c, c ∈ done ++ queue → c < nodes0.length ∧ c ≠ 0
  kids : ∀ n r c, Node.getChild nodes0 n r = some c → (c ∈ done ++ queue ↔ n = 0 ∨ n ∈ done)
  sorted : queue.Pairwise (fun a b => (P a).length ≤ (P b).length)
  close : ∀ a, a ∈ queue → ∀ b, b ∈ queue → (P b).length ≤ (P a).length + 1

/-- Every non-root node carries its failure link. -/
def AllLinked (nodes : List Node) (P : Nat → List Rune) : Prop :=
  ∀ c, c < nodes.length → c ≠ 0 → Linked nodes P c

/-- Position `p` lies in the interval of one of the results. -/
def covered (ms : List MatchResult) (p : Nat) : Bool :=
  ms.any (fun m => decide (m.Start ≤ (p : Int) ∧ (p : Int) < m.End))

/-- The code points `rs` with every covered position rewritten to `repl`. -/
def masked (rs : List Rune) (ms : List MatchResult) (repl : Rune) : List Rune :=
  rs.mapIdx (fun p r => if covered ms p then repl else r)

/-- The order of the plain-trie results: by start, then by end. -/
def byStart (a b : MatchResult) : Prop :=
  a.Start < b.Start ∨ (a.Start = b.Start ∧ a.End < b.End)

/-- The order of the failure-link results: by end, then by start. -/
def byEnd (a b : MatchResult) : Prop :=
  a.End < b.End ∨ (a.End = b.End ∧ a.Start < b.Start)

/-- The code points `i .. j-1` of the scanned text spell the key of an entry. -/
def Occurs (key : Word → List Rune) (ws : List Word) (t : List Rune) (i j : Nat) : Prop :=
  i < j ∧ j ≤ t.length ∧ ∃ w, w ∈ ws ∧ key w = slice t i j

/-- The reading of the claim on the failure-link matches: a result with offsets
`[s, e)` and word `w` exists exactly when `w` is the text of a non-empty entry
whose folded code points are the code points `s .. e-1` of the folded text. -/
def ReportsEachEntry (toLower : Rune → Rune) (cs : Bool) (words : List Word) (text : String)
    (results : List MatchResult) : Prop :=
  ∀ (s e : Nat) (w : String),
    (∃ m, m ∈ results ∧ m.Start = (s : Int) ∧ m.End = (e : Int) ∧ m.Word = w) ↔
      ((∃ x, x ∈ words ∧ x.Text = w) ∧ runes w ≠ [] ∧ s ≤ e ∧
        e ≤ (foldText toLower cs text).length ∧
        foldText toLower cs w = slice (foldText toLower cs text) s e)

/-- The DFA matcher holding the trie part of an AC matcher. -/
def ACMatcher.toDFA (m : ACMatcher) : DFAMatcher :=
  { states := m.nodes.map Node.toState, root := m.root, caseSensitive := m.caseSensitive }

/-! ## The variant processors: `variant/symbol.go`, `variant/traditional.go`,
`variant/similar.go`, `variant/pinyin.go` -/

/-- A visiting order of a `range` over a map only rearranges its entries. -/
def ValidOrder {α : Type} (visit : List α → List α) : Prop := ∀ l, (visit l).Perm l

/-- The map assignment `m[k] = v` on a map with code-point keys. -/
def runeMapPut {β : Type} (k : Rune) (v : β) : List (Rune × β) → List (Rune × β)
  | [] => [(k, v)]
  | (k1, v1) :: rest => if k1 = k then (k1, v) :: rest else (k1, v1) :: runeMapPut k v rest

/-- The map that a map literal denotes, its entries entered one after another. -/
def mapOfLiteral {β : Type} (entries : List (Rune × β)) : List (Rune × β) :=
  entries.foldl (fun m e => runeMapPut e.1 e.2 m) []

/-! ### `variant/symbol.go` -/

/-- Function `isCJK`. -/
def isCJK (r : Rune) : Bool :=
  decide (0x4E00 ≤ r.toNat ∧ r.toNat ≤ 0x9FFF) ||
  decide (0x3400 ≤ r.toNat ∧ r.toNat ≤ 0x4DBF) ||
  decide (0x20000 ≤ r.toNat ∧ r.toNat ≤ 0x2A6DF) ||
  decide (0x2A700 ≤ r.toNat ∧ r.toNat ≤ 0x2B73F) ||
  decide (0x2B740 ≤ r.toNat ∧ r.toNat ≤ 0x2B81F) ||
  decide (0x2B820 ≤ r.toNat ∧ r.toNat ≤ 0x2CEAF)

/-- The type `SymbolProcessor`. -/
structure SymbolProcessor where
  removeSymbols : Bool
deriving DecidableEq, Repr

/-- Function `NewSymbolProcessor`. -/
def NewSymbolProcessor : SymbolProcessor := { removeSymbols := true }

/-- One iteration of the loop of `SymbolProcessor.Process`: what is written
for the code point `r`. The character classes `unicode.IsLetter`,
`unicode.IsDigit` and `unicode.IsSpace` are parameters. -/
def SymbolProcessor.step (isLetter isDigit isSpace : Rune → Bool) (r : Rune) : List Rune :=
  if isLetter r || isDigit r || isCJK r then [r]
  else if isSpace r then [' ']
  else []

/-- Method `SymbolProcessor.Process`. -/
def SymbolProcessor.Process (isLetter isDigit isSpace : Rune → Bool) (p : SymbolProcessor)
    (text : String) : String :=
  if !p.removeSymbols then text
  else ofRunes ((runes text).flatMap (SymbolProcessor.step isLetter isDigit isSpace))

/-! ### `variant/traditional.go` -/

/-- The literal `s2t` of `buildConversionMaps`, in source order (the key for
`独` is listed twice, with the same value). -/
def s2tLiteral : List (Rune × Rune) :=
  [
    ('测', '測'), ('试', '試'), ('词', '詞'), ('敏', '敏'), ('感', '感'), ('个', '個'), ('为', '為'),
    ('国', '國'), ('来', '來'), ('对', '對'), ('们', '們'), ('时', '時'), ('会', '會'), ('过', '過'),
    ('发', '發'), ('后', '後'), ('学', '學'), ('当', '當'), ('样', '樣'), ('还', '還'), ('现', '現'),
    ('与', '與'), ('关', '關'), ('开', '開'), ('动', '動'), ('问', '問'), ('两', '兩'), ('应', '應'),
    ('电', '電'), ('体', '體'), ('实', '實'), ('无', '無'), ('业', '業'), ('东', '東'), ('听', '聽'),
    ('长', '長'), ('见', '見'), ('书', '書'), ('头', '頭'), ('车', '車'), ('门', '門'), ('马', '馬'),
    ('号', '號'), ('义', '義'), ('亲', '親'), ('记', '記'), ('师', '師'), ('岁', '歲'), ('区', '區'),
    ('变', '變'), ('压', '壓'), ('产', '產'), ('声', '聲'), ('议', '議'), ('处', '處'), ('卖', '賣'),
    ('买', '買'), ('战', '戰'), ('认', '認'), ('让', '讓'), ('从', '從'), ('结', '結'), ('给', '給'),
    ('节', '節'), ('独', '獨'), ('飞', '飛'), ('万', '萬'), ('风', '風'), ('办', '辦'), ('务', '務'),
    ('写', '寫'), ('观', '觀'), ('习', '習'), ('报', '報'), ('场', '場'), ('带', '帶'), ('队', '隊'),
    ('导', '導'), ('经', '經'), ('运', '運'), ('历', '歷'), ('类', '類'), ('总', '總'), ('医', '醫'),
    ('张', '張'), ('级', '級'), ('约', '約'), ('组', '組'), ('继', '繼'), ('断', '斷'), ('将', '將'),
    ('专', '專'), ('传', '傳'), ('达', '達'), ('亚', '亞'), ('连', '連'), ('选', '選'), ('价', '價'),
    ('则', '則'), ('较', '較'), ('尔', '爾'), ('转', '轉'), ('规', '規'), ('参', '參'), ('标', '標'),
    ('党', '黨'), ('权', '權'), ('台', '臺'), ('湾', '灣'), ('独', '獨'), ('统', '統'), ('复', '復'),
    ('兴', '興'), ('华', '華'), ('夏', '夏')
  ]

/-- The type `TraditionalProcessor`. -/
structure TraditionalProcessor where
  s2tMap : List (Rune × Rune)
  t2sMap : List (Rune × Rune)
deriving DecidableEq, Repr

/-- Function `buildConversionMaps`; `visit` is the order of `range s2t`. -/
def buildConversionMaps (visit : List (Rune × Rune) → List (Rune × Rune)) :
    List (Rune × Rune) × List (Rune × Rune) :=
  let s2t := mapOfLiteral s2tLiteral
  let t2s := (visit s2t).foldl (fun m e => runeMapPut e.2 e.1 m) []
  (s2t, t2s)

/-- Function `NewTraditionalProcessor`. -/
def NewTraditionalProcessor (visit : List (Rune × Rune) → List (Rune × Rune)) :
    TraditionalProcessor :=
  { s2tMap := (buildConversionMaps visit).1, t2sMap := (buildConversionMaps visit).2 }

/-- One iteration of the loop of `ToSimplified`: what is written for `r`. -/
def TraditionalProcessor.simplifiedOf (p : TraditionalProcessor) (r : Rune) : Rune :=
  match p.t2sMap.lookup r with
  | some simplified => simplified
  | none => r

/-- Method `TraditionalProcessor.ToSimplified`. -/
def TraditionalProcessor.ToSimplified (p : TraditionalProcessor) (text : String) : String :=
  ofRunes ((runes text).map (TraditionalProcessor.simplifiedOf p))

/-- One iteration of the loop of `ToTraditional`: what is written for `r`. -/
def TraditionalProcessor.traditionalOf (p : TraditionalProcessor) (r : Rune) : Rune :=
  match p.s2tMap.lookup r with
  | some traditional => traditional
  | none => r

/-- Method `TraditionalProcessor.ToTraditional`. -/
def TraditionalProcessor.ToTraditional (p : TraditionalProcessor) (text : String) : String :=
  ofRunes ((runes text).map (TraditionalProcessor.traditionalOf p))

/-- Method `TraditionalProcessor.Process`. -/
def TraditionalProcessor.Process (p : TraditionalProcessor) (text : String) : String :=
  TraditionalProcessor.ToSimplified p text

/-! ### `variant/similar.go` -/

/-- The literal of `buildSimilarMap`, in source order. -/
def similarLiteral : List (Rune × List Rune) :=
  [
    ('傻', ['煞', '𫓧', '儍']), ('比', ['笔', '币', '苝', '怭']), ('测', ['側', '厕']),
    ('草', ['艹', '屮', '荡']), ('0', ['O', 'o', '〇', '零', '○']), ('1', ['l', 'I', 'i', '|', '一']),
    ('2', ['二', '貳']), ('3', ['三', '叁']), ('4', ['四', '肆']), ('5', ['五', '伍']),
    ('6', ['六', '陸']), ('7', ['七', '柒']), ('8', ['八', '捌']), ('9', ['九', '玖']),
    ('a', ['@', 'α']), ('o', ['0', 'O', '〇']), ('i', ['l', '1', 'I', '|']), ('s', ['$', '§']),
    ('e', ['3', 'ε']), ('g', ['9', 'q']), ('日', ['曰', '目']), ('土', ['士', '壬']),
    ('刀', ['力', '刃']), ('人', ['入', '八']), ('千', ['干', '于']), ('未', ['末', '朱']),
    ('己', ['已', '巳']), ('戊', ['戌', '戍']), ('大', ['太', '犬']), ('天', ['夫', '无']),
    ('政', ['政', '正', '征']), ('色', ['色', '涩', '瑟']), ('赌', ['堵', '睹']), ('毒', ['独', '督']),
    ('黄', ['皇', '煌']), ('暴', ['爆', '曝'])
  ]

/-- Function `buildSimilarMap`. -/
def buildSimilarMap : List (Rune × List Rune) := mapOfLiteral similarLiteral

/-- The type `SimilarProcessor`. -/
structure SimilarProcessor where
  similarMap : List (Rune × List Rune)
deriving DecidableEq, Repr

/-- Function `NewSimilarProcessor`. -/
def NewSimilarProcessor : SimilarProcessor := { similarMap := buildSimilarMap }

/-- The loop `for base, similars := range p.similarMap` of `findBase`, over
the groups still to be visited. -/
def SimilarProcessor.findBaseIn : List (Rune × List Rune) → Rune → Rune
  | [], r => r
  | (base, similars) :: rest, r =>
    if similars.any (fun similar => r == similar) then base
    else if r = base then base
    else SimilarProcessor.findBaseIn rest r

/-- Method `SimilarProcessor.findBase`; `visit` is the order of the `range`
over the map in this call. -/
def SimilarProcessor.findBase (visit : List (Rune × List Rune) → List (Rune × List Rune))
    (p : SimilarProcessor) (r : Rune) : Rune :=
  SimilarProcessor.findBaseIn (visit p.similarMap) r

/-- The loop `for _, r := range text` of `SimilarProcessor.Process`, from the
code point at position `k` on; every call of `findBase` ranges over the map
again, `visits k` being the order of the call for position `k`. -/
def SimilarProcessor.processFrom
    (visits : Nat → List (Rune × List Rune) → List (Rune × List Rune)) (p : SimilarProcessor) :
    Nat → List Rune → List Rune
  | _, [] => []
  | k, r :: rest =>
    SimilarProcessor.findBase (visits k) p r :: SimilarProcessor.processFrom visits p (k + 1) rest

/-- Method `SimilarProcessor.Process`; `visits k` is the order in which the
call of `findBase` for the code point at position `k` visits the map. -/
def SimilarProcessor.Process
    (visits : Nat → List (Rune × List Rune) → List (Rune × List Rune)) (p : SimilarProcessor)
    (text : String) : String :=
  ofRunes (SimilarProcessor.processFrom visits p 0 (runes text))

/-- Function `IsSimilar`; its two calls of `findBase` range over the map
separately, in the orders `visit1` and `visit2`. -/
def IsSimilar (visit1 visit2 : List (Rune × List Rune) → List (Rune × List Rune))
    (r1 r2 : Rune) : Bool :=
  let processor := NewSimilarProcessor
  let base1 := SimilarProcessor.findBase visit1 processor r1
  let base2 := SimilarProcessor.findBase visit2 processor r2
  base1 == base2

/-! ### `variant/pinyin.go` -/

/-- The literal of `buildBasicPinyinMap`, in source order. -/
def pinyinLiteral : List (Rune × String) :=
  [
    ('傻', "sha"), ('比', "bi"), ('测', "ce"), ('试', "shi"), ('敏', "min"), ('感', "gan"),
    ('词', "ci"), ('一', "yi"), ('二', "er"), ('三', "san"), ('四', "si"), ('五', "wu"), ('六', "liu"),
    ('七', "qi"), ('八', "ba"), ('九', "jiu"), ('十', "shi"), ('的', "de"), ('了', "le"),
    ('是', "shi"), ('我', "wo"), ('不', "bu"), ('在', "zai"), ('人', "ren"), ('有', "you"),
    ('他', "ta"), ('这', "zhe"), ('个', "ge"), ('们', "men"), ('中', "zhong"), ('来', "lai"),
    ('上', "shang"), ('大', "da"), ('为', "wei"), ('和', "he"), ('国', "guo"), ('地', "di"),
    ('到', "dao"), ('以', "yi"), ('说', "shuo"), ('时', "shi"), ('要', "yao"), ('就', "jiu"),
    ('出', "chu"), ('会', "hui"), ('可', "ke"), ('也', "ye"), ('你', "ni"), ('对', "dui"),
    ('生', "sheng"), ('能', "neng"), ('而', "er"), ('子', "zi"), ('那', "na"), ('得', "de"),
    ('于', "yu"), ('着', "zhe"), ('下', "xia"), ('自', "zi"), ('之', "zhi"), ('年', "nian"),
    ('过', "guo"), ('发', "fa"), ('后', "hou"), ('作', "zuo"), ('里', "li"), ('用', "yong"),
    ('道', "dao"), ('行', "xing"), ('所', "suo"), ('然', "ran"), ('家', "jia"), ('种', "zhong"),
    ('事', "shi"), ('成', "cheng"), ('方', "fang"), ('多', "duo"), ('经', "jing"), ('么', "me"),
    ('去', "qu"), ('法', "fa"), ('学', "xue"), ('如', "ru"), ('她', "ta"), ('只', "zhi"),
    ('现', "xian"), ('当', "dang"), ('样', "yang"), ('看', "kan"), ('文', "wen"), ('无', "wu"),
    ('开', "kai"), ('手', "shou"), ('主', "zhu"), ('又', "you"), ('高', "gao"), ('小', "xiao"),
    ('动', "dong"), ('部', "bu"), ('机', "ji"), ('问', "wen"), ('分', "fen"), ('政', "zheng"),
    ('治', "zhi"), ('色', "se"), ('情', "qing"), ('暴', "bao"), ('毒', "du"), ('品', "pin"),
    ('赌', "du"), ('博', "bo"), ('枪', "qiang"), ('支', "zhi"), ('弹', "dan"), ('药', "yao"),
    ('死', "si"), ('杀', "sha"), ('血', "xue"), ('腥', "xing"), ('恐', "kong"), ('怖', "bu")
  ]

/-- Function `buildBasicPinyinMap`. -/
def buildBasicPinyinMap : List (Rune × String) := mapOfLiteral pinyinLiteral

/-- The type `PinyinProcessor`. -/
structure PinyinProcessor where
  pinyinMap : List (Rune × String)
deriving DecidableEq, Repr

/-- Function `NewPinyinProcessor`. -/
def NewPinyinProcessor : PinyinProcessor := { pinyinMap := buildBasicPinyinMap }

/-- One iteration of the loop of `PinyinProcessor.Process`: what is written
for `r`. -/
def PinyinProcessor.step (p : PinyinProcessor) (r : Rune) : List Rune :=
  match p.pinyinMap.lookup r with
  | some py => runes py
  | none => [r]

/-- Method `PinyinProcessor.Process`. -/
def PinyinProcessor.Process (p : PinyinProcessor) (text : String) : String :=
  ofRunes ((runes text).flatMap (PinyinProcessor.step p))

/-! ## The detector: `options.go`, `result.go`, `filter/`, `loader/`, `watcher.go`,
`builder.go`, `detector.go` -/

/-- A Go `error` value; `none` is `nil`. -/
abbrev GoError := Option String

/-- Constant `AlgorithmAuto`. -/
def AlgorithmAuto : Int := 0

/-- Constant `AlgorithmDFA`. -/
def AlgorithmDFA : Int := 1

/-- Constant `AlgorithmAC`. -/
def AlgorithmAC : Int := 2

/-- Constant `CategoryPolitical` (`1 << 0`). -/
def CategoryPolitical : Int := 1

/-- Constant `CategoryPornographic` (`1 << 1`). -/
def CategoryPornographic : Int := 2

/-- Constant `CategoryViolence` (`1 << 2`). -/
def CategoryViolence : Int := 4

/-- Constant `CategoryAbuse` (`1 << 3`). -/
def CategoryAbuse : Int := 8

/-- Constant `CategoryAd` (`1 << 4`). -/
def CategoryAd : Int := 16

/-- Constant `CategoryIllegal` (`1 << 5`). -/
def CategoryIllegal : Int := 32

/-- Constant `LevelLow`. -/
def LevelLow : Int := 0

/-- Constant `LevelHigh`. -/
def LevelHigh : Int := 2

/-- Constant `LevelCritical`. -/
def LevelCritical : Int := 3

/-- The type `Options` of `options.go`; `WatchInterval` in nanoseconds. -/
structure Options where
  Algorithm : Int
  CaseSensitive : Bool
  EnablePinyin : Bool
  EnableTraditional : Bool
  EnableSymbolFilter : Bool
  EnableSimilarChar : Bool
  ReplaceChar : Int
  Categories : List Int
  MinLevel : Int
  MaxMatchCount : Int
  WatchFile : Bool
  WatchInterval : Int
deriving DecidableEq, Repr

/-- Function `DefaultOptions`. -/
def DefaultOptions : Options :=
  { Algorithm := AlgorithmAuto
    CaseSensitive := false
    EnablePinyin := false
    EnableTraditional := false
    EnableSymbolFilter := false
    EnableSimilarChar := false
    ReplaceChar := runeValue '*'
    Categories := []
    MinLevel := LevelLow
    MaxMatchCount := 0
    WatchFile := false
    WatchInterval := 30000000000 }

/-- The type `Match` of `result.go`. -/
structure Match where
  Word : String
  Start : Int
  End : Int
  Category : Int
  Level : Int
deriving DecidableEq, Repr

/-- The type `Result` of `result.go`. -/
structure Result where
  Found : Bool
  Matches : List Match
  FilteredText : String
deriving DecidableEq, Repr

/-! ### `filter/whitelist.go` -/

/-- The read `m[k]` of a `map[string]bool`; a missing key reads as false. -/
def boolMapGet (m : List (String × Bool)) (k : String) : Bool :=
  (m.lookup k).getD false

/-- The assignment `m[k] = v` of a `map[string]bool`. -/
def boolMapSet (k : String) (v : Bool) : List (String × Bool) → List (String × Bool)
  | [] => [(k, v)]
  | (k', v') :: rest => if k' = k then (k', v) :: rest else (k', v') :: boolMapSet k v rest

/-- The call `delete(m, k)` on a `map[string]bool`. -/
def boolMapDelete (k : String) (m : List (String × Bool)) : List (String × Bool) :=
  m.filter (fun e => e.1 != k)

/-- The type `filter.Whitelist`. -/
structure Whitelist where
  words : List (String × Bool)
deriving DecidableEq, Repr

/-- Function `NewWhitelist`. -/
def NewWhitelist (toLower : Rune → Rune) (words : List String) : Whitelist :=
  { words := words.foldl (fun wordMap word => boolMapSet (mapRunes toLower word) true wordMap) [] }

/-- Method `Whitelist.ShouldFilter`. -/
def Whitelist.ShouldFilter (toLower : Rune → Rune) (w : Whitelist) (word : String) : Bool :=
  boolMapGet w.words (mapRunes toLower word)

/-- Method `Whitelist.Add`. -/
def Whitelist.Add (toLower : Rune → Rune) (w : Whitelist) (word : String) : Whitelist :=
  { words := boolMapSet (mapRunes toLower word) true w.words }

/-- Method `Whitelist.Remove`. -/
def Whitelist.Remove (toLower : Rune → Rune) (w : Whitelist) (word : String) : Whitelist :=
  { words := boolMapDelete (mapRunes toLower word) w.words }

/-- Method `Whitelist.Contains`. -/
def Whitelist.Contains (toLower : Rune → Rune) (w : Whitelist) (word : String) : Bool :=
  boolMapGet w.words (mapRunes toLower word)

/-- Method `Whitelist.Clear`. -/
def Whitelist.Clear (_w : Whitelist) : Whitelist :=
  { words := [] }

/-- A value of the interface `filter.Filter`: the whitelist of the repository,
or any other implementation, given by its name and its `ShouldFilter` method. -/
inductive Filter where
  | whitelist (w : Whitelist)
  | custom (name : String) (shouldFilter : String → Bool)

/-- Method `ShouldFilter` of the interface `filter.Filter`. -/
def Filter.ShouldFilter (toLower : Rune → Rune) : Filter → String → Bool
  | Filter.whitelist w, word => Whitelist.ShouldFilter toLower w word
  | Filter.custom _ shouldFilter, word => shouldFilter word

/-! ### `variant/` and `loader/` -/

/-- The implementations of the interface `variant.Processor`. -/
inductive Processor where
  | symbol
  | traditional
  | similar
  | pinyin
deriving DecidableEq, Repr

/-- The implementations of the interface `loader.Loader`. -/
inductive Loader where
  | file (path : String)
  | memory (words : List String)
  | http (url : String)
deriving DecidableEq, Repr

/-- What lies outside the repository: the case mapping and the character
classes of the standard library (`unicode.ToLower`, `unicode.IsLetter`,
`unicode.IsDigit`, `unicode.IsSpace`), the visiting orders of the map ranges
(the children maps of the trie, the map `s2t`, and for the similar-character
map one order for each call of `findBase`: `visitGroups k` is the order of the
call for the code point at position `k` of the text handed to the processor),
the outcome of loading from a file or a URL, and the modification time of a
file (`none` when `os.Stat` fails). One environment stands for one call of an
operation of the detector: two calls may meet different orders. -/
structure Env where
  toLower : Rune → Rune
  isLetter : Rune → Bool
  isDigit : Rune → Bool
  isSpace : Rune → Bool
  visit : RangeOrder
  visitPairs : List (Rune × Rune) → List (Rune × Rune)
  visitGroups : Nat → List (Rune × List Rune) → List (Rune × List Rune)
  load : Loader → Except String (List Word)
  modTime : String → Option Int

/-- Method `Process` of the interface `variant.Processor`, for the processor
that the matching constructor of the package returns. -/
def Processor.Process (env : Env) : Processor → String → String
  | Processor.symbol, text =>
    SymbolProcessor.Process env.isLetter env.isDigit env.isSpace NewSymbolProcessor text
  | Processor.traditional, text =>
    TraditionalProcessor.Process (NewTraditionalProcessor env.visitPairs) text
  | Processor.similar, text => SimilarProcessor.Process env.visitGroups NewSimilarProcessor text
  | Processor.pinyin, text => PinyinProcessor.Process NewPinyinProcessor text

/-- Method `MemoryLoader.Load`. -/
def MemoryLoader.Load (words : List String) : List Word :=
  (words.filter (fun w => w != "")).map
    (fun w => { Text := w, Category := CategoryOther, Level := LevelMedium, Tags := [] })

/-- Method `Load` of the interface `loader.Loader`. -/
def Loader.Load (env : Env) : Loader → Except String (List Word)
  | Loader.memory words => Except.ok (MemoryLoader.Load words)
  | l => env.load l

/-! ### `algorithm/matcher.go` -/

/-- A value of the interface `algorithm.Matcher`. -/
inductive Matcher where
  | dfa (m : DFAMatcher)
  | ac (m : ACMatcher)
deriving DecidableEq, Repr

/-- Method `Build` of the interface `algorithm.Matcher`: the matcher after the
call and the returned error (both implementations end in `return nil`). -/
def Matcher.Build (env : Env) : Matcher → List Word → Option (Matcher × GoError)
  | Matcher.dfa m, words => some (Matcher.dfa (DFAMatcher.Build env.toLower m words), none)
  | Matcher.ac m, words =>
    (ACMatcher.Build env.visit env.toLower m words).map (fun m1 => (Matcher.ac m1, none))

/-- Method `Match` of the interface `algorithm.Matcher`. -/
def Matcher.Match (env : Env) : Matcher → String → Option (List MatchResult)
  | Matcher.dfa m, text => some (DFAMatcher.Match env.toLower m text)
  | Matcher.ac m, text => ACMatcher.Match env.toLower m text

/-- Method `Replace` of the interface `algorithm.Matcher`. -/
def Matcher.Replace (env : Env) : Matcher → String → Int → Option String
  | Matcher.dfa m, text, repl => DFAMatcher.Replace env.toLower m text repl
  | Matcher.ac m, text, repl => ACMatcher.Replace env.toLower m text repl

/-- Method `Validate` of the interface `algorithm.Matcher`. -/
def Matcher.Validate (env : Env) : Matcher → String → Option Bool
  | Matcher.dfa m, text => some (DFAMatcher.Validate env.toLower m text)
  | Matcher.ac m, text => ACMatcher.Validate env.toLower m text

/-! ### `watcher.go` -/

/-- The type `FileWatcher`; `stopClosed` tells whether `stopCh` has been
closed, `lastMod = none` is the zero time. The back pointer to the detector
and the polling goroutine are left out. -/
structure FileWatcher where
  loader : Loader
  interval : Int
  lastMod : Option Int
  stopClosed : Bool
  running : Bool
deriving DecidableEq, Repr

/-- Function `NewFileWatcher`. -/
def NewFileWatcher (loader : Loader) (interval : Int) : FileWatcher :=
  { loader := loader, interval := interval, lastMod := none, stopClosed := false,
    running := false }

/-- Method `FileWatcher.Start` (it returns a nil error). -/
def FileWatcher.Start (env : Env) (w : FileWatcher) : FileWatcher :=
  if w.running then w
  else
    match w.loader with
    | Loader.file path =>
      match env.modTime path with
      | some t => { w with running := true, lastMod := some t }
      | none => { w with running := true }
    | _ => { w with running := true }

/-- Method `FileWatcher.Stop`; `none` when it closes a closed channel. -/
def FileWatcher.Stop (w : FileWatcher) : Option FileWatcher :=
  if !w.running then some w
  else if w.stopClosed then none
  else some { w with running := false, stopClosed := true }

/-! ### `detector.go` -/

/-- The type `Detector`. -/
structure Detector where
  matcher : Matcher
  filters : List Filter
  processors : List Processor
  watchers : List FileWatcher
  options : Options

/-- Method `Detector.preprocessText`. -/
def Detector.preprocessText (env : Env) (d : Detector) (text : String) : String :=
  d.processors.foldl (fun t processor => Processor.Process env processor t) text

/-- Method `Detector.shouldFilter`. -/
def Detector.shouldFilter (env : Env) (d : Detector) (word : String) : Bool :=
  d.filters.any (fun f => Filter.ShouldFilter env.toLower f word)

/-- Method `Detector.Contains`. -/
def Detector.Contains (env : Env) (d : Detector) (text : String) : Option Bool :=
  (Matcher.Validate env d.matcher (Detector.preprocessText env d text)).map (fun v => !v)

/-- The conversion of an `algorithm.MatchResult` to a `Match`. -/
def toMatch (m : MatchResult) : Match :=
  { Word := m.Word, Start := m.Start, End := m.End, Category := m.Category, Level := m.Level }

/-- The category test of `Find`: true when the match passes. -/
def Detector.categoryAllowed (d : Detector) (m : MatchResult) : Bool :=
  if d.options.Categories.length > 0 then
    d.options.Categories.any (fun cat => Int.land m.Category cat != 0)
  else true

/-- The loop `for _, m := range matches` of `Find` and `FindAll`. -/
def Detector.collect (env : Env) (d : Detector) : List MatchResult → List Match → List Match
  | [], result => result
  | m :: rest, result =>
    if Detector.shouldFilter env d m.Word then Detector.collect env d rest result
    else if !Detector.categoryAllowed d m then Detector.collect env d rest result
    else if m.Level < d.options.MinLevel then Detector.collect env d rest result
    else
      let result1 := result ++ [toMatch m]
      if d.options.MaxMatchCount > 0 ∧ (result1.length : Int) ≥ d.options.MaxMatchCount then
        result1
      else Detector.collect env d rest result1

/-- Method `Detector.Find`. -/
def Detector.Find (env : Env) (d : Detector) (text : String) : Option (List Match) :=
  (Matcher.Match env d.matcher (Detector.preprocessText env d text)).map
    (fun found => Detector.collect env d found [])

/-- Method `Detector.FindAll`. -/
def Detector.FindAll (env : Env) (d : Detector) (text : String) : Option Result :=
  let processedText := Detector.preprocessText env d text
  match Matcher.Match env d.matcher processedText with
  | none => none
  | some found =>
    let result := Detector.collect env d found []
    match Matcher.Replace env d.matcher processedText d.options.ReplaceChar with
    | none => none
    | some filteredText =>
      some { Found := decide (result.length > 0), Matches := result,
             FilteredText := filteredText }

/-- Method `Detector.ReplaceRune`. -/
def Detector.ReplaceRune (env : Env) (d : Detector) (text : String) (repl : Int) :
    Option String :=
  Matcher.Replace env d.matcher (Detector.preprocessText env d text) repl

/-- Method `Detector.Replace`. -/
def Detector.Replace (env : Env) (d : Detector) (text replacement : String) : Option String :=
  match runes replacement with
  | [] => some text
  | repl :: _ => Detector.ReplaceRune env d text (runeValue repl)

/-- Method `Detector.Validate`. -/
def Detector.Validate (env : Env) (d : Detector) (text : String) : Option Bool :=
  Matcher.Validate env d.matcher (Detector.preprocessText env d text)

/-- Method `Detector.Filter`. -/
def Detector.Filter (env : Env) (d : Detector) (text : String) : Option String :=
  Detector.ReplaceRune env d text d.options.ReplaceChar

/-- The matcher that `Reload` creates before building: chosen by word count. -/
def Detector.reloadMatcher (d : Detector) (words : List Word) : Matcher :=
  if words.length < 5000 then Matcher.dfa (NewDFAMatcher d.options.CaseSensitive)
  else Matcher.ac (NewACMatcher d.options.CaseSensitive)

/-- Method `Detector.Reload`, for a given implementation `build` of the call
`newMatcher.Build(words)`: the detector after the call and the returned error. -/
def Detector.reloadWith (build : Matcher → List Word → Option (Matcher × GoError))
    (d : Detector) (words : List Word) : Option (Detector × GoError) :=
  match build (Detector.reloadMatcher d words) words with
  | none => none
  | some (_, some err) => some (d, some err)
  | some (newMatcher, none) => some ({ d with matcher := newMatcher }, none)

/-- Method `Detector.Reload`. -/
def Detector.Reload (env : Env) (d : Detector) (words : List Word) :
    Option (Detector × GoError) :=
  Detector.reloadWith (Matcher.Build env) d words

/-- Method `Detector.AddFilter`. -/
def Detector.AddFilter (d : Detector) (f : GoSensitive.Filter) : Detector :=
  { d with filters := d.filters ++ [f] }

/-- The loop `for _, watcher := range d.watchers` of `Close`. -/
def Detector.stopAll : List FileWatcher → Option Unit
  | [] => some ()
  | w :: rest =>
    match FileWatcher.Stop w with
    | none => none
    | some _ => Detector.stopAll rest

/-- Method `Detector.Close`: the detector after the call and the returned
error; `none` when a watcher's `Stop` panics. -/
def Detector.Close (d : Detector) : Option (Detector × GoError) :=
  match Detector.stopAll d.watchers with
  | none => none
  | some _ => some ({ d with watchers := [] }, none)

/-! ### `builder.go` -/

/-- The type `Builder`; `fileLoaders` holds the paths of the file loaders. -/
structure Builder where
  algorithmType : Int
  words : List Word
  loaders : List Loader
  options : Options
  whitelist : List String
  whitelistLoaders : List Loader
  fileLoaders : List String
deriving DecidableEq, Repr

/-- Function `New`. -/
def New : Builder :=
  { algorithmType := AlgorithmAuto, words := [], loaders := [], options := DefaultOptions,
    whitelist := [], whitelistLoaders := [], fileLoaders := [] }

/-- Method `Builder.UseAlgorithm`. -/
def Builder.UseAlgorithm (b : Builder) (algo : Int) : Builder :=
  { b with algorithmType := algo, options := { b.options with Algorithm := algo } }

/-- Method `Builder.LoadWords`. -/
def Builder.LoadWords (b : Builder) (words : List Word) : Builder :=
  { b with words := b.words ++ words }

/-- Method `Builder.LoadMemory`. -/
def Builder.LoadMemory (b : Builder) (words : List String) : Builder :=
  { b with loaders := b.loaders ++ [Loader.memory words] }

/-- Method `Builder.AddWhitelist`. -/
def Builder.AddWhitelist (b : Builder) (words : List String) : Builder :=
  { b with whitelist := b.whitelist ++ words }

/-- Method `Builder.SetOptions` for a non-nil argument. -/
def Builder.SetOptions (b : Builder) (opts : Options) : Builder :=
  { b with options := opts, algorithmType := opts.Algorithm }

/-- The loop `for _, l := range b.loaders` of `Builder.Build`: the words
gathered, or the first error. -/
def Builder.loadAll (env : Env) : List Loader → List Word → Except String (List Word)
  | [], words => Except.ok words
  | l :: rest, words =>
    match Loader.Load env l with
    | Except.error err => Except.error err
    | Except.ok loadedWords => Builder.loadAll env rest (words ++ loadedWords)

/-- The matcher that `Builder.Build` creates before building. -/
def Builder.newMatcher (b : Builder) (words : List Word) : Matcher :=
  if b.algorithmType = AlgorithmAuto then
    if words.length < 5000 then Matcher.dfa (NewDFAMatcher b.options.CaseSensitive)
    else Matcher.ac (NewACMatcher b.options.CaseSensitive)
  else if b.algorithmType = AlgorithmDFA then Matcher.dfa (NewDFAMatcher b.options.CaseSensitive)
  else Matcher.ac (NewACMatcher b.options.CaseSensitive)

/-- The processors that `Builder.Build` installs, in its order. -/
def Builder.processors (options : Options) : List Processor :=
  (if options.EnableSymbolFilter then [Processor.symbol] else []) ++
  (if options.EnableTraditional then [Processor.traditional] else []) ++
  (if options.EnableSimilarChar then [Processor.similar] else []) ++
  (if options.EnablePinyin then [Processor.pinyin] else [])

/-- The loop `for _, l := range b.whitelistLoaders` of `Builder.Build`; a
loader that fails is skipped. -/
def Builder.loadWhitelist (env : Env) : List Loader → List String → List String
  | [], whitelistWords => whitelistWords
  | l :: rest, whitelistWords =>
    match Loader.Load env l with
    | Except.error _ => Builder.loadWhitelist env rest whitelistWords
    | Except.ok loadedWords =>
      Builder.loadWhitelist env rest (whitelistWords ++ loadedWords.map (fun w => w.Text))

/-- Method `Builder.Build`: the detector or the error; `none` when the build
of the matcher does not return. -/
def Builder.Build (env : Env) (b : Builder) : Option (Except String Detector) :=
  match Builder.loadAll env b.loaders b.words with
  | Except.error err => some (Except.error err)
  | Except.ok words =>
    match Matcher.Build env (Builder.newMatcher b words) words with
    | none => none
    | some (_, some err) => some (Except.error err)
    | some (matcher, none) =>
      let whitelistWords := Builder.loadWhitelist env b.whitelistLoaders [] ++ b.whitelist
      let filters :=
        if whitelistWords.length > 0 then [Filter.whitelist (NewWhitelist env.toLower whitelistWords)]
        else []
      let watchers :=
        if b.options.WatchFile ∧ b.fileLoaders.length > 0 then
          b.fileLoaders.map (fun path =>
            FileWatcher.Start env (NewFileWatcher (Loader.file path) b.options.WatchInterval))
        else []
      some (Except.ok
        { matcher := matcher, options := b.options, filters := filters,
          processors := Builder.processors b.options, watchers := watchers })

/-! ### Notions used to state the detector properties -/

/-- The matcher `m` is what `Build` leaves for the entries `words` on a new
matcher with case setting `cs`. -/
def Matcher.BuiltFrom (env : Env) (cs : Bool) (words : List Word) (m : Matcher) : Prop :=
  m = Matcher.dfa (DFAMatcher.Build env.toLower (NewDFAMatcher cs) words) ∨
  ∃ a, ACMatcher.Build env.visit env.toLower (NewACMatcher cs) words = some a ∧ m = Matcher.ac a

/-- The entries as the matcher keys them, for case setting `cs`. -/
abbrev entryKey (toLower : Rune → Rune) (cs : Bool) (w : Word) : List Rune :=
  foldText toLower cs w.Text

/-- The raw matches of a matcher built from `words` on a normalized text: by
start for the plain trie, by end for the failure-link automaton. -/
def Matcher.occ (toLower : Rune → Rune) (cs : Bool) (words : List Word) :
    Matcher → String → List MatchResult
  | Matcher.dfa _, text => occByStart (entryKey toLower cs) words (foldText toLower cs text)
  | Matcher.ac _, text => occByEnd (entryKey toLower cs) words (foldText toLower cs text)

/-- The calls `d, _ := b.Build(); d.Find(text)`. -/
def buildFind (env : Env) (b : Builder) (text : String) : Option (List Match) :=
  match Builder.Build env b with
  | some (Except.ok d) => Detector.Find env d text
  | _ => none

/-- Whether a matcher is the failure-link automaton. -/
def Matcher.isAC : Matcher → Bool
  | Matcher.ac _ => true
  | Matcher.dfa _ => false

/-- The calls `d, _ := b.Build()` followed by a test whether `d.matcher` is
the failure-link automaton. -/
def buildKind (env : Env) (b : Builder) : Option Bool :=
  match Builder.Build env b with
  | some (Except.ok d) => some (Matcher.isAC d.matcher)
  | _ => none

/-- The calls `d, _ := b.Build(); d.Reload(words)` followed by a test whether
`d.matcher` is the failure-link automaton. -/
def buildReloadKind (env : Env) (b : Builder) (words : List Word) : Option Bool :=
  match Builder.Build env b with
  | some (Except.ok d) =>
    match Detector.Reload env d words with
    | some (d1, _) => some (Matcher.isAC d1.matcher)
    | none => none
  | _ => none

/-- The test of the reference for `Find`, in the words of the specification:
no installed filter flags the word of the match, the configured category list
is empty or the category of the match shares a bit with a configured category,
and the level of the match is not below `MinLevel`. -/
def Detector.keeps (env : Env) (d : Detector) (m : MatchResult) : Bool :=
  d.filters.all (fun f => !Filter.ShouldFilter env.toLower f m.Word) &&
  (d.options.Categories.isEmpty ||
    d.options.Categories.any (fun cat => Int.land m.Category cat != 0)) &&
  !decide (m.Level < d.options.MinLevel)

/-- The reference for `Find`: the raw matches that pass, in their order, cut
to the first `MaxMatchCount` when that is positive. -/
def Detector.findRef (env : Env) (d : Detector) (raw : List MatchResult) : List Match :=
  let kept := (raw.filter (Detector.keeps env d)).map toMatch
  if d.options.MaxMatchCount > 0 then kept.take d.options.MaxMatchCount.toNat else kept

/-- A build step that always fails, for exercising the error path of `Reload`. -/
def failingBuild (m : Matcher) (_words : List Word) : Option (Matcher × GoError) :=
  some (m, some "build failed")

/-- A detector over the plain trie built from `words`, with the given options
and filters and the processors these options select. -/
def plainDetector (env : Env) (options : Options) (filters : List Filter) (words : List Word) :
    Detector :=
  { matcher := Matcher.dfa (DFAMatcher.Build env.toLower (NewDFAMatcher options.CaseSensitive) words)
    filters := filters
    processors := Builder.processors options
    watchers := []
    options := options }

/-- An entry of category abuse and level high. -/
def abuseEntry : Word :=
  { Text := "damn", Category := CategoryAbuse, Level := LevelHigh, Tags := [] }

/-- The letters of ASCII, on which this agrees with `unicode.IsLetter`. -/
def asciiIsLetter (r : Rune) : Bool :=
  decide (65 ≤ r.toNat ∧ r.toNat ≤ 90) || decide (97 ≤ r.toNat ∧ r.toNat ≤ 122)

/-- The digits of ASCII, on which this agrees with `unicode.IsDigit`. -/
def asciiIsDigit (r : Rune) : Bool := decide (48 ≤ r.toNat ∧ r.toNat ≤ 57)

/-- The white space of Latin-1, on which this agrees with `unicode.IsSpace`:
tab, line feed, vertical tab, form feed, carriage return, space, U+0085 and
U+00A0. -/
def asciiIsSpace (r : Rune) : Bool :=
  decide (9 ≤ r.toNat ∧ r.toNat ≤ 13) || decide (r.toNat = 32) || decide (r.toNat = 133) ||
    decide (r.toNat = 160)

/-- An environment for evaluating concrete examples: case mapping and
character classes as on ASCII, insertion order for every map range, no file or
URL available. -/
def asciiEnv : Env :=
  { toLower := asciiToLower
    isLetter := asciiIsLetter
    isDigit := asciiIsDigit
    isSpace := asciiIsSpace
    visit := id
    visitPairs := id
    visitGroups := fun _ => id
    load := fun _ => Except.error "unavailable"
    modTime := fun _ => none }

/-- An entry of category abuse with the given text and level. -/
def abuseWord (text : String) (level : Int) : Word :=
  { Text := text, Category := CategoryAbuse, Level := level, Tags := [] }

/-- A detector over the plain trie with a whitelist holding `hell`, the
category list `[abuse]`, `MinLevel` high and at most two matches. -/
def guardedDetector : Detector :=
  plainDetector asciiEnv
    { DefaultOptions with Categories := [CategoryAbuse], MinLevel := LevelHigh,
                          MaxMatchCount := 2 }
    [Filter.whitelist (NewWhitelist asciiToLower ["hell"])]
    [abuseWord "damn" LevelHigh, abuseWord "hell" LevelHigh, mkWord "abc",
     abuseWord "bad" LevelLow, abuseWord "crap" LevelCritical, abuseWord "jerk" LevelHigh]

/-! ## More of `builder.go` -/

/-- Method `Builder.EnablePinyin`. -/
def Builder.EnablePinyin (b : Builder) : Builder :=
  { b with options := { b.options with EnablePinyin := true } }

/-- Method `Builder.EnableVariant`. -/
def Builder.EnableVariant (b : Builder) : Builder :=
  { b with options := { b.options with EnableTraditional := true } }

/-- Method `Builder.EnableSymbol`. -/
def Builder.EnableSymbol (b : Builder) : Builder :=
  { b with options := { b.options with EnableSymbolFilter := true } }

/-- Method `Builder.EnableSimilarChar`. -/
def Builder.EnableSimilarChar (b : Builder) : Builder :=
  { b with options := { b.options with EnableSimilarChar := true } }

/-- The calls `d, _ := b.Build(); d.Contains(text)`. -/
def buildContains (env : Env) (b : Builder) (text : String) : Option Bool :=
  match Builder.Build env b with
  | some (Except.ok d) => Detector.Contains env d text
  | _ => none

/-- The calls `d, _ := b.Build()` followed by `d.preprocessText(text)`. -/
def buildNormalize (env : Env) (b : Builder) (text : String) : Option String :=
  match Builder.Build env b with
  | some (Except.ok d) => some (Detector.preprocessText env d text)
  | _ => none

/-! ## Notions used to state the properties of the whitelist and the processors -/

/-- A call of one of the mutating methods of `Whitelist`. -/
inductive WhitelistOp where
  | add (word : String)
  | remove (word : String)
  | clear
deriving DecidableEq, Repr

/-- The whitelist after one call. -/
def Whitelist.apply (toLower : Rune → Rune) (w : Whitelist) : WhitelistOp → Whitelist
  | WhitelistOp.add word => Whitelist.Add toLower w word
  | WhitelistOp.remove word => Whitelist.Remove toLower w word
  | WhitelistOp.clear => Whitelist.Clear w

/-- The whitelist after a sequence of calls. -/
def Whitelist.run (toLower : Rune → Rune) (w : Whitelist) (ops : List WhitelistOp) : Whitelist :=
  ops.foldl (Whitelist.apply toLower) w

/-- The reference for one call, on a set of lower-cased words: insert for
`Add`, delete for `Remove`, emptying for `Clear`. -/
def wordSetApply (toLower : Rune → Rune) (s : Finset String) : WhitelistOp → Finset String
  | WhitelistOp.add word => insert (mapRunes toLower word) s
  | WhitelistOp.remove word => s.erase (mapRunes toLower word)
  | WhitelistOp.clear => ∅

/-- The reference set after `NewWhitelist(ws)` and the calls `ops`. -/
def wordSetAfter (toLower : Rune → Rune) (ws : List String) (ops : List WhitelistOp) :
    Finset String :=
  ops.foldl (wordSetApply toLower) (ws.map (mapRunes toLower)).toFinset

/-- The keys of the map of the whitelist are the words of the set `s`. -/
def Whitelist.Holds (w : Whitelist) (s : Finset String) : Prop :=
  ∀ k, boolMapGet w.words k = true ↔ k ∈ s

/-- The code points that `SymbolProcessor.Process` keeps as they are: letters,
digits and CJK ideographs. -/
def symbolKept (env : Env) (r : Rune) : Bool := env.isLetter r || env.isDigit r || isCJK r

/-- The code points that `SymbolProcessor.Process` drops: neither letter,
digit, CJK ideograph nor white space. -/
def symbolDropped (env : Env) (r : Rune) : Bool := !symbolKept env r && !env.isSpace r

/-- Whether `t` is `w` with code points satisfying `junk` inserted at any
positions (`w` itself holding none of them). -/
def insertedOnly (junk : Rune → Bool) : List Rune → List Rune → Bool
  | [], t => t.all junk
  | _ :: _, [] => false
  | r :: w, x :: t =>
    if junk x then insertedOnly junk (r :: w) t
    else x == r && insertedOnly junk w t

/-- A stage of the normalizer pipeline: the processor when its option is
enabled, the identity otherwise. -/
def stage (env : Env) (enabled : Bool) (p : Processor) (text : String) : String :=
  if enabled then Processor.Process env p text else text

/-- The syllable of a character in the pinyin table (empty for a character
that is not in it). -/
def syllable (c : Rune) : String := (buildBasicPinyinMap.lookup c).getD ""

/-- The concatenation of the syllables of the characters `cs`. -/
def syllables (cs : List Rune) : String := ofRunes (cs.flatMap (fun c => runes (syllable c)))

/-! ## `builtin/builtin.go` -/

/-- The call `strings.Split(content, "\n")` on the code points of `content`:
the pieces between the line feeds, one more than there are line feeds. -/
def splitLines : List Rune → List (List Rune)
  | [] => [[]]
  | r :: rest =>
    if r = '\n' then [] :: splitLines rest
    else
      match splitLines rest with
      | [] => [[r]]
      | line :: lines => (r :: line) :: lines

/-- The call `strings.TrimSpace(line)`; `isSpace` is `unicode.IsSpace`. -/
def trimSpace (isSpace : Rune → Bool) (line : List Rune) : List Rune :=
  ((line.dropWhile isSpace).reverse.dropWhile isSpace).reverse

/-- The call `strings.HasPrefix(line, "#")`. -/
def hasHashPrefix : List Rune → Bool
  | [] => false
  | r :: _ => r == '#'

/-- One iteration of the loop of `parseWords`. -/
def parseWords.step (isSpace : Rune → Bool) (words : List Word) (line : List Rune) :
    List Word :=
  let line1 := trimSpace isSpace line
  if line1 = [] ∨ hasHashPrefix line1 = true then words
  else
    words ++ [{ Text := ofRunes line1, Category := CategoryOther, Level := LevelMedium,
                Tags := [] }]

/-- Function `parseWords`. -/
def parseWords (isSpace : Rune → Bool) (content : String) : List Word :=
  (splitLines (runes content)).foldl (parseWords.step isSpace) []

/-- The loop of `parseWords` as a filter and a map over the trimmed lines. -/
def parseWordsRef (isSpace : Rune → Bool) (content : String) : List Word :=
  (((splitLines (runes content)).map (trimSpace isSpace)).filter
    (fun line => !(line.isEmpty || hasHashPrefix line))).map
    (fun line => mkWord (ofRunes line))

/-- What trimming means, in the words of the specification: `t` is `line`
without its surrounding white space, that is, `line` is `t` between two
stretches of white space, and `t` neither begins nor ends with white space. -/
def TrimmedOf (isSpace : Rune → Bool) (line t : List Rune) : Prop :=
  ∃ pre post, line = pre ++ t ++ post ∧
    (∀ c, c ∈ pre → isSpace c = true) ∧ (∀ c, c ∈ post → isSpace c = true) ∧
    (∀ c, t.head? = some c → isSpace c = false) ∧
    (∀ c, t.getLast? = some c → isSpace c = false)

/-- The reference for `parseWords`, in the words of the specification: going
through the lines in order, a line that after trimming is empty or begins with
`#` gives nothing, and any other line gives one word whose text is the trimmed
line, of category other and level medium. -/
inductive ParsedFrom (isSpace : Rune → Bool) : List (List Rune) → List Word → Prop where
  | done : ParsedFrom isSpace [] []
  | skip {line t : List Rune} {lines : List (List Rune)} {words : List Word} :
      TrimmedOf isSpace line t → (t = [] ∨ t.head? = some '#') →
      ParsedFrom isSpace lines words → ParsedFrom isSpace (line :: lines) words
  | keep {line t : List Rune} {lines : List (List Rune)} {words : List Word} :
      TrimmedOf isSpace line t → t ≠ [] → t.head? ≠ some '#' →
      ParsedFrom isSpace lines words →
      ParsedFrom isSpace (line :: lines)
        ({ Text := ofRunes t, Category := CategoryOther, Level := LevelMedium, Tags := [] } ::
          words)

/-! ## More of `builder.go` and the notions for the last properties -/

/-- Method `Builder.SetCaseSensitive`. -/
def Builder.SetCaseSensitive (b : Builder) (sensitive : Bool) : Builder :=
  { b with options := { b.options with CaseSensitive := sensitive } }

/-- The environment `asciiEnv` with the groups of the similar-character map
visited in the order opposite to the source. -/
def reverseEnv : Env := { asciiEnv with visitGroups := fun _ => List.reverse }

/-- A call of `Start` or `Stop` on a file watcher. -/
inductive WatcherCall where
  | start
  | stop
deriving DecidableEq, Repr

/-- The watcher after a sequence of calls; `none` when a call panics. -/
def FileWatcher.calls (env : Env) : FileWatcher → List WatcherCall → Option FileWatcher
  | w, [] => some w
  | w, WatcherCall.start :: rest => FileWatcher.calls env (FileWatcher.Start env w) rest
  | w, WatcherCall.stop :: rest =>
    match FileWatcher.Stop w with
    | none => none
    | some w1 => FileWatcher.calls env w1 rest

/-- The calls `d, _ := b.Build()` followed by `d.Close()` twice: whether both
return, with a nil error, and how many watchers are left. -/
def buildCloseTwice (env : Env) (b : Builder) : Option (GoError × GoError × Nat) :=
  match Builder.Build env b with
  | some (Except.ok d) =>
    match Detector.Close d with
    | some (d1, e1) =>
      match Detector.Close d1 with
      | some (d2, e2) => some (e1, e2, d2.watchers.length)
      | none => none
    | none => none
  | _ => none

/-- The calls `d, _ := b.Build()`, then `d.Find(text)` and `d.FindAll(text)`:
`env1` is what `Build` and `Find` meet, `env2` what `FindAll` meets. -/
def buildFindThenFindAll (env1 env2 : Env) (b : Builder) (text : String) :
    Option (List Match × Result) :=
  match Builder.Build env1 b with
  | some (Except.ok d) =>
    match Detector.Find env1 d text, Detector.FindAll env2 d text with
    | some found, some r => some (found, r)
    | _, _ => none
  | _ => none

/-! ## Heap access -/

theorem Node.get_of_lt {nodes : List Node} {p : Nat} (h : p < nodes.length) :
    Node.get nodes p = nodes[p] := by
  simp [Node.get, List.getD, h]

theorem Node.get_of_le {nodes : List Node} {p : Nat} (h : nodes.length ≤ p) :
    Node.get nodes p = newNode := by
  simp [Node.get, List.getD, List.getElem?_eq_none h]

theorem Node.get_set (nodes : List Node) (i j : Nat) (x : Node) :
    Node.get (nodes.set i x) j = if i = j ∧ i < nodes.length then x else Node.get nodes j := by
  unfold Node.get
  simp only [List.getD_eq_getElem?_getD, List.getElem?_set]
  by_cases hij : i = j
  · subst hij
    by_cases hi : i < nodes.length
    · simp [hi]
    · simp [hi, List.getElem?_eq_none (Nat.le_of_not_lt hi)]
  · simp [hij]

theorem Node.get_append_new (nodes : List Node) (j : Nat) :
    Node.get (nodes ++ [newNode]) j = Node.get nodes j := by
  unfold Node.get
  simp only [List.getD_eq_getElem?_getD]
  by_cases hj : j < nodes.length
  · rw [List.getElem?_append_left hj]
  · have hj' : nodes.length ≤ j := Nat.le_of_not_lt hj
    rw [List.getElem?_append_right hj']
    rw [List.getElem?_eq_none hj']
    by_cases h0 : j - nodes.length = 0
    · simp [h0]
    · have : ([newNode] : List Node)[j - nodes.length]? = none := by
        apply List.getElem?_eq_none
        simp; omega
      simp [this]

theorem lookup_append_single (r r' : Rune) (c : Nat) (l : List (Rune × Nat)) :
    List.lookup r (l ++ [(r', c)]) =
      match List.lookup r l with
      | some v => some v
      | none => if r = r' then some c else none := by
  induction l with
  | nil =>
    by_cases h : r = r'
    · subst h; simp [List.lookup]
    · have : (r == r') = false := by simpa using h
      simp [List.lookup, this, h]
  | cons a l ih =>
    obtain ⟨k, v⟩ := a
    by_cases h : r = k
    · subst h; simp [List.lookup]
    · have : (r == k) = false := by simpa using h
      simp [List.lookup, this, ih]

theorem lookup_eq_none_iff (r : Rune) (l : List (Rune × Nat)) :
    List.lookup r l = none ↔ r ∉ l.map Prod.fst := by
  induction l with
  | nil => simp [List.lookup]
  | cons a l ih =>
    obtain ⟨k, v⟩ := a
    by_cases h : r = k
    · subst h; simp [List.lookup]
    · have : (r == k) = false := by simpa using h
      simp [List.lookup, this, ih, h]

theorem lookup_eq_some_iff (r : Rune) (c : Nat) (l : List (Rune × Nat))
    (hk : (l.map Prod.fst).Nodup) :
    List.lookup r l = some c ↔ (r, c) ∈ l := by
  induction l with
  | nil => simp [List.lookup]
  | cons a l ih =>
    obtain ⟨k, v⟩ := a
    simp only [List.map_cons, List.nodup_cons] at hk
    by_cases h : r = k
    · subst h
      simp only [List.lookup, beq_self_eq_true, Option.some.injEq, List.mem_cons, Prod.mk.injEq,
        true_and]
      constructor
      · intro hv; exact Or.inl hv.symm
      · rintro (hv | hmem)
        · exact hv.symm
        · exact absurd (List.mem_map_of_mem Prod.fst hmem) hk.1
    · have : (r == k) = false := by simpa using h
      simp [List.lookup, this, ih hk.2, h]

/-! ## Growing the trie -/

theorem Node.getChild_lt {nodes : List Node} {n : Nat} {r : Rune} {c : Nat}
    (h : Node.getChild nodes n r = some c) : n < nodes.length := by
  by_contra hn
  rw [Node.getChild, Node.get_of_le (Nat.le_of_not_lt hn)] at h
  simp [newNode, List.lookup] at h

theorem Node.addChild_old {nodes : List Node} {n : Nat} {r : Rune} {c : Nat}
    (h : Node.getChild nodes n r = some c) : Node.addChild nodes n r = (nodes, c) := by
  simp [Node.addChild, h]

theorem Node.addChild_new {nodes : List Node} {n : Nat} {r : Rune}
    (h : Node.getChild nodes n r = none) :
    Node.addChild nodes n r =
      ((nodes ++ [newNode]).set n
        { Node.get nodes n with
          children := (Node.get nodes n).children ++ [(r, nodes.length)] }, nodes.length) := by
  simp [Node.addChild, h]

theorem Node.get_addChild_new {nodes : List Node} {n : Nat} {r : Rune}
    (hn : n < nodes.length) (h : Node.getChild nodes n r = none) (j : Nat) :
    Node.get (Node.addChild nodes n r).1 j =
      if j = n then
        { Node.get nodes n with
          children := (Node.get nodes n).children ++ [(r, nodes.length)] }
      else Node.get nodes j := by
  rw [Node.addChild_new h]
  simp only [Node.get_set, Node.get_append_new, List.length_append, List.length_singleton]
  by_cases hj : j = n
  · subst hj
    have : j < nodes.length + 1 := by omega
    simp [this]
  · have : ¬ n = j := fun h' => hj h'.symm
    simp [hj, this]

theorem Node.getChild_addChild_new {nodes : List Node} {n : Nat} {r : Rune}
    (hn : n < nodes.length) (h : Node.getChild nodes n r = none) (a : Nat) (r' : Rune) :
    Node.getChild (Node.addChild nodes n r).1 a r' =
      if a = n ∧ r' = r then some nodes.length else Node.getChild nodes a r' := by
  unfold Node.getChild at *
  rw [Node.get_addChild_new hn h]
  by_cases ha : a = n
  · subst ha
    simp only [if_true, true_and]
    rw [lookup_append_single]
    by_cases hr : r' = r
    · subst hr
      simp [h]
    · simp only [hr, if_false]
      cases hl : List.lookup r' (Node.get nodes a).children <;> simp
  · simp [ha]

theorem Ext.refl_ext (nodes : List Node) (P : Nat → List Rune) : Ext nodes P nodes P :=
  ⟨le_refl _, fun _ _ => rfl, fun _ => rfl, fun _ => rfl, fun _ => rfl⟩

theorem Ext.trans_ext {n1 n2 n3 : List Node} {P1 P2 P3 : Nat → List Rune}
    (h12 : Ext n1 P1 n2 P2) (h23 : Ext n2 P2 n3 P3) : Ext n1 P1 n3 P3 :=
  ⟨le_trans h12.len_le h23.len_le,
   fun a ha => by rw [h23.path_eq a (lt_of_lt_of_le ha h12.len_le), h12.path_eq a ha],
   fun a => by rw [h23.word_eq, h12.word_eq],
   fun a => by rw [h23.isEnd_eq, h12.isEnd_eq],
   fun a => by rw [h23.fail_eq, h12.fail_eq]⟩

theorem Shape.path_ne_nil {nodes : List Node} {P : Nat → List Rune} (hS : Shape nodes P)
    {c : Nat} (hc : c < nodes.length) (h0 : c ≠ 0) : P c ≠ [] := by
  obtain ⟨n, r, hch⟩ := hS.parent c hc h0
  rw [(hS.child n r c hch).2.2]
  simp

theorem Shape.addChild {nodes : List Node} {P : Nat → List Rune} (hS : Shape nodes P)
    {n : Nat} (hn : n < nodes.length) (r : Rune) :
    ∃ P', Shape (Node.addChild nodes n r).1 P' ∧ Ext nodes P (Node.addChild nodes n r).1 P' ∧
      (Node.addChild nodes n r).2 < (Node.addChild nodes n r).1.length ∧
      P' (Node.addChild nodes n r).2 = P n ++ [r] := by
  cases h : Node.getChild nodes n r with
  | some c =>
    rw [Node.addChild_old h]
    exact ⟨P, hS, Ext.refl_ext _ _, (hS.child n r c h).2.1, (hS.child n r c h).2.2⟩
  | none =>
    have hlen : (Node.addChild nodes n r).1.length = nodes.length + 1 := by
      rw [Node.addChild_new h]; simp
    have hsnd : (Node.addChild nodes n r).2 = nodes.length := by
      rw [Node.addChild_new h]
    have hfresh : ∀ b, b < nodes.length → P b ≠ P n ++ [r] := by
      intro b hb hPb
      have hb0 : b ≠ 0 := by
        intro hb0; rw [hb0, hS.root] at hPb; simp at hPb
      obtain ⟨n0, r0, hch⟩ := hS.parent b hb hb0
      obtain ⟨hn0, _, hPb'⟩ := hS.child n0 r0 b hch
      rw [hPb'] at hPb
      have h1 := List.append_inj' hPb (by simp)
      have hr : r0 = r := by simpa using h1.2
      have hnn : n0 = n := hS.inj n0 n hn0 hn h1.1
      subst hr; subst hnn
      rw [h] at hch; exact Option.noConfusion hch
    refine ⟨Function.update P nodes.length (P n ++ [r]), ?_, ?_, ?_, ?_⟩
    · have hupd : ∀ a, a < nodes.length →
          Function.update P nodes.length (P n ++ [r]) a = P a := by
        intro a ha
        exact Function.update_noteq (Nat.ne_of_lt ha) _ _
      refine ⟨by rw [hlen]; omega, ?_, ?_, ?_, ?_, ?_, ?_⟩
      · rw [hupd 0 hS.pos]; exact hS.root
      · intro a r' c hc
        rw [Node.getChild_addChild_new hn h] at hc
        rw [hlen]
        by_cases hcase : a = n ∧ r' = r
        · rw [if_pos hcase] at hc
          obtain ⟨ha, hr⟩ := hcase
          subst ha; subst hr
          have hc' : c = nodes.length := by simpa using hc.symm
          subst hc'
          refine ⟨by omega, by omega, ?_⟩
          rw [hupd a hn]
          simp
        · rw [if_neg hcase] at hc
          obtain ⟨ha, hc1, hP⟩ := hS.child a r' c hc
          refine ⟨by omega, by omega, ?_⟩
          rw [hupd a ha, hupd c hc1, hP]
      · intro c hc h0
        rw [hlen] at hc
        by_cases hcl : c = nodes.length
        · refine ⟨n, r, ?_⟩
          rw [Node.getChild_addChild_new hn h]
          simp [hcl]
        · have hc1 : c < nodes.length := by omega
          obtain ⟨n0, r0, hch⟩ := hS.parent c hc1 h0
          refine ⟨n0, r0, ?_⟩
          rw [Node.getChild_addChild_new hn h]
          by_cases hcase : n0 = n ∧ r0 = r
          · obtain ⟨h1, h2⟩ := hcase
            subst h1; subst h2
            rw [h] at hch; exact Option.noConfusion hch
          · rw [if_neg hcase]; exact hch
      · intro a b ha hb hab
        rw [hlen] at ha hb
        by_cases hal : a = nodes.length
        · by_cases hbl : b = nodes.length
          · omega
          · have hb1 : b < nodes.length := by omega
            rw [hal, Function.update_same, hupd b hb1] at hab
            exact absurd hab.symm (hfresh b hb1)
        · have ha1 : a < nodes.length := by omega
          by_cases hbl : b = nodes.length
          · rw [hbl, Function.update_same, hupd a ha1] at hab
            exact absurd hab (hfresh a ha1)
          · have hb1 : b < nodes.length := by omega
            rw [hupd a ha1, hupd b hb1] at hab
            exact hS.inj a b ha1 hb1 hab
      · intro a
        rw [Node.get_addChild_new hn h]
        by_cases han : a = n
        · subst han
          simp only [if_true, List.map_append, List.map_cons, List.map_nil]
          rw [List.nodup_append]
          refine ⟨hS.keys a, by simp, ?_⟩
          intro x hx hx'
          have hxr : x = r := by simpa using hx'
          subst hxr
          exact (lookup_eq_none_iff x _).1 h hx
        · simp only [han, if_false]; exact hS.keys a
      · intro c hc
        rw [hlen] at hc
        by_cases hcl : c = nodes.length
        · rw [hcl, Function.update_same]
          have := hS.depth_le n hn
          simp; omega
        · have hc1 : c < nodes.length := by omega
          rw [hupd c hc1]; exact hS.depth_le c hc1
    · refine ⟨by rw [hlen]; omega, ?_, ?_, ?_, ?_⟩
      · intro a ha
        exact Function.update_noteq (Nat.ne_of_lt ha) _ _
      · intro a
        rw [Node.get_addChild_new hn h]
        by_cases han : a = n
        · subst han; simp
        · simp [han]
      · intro a
        rw [Node.get_addChild_new hn h]
        by_cases han : a = n
        · subst han; simp
        · simp [han]
      · intro a
        rw [Node.get_addChild_new hn h]
        by_cases han : a = n
        · subst han; simp
        · simp [han]
    · rw [hlen, hsnd]; omega
    · rw [hsnd, Function.update_same]

theorem Shape.addChildren {nodes : List Node} {P : Nat → List Rune} (hS : Shape nodes P)
    {n : Nat} (hn : n < nodes.length) (rs : List Rune) :
    ∃ P', Shape (rs.foldl (fun (acc : List Node × Nat) r => Node.addChild acc.1 acc.2 r)
        (nodes, n)).1 P' ∧
      Ext nodes P (rs.foldl (fun (acc : List Node × Nat) r => Node.addChild acc.1 acc.2 r)
        (nodes, n)).1 P' ∧
      (rs.foldl (fun (acc : List Node × Nat) r => Node.addChild acc.1 acc.2 r) (nodes, n)).2 <
        (rs.foldl (fun (acc : List Node × Nat) r => Node.addChild acc.1 acc.2 r)
          (nodes, n)).1.length ∧
      P' (rs.foldl (fun (acc : List Node × Nat) r => Node.addChild acc.1 acc.2 r) (nodes, n)).2 =
        P n ++ rs := by
  induction rs generalizing nodes P n with
  | nil => exact ⟨P, hS, Ext.refl_ext _ _, hn, by simp⟩
  | cons r rs ih =>
    obtain ⟨P1, hS1, hE1, hlt1, hP1⟩ := hS.addChild hn r
    obtain ⟨P2, hS2, hE2, hlt2, hP2⟩ := ih hS1 hlt1
    refine ⟨P2, ?_, ?_, ?_, ?_⟩
    · simpa [List.foldl] using hS2
    · simpa [List.foldl] using hE1.trans_ext hE2
    · simpa [List.foldl] using hlt2
    · simp only [List.foldl]
      rw [hP2, hP1]; simp

/-! ## Terminal marks -/

theorem lastWith_append (key : Word → List Rune) (ws : List Word) (w : Word) (p : List Rune) :
    lastWith key (ws ++ [w]) p = if key w = p then some w else lastWith key ws p := by
  simp [lastWith, List.foldl_append]

theorem lastWith_nil (key : Word → List Rune) (p : List Rune) : lastWith key [] p = none := rfl

theorem lastWith_eq_none_iff (key : Word → List Rune) (ws : List Word) (p : List Rune) :
    lastWith key ws p = none ↔ ∀ w, w ∈ ws → key w ≠ p := by
  induction ws using List.reverseRecOn with
  | nil => simp [lastWith_nil]
  | append_singleton ws w ih =>
    rw [lastWith_append]
    by_cases h : key w = p
    · simp only [h, if_true]
      constructor
      · intro h'; exact Option.noConfusion h'
      · intro h'; exact absurd h (h' w (by simp))
    · simp only [h, if_false, ih]
      constructor
      · intro h' x hx
        rcases List.mem_append.1 hx with hx | hx
        · exact h' x hx
        · have : x = w := by simpa using hx
          subst this; exact h
      · intro h' x hx
        exact h' x (List.mem_append_left _ hx)

theorem lastWith_some {key : Word → List Rune} {ws : List Word} {p : List Rune} {w : Word}
    (h : lastWith key ws p = some w) : w ∈ ws ∧ key w = p := by
  induction ws using List.reverseRecOn with
  | nil => simp [lastWith_nil] at h
  | append_singleton ws x ih =>
    rw [lastWith_append] at h
    by_cases hx : key x = p
    · simp only [hx, if_true, Option.some.injEq] at h
      subst h
      exact ⟨by simp, hx⟩
    · simp only [hx, if_false] at h
      exact ⟨List.mem_append_left _ (ih h).1, (ih h).2⟩

theorem lastWith_isSome_iff (key : Word → List Rune) (ws : List Word) (p : List Rune) :
    (lastWith key ws p).isSome = true ↔ ∃ w, w ∈ ws ∧ key w = p := by
  constructor
  · intro h
    obtain ⟨w, hw⟩ := Option.isSome_iff_exists.1 h
    exact ⟨w, lastWith_some hw⟩
  · rintro ⟨w, hw, hk⟩
    cases h : lastWith key ws p with
    | none => exact absurd hk ((lastWith_eq_none_iff key ws p).1 h w hw)
    | some _ => rfl

theorem Content.ext {key : Word → List Rune} {nodes nodes' : List Node}
    {P P' : Nat → List Rune} {ws : List Word}
    (hC : Content key nodes P ws) (hS' : Shape nodes' P') (hE : Ext nodes P nodes' P') :
    Content key nodes' P' ws := by
  refine ⟨?_, ?_, ?_⟩
  · intro c hc
    rw [hE.word_eq]
    by_cases hcl : c < nodes.length
    · rw [hC.word c hcl, hE.path_eq c hcl]
    · rw [Node.get_of_le (Nat.le_of_not_lt hcl)]
      symm
      rw [show newNode.word = none from rfl, lastWith_eq_none_iff]
      intro w hw hk
      obtain ⟨c0, hc0, hP0⟩ := hC.mem w hw
      have : c0 = c := by
        apply hS'.inj c0 c (lt_of_lt_of_le hc0 hE.len_le) hc
        rw [hE.path_eq c0 hc0, hP0, hk]
      omega
  · intro c
    rw [hE.isEnd_eq, hE.word_eq]; exact hC.isEnd c
  · intro w hw
    obtain ⟨c0, hc0, hP0⟩ := hC.mem w hw
    exact ⟨c0, lt_of_lt_of_le hc0 hE.len_le, by rw [hE.path_eq c0 hc0, hP0]⟩

theorem Node.get_setWord (nodes : List Node) (n : Nat) (w : Word) (j : Nat) :
    Node.get (Node.setWord nodes n w) j =
      if n = j ∧ n < nodes.length then { Node.get nodes n with word := some w, isEnd := true }
      else Node.get nodes j := by
  rw [Node.setWord, Node.get_set]

theorem Node.getChild_setWord (nodes : List Node) (n : Nat) (w : Word) (a : Nat) (r : Rune) :
    Node.getChild (Node.setWord nodes n w) a r = Node.getChild nodes a r := by
  unfold Node.getChild
  rw [Node.get_setWord]
  by_cases h : n = a ∧ n < nodes.length
  · rw [if_pos h]; rw [h.1]
  · rw [if_neg h]

theorem Node.fail_setWord (nodes : List Node) (n : Nat) (w : Word) (j : Nat) :
    (Node.get (Node.setWord nodes n w) j).fail = (Node.get nodes j).fail := by
  rw [Node.get_setWord]
  by_cases h : n = j ∧ n < nodes.length
  · rw [if_pos h]; rw [h.1]
  · rw [if_neg h]

theorem Node.length_setWord (nodes : List Node) (n : Nat) (w : Word) :
    (Node.setWord nodes n w).length = nodes.length := by
  simp [Node.setWord]

theorem Shape.setWord_shape {nodes : List Node} {P : Nat → List Rune} (hS : Shape nodes P)
    (n : Nat) (w : Word) : Shape (Node.setWord nodes n w) P := by
  refine ⟨?_, hS.root, ?_, ?_, ?_, ?_, ?_⟩
  · rw [Node.length_setWord]; exact hS.pos
  · intro a r c hc
    rw [Node.getChild_setWord] at hc
    rw [Node.length_setWord]
    exact hS.child a r c hc
  · intro c hc h0
    rw [Node.length_setWord] at hc
    obtain ⟨n0, r0, h⟩ := hS.parent c hc h0
    exact ⟨n0, r0, by rw [Node.getChild_setWord]; exact h⟩
  · intro a b ha hb
    rw [Node.length_setWord] at ha hb
    exact hS.inj a b ha hb
  · intro a
    rw [Node.get_setWord]
    by_cases h : n = a ∧ n < nodes.length
    · rw [if_pos h]; rw [h.1]; exact hS.keys a
    · rw [if_neg h]; exact hS.keys a
  · intro c hc
    rw [Node.length_setWord] at hc
    exact hS.depth_le c hc

theorem Content.setWord_content {key : Word → List Rune} {nodes : List Node} {P : Nat → List Rune}
    {ws : List Word} (hS : Shape nodes P) (hC : Content key nodes P ws)
    {n : Nat} (hn : n < nodes.length) (w : Word) (hP : P n = key w) :
    Content key (Node.setWord nodes n w) P (ws ++ [w]) := by
  refine ⟨?_, ?_, ?_⟩
  · intro c hc
    rw [Node.length_setWord] at hc
    rw [Node.get_setWord, lastWith_append]
    by_cases hnc : n = c
    · subst hnc
      simp [hn, hP]
    · have hk : ¬ key w = P c := by
        intro hk
        exact hnc (hS.inj n c hn hc (by rw [hP, hk]))
      simp [hnc, hk, hC.word c hc]
  · intro c
    rw [Node.get_setWord]
    by_cases h : n = c ∧ n < nodes.length
    · rw [if_pos h]; rfl
    · rw [if_neg h]; exact hC.isEnd c
  · intro x hx
    rw [Node.length_setWord]
    rcases List.mem_append.1 hx with hx | hx
    · exact hC.mem x hx
    · have : x = w := by simpa using hx
      subst this
      exact ⟨n, hn, hP⟩

theorem TrieInv.new (key : Word → List Rune) : TrieInv key [newNode] [] := by
  refine ⟨fun _ => [], ?_, ?_, ?_⟩
  · refine ⟨by simp, rfl, ?_, ?_, ?_, ?_, ?_⟩
    · intro n r c h
      have := Node.getChild_lt h
      have hn : n = 0 := by simpa using this
      subst hn
      simp [Node.getChild, Node.get, newNode, List.lookup] at h
    · intro c hc h0
      simp at hc; omega
    · intro a b ha hb _
      simp at ha hb; omega
    · intro n
      by_cases hn : n < ([newNode] : List Node).length
      · rw [Node.get_of_lt hn]
        have : n = 0 := by simpa using hn
        subst this; simp [newNode]
      · rw [Node.get_of_le (Nat.le_of_not_lt hn)]; simp [newNode]
    · intro c _; simp
  · refine ⟨?_, ?_, ?_⟩
    · intro c hc
      have : c = 0 := by simpa using hc
      subst this
      simp [Node.get, newNode, lastWith_nil]
    · intro c
      by_cases hn : c < ([newNode] : List Node).length
      · rw [Node.get_of_lt hn]
        have : c = 0 := by simpa using hn
        subst this; simp [newNode]
      · rw [Node.get_of_le (Nat.le_of_not_lt hn)]; simp [newNode]
    · intro w hw; simp at hw
  · intro c
    by_cases hn : c < ([newNode] : List Node).length
    · rw [Node.get_of_lt hn]
      have : c = 0 := by simpa using hn
      subst this; simp [newNode]
    · rw [Node.get_of_le (Nat.le_of_not_lt hn)]; simp [newNode]

theorem ACMatcher.insert_root (toLower : Rune → Rune) (m : ACMatcher) (w : Word) :
    (ACMatcher.insert toLower m w).root = m.root := rfl

theorem ACMatcher.insert_caseSensitive (toLower : Rune → Rune) (m : ACMatcher) (w : Word) :
    (ACMatcher.insert toLower m w).caseSensitive = m.caseSensitive := rfl

theorem TrieInv.insert {toLower : Rune → Rune} {m : ACMatcher} {ws : List Word}
    (hroot : m.root = 0)
    (h : TrieInv (fun w => foldText toLower m.caseSensitive w.Text) m.nodes ws) (w : Word) :
    TrieInv (fun w => foldText toLower m.caseSensitive w.Text)
      (ACMatcher.insert toLower m w).nodes (ws ++ [w]) := by
  obtain ⟨P, hS, hC, hF⟩ := h
  obtain ⟨P', hS', hE, hlt, hP'⟩ :=
    hS.addChildren hS.pos (runes (if !m.caseSensitive then mapRunes toLower w.Text else w.Text))
  have hC' := hC.ext hS' hE
  refine ⟨P', ?_, ?_, ?_⟩
  · simp only [ACMatcher.insert, hroot]
    exact hS'.setWord_shape _ _
  · simp only [ACMatcher.insert, hroot]
    apply hC'.setWord_content hS' hlt
    rw [hP', hS.root]; simp [foldText]
  · intro c
    simp only [ACMatcher.insert, hroot]
    rw [Node.fail_setWord, hE.fail_eq]; exact hF _

theorem ACMatcher.foldl_insert_inv (toLower : Rune → Rune) (words ws : List Word)
    (m : ACMatcher) (hroot : m.root = 0)
    (h : TrieInv (fun w => foldText toLower m.caseSensitive w.Text) m.nodes ws) :
    (words.foldl (ACMatcher.insert toLower) m).root = 0 ∧
    (words.foldl (ACMatcher.insert toLower) m).caseSensitive = m.caseSensitive ∧
    TrieInv (fun w => foldText toLower m.caseSensitive w.Text)
      (words.foldl (ACMatcher.insert toLower) m).nodes (ws ++ words) := by
  induction words generalizing m ws with
  | nil => simpa using ⟨hroot, h⟩
  | cons w words ih =>
    have h1 := TrieInv.insert hroot h w
    have := ih (ws ++ [w]) (ACMatcher.insert toLower m w) hroot h1
    simpa [List.foldl, List.append_assoc] using this

theorem ACMatcher.trie_inv (toLower : Rune → Rune) (cs : Bool) (words : List Word) :
    (words.foldl (ACMatcher.insert toLower) (NewACMatcher cs)).root = 0 ∧
    (words.foldl (ACMatcher.insert toLower) (NewACMatcher cs)).caseSensitive = cs ∧
    TrieInv (fun w => foldText toLower cs w.Text)
      (words.foldl (ACMatcher.insert toLower) (NewACMatcher cs)).nodes words := by
  have := ACMatcher.foldl_insert_inv toLower words [] (NewACMatcher cs) rfl
    (TrieInv.new _)
  simpa using this

/-! ## Paths -/

theorem Node.walk_append (nodes : List Node) (n : Nat) (p q : List Rune) :
    Node.walk nodes n (p ++ q) = (Node.walk nodes n p).bind (fun c => Node.walk nodes c q) := by
  induction p generalizing n with
  | nil => simp [Node.walk]
  | cons r p ih =>
    simp only [List.cons_append, Node.walk]
    cases h : Node.getChild nodes n r with
    | none => simp
    | some c => simpa using ih c

theorem Shape.walk_path {nodes : List Node} {P : Nat → List Rune} (hS : Shape nodes P)
    {n : Nat} (hn : n < nodes.length) {p : List Rune} {c : Nat}
    (h : Node.walk nodes n p = some c) : c < nodes.length ∧ P c = P n ++ p := by
  induction p generalizing n with
  | nil =>
    simp only [Node.walk, Option.some.injEq] at h
    subst h; exact ⟨hn, by simp⟩
  | cons r p ih =>
    simp only [Node.walk] at h
    cases hch : Node.getChild nodes n r with
    | none => rw [hch] at h; exact Option.noConfusion h
    | some d =>
      rw [hch] at h
      obtain ⟨_, hd, hPd⟩ := hS.child n r d hch
      obtain ⟨hc, hPc⟩ := ih hd h
      exact ⟨hc, by rw [hPc, hPd]; simp⟩

theorem Shape.walk_root {nodes : List Node} {P : Nat → List Rune} (hS : Shape nodes P)
    {c : Nat} (hc : c < nodes.length) : Node.walk nodes 0 (P c) = some c := by
  generalize hk : (P c).length = k
  induction k generalizing c with
  | zero =>
    have hnil : P c = [] := List.length_eq_zero.1 hk
    by_cases h0 : c = 0
    · subst h0; rw [hnil]; rfl
    · exact absurd hnil (hS.path_ne_nil hc h0)
  | succ k ih =>
    have h0 : c ≠ 0 := by
      intro h0; subst h0; rw [hS.root] at hk; simp at hk
    obtain ⟨n, r, hch⟩ := hS.parent c hc h0
    obtain ⟨hn, _, hP⟩ := hS.child n r c hch
    have hlen : (P n).length = k := by
      rw [hP] at hk; simpa using hk
    rw [hP, Node.walk_append, ih hn hlen]
    simp [Node.walk, hch]

theorem Shape.walk_iff {nodes : List Node} {P : Nat → List Rune} (hS : Shape nodes P)
    (p : List Rune) (c : Nat) :
    Node.walk nodes 0 p = some c ↔ c < nodes.length ∧ P c = p := by
  constructor
  · intro h
    have := hS.walk_path hS.pos h
    rw [hS.root] at this
    simpa using this
  · rintro ⟨hc, hP⟩
    rw [← hP]; exact hS.walk_root hc

theorem Shape.getChild_iff {nodes : List Node} {P : Nat → List Rune} (hS : Shape nodes P)
    {n : Nat} (hn : n < nodes.length) (r : Rune) (c : Nat) :
    Node.getChild nodes n r = some c ↔ c < nodes.length ∧ P c = P n ++ [r] := by
  constructor
  · intro h; exact (hS.child n r c h).2
  · rintro ⟨hc, hP⟩
    have h1 := hS.walk_root hc
    rw [hP, Node.walk_append, hS.walk_root hn] at h1
    simp only [Option.some_bind, Node.walk] at h1
    cases hch : Node.getChild nodes n r with
    | none => rw [hch] at h1; exact Option.noConfusion h1
    | some d => rw [hch] at h1; simpa using h1

/-- An entry key is a path of the trie. -/
theorem Content.key_path {key : Word → List Rune} {nodes : List Node} {P : Nat → List Rune}
    {ws : List Word} (hC : Content key nodes P ws) {p : List Rune} {w : Word}
    (h : lastWith key ws p = some w) : ∃ c, c < nodes.length ∧ P c = p := by
  obtain ⟨hw, hk⟩ := lastWith_some h
  obtain ⟨c, hc, hP⟩ := hC.mem w hw
  exact ⟨c, hc, by rw [hP, hk]⟩

/-- Below a missing edge there is no entry. -/
theorem Content.no_entry_below {key : Word → List Rune} {nodes : List Node}
    {P : Nat → List Rune} {ws : List Word} (hS : Shape nodes P) (hC : Content key nodes P ws)
    {n : Nat} (hn : n < nodes.length) {r : Rune} (hnone : Node.getChild nodes n r = none)
    (q : List Rune) : lastWith key ws (P n ++ r :: q) = none := by
  cases h : lastWith key ws (P n ++ r :: q) with
  | none => rfl
  | some w =>
    obtain ⟨c, hc, hP⟩ := hC.key_path h
    have h1 := hS.walk_root hc
    rw [hP, Node.walk_append, hS.walk_root hn] at h1
    simp [Node.walk, hnone] at h1

/-! ## The plain trie is the trie part of the failure-link automaton -/

theorem State.get_map (nodes : List Node) (p : Nat) :
    State.get (nodes.map Node.toState) p = (Node.get nodes p).toState := by
  unfold State.get Node.get
  have : newState = Node.toState newNode := rfl
  rw [this, List.getD_map]

theorem State.transition_map (nodes : List Node) (s : Nat) (r : Rune) :
    State.transition (nodes.map Node.toState) s r = Node.getChild nodes s r := by
  rw [State.transition, State.get_map]; rfl

theorem State.isEndState_map (nodes : List Node) (s : Nat) :
    State.isEndState (nodes.map Node.toState) s = (Node.get nodes s).isEnd := by
  rw [State.isEndState, State.get_map]; rfl

theorem State.getWord_map (nodes : List Node) (s : Nat) :
    State.getWord (nodes.map Node.toState) s = (Node.get nodes s).word := by
  rw [State.getWord, State.get_map]; rfl

theorem mapAssign_absent (r : Rune) (c : Nat) (l : List (Rune × Nat))
    (h : List.lookup r l = none) : mapAssign r c l = l ++ [(r, c)] := by
  induction l with
  | nil => rfl
  | cons a l ih =>
    obtain ⟨k, v⟩ := a
    by_cases hk : r = k
    · subst hk; simp [List.lookup] at h
    · have hb : (r == k) = false := by simpa using hk
      have hk' : ¬ k = r := fun h' => hk h'.symm
      simp only [List.lookup, hb] at h
      simp [mapAssign, hk', ih h]

theorem DFAMatcher.insertStep_map (nodes : List Node) (n : Nat) (r : Rune) :
    DFAMatcher.insertStep (nodes.map Node.toState, n) r =
      ((Node.addChild nodes n r).1.map Node.toState, (Node.addChild nodes n r).2) := by
  unfold DFAMatcher.insertStep
  simp only [State.transition_map]
  cases h : Node.getChild nodes n r with
  | some c => rw [Node.addChild_old h]
  | none =>
    rw [Node.addChild_new h]
    simp only [List.length_map, State.addTransition, List.map_set, List.map_append,
      List.map_cons, List.map_nil]
    have h1 : State.get (List.map Node.toState nodes ++ [newState]) n
        = (Node.get nodes n).toState := by
      have : List.map Node.toState nodes ++ [newState]
          = (nodes ++ [newNode]).map Node.toState := by simp; rfl
      rw [this, State.get_map, Node.get_append_new]
    rw [h1]
    have h2 : mapAssign r nodes.length (Node.get nodes n).toState.transitions
        = (Node.get nodes n).children ++ [(r, nodes.length)] :=
      mapAssign_absent r _ _ h
    rw [h2]
    rfl

theorem DFAMatcher.foldl_insertStep_map (rs : List Rune) (nodes : List Node) (n : Nat) :
    rs.foldl DFAMatcher.insertStep (nodes.map Node.toState, n) =
      ((rs.foldl (fun (acc : List Node × Nat) r => Node.addChild acc.1 acc.2 r)
          (nodes, n)).1.map Node.toState,
       (rs.foldl (fun (acc : List Node × Nat) r => Node.addChild acc.1 acc.2 r) (nodes, n)).2) := by
  induction rs generalizing nodes n with
  | nil => rfl
  | cons r rs ih =>
    simp only [List.foldl]
    rw [DFAMatcher.insertStep_map, ih]

theorem State.setWord_map (nodes : List Node) (n : Nat) (w : Word) :
    State.setWord (nodes.map Node.toState) n w = (Node.setWord nodes n w).map Node.toState := by
  simp only [State.setWord, Node.setWord, List.map_set, State.get_map]
  rfl

theorem DFAMatcher.insert_toDFA (toLower : Rune → Rune) (m : ACMatcher) (w : Word) :
    DFAMatcher.insert toLower m.toDFA w = (ACMatcher.insert toLower m w).toDFA := by
  simp only [DFAMatcher.insert, ACMatcher.insert, ACMatcher.toDFA,
    DFAMatcher.foldl_insertStep_map, State.setWord_map]

theorem DFAMatcher.foldl_insert_toDFA (toLower : Rune → Rune) (words : List Word)
    (m : ACMatcher) :
    words.foldl (DFAMatcher.insert toLower) m.toDFA =
      (words.foldl (ACMatcher.insert toLower) m).toDFA := by
  induction words generalizing m with
  | nil => rfl
  | cons w words ih =>
    simp only [List.foldl]
    rw [DFAMatcher.insert_toDFA, ih]

theorem DFAMatcher.Build_eq (toLower : Rune → Rune) (cs : Bool) (words : List Word) :
    DFAMatcher.Build toLower (NewDFAMatcher cs) words =
      (words.foldl (ACMatcher.insert toLower) (NewACMatcher cs)).toDFA := by
  have : NewDFAMatcher cs = (NewACMatcher cs).toDFA := rfl
  rw [DFAMatcher.Build, this, DFAMatcher.foldl_insert_toDFA]

/-! ## The plain-trie scan -/

theorem slice_of_drop {t a : List Rune} {i : Nat} (h : t.drop i = a) (m : Nat) :
    slice t i (i + m) = a.take m := by
  simp [slice, h]

theorem range'_filterMap_none {α : Type} (f : Nat → Option α) (s n : Nat)
    (h : ∀ j, s ≤ j → j < s + n → f j = none) : (List.range' s n).filterMap f = [] := by
  rw [List.filterMap_eq_nil_iff]
  intro j hj
  rw [List.mem_range'_1] at hj
  exact h j hj.1 hj.2

theorem DFAMatcher.scanFrom_eq {key : Word → List Rune} {nodes : List Node}
    {P : Nat → List Rune} {ws : List Word} (hS : Shape nodes P) (hC : Content key nodes P ws)
    (t : List Rune) (i : Nat) (rest : List Rune) (j s : Nat) (results : List MatchResult)
    (hs : s < nodes.length) (hdrop : t.drop i = P s ++ rest) (hj : j = i + (P s).length) :
    DFAMatcher.scanFrom (nodes.map Node.toState) i rest j s results =
      results ++ (List.range' (j + 1) rest.length).filterMap (resultAt key ws t i) := by
  induction rest generalizing j s results with
  | nil => simp [DFAMatcher.scanFrom]
  | cons r rest ih =>
    simp only [DFAMatcher.scanFrom, State.transition_map]
    cases hch : Node.getChild nodes s r with
    | none =>
      simp only
      rw [range'_filterMap_none]
      · simp
      · intro j' h1 h2
        obtain ⟨k, hk⟩ : ∃ k, j' = i + ((P s).length + (1 + k)) := ⟨j' - j - 1, by omega⟩
        rw [hk, resultAt, slice_of_drop hdrop, List.take_append]
        simp only [List.take_succ_cons, Nat.add_comm 1 k]
        rw [hC.no_entry_below hS hs hch]
        rfl
    | some next =>
      simp only
      obtain ⟨_, hnext, hPnext⟩ := hS.child s r next hch
      have hdrop' : t.drop i = P next ++ rest := by rw [hdrop, hPnext]; simp
      have hj' : j + 1 = i + (P next).length := by rw [hPnext]; simp; omega
      rw [ih (j + 1) next _ hnext hdrop' hj']
      rw [List.length_cons, List.range'_succ, List.filterMap_cons]
      have hslice : slice t i (j + 1) = P next := by
        rw [hj', slice_of_drop hdrop']; simp
      rw [State.isEndState_map, State.getWord_map, hC.isEnd next, hC.word next hnext]
      rw [resultAt, hslice]
      cases hw : lastWith key ws (P next) with
      | none => simp
      | some w => simp [mkMatch]

theorem DFAMatcher.matchLoop_eq {key : Word → List Rune} {nodes : List Node}
    {P : Nat → List Rune} {ws : List Word} (hS : Shape nodes P) (hC : Content key nodes P ws)
    (t : List Rune) (rest : List Rune) (i : Nat) (results : List MatchResult)
    (hdrop : t.drop i = rest) :
    DFAMatcher.matchLoop (nodes.map Node.toState) 0 rest i results =
      results ++ (List.range' i rest.length).flatMap
        (fun i' => (List.range' (i' + 1) (t.length - i')).filterMap
          (fun j => resultAt key ws t i' j)) := by
  induction rest generalizing i results with
  | nil => simp [DFAMatcher.matchLoop]
  | cons r rest ih =>
    simp only [DFAMatcher.matchLoop]
    have hlen : t.length - i = rest.length + 1 := by
      have := congrArg List.length hdrop
      simpa using this
    have hdrop1 : t.drop (i + 1) = rest := by
      have : t.drop (i + 1) = (t.drop i).drop 1 := by rw [List.drop_drop, Nat.add_comm]
      rw [this, hdrop]; rfl
    rw [DFAMatcher.scanFrom_eq hS hC t i (r :: rest) i 0 results hS.pos
      (by rw [hS.root, hdrop]; rfl) (by rw [hS.root]; rfl)]
    rw [ih (i + 1) _ hdrop1]
    rw [List.length_cons, List.range'_succ i, List.flatMap_cons, hlen]
    simp [List.append_assoc]

/-- What `Match` of the plain-trie automaton computes after `Build`. -/
theorem DFAMatcher.Match_Build_eq (toLower : Rune → Rune) (cs : Bool) (words : List Word)
    (text : String) :
    DFAMatcher.Match toLower (DFAMatcher.Build toLower (NewDFAMatcher cs) words) text =
      occByStart (fun w => foldText toLower cs w.Text) words (foldText toLower cs text) := by
  rw [DFAMatcher.Build_eq]
  obtain ⟨hroot, hcs, P, hS, hC, _⟩ := ACMatcher.trie_inv toLower cs words
  simp only [DFAMatcher.Match, ACMatcher.toDFA, hroot, hcs]
  have := DFAMatcher.matchLoop_eq hS hC (foldText toLower cs text) _ 0 [] rfl
  simp only [List.drop_zero] at this
  simp only [foldText] at this ⊢
  rw [this]
  simp [occByStart, List.range_eq_range']

/-! ## Failure links -/

theorem SameTrie.refl_same (nodes : List Node) : SameTrie nodes nodes :=
  ⟨rfl, fun _ => rfl, fun _ => rfl, fun _ => rfl⟩

theorem SameTrie.trans_same {n1 n2 n3 : List Node} (h12 : SameTrie n1 n2) (h23 : SameTrie n2 n3) :
    SameTrie n1 n3 :=
  ⟨by rw [h23.length_eq, h12.length_eq],
   fun c => by rw [h23.children_eq, h12.children_eq],
   fun c => by rw [h23.word_eq, h12.word_eq],
   fun c => by rw [h23.isEnd_eq, h12.isEnd_eq]⟩

theorem SameTrie.getChild {nodes nodes' : List Node} (h : SameTrie nodes nodes') (n : Nat)
    (r : Rune) : Node.getChild nodes' n r = Node.getChild nodes n r := by
  unfold Node.getChild; rw [h.children_eq]

theorem SameTrie.shape {nodes nodes' : List Node} {P : Nat → List Rune}
    (h : SameTrie nodes nodes') (hS : Shape nodes P) : Shape nodes' P := by
  refine ⟨by rw [h.length_eq]; exact hS.pos, hS.root, ?_, ?_, ?_, ?_, ?_⟩
  · intro n r c hc
    rw [h.getChild] at hc; rw [h.length_eq]; exact hS.child n r c hc
  · intro c hc h0
    rw [h.length_eq] at hc
    obtain ⟨n, r, hch⟩ := hS.parent c hc h0
    exact ⟨n, r, by rw [h.getChild]; exact hch⟩
  · intro a b ha hb
    rw [h.length_eq] at ha hb; exact hS.inj a b ha hb
  · intro n; rw [h.children_eq]; exact hS.keys n
  · intro c hc
    rw [h.length_eq] at hc; exact hS.depth_le c hc

theorem SameTrie.content {key : Word → List Rune} {nodes nodes' : List Node}
    {P : Nat → List Rune} {ws : List Word}
    (h : SameTrie nodes nodes') (hC : Content key nodes P ws) : Content key nodes' P ws := by
  refine ⟨?_, ?_, ?_⟩
  · intro c hc
    rw [h.length_eq] at hc; rw [h.word_eq]; exact hC.word c hc
  · intro c; rw [h.isEnd_eq, h.word_eq]; exact hC.isEnd c
  · intro w hw
    rw [h.length_eq]; exact hC.mem w hw

theorem Node.get_setFail (nodes : List Node) (n f j : Nat) :
    Node.get (Node.setFail nodes n f) j =
      if n = j ∧ n < nodes.length then { Node.get nodes n with fail := some f }
      else Node.get nodes j := by
  rw [Node.setFail, Node.get_set]

theorem Node.length_setFail (nodes : List Node) (n f : Nat) :
    (Node.setFail nodes n f).length = nodes.length := by
  simp [Node.setFail]

theorem Node.fail_setFail (nodes : List Node) (n f j : Nat) (hn : n < nodes.length) :
    (Node.get (Node.setFail nodes n f) j).fail =
      if j = n then some f else (Node.get nodes j).fail := by
  rw [Node.get_setFail]
  by_cases h : n = j
  · subst h; simp [hn]
  · have h' : ¬ j = n := fun e => h e.symm
    simp [h, h']

theorem SameTrie.setFail (nodes : List Node) (n f : Nat) :
    SameTrie nodes (Node.setFail nodes n f) := by
  refine ⟨Node.length_setFail nodes n f, ?_, ?_, ?_⟩ <;>
  · intro c
    rw [Node.get_setFail]
    by_cases h : n = c ∧ n < nodes.length
    · rw [if_pos h]; rw [h.1]
    · rw [if_neg h]

theorem suffix_snoc_iff (s p : List Rune) (r r' : Rune) :
    s ++ [r] <:+ p ++ [r'] ↔ r = r' ∧ s <:+ p := by
  constructor
  · rintro ⟨t, ht⟩
    rw [← List.append_assoc] at ht
    have := List.append_inj' ht rfl
    exact ⟨by simpa using this.2, ⟨t, this.1⟩⟩
  · rintro ⟨hr, t, ht⟩
    subst hr
    exact ⟨t, by rw [← List.append_assoc, ht]⟩

theorem suffix_eq_of_length {s1 s2 p : List Rune} (h1 : s1 <:+ p) (h2 : s2 <:+ p)
    (hlen : s1.length = s2.length) : s1 = s2 :=
  (List.suffix_of_suffix_length_le h1 h2 (le_of_eq hlen)).eq_of_length hlen

/-- A non-root node whose path ends a text extended by `r` hangs, by an edge
`r`, below a node whose path ends the text. -/
theorem Shape.parent_of_suffix {nodes : List Node} {P : Nat → List Rune} (hS : Shape nodes P)
    {c : Nat} (hc : c < nodes.length) (h0 : c ≠ 0) {p : List Rune} {r : Rune}
    (hsuf : P c <:+ p ++ [r]) :
    ∃ n, n < nodes.length ∧ Node.getChild nodes n r = some c ∧ P n <:+ p ∧
      P c = P n ++ [r] := by
  obtain ⟨n, r', hch⟩ := hS.parent c hc h0
  obtain ⟨hn, _, hP⟩ := hS.child n r' c hch
  rw [hP, suffix_snoc_iff] at hsuf
  obtain ⟨hr, hs⟩ := hsuf
  subst hr
  exact ⟨n, hn, hch, hs, hP⟩

theorem Shape.eq_root {nodes : List Node} {P : Nat → List Rune} (hS : Shape nodes P)
    {c : Nat} (hc : c < nodes.length) (h : (P c).length = 0) : c = 0 :=
  hS.inj c 0 hc hS.pos (by rw [hS.root]; exact List.length_eq_zero.1 h)

/-- The candidates for the failure link of the child reached by `r`, given a
node `f` on the failure chain above which no candidate exists. -/
theorem Shape.candidate_le {nodes : List Node} {P : Nat → List Rune} (hS : Shape nodes P)
    {p : List Rune} {r : Rune} {f : Nat}
    (hmax : ∀ c', c' < nodes.length → P c' <:+ p → (P c').length < p.length →
      (P f).length < (P c').length → Node.getChild nodes c' r = none)
    {c : Nat} (hc : c < nodes.length) (h0 : c ≠ 0) (hsuf : P c <:+ p ++ [r])
    (hlt : (P c).length < (p ++ [r]).length) :
    ∃ n, n < nodes.length ∧ Node.getChild nodes n r = some c ∧ P n <:+ p ∧
      P c = P n ++ [r] ∧ (P n).length ≤ (P f).length := by
  obtain ⟨n, hn, hch, hs, hP⟩ := hS.parent_of_suffix hc h0 hsuf
  refine ⟨n, hn, hch, hs, hP, ?_⟩
  by_contra hgt
  have hlt' : (P n).length < p.length := by
    rw [hP] at hlt; simpa using hlt
  have := hmax n hn hs hlt' (by omega)
  rw [this] at hch; exact Option.noConfusion hch

theorem ACMatcher.findFail_spec {nodes : List Node} {P : Nat → List Rune} (hS : Shape nodes P)
    (hL1 : ∀ c, (Node.get nodes c).fail ≠ none → Linked nodes P c)
    (p : List Rune) (r : Rune)
    (hL2 : ∀ c, c < nodes.length → c ≠ 0 → (P c).length < p.length →
      (Node.get nodes c).fail ≠ none)
    (fuel : Nat) (f : Nat) (hf : f < nodes.length) (hsuf : P f <:+ p)
    (hlt : (P f).length < p.length) (hfuel : (P f).length < fuel)
    (hmax : ∀ c', c' < nodes.length → P c' <:+ p → (P c').length < p.length →
      (P f).length < (P c').length → Node.getChild nodes c' r = none) :
    ∃ k, ACMatcher.findFail nodes 0 r fuel (some f) = some (some k) ∧ k < nodes.length ∧
      P k <:+ p ++ [r] ∧ (P k).length < (p ++ [r]).length ∧
      ∀ c', c' < nodes.length → P c' <:+ p ++ [r] → (P c').length < (p ++ [r]).length →
        (P c').length ≤ (P k).length := by
  induction fuel generalizing f with
  | zero => omega
  | succ fuel ih =>
    simp only [ACMatcher.findFail]
    cases hch : Node.getChild nodes f r with
    | some next =>
      obtain ⟨_, hnext, hPnext⟩ := hS.child f r next hch
      refine ⟨next, rfl, hnext, ?_, ?_, ?_⟩
      · rw [hPnext, suffix_snoc_iff]; exact ⟨rfl, hsuf⟩
      · rw [hPnext]; simp; omega
      · intro c' hc' hs' hl'
        by_cases h0 : c' = 0
        · subst h0; rw [hS.root]; simp
        · obtain ⟨n, _, _, _, hP, hle⟩ := hS.candidate_le hmax hc' h0 hs' hl'
          rw [hP, hPnext]; simp; omega
    | none =>
      simp only
      by_cases hroot : f = 0
      · subst hroot
        refine ⟨0, by simp, hS.pos, ?_, ?_, ?_⟩
        · rw [hS.root]; exact List.nil_suffix
        · rw [hS.root]; simp
        · intro c' hc' hs' hl'
          by_cases h0 : c' = 0
          · subst h0; exact le_refl _
          · obtain ⟨n, hn, hchn, _, _, hle⟩ := hS.candidate_le hmax hc' h0 hs' hl'
            rw [hS.root] at hle
            have hn0 : n = 0 := hS.eq_root hn (by simpa using hle)
            subst hn0
            rw [hch] at hchn; exact Option.noConfusion hchn
      · rw [if_neg hroot]
        obtain ⟨k', hfail, hk', hsk, hlk, hmk⟩ := hL1 f (hL2 f hf hroot hlt)
        rw [hfail]
        apply ih k' hk' (hsk.trans hsuf) (by omega) (by omega)
        intro c' hc' hs' hl' hgt
        by_cases hcf : (P f).length < (P c').length
        · exact hmax c' hc' hs' hl' hcf
        · by_cases heq : (P c').length = (P f).length
          · have : c' = f := hS.inj c' f hc' hf (suffix_eq_of_length hs' hsuf heq)
            subst this; exact hch
          · have hs'' : P c' <:+ P f :=
              List.suffix_of_suffix_length_le hs' hsuf (by omega)
            have := hmk c' hc' hs'' (by omega)
            omega

/-! ## The breadth-first construction of the failure links -/

theorem Linked.congr {nodes nodes' : List Node} {P : Nat → List Rune} {c : Nat}
    (hlen : nodes'.length = nodes.length)
    (hfail : (Node.get nodes' c).fail = (Node.get nodes c).fail)
    (h : Linked nodes P c) : Linked nodes' P c := by
  obtain ⟨k, h1, h2, h3⟩ := h
  exact ⟨k, by rw [hfail]; exact h1, by rw [hlen]; exact h2, h3.1, h3.2.1,
    fun c' hc' => h3.2.2 c' (by rw [← hlen]; exact hc')⟩

theorem Shape.child_ne_root {nodes : List Node} {P : Nat → List Rune} (hS : Shape nodes P)
    {n : Nat} {r : Rune} {c : Nat} (h : Node.getChild nodes n r = some c) : c ≠ 0 := by
  intro h0
  have := (hS.child n r c h).2.2
  rw [h0, hS.root] at this
  simp at this

theorem Shape.parent_unique {nodes : List Node} {P : Nat → List Rune} (hS : Shape nodes P)
    {n n' : Nat} {r r' : Rune} {c : Nat} (h : Node.getChild nodes n r = some c)
    (h' : Node.getChild nodes n' r' = some c) : n = n' ∧ r = r' := by
  obtain ⟨hn, _, hP⟩ := hS.child n r c h
  obtain ⟨hn', _, hP'⟩ := hS.child n' r' c h'
  rw [hP] at hP'
  have := List.append_inj' hP' rfl
  exact ⟨hS.inj n n' hn hn' this.1, by simpa using this.2⟩

theorem Shape.mem_visit {nodes : List Node} {P : Nat → List Rune} (hS : Shape nodes P)
    {visit : RangeOrder} (hv : visit.Valid) (h : Nat) (r : Rune) (c : Nat) :
    (r, c) ∈ visit (Node.get nodes h).children ↔ Node.getChild nodes h r = some c := by
  rw [(hv _).mem_iff, Node.getChild, lookup_eq_some_iff _ _ _ (hS.keys h)]

theorem Shape.mem_visit_snd {nodes : List Node} {P : Nat → List Rune} (hS : Shape nodes P)
    {visit : RangeOrder} (hv : visit.Valid) (h : Nat) (c : Nat) :
    c ∈ (visit (Node.get nodes h).children).map Prod.snd ↔
      ∃ r, Node.getChild nodes h r = some c := by
  rw [List.mem_map]
  constructor
  · rintro ⟨⟨r, c'⟩, hmem, hc⟩
    simp only at hc; subst hc
    exact ⟨r, (hS.mem_visit hv h r c').1 hmem⟩
  · rintro ⟨r, hr⟩
    exact ⟨(r, c), (hS.mem_visit hv h r c).2 hr, rfl⟩

theorem Shape.nodup_visit_snd {nodes : List Node} {P : Nat → List Rune} (hS : Shape nodes P)
    {visit : RangeOrder} (hv : visit.Valid) (h : Nat) :
    ((visit (Node.get nodes h).children).map Prod.snd).Nodup := by
  have hl : (visit (Node.get nodes h).children).Nodup :=
    (hv _).nodup_iff.2 (List.Nodup.of_map _ (hS.keys h))
  apply List.Nodup.map_on _ hl
  rintro ⟨r, c⟩ hx ⟨r', c'⟩ hy hcc
  simp only at hcc; subst hcc
  have h1 := (hS.mem_visit hv h r c).1 hx
  have h2 := (hS.mem_visit hv h r' c).1 hy
  rw [(hS.parent_unique h1 h2).2]

theorem ACMatcher.linkChildren_spec {nodes0 : List Node} {P : Nat → List Rune}
    (hS0 : Shape nodes0 P) (h : Nat) (hh : h < nodes0.length) (hh0 : h ≠ 0)
    (rest : List (Rune × Nat)) (nodes : List Node) (queue : List Nat)
    (hT : SameTrie nodes0 nodes)
    (hL1 : ∀ c, (Node.get nodes c).fail ≠ none → Linked nodes P c)
    (hL2 : ∀ c, c < nodes0.length → c ≠ 0 → (P c).length ≤ (P h).length →
      (Node.get nodes c).fail ≠ none)
    (hrest : ∀ r c, (r, c) ∈ rest → Node.getChild nodes0 h r = some c) :
    ∃ nodes', ACMatcher.linkChildren 0 h rest nodes queue =
        some (nodes', queue ++ rest.map Prod.snd) ∧
      SameTrie nodes0 nodes' ∧
      (∀ c, (Node.get nodes' c).fail ≠ none → Linked nodes' P c) ∧
      (∀ c, (Node.get nodes' c).fail ≠ none ↔
        ((Node.get nodes c).fail ≠ none ∨ c ∈ rest.map Prod.snd)) := by
  induction rest generalizing nodes queue with
  | nil => exact ⟨nodes, by simp [ACMatcher.linkChildren], hT, hL1, by simp⟩
  | cons a rest ih =>
    obtain ⟨r, c⟩ := a
    have hS : Shape nodes P := hT.shape hS0
    have hlen : nodes.length = nodes0.length := hT.length_eq
    have hch0 : Node.getChild nodes0 h r = some c := hrest r c (List.mem_cons_self _ _)
    have hch : Node.getChild nodes h r = some c := by rw [hT.getChild]; exact hch0
    obtain ⟨hhn, hc, hPc⟩ := hS.child h r c hch
    obtain ⟨f0, hfail, hf0, hsf, hlf, hmf⟩ := hL1 h (hL2 h hh hh0 (le_refl _))
    have hdepth : (P f0).length < nodes.length :=
      lt_of_le_of_lt (hS.depth_le f0 hf0) hf0
    obtain ⟨k, hfind, hk, hsk, hlk, hmk⟩ :=
      ACMatcher.findFail_spec hS hL1 (P h) r
        (fun c' hc' h0 hlt => hL2 c' (by rw [← hlen]; exact hc') h0 (le_of_lt hlt))
        nodes.length f0 hf0 hsf hlf hdepth
        (fun c' hc' hs' hl' hgt => absurd (hmf c' hc' hs' hl') (by omega))
    simp only [ACMatcher.linkChildren, hfail, hfind]
    have hT1 : SameTrie nodes0 (Node.setFail nodes c k) := hT.trans_same (SameTrie.setFail nodes c k)
    have hfail1 : ∀ x, (Node.get (Node.setFail nodes c k) x).fail =
        if x = c then some k else (Node.get nodes x).fail :=
      fun x => Node.fail_setFail nodes c k x hc
    have hL1' : ∀ x, (Node.get (Node.setFail nodes c k) x).fail ≠ none →
        Linked (Node.setFail nodes c k) P x := by
      intro x hx
      by_cases hxc : x = c
      · subst hxc
        refine ⟨k, by rw [hfail1]; simp, by rw [Node.length_setFail]; exact hk, ?_, ?_, ?_⟩
        · rw [hPc]; exact hsk
        · rw [hPc]; exact hlk
        · intro c' hc'
          rw [Node.length_setFail] at hc'
          rw [hPc]; exact hmk c' hc'
      · have hfx : (Node.get (Node.setFail nodes c k) x).fail = (Node.get nodes x).fail := by
          rw [hfail1]; simp [hxc]
        exact Linked.congr (Node.length_setFail nodes c k) hfx (hL1 x (by rw [← hfx]; exact hx))
    have hL2' : ∀ x, x < nodes0.length → x ≠ 0 → (P x).length ≤ (P h).length →
        (Node.get (Node.setFail nodes c k) x).fail ≠ none := by
      intro x hx hx0 hxl
      rw [hfail1]
      by_cases hxc : x = c
      · simp [hxc]
      · simp only [hxc, if_false]; exact hL2 x hx hx0 hxl
    obtain ⟨nodes', hrun, hT', hL', hseen⟩ := ih (Node.setFail nodes c k) (queue ++ [c]) hT1 hL1' hL2'
      (fun r' c' hmem => hrest r' c' (List.mem_cons_of_mem _ hmem))
    refine ⟨nodes', by rw [hrun]; simp, hT', hL', ?_⟩
    intro x
    rw [hseen x, hfail1]
    by_cases hxc : x = c
    · simp [hxc]
    · simp [hxc]

theorem ACMatcher.initQueue_spec {nodes0 : List Node} {P : Nat → List Rune}
    (hS0 : Shape nodes0 P) (rest : List (Rune × Nat)) (nodes : List Node) (queue : List Nat)
    (hT : SameTrie nodes0 nodes)
    (hL1 : ∀ c, (Node.get nodes c).fail ≠ none → Linked nodes P c)
    (hrest : ∀ r c, (r, c) ∈ rest → Node.getChild nodes0 0 r = some c) :
    (ACMatcher.initQueue 0 rest nodes queue).2 = queue ++ rest.map Prod.snd ∧
      SameTrie nodes0 (ACMatcher.initQueue 0 rest nodes queue).1 ∧
      (∀ c, (Node.get (ACMatcher.initQueue 0 rest nodes queue).1 c).fail ≠ none →
        Linked (ACMatcher.initQueue 0 rest nodes queue).1 P c) ∧
      (∀ c, (Node.get (ACMatcher.initQueue 0 rest nodes queue).1 c).fail ≠ none ↔
        ((Node.get nodes c).fail ≠ none ∨ c ∈ rest.map Prod.snd)) := by
  induction rest generalizing nodes queue with
  | nil => exact ⟨by simp [ACMatcher.initQueue], hT, hL1, by simp [ACMatcher.initQueue]⟩
  | cons a rest ih =>
    obtain ⟨r, c⟩ := a
    have hS : Shape nodes P := hT.shape hS0
    have hch0 : Node.getChild nodes0 0 r = some c := hrest r c (List.mem_cons_self _ _)
    have hch : Node.getChild nodes 0 r = some c := by rw [hT.getChild]; exact hch0
    obtain ⟨_, hc, hPc⟩ := hS.child 0 r c hch
    have hT1 : SameTrie nodes0 (Node.setFail nodes c 0) := hT.trans_same (SameTrie.setFail nodes c 0)
    have hfail1 : ∀ x, (Node.get (Node.setFail nodes c 0) x).fail =
        if x = c then some 0 else (Node.get nodes x).fail :=
      fun x => Node.fail_setFail nodes c 0 x hc
    have hL1' : ∀ x, (Node.get (Node.setFail nodes c 0) x).fail ≠ none →
        Linked (Node.setFail nodes c 0) P x := by
      intro x hx
      by_cases hxc : x = c
      · subst hxc
        refine ⟨0, by rw [hfail1]; simp, by rw [Node.length_setFail]; exact hS.pos, ?_, ?_, ?_⟩
        · rw [hS.root]; exact List.nil_suffix
        · rw [hPc, hS.root]; simp
        · intro c' _ _ hl
          rw [hPc, hS.root] at hl
          rw [hS.root]
          have : (P c').length < 1 := by simpa using hl
          simp only [List.length_nil]; omega
      · have hfx : (Node.get (Node.setFail nodes c 0) x).fail = (Node.get nodes x).fail := by
          rw [hfail1]; simp [hxc]
        exact Linked.congr (Node.length_setFail nodes c 0) hfx (hL1 x (by rw [← hfx]; exact hx))
    obtain ⟨hq, hT', hL', hseen⟩ := ih (Node.setFail nodes c 0) (queue ++ [c]) hT1 hL1'
      (fun r' c' hmem => hrest r' c' (List.mem_cons_of_mem _ hmem))
    simp only [ACMatcher.initQueue]
    refine ⟨by rw [hq]; simp, hT', hL', ?_⟩
    intro x
    rw [hseen x, hfail1]
    by_cases hxc : x = c
    · simp [hxc]
    · simp [hxc]

theorem nodup_length_lt {l : List Nat} {n : Nat} (hn : l.Nodup)
    (hv : ∀ x, x ∈ l → x < n ∧ x ≠ 0) : l.length + 1 ≤ n ∨ l = [] := by
  by_cases hl : l = []
  · exact Or.inr hl
  · left
    have hsub : l ⊆ List.range' 1 (n - 1) := by
      intro x hx
      have := hv x hx
      rw [List.mem_range'_1]; omega
    have := (List.subperm_of_subset hn hsub).length_le
    simp only [List.length_range'] at this
    obtain ⟨x, hx⟩ := List.exists_mem_of_ne_nil l hl
    have := hv x hx
    omega

/-- While the queue is not empty, every node no deeper than its head is linked. -/
theorem BInv.shallow_seen {nodes0 : List Node} {P : Nat → List Rune} (hS0 : Shape nodes0 P)
    {nodes : List Node} {done q : List Nat} {h : Nat} (hB : BInv nodes0 P nodes done (h :: q))
    (c : Nat) (hc : c < nodes0.length) (h0 : c ≠ 0) (hd : (P c).length ≤ (P h).length) :
    c ∈ done ++ h :: q := by
  generalize hk : (P c).length = k at hd
  induction k using Nat.strong_induction_on generalizing c with
  | _ k ih =>
    obtain ⟨n, r, hch⟩ := hS0.parent c hc h0
    obtain ⟨hn, _, hP⟩ := hS0.child n r c hch
    rw [hB.kids n r c hch]
    by_cases hn0 : n = 0
    · exact Or.inl hn0
    · right
      have hlen : (P n).length + 1 = k := by rw [← hk, hP]; simp
      have hmem := ih (P n).length (by omega) n hn hn0 rfl (by omega)
      rcases List.mem_append.1 hmem with hdone | hq
      · exact hdone
      · exfalso
        have hge : (P h).length ≤ (P n).length := by
          rcases List.mem_cons.1 hq with heq | hq'
          · rw [heq]
          · exact (List.pairwise_cons.1 hB.sorted).1 n hq'
        omega

/-- Once the queue is empty, every non-root node has been handled. -/
theorem BInv.all_done {nodes0 : List Node} {P : Nat → List Rune} (hS0 : Shape nodes0 P)
    {nodes : List Node} {done : List Nat} (hB : BInv nodes0 P nodes done [])
    (c : Nat) (hc : c < nodes0.length) (h0 : c ≠ 0) : c ∈ done := by
  generalize hk : (P c).length = k
  induction k using Nat.strong_induction_on generalizing c with
  | _ k ih =>
    obtain ⟨n, r, hch⟩ := hS0.parent c hc h0
    obtain ⟨hn, _, hP⟩ := hS0.child n r c hch
    have := (hB.kids n r c hch).2
    simp only [List.append_nil] at this
    apply this
    by_cases hn0 : n = 0
    · exact Or.inl hn0
    · right
      have hlen : (P n).length + 1 = k := by rw [← hk, hP]; simp
      exact ih (P n).length (by omega) n hn hn0 rfl

theorem BInv.step {nodes0 : List Node} {P : Nat → List Rune} (hS0 : Shape nodes0 P)
    {visit : RangeOrder} (hv : visit.Valid)
    {nodes : List Node} {done q : List Nat} {h : Nat} (hB : BInv nodes0 P nodes done (h :: q)) :
    ∃ nodes', ACMatcher.linkChildren 0 h (visit (Node.get nodes h).children) nodes q =
        some (nodes', q ++ (visit (Node.get nodes0 h).children).map Prod.snd) ∧
      BInv nodes0 P nodes' (done ++ [h])
        (q ++ (visit (Node.get nodes0 h).children).map Prod.snd) := by
  have hhv := hB.valid h (by simp)
  have hL2 : ∀ c, c < nodes0.length → c ≠ 0 → (P c).length ≤ (P h).length →
      (Node.get nodes c).fail ≠ none :=
    fun c hc h0 hd => (hB.seen c).2 (hB.shallow_seen hS0 c hc h0 hd)
  have hchildren : (Node.get nodes h).children = (Node.get nodes0 h).children :=
    hB.same.children_eq h
  obtain ⟨nodes', hrun, hT', hL', hseen⟩ :=
    ACMatcher.linkChildren_spec hS0 h hhv.1 hhv.2 (visit (Node.get nodes0 h).children) nodes q
      hB.same hB.linked hL2 (fun r c hmem => (hS0.mem_visit hv h r c).1 hmem)
  refine ⟨nodes', by rw [hchildren]; exact hrun, ?_⟩
  have hmemcs := hS0.mem_visit_snd hv h
  have hnotdone : h ∉ done := by
    have := hB.nodup
    rw [List.nodup_append] at this
    intro hd
    exact this.2.2 hd (List.mem_cons_self _ _)
  have hnotq : h ∉ q := by
    have := hB.nodup
    rw [List.nodup_append] at this
    exact (List.nodup_cons.1 this.2.1).1
  have hkid_fresh : ∀ c, (∃ r, Node.getChild nodes0 h r = some c) → c ∉ done ++ h :: q := by
    rintro c ⟨r, hr⟩ hmem
    rcases (hB.kids h r c hr).1 hmem with h0 | hd
    · exact hhv.2 h0
    · exact hnotdone hd
  have hkid_depth : ∀ c, (∃ r, Node.getChild nodes0 h r = some c) →
      (P c).length = (P h).length + 1 := by
    rintro c ⟨r, hr⟩
    rw [(hS0.child h r c hr).2.2]; simp
  have hq_ge : ∀ a, a ∈ q → (P h).length ≤ (P a).length :=
    fun a ha => (List.pairwise_cons.1 hB.sorted).1 a ha
  have hq_le : ∀ a, a ∈ q → (P a).length ≤ (P h).length + 1 :=
    fun a ha => hB.close h (List.mem_cons_self _ _) a (List.mem_cons_of_mem _ ha)
  refine ⟨hT', hL', ?_, ?_, ?_, ?_, ?_, ?_⟩
  · intro c
    rw [hseen c, hB.seen c]
    simp only [List.mem_append, List.mem_cons, List.mem_singleton, List.not_mem_nil, or_false]
    tauto
  · have : done ++ [h] ++ (q ++ (visit (Node.get nodes0 h).children).map Prod.snd)
        = (done ++ h :: q) ++ (visit (Node.get nodes0 h).children).map Prod.snd := by simp
    rw [this, List.nodup_append]
    refine ⟨hB.nodup, hS0.nodup_visit_snd hv h, ?_⟩
    intro c hc1 hc2
    exact hkid_fresh c ((hmemcs c).1 hc2) hc1
  · intro c hc
    have : c ∈ done ++ h :: q ∨ c ∈ (visit (Node.get nodes0 h).children).map Prod.snd := by
      simp only [List.mem_append, List.mem_cons, List.mem_singleton, List.not_mem_nil,
        or_false] at hc ⊢
      tauto
    rcases this with hold | hnew
    · exact hB.valid c hold
    · obtain ⟨r, hr⟩ := (hmemcs c).1 hnew
      exact ⟨(hS0.child h r c hr).2.1, hS0.child_ne_root hr⟩
  · intro n r c hch
    have hold := hB.kids n r c hch
    have hiff : c ∈ (visit (Node.get nodes0 h).children).map Prod.snd ↔ n = h := by
      rw [hmemcs c]
      constructor
      · rintro ⟨r', hr'⟩
        exact (hS0.parent_unique hch hr').1
      · intro hnh; subst hnh; exact ⟨r, hch⟩
    have : c ∈ done ++ [h] ++ (q ++ (visit (Node.get nodes0 h).children).map Prod.snd) ↔
        (c ∈ done ++ h :: q ∨ c ∈ (visit (Node.get nodes0 h).children).map Prod.snd) := by
      simp only [List.mem_append, List.mem_cons, List.mem_singleton, List.not_mem_nil,
        or_false]
      tauto
    rw [this, hold, hiff]
    simp only [List.mem_append, List.mem_singleton]
    tauto
  · rw [List.pairwise_append]
    refine ⟨(List.pairwise_cons.1 hB.sorted).2, ?_, ?_⟩
    · rw [List.pairwise_iff_forall_sublist]
      intro a b hab
      have ha := hab.subset (List.mem_cons_self _ _)
      have hb := hab.subset (List.mem_cons_of_mem _ (List.mem_singleton_self _))
      rw [hkid_depth a ((hmemcs a).1 ha), hkid_depth b ((hmemcs b).1 hb)]
    · intro a ha b hb
      rw [hkid_depth b ((hmemcs b).1 hb)]
      exact hq_le a ha
  · intro a ha b hb
    have hage : (P h).length ≤ (P a).length := by
      rcases List.mem_append.1 ha with ha | ha
      · exact hq_ge a ha
      · rw [hkid_depth a ((hmemcs a).1 ha)]; omega
    have hble : (P b).length ≤ (P h).length + 1 := by
      rcases List.mem_append.1 hb with hb | hb
      · exact hq_le b hb
      · rw [hkid_depth b ((hmemcs b).1 hb)]
    omega

theorem ACMatcher.bfs_spec {nodes0 : List Node} {P : Nat → List Rune} (hS0 : Shape nodes0 P)
    {visit : RangeOrder} (hv : visit.Valid) (fuel : Nat) (nodes : List Node)
    (done queue : List Nat) (hB : BInv nodes0 P nodes done queue)
    (hfuel : nodes0.length ≤ fuel + done.length) :
    ∃ nodes', ACMatcher.bfs visit 0 fuel nodes queue = some nodes' ∧ SameTrie nodes0 nodes' ∧
      AllLinked nodes' P := by
  induction fuel generalizing nodes done queue with
  | zero =>
    cases queue with
    | nil =>
      refine ⟨nodes, rfl, hB.same, ?_⟩
      intro c hc h0
      rw [hB.same.length_eq] at hc
      exact hB.linked c ((hB.seen c).2 (by simpa using hB.all_done hS0 c hc h0))
    | cons h q =>
      exfalso
      rcases nodup_length_lt hB.nodup hB.valid with hlt | hnil
      · simp at hlt hfuel; omega
      · simp at hnil
  | succ fuel ih =>
    cases queue with
    | nil =>
      refine ⟨nodes, rfl, hB.same, ?_⟩
      intro c hc h0
      rw [hB.same.length_eq] at hc
      exact hB.linked c ((hB.seen c).2 (by simpa using hB.all_done hS0 c hc h0))
    | cons h q =>
      obtain ⟨nodes1, hrun, hB1⟩ := hB.step hS0 hv
      simp only [ACMatcher.bfs, hrun]
      exact ih nodes1 (done ++ [h]) _ hB1 (by simp; omega)

theorem ACMatcher.buildFailurePointers_spec {m : ACMatcher} {P : Nat → List Rune}
    (hroot : m.root = 0) (hS0 : Shape m.nodes P) (hF : ∀ c, (Node.get m.nodes c).fail = none)
    {visit : RangeOrder} (hv : visit.Valid) :
    ∃ nodes', ACMatcher.buildFailurePointers visit m = some { m with nodes := nodes' } ∧
      SameTrie m.nodes nodes' ∧ AllLinked nodes' P := by
  obtain ⟨hq, hT, hL, hseen⟩ := ACMatcher.initQueue_spec hS0
    (visit (Node.get m.nodes 0).children) m.nodes [] (SameTrie.refl_same _)
    (fun c hc => absurd (hF c) hc) (fun r c hmem => (hS0.mem_visit hv 0 r c).1 hmem)
  have hmemcs := hS0.mem_visit_snd hv 0
  simp only [List.nil_append] at hq
  have hB : BInv m.nodes P
      (ACMatcher.initQueue 0 (visit (Node.get m.nodes 0).children) m.nodes []).1 []
      (ACMatcher.initQueue 0 (visit (Node.get m.nodes 0).children) m.nodes []).2 := by
    rw [hq]
    have hkid_depth : ∀ c, c ∈ (visit (Node.get m.nodes 0).children).map Prod.snd →
        (P c).length = 1 := by
      intro c hc
      obtain ⟨r, hr⟩ := (hmemcs c).1 hc
      rw [(hS0.child 0 r c hr).2.2, hS0.root]; simp
    refine ⟨hT, hL, ?_, ?_, ?_, ?_, ?_, ?_⟩
    · intro c
      rw [hseen c]
      simp [hF c]
    · simpa using hS0.nodup_visit_snd hv 0
    · intro c hc
      simp only [List.nil_append] at hc
      obtain ⟨r, hr⟩ := (hmemcs c).1 hc
      exact ⟨(hS0.child 0 r c hr).2.1, hS0.child_ne_root hr⟩
    · intro n r c hch
      simp only [List.nil_append, List.not_mem_nil, or_false]
      rw [hmemcs c]
      constructor
      · rintro ⟨r', hr'⟩
        exact (hS0.parent_unique hch hr').1
      · intro hn; subst hn; exact ⟨r, hch⟩
    · rw [List.pairwise_iff_forall_sublist]
      intro a b hab
      have ha := hab.subset (List.mem_cons_self _ _)
      have hb := hab.subset (List.mem_cons_of_mem _ (List.mem_singleton_self _))
      rw [hkid_depth a ha, hkid_depth b hb]
    · intro a ha b hb
      rw [hkid_depth a ha, hkid_depth b hb]; omega
  obtain ⟨nodes', hrun, hT', hAll⟩ := ACMatcher.bfs_spec hS0 hv
    (ACMatcher.initQueue 0 (visit (Node.get m.nodes 0).children) m.nodes []).1.length _ [] _ hB
    (by rw [hT.length_eq]; simp)
  refine ⟨nodes', ?_, hT', hAll⟩
  simp only [ACMatcher.buildFailurePointers, hroot, hrun, Option.map_some']

/-! ## The failure-link scan -/

theorem slice_eq_drop_take (t : List Rune) (i j : Nat) : slice t i j = (t.take j).drop i := by
  rw [slice, List.drop_take]

theorem slice_suffix (t : List Rune) (i j : Nat) : slice t i j <:+ t.take j := by
  rw [slice_eq_drop_take]; exact List.drop_suffix _ _

theorem slice_length {t : List Rune} {i j : Nat} (hj : j ≤ t.length) :
    (slice t i j).length = j - i := by
  rw [slice_eq_drop_take]; simp [Nat.min_eq_left hj]

theorem slice_of_suffix {t s : List Rune} {j : Nat} (hj : j ≤ t.length)
    (h : s <:+ t.take j) : slice t (j - s.length) j = s := by
  rw [slice_eq_drop_take]
  have := List.suffix_iff_eq_drop.1 h
  rw [List.length_take, Nat.min_eq_left hj] at this
  exact this.symm

theorem take_succ_of_drop {t rest : List Rune} {i : Nat} {r : Rune}
    (h : t.drop i = r :: rest) : t.take (i + 1) = t.take i ++ [r] ∧ i < t.length ∧
      t.drop (i + 1) = rest := by
  have hi : i < t.length := by
    by_contra hge
    rw [List.drop_of_length_le (Nat.le_of_not_lt hge)] at h
    exact List.noConfusion h
  have h2 := List.drop_eq_getElem_cons hi
  rw [h] at h2
  have hr : r = t[i] := (List.cons.inj h2).1
  have hrest : rest = t.drop (i + 1) := (List.cons.inj h2).2
  refine ⟨?_, hi, hrest.symm⟩
  rw [List.take_succ, List.getElem?_eq_getElem hi, hr]; rfl

theorem Shape.suffix_le {nodes : List Node} {P : Nat → List Rune} (hS : Shape nodes P)
    {p : List Rune} {r : Rune} {f : Nat}
    (hmax : ∀ c', c' < nodes.length → P c' <:+ p →
      (P f).length < (P c').length → Node.getChild nodes c' r = none)
    {c : Nat} (hc : c < nodes.length) (h0 : c ≠ 0) (hsuf : P c <:+ p ++ [r]) :
    ∃ n, n < nodes.length ∧ Node.getChild nodes n r = some c ∧ P n <:+ p ∧
      P c = P n ++ [r] ∧ (P n).length ≤ (P f).length := by
  obtain ⟨n, hn, hch, hs, hP⟩ := hS.parent_of_suffix hc h0 hsuf
  refine ⟨n, hn, hch, hs, hP, ?_⟩
  by_contra hgt
  have := hmax n hn hs (by omega)
  rw [this] at hch; exact Option.noConfusion hch

theorem Node.hasChild_eq_false {nodes : List Node} {n : Nat} {r : Rune} :
    Node.hasChild nodes n r = false ↔ Node.getChild nodes n r = none := by
  rw [Node.hasChild]
  cases Node.getChild nodes n r <;> simp

theorem ACMatcher.followFail_spec {nodes : List Node} {P : Nat → List Rune}
    (hS : Shape nodes P) (hA : AllLinked nodes P) (pre : List Rune) (r : Rune)
    (fuel c : Nat) (hc : c < nodes.length) (hsuf : P c <:+ pre)
    (hfuel : (P c).length < fuel)
    (hmax : ∀ c', c' < nodes.length → P c' <:+ pre →
      (P c).length < (P c').length → Node.getChild nodes c' r = none) :
    ∃ c1, ACMatcher.followFail nodes 0 r fuel c = some c1 ∧ c1 < nodes.length ∧
      P c1 <:+ pre ∧ (Node.getChild nodes c1 r = none → c1 = 0) ∧
      (∀ c', c' < nodes.length → P c' <:+ pre →
        (P c1).length < (P c').length → Node.getChild nodes c' r = none) := by
  induction fuel generalizing c with
  | zero => omega
  | succ fuel ih =>
    simp only [ACMatcher.followFail]
    by_cases hcond : c ≠ 0 ∧ Node.hasChild nodes c r = false
    · rw [if_pos hcond]
      obtain ⟨k, hfail, hk, hsk, hlk, hmk⟩ := hA c hc hcond.1
      rw [hfail]
      apply ih k hk (hsk.trans hsuf) (by omega)
      intro c' hc' hs' hgt
      by_cases hcf : (P c).length < (P c').length
      · exact hmax c' hc' hs' hcf
      · by_cases heq : (P c').length = (P c).length
        · have : c' = c := hS.inj c' c hc' hc (suffix_eq_of_length hs' hsuf heq)
          subst this; exact Node.hasChild_eq_false.1 hcond.2
        · have hs'' : P c' <:+ P c := List.suffix_of_suffix_length_le hs' hsuf (by omega)
          have := hmk c' hc' hs'' (by omega)
          omega
    · rw [if_neg hcond]
      refine ⟨c, rfl, hc, hsuf, ?_, hmax⟩
      intro hnone
      by_contra h0
      exact hcond ⟨h0, Node.hasChild_eq_false.2 hnone⟩

/-- A suffix longer than the longest one that is a path is no entry key. -/
theorem Content.no_long {key : Word → List Rune} {nodes : List Node} {P : Nat → List Rune}
    {ws : List Word} (hC : Content key nodes P ws) {u s : List Rune} {L : Nat}
    (hmax : ∀ c', c' < nodes.length → P c' <:+ u → (P c').length ≤ L)
    (hs : s <:+ u) (hL : L < s.length) : lastWith key ws s = none := by
  cases h : lastWith key ws s with
  | none => rfl
  | some w =>
    obtain ⟨c, hc, hP⟩ := hC.key_path h
    have := hmax c hc (by rw [hP]; exact hs)
    rw [hP] at this; omega

theorem ACMatcher.emitMatches_spec {key : Word → List Rune} {nodes : List Node}
    {P : Nat → List Rune} {ws : List Word} (hS : Shape nodes P) (hC : Content key nodes P ws)
    (hA : AllLinked nodes P) (hkey : ∀ w, (key w).length = (runes w.Text).length)
    (t : List Rune) (i : Nat) (hi : i < t.length)
    (fuel c : Nat) (hc : c < nodes.length) (hsuf : P c <:+ t.take (i + 1))
    (hfuel : (P c).length < fuel) (results : List MatchResult) :
    ACMatcher.emitMatches nodes 0 i fuel c results =
      some (results ++ (List.range' (i + 1 - (P c).length) (P c).length).filterMap
        (fun st => resultAt key ws t st (i + 1))) := by
  induction fuel generalizing c results with
  | zero => omega
  | succ fuel ih =>
    simp only [ACMatcher.emitMatches]
    by_cases h0 : c = 0
    · subst h0; simp [hS.root]
    · rw [if_neg h0]
      obtain ⟨k, hfail, hk, hsk, hlk, hmk⟩ := hA c hc h0
      rw [hfail]
      simp only
      have hLle : (P c).length ≤ i + 1 := by
        have := hsuf.length_le
        rw [List.length_take] at this; omega
      rw [ih k hk (hsk.trans hsuf) (by omega)]
      congr 1
      obtain ⟨L, hL⟩ : ∃ L, (P c).length = L + 1 := ⟨(P c).length - 1, by omega⟩
      have hsplit : List.range' (i + 1 - (P c).length) (P c).length =
          (i + 1 - (P c).length) ::
            (List.range' (i + 1 - (P c).length + 1) (L - (P k).length) ++
              List.range' (i + 1 - (P k).length) (P k).length) := by
        rw [hL, List.range'_succ]
        have e1 : i + 1 - (P k).length = (i + 1 - (L + 1) + 1) + (L - (P k).length) := by omega
        rw [e1, List.range'_append_1]
        congr 2; omega
      rw [hsplit, List.filterMap_cons, List.filterMap_append]
      have hmid : (List.range' (i + 1 - (P c).length + 1) (L - (P k).length)).filterMap
          (fun st => resultAt key ws t st (i + 1)) = [] := by
        apply range'_filterMap_none
        intro st h1 h2
        rw [resultAt]
        have hlen : (slice t st (i + 1)).length = i + 1 - st := slice_length (by omega)
        have hsc : slice t st (i + 1) <:+ P c :=
          List.suffix_of_suffix_length_le (slice_suffix t st (i + 1)) hsuf (by omega)
        cases hw : lastWith key ws (slice t st (i + 1)) with
        | none => rfl
        | some w =>
          exfalso
          obtain ⟨c', hc', hP'⟩ := hC.key_path hw
          have := hmk c' hc' (by rw [hP']; exact hsc) (by rw [hP']; omega)
          rw [hP'] at this; omega
      rw [hmid, List.nil_append]
      have hslice : slice t (i + 1 - (P c).length) (i + 1) = P c :=
        slice_of_suffix (by omega) hsuf
      rw [resultAt, hslice, hC.isEnd c, hC.word c hc]
      cases hw : lastWith key ws (P c) with
      | none => simp
      | some w =>
        have hwl : ((runes w.Text).length : Int) = ((P c).length : Int) := by
          rw [← hkey w, (lastWith_some hw).2]
        simp only [Option.isSome_some, Option.map_some', List.append_assoc, List.singleton_append,
          mkMatch, hwl]
        congr 3
        omega

/-- The results ending at `j = i + 1`, given the length `L` of the longest
suffix of the text read so far that is a path of the trie. -/
theorem Content.range_filterMap {key : Word → List Rune} {nodes : List Node}
    {P : Nat → List Rune} {ws : List Word} (hC : Content key nodes P ws)
    (t : List Rune) (i : Nat) (hi : i < t.length) (L : Nat) (hL : L ≤ i + 1)
    (hmax : ∀ c', c' < nodes.length → P c' <:+ t.take (i + 1) → (P c').length ≤ L) :
    (List.range (i + 1)).filterMap (fun st => resultAt key ws t st (i + 1)) =
      (List.range' (i + 1 - L) L).filterMap (fun st => resultAt key ws t st (i + 1)) := by
  have hsplit : List.range (i + 1) = List.range' 0 (i + 1 - L) ++ List.range' (i + 1 - L) L := by
    rw [List.range_eq_range']
    have : List.range' (i + 1 - L) L = List.range' (0 + (i + 1 - L)) L := by simp
    rw [this, List.range'_append_1]
    congr 1; omega
  rw [hsplit, List.filterMap_append, range'_filterMap_none, List.nil_append]
  intro st _ h2
  rw [resultAt, Content.no_long hC hmax (slice_suffix t st (i + 1))]
  · rfl
  · rw [slice_length (by omega)]; omega

theorem ACMatcher.matchLoop_spec {key : Word → List Rune} {nodes : List Node}
    {P : Nat → List Rune} {ws : List Word} (hS : Shape nodes P) (hC : Content key nodes P ws)
    (hA : AllLinked nodes P) (hkey : ∀ w, (key w).length = (runes w.Text).length)
    (t : List Rune) (rest : List Rune) (i node : Nat) (results : List MatchResult)
    (hdrop : t.drop i = rest) (hnode : node < nodes.length) (hsuf : P node <:+ t.take i)
    (hmax : ∀ c', c' < nodes.length → P c' <:+ t.take i → (P c').length ≤ (P node).length) :
    ACMatcher.matchLoop nodes 0 rest i node results =
      some (results ++ (List.range' (i + 1) rest.length).flatMap
        (fun j => (List.range j).filterMap (fun st => resultAt key ws t st j))) := by
  induction rest generalizing i node results with
  | nil => simp [ACMatcher.matchLoop]
  | cons r rest ih =>
    obtain ⟨htake, hi, hdrop1⟩ := take_succ_of_drop hdrop
    obtain ⟨c1, hfollow, hc1, hs1, hroot1, hmax1⟩ :=
      ACMatcher.followFail_spec hS hA (t.take i) r nodes.length node hnode hsuf
        (lt_of_le_of_lt (hS.depth_le node hnode) hnode)
        (fun c' hc' hs' hgt => absurd (hmax c' hc' hs') (by omega))
    simp only [ACMatcher.matchLoop, hfollow]
    rw [List.length_cons, List.range'_succ, List.flatMap_cons]
    cases hch : Node.getChild nodes c1 r with
    | none =>
      simp only
      have h10 : c1 = 0 := hroot1 hch
      subst h10
      have hmax' : ∀ c', c' < nodes.length → P c' <:+ t.take (i + 1) → (P c').length ≤ 0 := by
        intro c' hc' hs'
        by_cases h0 : c' = 0
        · subst h0; rw [hS.root]; simp
        · exfalso
          rw [htake] at hs'
          obtain ⟨n, hn, hchn, _, _, hle⟩ := hS.suffix_le hmax1 hc' h0 hs'
          rw [hS.root] at hle
          have hn0 : n = 0 := hS.eq_root hn (by simpa using hle)
          subst hn0
          rw [hch] at hchn; exact Option.noConfusion hchn
      rw [ih (i + 1) 0 results hdrop1 hS.pos (by rw [hS.root]; exact List.nil_suffix)
        (fun c' hc' hs' => by rw [hS.root]; exact hmax' c' hc' hs')]
      rw [hC.range_filterMap t i hi 0 (by omega) hmax']
      simp
    | some child =>
      simp only
      obtain ⟨_, hchild, hPchild⟩ := hS.child c1 r child hch
      have hsc : P child <:+ t.take (i + 1) := by
        rw [htake, hPchild, suffix_snoc_iff]; exact ⟨rfl, hs1⟩
      have hmax' : ∀ c', c' < nodes.length → P c' <:+ t.take (i + 1) →
          (P c').length ≤ (P child).length := by
        intro c' hc' hs'
        by_cases h0 : c' = 0
        · subst h0; rw [hS.root]; simp
        · rw [htake] at hs'
          obtain ⟨n, _, _, _, hP, hle⟩ := hS.suffix_le hmax1 hc' h0 hs'
          rw [hP, hPchild]; simp; omega
      rw [ACMatcher.emitMatches_spec hS hC hA hkey t i hi nodes.length child hchild hsc
        (lt_of_le_of_lt (hS.depth_le child hchild) hchild)]
      simp only
      rw [ih (i + 1) child _ hdrop1 hchild hsc hmax']
      have hLle : (P child).length ≤ i + 1 := by
        have := hsc.length_le
        rw [List.length_take] at this; omega
      rw [hC.range_filterMap t i hi (P child).length hLle hmax']
      simp [List.append_assoc]

theorem foldText_length (toLower : Rune → Rune) (cs : Bool) (s : String) :
    (foldText toLower cs s).length = (runes s).length := by
  cases cs <;> simp [foldText, mapRunes, runes, ofRunes]

/-- `Build` of the failure-link automaton finishes, and what it leaves. -/
theorem ACMatcher.Build_spec {visit : RangeOrder} (hv : visit.Valid)
    (toLower : Rune → Rune) (cs : Bool) (words : List Word) :
    ∃ m P, ACMatcher.Build visit toLower (NewACMatcher cs) words = some m ∧
      m.root = 0 ∧ m.caseSensitive = cs ∧ Shape m.nodes P ∧
      Content (fun w => foldText toLower cs w.Text) m.nodes P words ∧ AllLinked m.nodes P ∧
      m.toDFA = DFAMatcher.Build toLower (NewDFAMatcher cs) words := by
  obtain ⟨hroot, hcs, P, hS, hC, hF⟩ := ACMatcher.trie_inv toLower cs words
  obtain ⟨nodes', hrun, hT, hA⟩ := ACMatcher.buildFailurePointers_spec hroot hS hF hv
  refine ⟨_, P, hrun, hroot, hcs, hT.shape hS, hT.content hC, hA, ?_⟩
  rw [DFAMatcher.Build_eq]
  simp only [ACMatcher.toDFA]
  congr 1
  apply List.ext_getElem
  · simp [hT.length_eq]
  · intro n h1 h2
    simp only [List.length_map] at h1 h2
    simp only [List.getElem_map]
    have e1 := hT.children_eq n
    have e2 := hT.word_eq n
    have e3 := hT.isEnd_eq n
    rw [Node.get_of_lt h1, Node.get_of_lt h2] at e1 e2 e3
    simp [Node.toState, e1, e2, e3]

/-- What `Match` of the failure-link automaton computes after `Build`. -/
theorem acMatch_eq {visit : RangeOrder} (hv : visit.Valid)
    (toLower : Rune → Rune) (cs : Bool) (words : List Word) (text : String) :
    acMatch visit toLower cs words text =
      some (occByEnd (fun w => foldText toLower cs w.Text) words (foldText toLower cs text)) := by
  obtain ⟨m, P, hbuild, hroot, hcs, hS, hC, hA, _⟩ := ACMatcher.Build_spec hv toLower cs words
  simp only [acMatch, hbuild, Option.some_bind, ACMatcher.Match, hroot, hcs]
  have := ACMatcher.matchLoop_spec hS hC hA (fun w => foldText_length toLower cs w.Text)
    (foldText toLower cs text) (foldText toLower cs text) 0 0 [] rfl hS.pos
    (by rw [hS.root]; exact List.nil_suffix)
    (fun c' _ hs' => by
      rw [hS.root]
      have := hs'.length_le
      simpa using this)
  simp only [foldText] at this ⊢
  rw [this]
  simp [occByEnd]

/-- What `Match` of the plain-trie automaton computes after `Build`. -/
theorem dfaMatch_eq (toLower : Rune → Rune) (cs : Bool) (words : List Word) (text : String) :
    dfaMatch toLower cs words text =
      occByStart (fun w => foldText toLower cs w.Text) words (foldText toLower cs text) :=
  DFAMatcher.Match_Build_eq toLower cs words text

/-! ## The occurrences of the entries in a text -/

theorem mem_occByStart (key : Word → List Rune) (ws : List Word) (t : List Rune)
    (m : MatchResult) :
    m ∈ occByStart key ws t ↔
      ∃ i j w, i < j ∧ j ≤ t.length ∧ lastWith key ws (slice t i j) = some w ∧
        m = mkMatch w i j := by
  simp only [occByStart, List.mem_flatMap, List.mem_range, List.mem_filterMap,
    List.mem_range'_1, resultAt, Option.map_eq_some']
  constructor
  · rintro ⟨i, hi, j, ⟨h1, h2⟩, w, hw, rfl⟩
    exact ⟨i, j, w, by omega, by omega, hw, rfl⟩
  · rintro ⟨i, j, w, h1, h2, hw, rfl⟩
    exact ⟨i, by omega, j, ⟨by omega, by omega⟩, w, hw, rfl⟩

theorem mem_occByEnd (key : Word → List Rune) (ws : List Word) (t : List Rune)
    (m : MatchResult) :
    m ∈ occByEnd key ws t ↔
      ∃ i j w, i < j ∧ j ≤ t.length ∧ lastWith key ws (slice t i j) = some w ∧
        m = mkMatch w i j := by
  simp only [occByEnd, List.mem_flatMap, List.mem_range, List.mem_filterMap,
    List.mem_range'_1, resultAt, Option.map_eq_some']
  constructor
  · rintro ⟨j, ⟨h1, h2⟩, i, hi, w, hw, rfl⟩
    exact ⟨i, j, w, by omega, by omega, hw, rfl⟩
  · rintro ⟨i, j, w, h1, h2, hw, rfl⟩
    exact ⟨j, ⟨by omega, by omega⟩, i, by omega, w, hw, rfl⟩

theorem occByStart_pairwise (key : Word → List Rune) (ws : List Word) (t : List Rune) :
    (occByStart key ws t).Pairwise byStart := by
  rw [occByStart, List.pairwise_flatMap]
  constructor
  · intro i _
    apply List.Pairwise.filterMap _ _ (List.pairwise_lt_range' (i + 1) (t.length - i))
    intro j j' hjj b hb b' hb'
    simp only [resultAt, Option.mem_def, Option.map_eq_some'] at hb hb'
    obtain ⟨w, _, rfl⟩ := hb
    obtain ⟨w', _, rfl⟩ := hb'
    right
    simp only [mkMatch, Nat.cast_lt, true_and]
    exact hjj
  · apply (List.pairwise_lt_range t.length).imp
    intro i i' hii x hx y hy
    simp only [List.mem_filterMap, resultAt, Option.map_eq_some'] at hx hy
    obtain ⟨j, _, w, _, rfl⟩ := hx
    obtain ⟨j', _, w', _, rfl⟩ := hy
    left
    simp only [mkMatch, Nat.cast_lt]
    exact hii

theorem occByEnd_pairwise (key : Word → List Rune) (ws : List Word) (t : List Rune) :
    (occByEnd key ws t).Pairwise byEnd := by
  rw [occByEnd, List.pairwise_flatMap]
  constructor
  · intro j _
    apply List.Pairwise.filterMap _ _ (List.pairwise_lt_range j)
    intro i i' hii b hb b' hb'
    simp only [resultAt, Option.mem_def, Option.map_eq_some'] at hb hb'
    obtain ⟨w, _, rfl⟩ := hb
    obtain ⟨w', _, rfl⟩ := hb'
    right
    simp only [mkMatch, Nat.cast_lt, true_and]
    exact hii
  · apply (List.pairwise_lt_range' 1 t.length).imp
    intro j j' hjj x hx y hy
    simp only [List.mem_filterMap, resultAt, Option.map_eq_some'] at hx hy
    obtain ⟨i, _, w, _, rfl⟩ := hx
    obtain ⟨i', _, w', _, rfl⟩ := hy
    left
    simp only [mkMatch, Nat.cast_lt]
    exact hjj

theorem byStart_irrefl (a : MatchResult) : ¬ byStart a a := by
  unfold byStart; omega

theorem byEnd_irrefl (a : MatchResult) : ¬ byEnd a a := by
  unfold byEnd; omega

theorem nodup_of_pairwise {R : MatchResult → MatchResult → Prop} (hR : ∀ a, ¬ R a a)
    {l : List MatchResult} (h : l.Pairwise R) : l.Nodup := by
  unfold List.Nodup
  apply h.imp
  intro a b hab heq
  subst heq
  exact hR a hab

theorem occByEnd_perm (key : Word → List Rune) (ws : List Word) (t : List Rune) :
    (occByEnd key ws t).Perm (occByStart key ws t) := by
  rw [List.perm_ext_iff_of_nodup (nodup_of_pairwise byEnd_irrefl (occByEnd_pairwise key ws t))
    (nodup_of_pairwise byStart_irrefl (occByStart_pairwise key ws t))]
  intro m
  rw [mem_occByEnd, mem_occByStart]

/-- An occurrence is reported, with the last entry of that key. -/
theorem lastWith_of_occurs {key : Word → List Rune} {ws : List Word} {t : List Rune}
    {i j : Nat} (h : Occurs key ws t i j) :
    ∃ w, lastWith key ws (slice t i j) = some w ∧ w ∈ ws ∧ key w = slice t i j := by
  obtain ⟨_, _, w, hw, hk⟩ := h
  have := (lastWith_isSome_iff key ws (slice t i j)).2 ⟨w, hw, hk⟩
  obtain ⟨w', hw'⟩ := Option.isSome_iff_exists.1 this
  exact ⟨w', hw', lastWith_some hw'⟩

/-! ## `Validate` against `Match` -/

theorem DFAMatcher.scanFrom_acc (states : List State) (i : Nat) (rest : List Rune) (j s : Nat)
    (results : List MatchResult) :
    DFAMatcher.scanFrom states i rest j s results =
      results ++ DFAMatcher.scanFrom states i rest j s [] := by
  induction rest generalizing j s results with
  | nil => simp [DFAMatcher.scanFrom]
  | cons r rest ih =>
    simp only [DFAMatcher.scanFrom]
    cases State.transition states s r with
    | none => simp
    | some next =>
      simp only
      rw [ih (j + 1) next]
      conv_rhs => rw [ih (j + 1) next]
      cases State.isEndState states next <;> cases State.getWord states next <;> simp

theorem DFAMatcher.hitsEnd_iff {states : List State}
    (hinv : ∀ s, State.isEndState states s = (State.getWord states s).isSome)
    (i : Nat) (rest : List Rune) (j s : Nat) :
    DFAMatcher.hitsEnd states rest s = true ↔ DFAMatcher.scanFrom states i rest j s [] ≠ [] := by
  induction rest generalizing j s with
  | nil => simp [DFAMatcher.hitsEnd, DFAMatcher.scanFrom]
  | cons r rest ih =>
    simp only [DFAMatcher.hitsEnd, DFAMatcher.scanFrom]
    cases State.transition states s r with
    | none => simp
    | some next =>
      simp only
      rw [DFAMatcher.scanFrom_acc]
      have h := hinv next
      cases hw : State.getWord states next with
      | none =>
        rw [hw] at h
        simp only [Option.isSome_none] at h
        simp [h, ih (j + 1) next]
      | some w =>
        rw [hw] at h
        simp only [Option.isSome_some] at h
        simp [h]

theorem DFAMatcher.matchLoop_acc (states : List State) (root : Nat) (rest : List Rune) (i : Nat)
    (results : List MatchResult) :
    DFAMatcher.matchLoop states root rest i results =
      results ++ DFAMatcher.matchLoop states root rest i [] := by
  induction rest generalizing i results with
  | nil => simp [DFAMatcher.matchLoop]
  | cons r rest ih =>
    simp only [DFAMatcher.matchLoop]
    rw [ih (i + 1), DFAMatcher.scanFrom_acc]
    conv_rhs => rw [ih (i + 1)]
    simp

theorem DFAMatcher.validateLoop_iff {states : List State}
    (hinv : ∀ s, State.isEndState states s = (State.getWord states s).isSome)
    (root : Nat) (rest : List Rune) (i : Nat) :
    DFAMatcher.validateLoop states root rest = false ↔
      DFAMatcher.matchLoop states root rest i [] ≠ [] := by
  induction rest generalizing i with
  | nil => simp [DFAMatcher.validateLoop, DFAMatcher.matchLoop]
  | cons r rest ih =>
    simp only [DFAMatcher.validateLoop, DFAMatcher.matchLoop]
    rw [DFAMatcher.matchLoop_acc]
    by_cases h : DFAMatcher.hitsEnd states (r :: rest) root = true
    · have := (DFAMatcher.hitsEnd_iff hinv i (r :: rest) i root).1 h
      simp [h, this]
    · have h' : DFAMatcher.scanFrom states i (r :: rest) i root [] = [] := by
        by_contra hne
        exact h ((DFAMatcher.hitsEnd_iff hinv i (r :: rest) i root).2 hne)
      simp [h, h', ih (i + 1)]

theorem dfaValidate_iff (toLower : Rune → Rune) (cs : Bool) (words : List Word) (text : String) :
    dfaValidate toLower cs words text = false ↔ dfaMatch toLower cs words text ≠ [] := by
  unfold dfaValidate dfaMatch DFAMatcher.Validate DFAMatcher.Match
  apply DFAMatcher.validateLoop_iff
  intro s
  rw [DFAMatcher.Build_eq]
  obtain ⟨_, _, P, _, hC, _⟩ := ACMatcher.trie_inv toLower cs words
  simp only [ACMatcher.toDFA, State.isEndState_map, State.getWord_map]
  exact hC.isEnd s

theorem ACMatcher.hasEnd_of_emit {nodes : List Node}
    (hinv : ∀ c, (Node.get nodes c).isEnd = (Node.get nodes c).word.isSome)
    (root i fuel c : Nat) (results res : List MatchResult)
    (h : ACMatcher.emitMatches nodes root i fuel c results = some res) :
    ∃ extra, res = results ++ extra ∧
      ACMatcher.hasEnd nodes root fuel c = some (!extra.isEmpty) := by
  induction fuel generalizing c results with
  | zero =>
    simp only [ACMatcher.emitMatches] at h
    by_cases hc : c = root
    · simp only [hc, if_true, Option.some.injEq] at h
      exact ⟨[], by simp [h], by simp [ACMatcher.hasEnd, hc]⟩
    · simp [hc] at h
  | succ fuel ih =>
    simp only [ACMatcher.emitMatches] at h
    by_cases hc : c = root
    · simp only [hc, if_true, Option.some.injEq] at h
      exact ⟨[], by simp [h], by simp [ACMatcher.hasEnd, hc]⟩
    · rw [if_neg hc] at h
      cases hf : (Node.get nodes c).fail with
      | none => rw [hf] at h; exact Option.noConfusion h
      | some f =>
        rw [hf] at h
        obtain ⟨extra, hres, hend⟩ := ih f _ h
        have hi := hinv c
        simp only [ACMatcher.hasEnd, if_neg hc, hf]
        cases hw : (Node.get nodes c).word with
        | none =>
          rw [hw] at hi hres
          simp only [Option.isSome_none] at hi
          rw [hi] at hres
          exact ⟨extra, hres, by simp [hi, hend]⟩
        | some w =>
          rw [hw] at hi hres
          simp only [Option.isSome_some] at hi
          rw [hi] at hres
          simp only at hres
          refine ⟨[{ Word := w.Text
                     Start := (i : Int) - ((runes w.Text).length : Int) + 1
                     End := (i : Int) + 1
                     Category := w.Category
                     Level := w.Level }] ++ extra, ?_, ?_⟩
          · rw [hres, List.append_assoc]
          · simp [hi]

theorem ACMatcher.validate_of_match {nodes : List Node}
    (hinv : ∀ c, (Node.get nodes c).isEnd = (Node.get nodes c).word.isSome)
    (root : Nat) (rest : List Rune) (i node : Nat) (results res : List MatchResult)
    (h : ACMatcher.matchLoop nodes root rest i node results = some res) :
    ∃ extra, res = results ++ extra ∧
      ACMatcher.validateLoop nodes root rest node = some extra.isEmpty := by
  induction rest generalizing i node results with
  | nil =>
    simp only [ACMatcher.matchLoop, Option.some.injEq] at h
    exact ⟨[], by simp [h], by simp [ACMatcher.validateLoop]⟩
  | cons r rest ih =>
    simp only [ACMatcher.matchLoop] at h
    simp only [ACMatcher.validateLoop]
    cases hfol : ACMatcher.followFail nodes root r nodes.length node with
    | none => rw [hfol] at h; exact Option.noConfusion h
    | some node1 =>
      rw [hfol] at h
      simp only at h ⊢
      cases hch : Node.getChild nodes node1 r with
      | none =>
        rw [hch] at h
        exact ih (i + 1) root results h
      | some child =>
        rw [hch] at h
        simp only at h ⊢
        cases hem : ACMatcher.emitMatches nodes root i nodes.length child results with
        | none => rw [hem] at h; exact Option.noConfusion h
        | some results1 =>
          rw [hem] at h
          simp only at h
          obtain ⟨e1, hr1, hend⟩ := ACMatcher.hasEnd_of_emit hinv root i nodes.length child _ _ hem
          obtain ⟨e2, hr2, hval⟩ := ih (i + 1) child results1 h
          rw [hend]
          cases e1 with
          | nil =>
            simp only [List.isEmpty_nil, Bool.not_true]
            refine ⟨e2, ?_, hval⟩
            rw [hr2, hr1]; simp
          | cons x e1 =>
            simp only [List.isEmpty_cons, Bool.not_false]
            exact ⟨x :: e1 ++ e2, by rw [hr2, hr1]; simp, by simp⟩

/-! ## `Replace` -/

theorem getD_set_true (tr : List Bool) (a p : Nat) (ha : a < tr.length) :
    (tr.set a true).getD p false = (tr.getD p false || decide (p = a)) := by
  simp only [List.getD_eq_getElem?_getD, List.getElem?_set]
  by_cases h : a = p
  · subst h; simp [ha]
  · have h' : ¬ p = a := fun e => h e.symm
    simp [h, h']

theorem markRange_spec (count a : Nat) (tr : List Bool) (h : a + count ≤ tr.length) :
    ∃ tr', markRange count (a : Int) tr = some tr' ∧ tr'.length = tr.length ∧
      ∀ p, tr'.getD p false = (tr.getD p false || decide (a ≤ p ∧ p < a + count)) := by
  induction count generalizing a tr with
  | zero =>
    refine ⟨tr, rfl, rfl, ?_⟩
    intro p
    have : ¬ (a ≤ p ∧ p < a + 0) := by omega
    simp [this]
  | succ count ih =>
    have hcond : 0 ≤ (a : Int) ∧ (a : Int) < (tr.length : Int) := by
      constructor <;> omega
    simp only [markRange, if_pos hcond, Int.toNat_ofNat]
    have hcast : (a : Int) + 1 = ((a + 1 : Nat) : Int) := by push_cast; rfl
    rw [hcast]
    obtain ⟨tr', hrun, hlen, hget⟩ := ih (a + 1) (tr.set a true) (by simp; omega)
    refine ⟨tr', hrun, by rw [hlen]; simp, ?_⟩
    intro p
    rw [hget p, getD_set_true tr a p (by omega)]
    by_cases h1 : p = a
    · subst h1
      have : p ≤ p ∧ p < p + (count + 1) := by omega
      simp [this]
    · by_cases h2 : a ≤ p ∧ p < a + (count + 1)
      · have : a + 1 ≤ p ∧ p < a + 1 + count := by omega
        simp [h1, h2, this]
      · have : ¬ (a + 1 ≤ p ∧ p < a + 1 + count) := by omega
        simp [h1, h2, this]

theorem covered_cons (m : MatchResult) (ms : List MatchResult) (p : Nat) :
    covered (m :: ms) p = (decide (m.Start ≤ (p : Int) ∧ (p : Int) < m.End) || covered ms p) := by
  simp [covered]

theorem markAll_spec (ms : List MatchResult) (tr : List Bool)
    (h : ∀ m, m ∈ ms → ∃ a b : Nat, m.Start = a ∧ m.End = b ∧ a ≤ b ∧ b ≤ tr.length) :
    ∃ tr', markAll ms tr = some tr' ∧ tr'.length = tr.length ∧
      ∀ p, tr'.getD p false = (tr.getD p false || covered ms p) := by
  induction ms generalizing tr with
  | nil => exact ⟨tr, rfl, rfl, by simp [covered]⟩
  | cons m ms ih =>
    obtain ⟨a, b, hs, he, hab, hb⟩ := h m (List.mem_cons_self _ _)
    have hcount : (m.End - m.Start).toNat = b - a := by rw [hs, he]; omega
    obtain ⟨tr1, hrun1, hlen1, hget1⟩ := markRange_spec (b - a) a tr (by omega)
    obtain ⟨tr2, hrun2, hlen2, hget2⟩ := ih tr1
      (fun m' hm' => by
        obtain ⟨a', b', h1, h2, h3, h4⟩ := h m' (List.mem_cons_of_mem _ hm')
        exact ⟨a', b', h1, h2, h3, by rw [hlen1]; exact h4⟩)
    refine ⟨tr2, ?_, by rw [hlen2, hlen1], ?_⟩
    · simp only [markAll, hcount]
      rw [hs, hrun1]
      exact hrun2
    · intro p
      rw [hget2 p, hget1 p, covered_cons, hs, he]
      have : (a ≤ p ∧ p < a + (b - a)) ↔ ((a : Int) ≤ (p : Int) ∧ (p : Int) < (b : Int)) := by
        omega
      simp only [this, Bool.or_assoc]

theorem substitute_eq_masked (rs : List Rune) (tr : List Bool) (ms : List MatchResult)
    (repl : Rune) (hlen : tr.length = rs.length)
    (hget : ∀ p, tr.getD p false = covered ms p) :
    substitute rs tr repl = masked rs ms repl := by
  apply List.ext_getElem
  · simp [substitute, masked, hlen]
  · intro p h1 h2
    simp only [substitute, masked, List.getElem_zipWith, List.getElem_mapIdx]
    have hp : p < tr.length := by
      simp only [substitute, List.length_zipWith] at h1; omega
    have := hget p
    rw [List.getD_eq_getElem?_getD, List.getElem?_eq_getElem hp] at this
    simp only [Option.getD_some] at this
    rw [this]

theorem replace_core (rs : List Rune) (ms : List MatchResult) (repl : Rune)
    (h : ∀ m, m ∈ ms → ∃ a b : Nat, m.Start = a ∧ m.End = b ∧ a ≤ b ∧ b ≤ rs.length) :
    ∃ tr, markAll ms (List.replicate rs.length false) = some tr ∧
      substitute rs tr repl = masked rs ms repl := by
  obtain ⟨tr, hrun, hlen, hget⟩ := markAll_spec ms (List.replicate rs.length false)
    (by simpa using h)
  refine ⟨tr, hrun, substitute_eq_masked rs tr ms repl (by simpa using hlen) ?_⟩
  intro p
  rw [hget p]
  have : (List.replicate rs.length false).getD p false = false := by
    simp only [List.getD_eq_getElem?_getD]
    by_cases hp : p < rs.length
    · simp [List.getElem?_replicate, hp]
    · simp [List.getElem?_replicate, hp]
  rw [this, Bool.false_or]

theorem occ_bounds {key : Word → List Rune} {ws : List Word} {t : List Rune} {m : MatchResult}
    (h : m ∈ occByStart key ws t) :
    ∃ a b : Nat, m.Start = a ∧ m.End = b ∧ a ≤ b ∧ b ≤ t.length := by
  obtain ⟨i, j, w, h1, h2, _, rfl⟩ := (mem_occByStart key ws t m).1 h
  exact ⟨i, j, rfl, rfl, by omega, h2⟩

theorem covered_eq_of_mem_iff {ms ms' : List MatchResult} (h : ∀ m, m ∈ ms ↔ m ∈ ms')
    (p : Nat) : covered ms p = covered ms' p := by
  rw [Bool.eq_iff_iff]
  simp only [covered, List.any_eq_true]
  constructor
  · rintro ⟨m, hm, hp⟩; exact ⟨m, (h m).1 hm, hp⟩
  · rintro ⟨m, hm, hp⟩; exact ⟨m, (h m).2 hm, hp⟩

theorem masked_congr {ms ms' : List MatchResult} (h : ∀ m, m ∈ ms ↔ m ∈ ms')
    (rs : List Rune) (repl : Rune) : masked rs ms repl = masked rs ms' repl := by
  unfold masked
  congr 1
  funext p r
  rw [covered_eq_of_mem_iff h p]

/-- A position is covered by the occurrences iff some occurrence spans it. -/
theorem covered_occ_iff (key : Word → List Rune) (ws : List Word) (t : List Rune) (p : Nat) :
    covered (occByStart key ws t) p = true ↔
      ∃ i j, Occurs key ws t i j ∧ i ≤ p ∧ p < j := by
  simp only [covered, List.any_eq_true, decide_eq_true_eq]
  constructor
  · rintro ⟨m, hm, hp⟩
    obtain ⟨i, j, w, h1, h2, hw, rfl⟩ := (mem_occByStart key ws t m).1 hm
    simp only [mkMatch, Nat.cast_le, Nat.cast_lt] at hp
    exact ⟨i, j, ⟨h1, h2, w, (lastWith_some hw).1, (lastWith_some hw).2⟩, hp.1, hp.2⟩
  · rintro ⟨i, j, hocc, h1, h2⟩
    obtain ⟨w, hw, _, _⟩ := lastWith_of_occurs hocc
    refine ⟨mkMatch w i j, (mem_occByStart key ws t _).2 ⟨i, j, w, hocc.1, hocc.2.1, hw, rfl⟩, ?_⟩
    simp only [mkMatch, Nat.cast_le, Nat.cast_lt]
    exact ⟨h1, h2⟩

/-- What `Replace` of the plain-trie automaton computes after `Build`. -/
theorem dfaReplace_eq (toLower : Rune → Rune) (cs : Bool) (words : List Word) (text : String)
    (repl : Int) :
    dfaReplace toLower cs words text repl =
      some (ofRunes (masked (foldText toLower cs text)
        (occByStart (fun w => foldText toLower cs w.Text) words (foldText toLower cs text))
        (encodedRune repl))) := by
  have hm := DFAMatcher.Match_Build_eq toLower cs words text
  have hcs : (DFAMatcher.Build toLower (NewDFAMatcher cs) words).caseSensitive = cs := by
    rw [DFAMatcher.Build_eq]
    exact (ACMatcher.trie_inv toLower cs words).2.1
  obtain ⟨tr, hrun, hsub⟩ := replace_core (foldText toLower cs text)
    (occByStart (fun w => foldText toLower cs w.Text) words (foldText toLower cs text)) (encodedRune repl)
    (fun m hm' => occ_bounds hm')
  simp only [dfaReplace, DFAMatcher.Replace, hm, hcs]
  simp only [foldText] at hrun hsub ⊢
  rw [hrun]
  simp only [hsub]

/-- What `Build` and then `Replace` of the failure-link automaton compute. -/
theorem acReplace_eq {visit : RangeOrder} (hv : visit.Valid) (toLower : Rune → Rune) (cs : Bool)
    (words : List Word) (text : String) (repl : Int) :
    acReplace visit toLower cs words text repl =
      some (ofRunes (masked (foldText toLower cs text)
        (occByStart (fun w => foldText toLower cs w.Text) words (foldText toLower cs text))
        (encodedRune repl))) := by
  obtain ⟨m, P, hbuild, hroot, hcs, _, _, _, _⟩ := ACMatcher.Build_spec hv toLower cs words
  have hmatch := acMatch_eq hv toLower cs words text
  simp only [acMatch, hbuild, Option.some_bind] at hmatch
  have hmem : ∀ x, x ∈ occByEnd (fun w => foldText toLower cs w.Text) words
      (foldText toLower cs text) ↔ x ∈ occByStart (fun w => foldText toLower cs w.Text) words
      (foldText toLower cs text) := fun x => (occByEnd_perm _ _ _).mem_iff
  obtain ⟨tr, hrun, hsub⟩ := replace_core (foldText toLower cs text)
    (occByEnd (fun w => foldText toLower cs w.Text) words (foldText toLower cs text)) (encodedRune repl)
    (fun x hx => occ_bounds ((hmem x).1 hx))
  rw [masked_congr hmem] at hsub
  simp only [acReplace, hbuild, Option.some_bind, ACMatcher.Replace, hmatch, hcs]
  simp only [foldText] at hrun hsub ⊢
  rw [hrun]
  simp only [hsub]

/-- What `Build` and then `Validate` of the failure-link automaton compute. -/
theorem acValidate_eq {visit : RangeOrder} (hv : visit.Valid) (toLower : Rune → Rune) (cs : Bool)
    (words : List Word) (text : String) :
    acValidate visit toLower cs words text =
      some (occByEnd (fun w => foldText toLower cs w.Text) words
        (foldText toLower cs text)).isEmpty := by
  obtain ⟨m, P, hbuild, hroot, hcs, _, hC, _, _⟩ := ACMatcher.Build_spec hv toLower cs words
  have hmatch := acMatch_eq hv toLower cs words text
  simp only [acMatch, hbuild, Option.some_bind, ACMatcher.Match] at hmatch
  obtain ⟨extra, hres, hval⟩ := ACMatcher.validate_of_match hC.isEnd _ _ _ _ _ _ hmatch
  simp only [List.nil_append] at hres
  simp only [acValidate, hbuild, Option.some_bind, ACMatcher.Validate]
  rw [hval, hres]

/-! ## Helpers for the stated properties -/

theorem RangeOrder.valid_id : RangeOrder.Valid id := fun l => List.Perm.refl l

theorem toNat_ofNat_small (n : Nat) (h : n < 55296) : (Char.ofNat n).toNat = n := by
  have hv : n.isValidChar := Or.inl h
  simp only [Char.ofNat, hv, dite_true]
  simp [Char.ofNatAux, Char.toNat, UInt32.toNat]

theorem asciiToLower_idem (x : Rune) : asciiToLower (asciiToLower x) = asciiToLower x := by
  unfold asciiToLower
  by_cases h : 65 ≤ x.toNat ∧ x.toNat ≤ 90
  · rw [if_pos h]
    have := toNat_ofNat_small (x.toNat + 32) (by omega)
    rw [if_neg (by rw [this]; omega)]
  · rw [if_neg h, if_neg h]

theorem length_eq_one_of_all_eq {α : Type} {l : List α} {a : α} (hn : l.Nodup)
    (hall : ∀ x, x ∈ l → x = a) (hmem : a ∈ l) : l.length = 1 := by
  cases l with
  | nil => simp at hmem
  | cons x xs =>
    cases xs with
    | nil => rfl
    | cons y ys =>
      exfalso
      have hx := hall x (by simp)
      have hy := hall y (by simp)
      rw [List.nodup_cons] at hn
      exact hn.1 (by rw [hx, ← hy]; simp)

theorem mkMatch_inj_word {w w' : Word} {i j i' j' : Nat}
    (h : mkMatch w i j = mkMatch w' i' j') : i = i' ∧ j = j' := by
  simp only [mkMatch, MatchResult.mk.injEq, Nat.cast_inj] at h
  exact ⟨h.2.1, h.2.2.1⟩

/-- How often an offset pair occurs among the occurrences. -/
theorem occ_countP {key : Word → List Rune} {ws : List Word} {t : List Rune}
    {l : List MatchResult} (hn : l.Nodup)
    (hmem : ∀ m, m ∈ l ↔ ∃ i j w, i < j ∧ j ≤ t.length ∧
      lastWith key ws (slice t i j) = some w ∧ m = mkMatch w i j) (i j : Nat) :
    (Occurs key ws t i j →
      l.countP (fun m => decide (m.Start = (i : Int) ∧ m.End = (j : Int))) = 1) ∧
    (¬ Occurs key ws t i j →
      l.countP (fun m => decide (m.Start = (i : Int) ∧ m.End = (j : Int))) = 0) := by
  constructor
  · intro hocc
    obtain ⟨w, hw, _, _⟩ := lastWith_of_occurs hocc
    rw [List.countP_eq_length_filter]
    apply length_eq_one_of_all_eq (a := mkMatch w i j) (hn.filter _)
    · intro x hx
      rw [List.mem_filter] at hx
      obtain ⟨i', j', w', _, _, hw', rfl⟩ := (hmem x).1 hx.1
      have := hx.2
      simp only [mkMatch, Nat.cast_inj, decide_eq_true_eq] at this
      obtain ⟨rfl, rfl⟩ := this
      rw [hw] at hw'
      rw [Option.some.inj hw']
    · rw [List.mem_filter]
      exact ⟨(hmem _).2 ⟨i, j, w, hocc.1, hocc.2.1, hw, rfl⟩, by simp [mkMatch]⟩
  · intro hno
    rw [List.countP_eq_zero]
    intro x hx hp
    obtain ⟨i', j', w', h1, h2, hw', rfl⟩ := (hmem x).1 hx
    simp only [mkMatch, Nat.cast_inj, decide_eq_true_eq] at hp
    obtain ⟨rfl, rfl⟩ := hp
    exact hno ⟨h1, h2, w', (lastWith_some hw').1, (lastWith_some hw').2⟩

theorem offsets_nodup_of_byEnd {l : List MatchResult} (h : l.Pairwise byEnd) :
    (l.map (fun m => (m.Start, m.End))).Nodup := by
  unfold List.Nodup
  rw [List.pairwise_map]
  apply h.imp
  intro a b hab heq
  simp only [Prod.mk.injEq] at heq
  unfold byEnd at hab
  omega

theorem isEmpty_eq_of_perm {l l' : List MatchResult} (h : l.Perm l') :
    l.isEmpty = l'.isEmpty := by
  have := h.length_eq
  cases l <;> cases l' <;> simp_all

theorem dfaValidate_eq (toLower : Rune → Rune) (cs : Bool) (words : List Word) (text : String) :
    dfaValidate toLower cs words text = (dfaMatch toLower cs words text).isEmpty := by
  have := dfaValidate_iff toLower cs words text
  cases hv : dfaValidate toLower cs words text <;>
    cases hm : dfaMatch toLower cs words text <;> simp_all

theorem masked_length (rs : List Rune) (ms : List MatchResult) (repl : Rune) :
    (masked rs ms repl).length = rs.length := by
  simp [masked]

theorem masked_getElem? (rs : List Rune) (ms : List MatchResult) (repl : Rune) (p : Nat) :
    (masked rs ms repl)[p]? = rs[p]?.map (fun x => if covered ms p then repl else x) := by
  simp [masked, List.getElem?_mapIdx]

theorem slice_getElem? (t : List Rune) (i j k : Nat) :
    (slice t i j)[k]? = if k < j - i then t[i + k]? else none := by
  simp only [slice, List.getElem?_take, List.getElem?_drop]

theorem slice_congr {t t' : List Rune} {i j : Nat}
    (h : ∀ q, i ≤ q → q < j → t[q]? = t'[q]?) : slice t i j = slice t' i j := by
  apply List.ext_getElem?
  intro k
  rw [slice_getElem?, slice_getElem?]
  by_cases hk : k < j - i
  · rw [if_pos hk, if_pos hk]; exact h (i + k) (by omega) (by omega)
  · rw [if_neg hk, if_neg hk]

/-! ## The stated properties -/

/-- C1: for every dictionary, every case-sensitivity setting and every text, and
for both automatons after `Build`, `Validate` returns false exactly when `Match`
returns a non-empty list (and both calls return). -/
theorem validate_false_iff_match_nonempty (visit : RangeOrder) (hv : visit.Valid)
    (toLower : Rune → Rune) (cs : Bool) (words : List Word) (text : String) :
    (dfaValidate toLower cs words text = false ↔ dfaMatch toLower cs words text ≠ []) ∧
    ∃ valid results, acValidate visit toLower cs words text = some valid ∧
      acMatch visit toLower cs words text = some results ∧
      (valid = false ↔ results ≠ []) := by
  refine ⟨dfaValidate_iff toLower cs words text, _, _, acValidate_eq hv toLower cs words text,
    acMatch_eq hv toLower cs words text, ?_⟩
  cases occByEnd (fun w => foldText toLower cs w.Text) words (foldText toLower cs text) <;> simp

/-- C1 at a concrete input: the entries "he", "she" and the text "ushers". -/
theorem validate_false_iff_match_nonempty_witness :
    RangeOrder.Valid id ∧
    ((dfaValidate asciiToLower false [mkWord "he", mkWord "she"] "ushers" = false ↔
        dfaMatch asciiToLower false [mkWord "he", mkWord "she"] "ushers" ≠ []) ∧
      ∃ valid results,
        acValidate id asciiToLower false [mkWord "he", mkWord "she"] "ushers" = some valid ∧
        acMatch id asciiToLower false [mkWord "he", mkWord "she"] "ushers" = some results ∧
        (valid = false ↔ results ≠ [])) :=
  ⟨RangeOrder.valid_id,
    validate_false_iff_match_nonempty id RangeOrder.valid_id asciiToLower false
      [mkWord "he", mkWord "she"] "ushers"⟩

/-- C2 (counterexample): with the entries "ABC" and "abc" and case-insensitive
matching, the text "abc" yields the single result "abc" at [0,3); the entry
"ABC" spells the same folded code points, yet no result carries it. -/
theorem ac_match_misses_shadowed_entry :
    acMatch id asciiToLower false [mkWord "ABC", mkWord "abc"] "abc" =
      some [mkResult "abc" 0 3] ∧
    ¬ ReportsEachEntry asciiToLower false [mkWord "ABC", mkWord "abc"] "abc"
      [mkResult "abc" 0 3] := by
  refine ⟨by decide, fun h => ?_⟩
  have h1 := (h 0 3 "ABC").2
    ⟨⟨mkWord "ABC", by simp, rfl⟩, by decide, by decide, by decide, by decide⟩
  obtain ⟨m, hm, _, _, hw⟩ := h1
  have hm' : m = mkResult "abc" 0 3 := by simpa using hm
  rw [hm'] at hw
  exact absurd hw (by decide)

/-- C2 (amended): after `Build`, `Match` of the failure-link automaton returns,
and there is a result with offsets `[s, e)` and word `w` exactly when
`s < e ≤ n` and `w` is the text of the last entry of the sequence among those
whose folded text is the folded text's code points `s .. e-1`; overlapping and
suffix-nested occurrences are all included, and no offset pair is reported
twice. -/
theorem ac_match_reports_occurrences (visit : RangeOrder) (hv : visit.Valid)
    (toLower : Rune → Rune) (cs : Bool) (words : List Word) (text : String) :
    ∃ results, acMatch visit toLower cs words text = some results ∧
      (∀ m, m ∈ results → ∃ s e : Nat, m.Start = (s : Int) ∧ m.End = (e : Int)) ∧
      (∀ (s e : Nat) (w : String),
        (∃ m, m ∈ results ∧ m.Start = (s : Int) ∧ m.End = (e : Int) ∧ m.Word = w) ↔
          (s < e ∧ e ≤ (foldText toLower cs text).length ∧
            ∃ x, lastWith (fun x => foldText toLower cs x.Text) words
              (slice (foldText toLower cs text) s e) = some x ∧ x.Text = w)) ∧
      (results.map (fun m => (m.Start, m.End))).Nodup := by
  refine ⟨_, acMatch_eq hv toLower cs words text, ?_, ?_, ?_⟩
  · intro m hm
    obtain ⟨i, j, w, _, _, _, rfl⟩ := (mem_occByEnd _ _ _ m).1 hm
    exact ⟨i, j, rfl, rfl⟩
  · intro s e w
    constructor
    · rintro ⟨m, hm, hs, he, hw⟩
      obtain ⟨i, j, x, h1, h2, hx, rfl⟩ := (mem_occByEnd _ _ _ m).1 hm
      simp only [mkMatch, Nat.cast_inj] at hs he hw
      subst hs; subst he
      exact ⟨h1, h2, x, hx, hw⟩
    · rintro ⟨h1, h2, x, hx, hw⟩
      exact ⟨mkMatch x s e, (mem_occByEnd _ _ _ _).2 ⟨s, e, x, h1, h2, hx, rfl⟩, rfl, rfl, hw⟩
  · exact offsets_nodup_of_byEnd (occByEnd_pairwise _ _ _)

/-- C2 (amended) at a concrete input: the entries "ABC", "abc" and the text "abc". -/
theorem ac_match_reports_occurrences_witness :
    RangeOrder.Valid id ∧
    ∃ results, acMatch id asciiToLower false [mkWord "ABC", mkWord "abc"] "abc" = some results ∧
      (∀ m, m ∈ results → ∃ s e : Nat, m.Start = (s : Int) ∧ m.End = (e : Int)) ∧
      (∀ (s e : Nat) (w : String),
        (∃ m, m ∈ results ∧ m.Start = (s : Int) ∧ m.End = (e : Int) ∧ m.Word = w) ↔
          (s < e ∧ e ≤ (foldText asciiToLower false "abc").length ∧
            ∃ x, lastWith (fun x => foldText asciiToLower false x.Text)
              [mkWord "ABC", mkWord "abc"]
              (slice (foldText asciiToLower false "abc") s e) = some x ∧ x.Text = w)) ∧
      (results.map (fun m => (m.Start, m.End))).Nodup :=
  ⟨RangeOrder.valid_id,
    ac_match_reports_occurrences id RangeOrder.valid_id asciiToLower false
      [mkWord "ABC", mkWord "abc"] "abc"⟩

/-- C3: after `Build`, `Match` of the plain-trie automaton returns exactly one
result for each pair `(i, j)` such that the folded text's code points
`i .. j-1` spell a (non-empty) folded entry and none for any other pair; the
results are ordered by increasing start and, for equal start, by increasing
end. -/
theorem dfa_match_reports_occurrences (toLower : Rune → Rune) (cs : Bool) (words : List Word)
    (text : String) :
    (dfaMatch toLower cs words text).Pairwise byStart ∧
    (∀ m, m ∈ dfaMatch toLower cs words text →
      ∃ i j : Nat, m.Start = (i : Int) ∧ m.End = (j : Int)) ∧
    ∀ i j : Nat,
      (Occurs (fun w => foldText toLower cs w.Text) words (foldText toLower cs text) i j →
        (dfaMatch toLower cs words text).countP
          (fun m => decide (m.Start = (i : Int) ∧ m.End = (j : Int))) = 1) ∧
      (¬ Occurs (fun w => foldText toLower cs w.Text) words (foldText toLower cs text) i j →
        (dfaMatch toLower cs words text).countP
          (fun m => decide (m.Start = (i : Int) ∧ m.End = (j : Int))) = 0) := by
  rw [dfaMatch_eq]
  refine ⟨occByStart_pairwise _ _ _, ?_, ?_⟩
  · intro m hm
    obtain ⟨i, j, w, _, _, _, rfl⟩ := (mem_occByStart _ _ _ m).1 hm
    exact ⟨i, j, rfl, rfl⟩
  · intro i j
    exact occ_countP (nodup_of_pairwise byStart_irrefl (occByStart_pairwise _ _ _))
      (mem_occByStart _ _ _) i j

/-- C4: for every entry sequence, case setting and text, the list returned by
`ACMatcher.Match` is a permutation of the one returned by `DFAMatcher.Match`
built from the same entries, and the `Validate` and `Replace` results of the
two automatons are equal. -/
theorem automatons_interchangeable (visit : RangeOrder) (hv : visit.Valid)
    (toLower : Rune → Rune) (cs : Bool) (words : List Word) (text : String) :
    ∃ results, acMatch visit toLower cs words text = some results ∧
      results.Perm (dfaMatch toLower cs words text) ∧
      acValidate visit toLower cs words text = some (dfaValidate toLower cs words text) ∧
      ∀ repl, ∃ out, acReplace visit toLower cs words text repl = some out ∧
        dfaReplace toLower cs words text repl = some out := by
  refine ⟨_, acMatch_eq hv toLower cs words text, ?_, ?_, ?_⟩
  · rw [dfaMatch_eq]; exact occByEnd_perm _ _ _
  · rw [acValidate_eq hv, dfaValidate_eq, dfaMatch_eq, isEmpty_eq_of_perm (occByEnd_perm _ _ _)]
  · intro repl
    exact ⟨_, acReplace_eq hv toLower cs words text repl, dfaReplace_eq toLower cs words text repl⟩

/-- C4 at a concrete input: the entries "he", "she", "hers" and the text "ushers". -/
theorem automatons_interchangeable_witness :
    RangeOrder.Valid id ∧
    ∃ results,
      acMatch id asciiToLower true [mkWord "he", mkWord "she", mkWord "hers"] "ushers" =
        some results ∧
      results.Perm (dfaMatch asciiToLower true [mkWord "he", mkWord "she", mkWord "hers"]
        "ushers") ∧
      acValidate id asciiToLower true [mkWord "he", mkWord "she", mkWord "hers"] "ushers" =
        some (dfaValidate asciiToLower true [mkWord "he", mkWord "she", mkWord "hers"]
          "ushers") ∧
      ∀ repl, ∃ out,
        acReplace id asciiToLower true [mkWord "he", mkWord "she", mkWord "hers"] "ushers" repl =
          some out ∧
        dfaReplace asciiToLower true [mkWord "he", mkWord "she", mkWord "hers"] "ushers" repl =
          some out :=
  ⟨RangeOrder.valid_id,
    automatons_interchangeable id RangeOrder.valid_id asciiToLower true
      [mkWord "he", mkWord "she", mkWord "hers"] "ushers"⟩

/-- C5: the failure-link automaton built from "he", "she", "his", "hers" and
scanning "ahishers" returns exactly the four matches "his" at [1,4), "she" at
[3,6), "he" at [4,6) and "hers" at [4,8), whatever the case setting and the
order in which the children maps are visited. -/
theorem ac_match_ahishers (visit : RangeOrder) (hv : visit.Valid) (cs : Bool) :
    acMatch visit asciiToLower cs [mkWord "he", mkWord "she", mkWord "his", mkWord "hers"]
        "ahishers" =
      some [mkResult "his" 1 4, mkResult "she" 3 6, mkResult "he" 4 6, mkResult "hers" 4 8] := by
  rw [acMatch_eq hv]
  cases cs <;> decide

/-- C5 by evaluation, for the visiting order of insertion and case-sensitive matching. -/
theorem ac_match_ahishers_witness :
    RangeOrder.Valid id ∧
    acMatch id asciiToLower true [mkWord "he", mkWord "she", mkWord "his", mkWord "hers"]
        "ahishers" =
      some [mkResult "his" 1 4, mkResult "she" 3 6, mkResult "he" 4 6, mkResult "hers" 4 8] :=
  ⟨RangeOrder.valid_id, ac_match_ahishers id RangeOrder.valid_id true⟩

/-- C6: the plain-trie automaton built from "ab", "abc" and scanning "abcd"
returns exactly "ab" at [0,2) and "abc" at [0,3), whatever the case setting. -/
theorem dfa_match_abcd (cs : Bool) :
    dfaMatch asciiToLower cs [mkWord "ab", mkWord "abc"] "abcd" =
      [mkResult "ab" 0 2, mkResult "abc" 0 3] := by
  cases cs <;> decide

/-- C7: for every dictionary, text and replacement (any `int32`, a code point
or not), and for both automatons, `Replace` returns a text with as many code
points as the input. -/
theorem replace_preserves_length (visit : RangeOrder) (hv : visit.Valid)
    (toLower : Rune → Rune) (cs : Bool) (words : List Word) (text : String) (repl : Int) :
    (∃ out, dfaReplace toLower cs words text repl = some out ∧
      (runes out).length = (runes text).length) ∧
    (∃ out, acReplace visit toLower cs words text repl = some out ∧
      (runes out).length = (runes text).length) := by
  refine ⟨⟨_, dfaReplace_eq toLower cs words text repl, ?_⟩,
    ⟨_, acReplace_eq hv toLower cs words text repl, ?_⟩⟩ <;>
  · simp only [runes, ofRunes]
    rw [masked_length]
    exact foldText_length toLower cs text

/-- C7 at a concrete input: the entry "bad", the text "a bad day", replacement '*'. -/
theorem replace_preserves_length_witness :
    RangeOrder.Valid id ∧
    ((∃ out, dfaReplace asciiToLower false [mkWord "bad"] "a bad day" (runeValue '*') = some out ∧
      (runes out).length = (runes "a bad day").length) ∧
    (∃ out, acReplace id asciiToLower false [mkWord "bad"] "a bad day" (runeValue '*') = some out ∧
      (runes out).length = (runes "a bad day").length)) :=
  ⟨RangeOrder.valid_id,
    replace_preserves_length id RangeOrder.valid_id asciiToLower false [mkWord "bad"]
      "a bad day" (runeValue '*')⟩

theorem mem_masked {rs : List Rune} {ms : List MatchResult} {repl c : Rune}
    (h : c ∈ masked rs ms repl) : c = repl ∨ c ∈ rs := by
  obtain ⟨q, hq⟩ := List.getElem?_of_mem h
  rw [masked_getElem?] at hq
  cases hrs : rs[q]? with
  | none => rw [hrs] at hq; simp at hq
  | some x =>
    rw [hrs] at hq
    simp only [Option.map_some', Option.some.injEq] at hq
    by_cases hc : covered ms q = true
    · left; rw [← hq]; simp [hc]
    · right
      have : c = x := by rw [← hq]; simp [hc]
      rw [this]; exact List.getElem?_mem hrs

/-- After masking with a code point that no key holds, no occurrence is left. -/
theorem no_cover_after_mask {key : Word → List Rune} {ws : List Word} {t : List Rune}
    {r : Rune} (hr : ∀ w, w ∈ ws → r ∉ key w) (p : Nat) :
    covered (occByStart key ws (masked t (occByStart key ws t) r)) p = false := by
  by_contra hne
  have htrue : covered (occByStart key ws (masked t (occByStart key ws t) r)) p = true := by
    cases h : covered (occByStart key ws (masked t (occByStart key ws t) r)) p
    · exact absurd h hne
    · rfl
  obtain ⟨i, j, ⟨hij, hj, w, hw, hkey⟩, _, _⟩ := (covered_occ_iff key ws _ p).1 htrue
  rw [masked_length] at hj
  have hclean : ∀ q, i ≤ q → q < j →
      covered (occByStart key ws t) q = false ∧
        (masked t (occByStart key ws t) r)[q]? = t[q]? := by
    intro q h1 h2
    have hq : q < t.length := by omega
    have hm := masked_getElem? t (occByStart key ws t) r q
    rw [List.getElem?_eq_getElem hq] at hm ⊢
    simp only [Option.map_some'] at hm
    have hmem : (if covered (occByStart key ws t) q = true then r else t[q]) ∈
        slice (masked t (occByStart key ws t) r) i j := by
      apply List.getElem?_mem (n := q - i)
      rw [slice_getElem?, if_pos (by omega)]
      have : i + (q - i) = q := by omega
      rw [this, hm]
    rw [← hkey] at hmem
    cases hc : covered (occByStart key ws t) q with
    | true =>
      rw [hc] at hmem
      exact absurd hmem (hr w hw)
    | false =>
      rw [hc] at hm
      exact ⟨rfl, by simpa using hm⟩
  have hslice : slice (masked t (occByStart key ws t) r) i j = slice t i j :=
    slice_congr (fun q h1 h2 => (hclean q h1 h2).2)
  have hocc : Occurs key ws t i j := ⟨hij, hj, w, hw, by rw [hkey, hslice]⟩
  have := (covered_occ_iff key ws t i).2 ⟨i, j, hocc, le_refl _, hij⟩
  rw [(hclean i (le_refl _) hij).1] at this
  exact Bool.noConfusion this

theorem masked_idem {key : Word → List Rune} {ws : List Word} {t : List Rune}
    {r : Rune} (hr : ∀ w, w ∈ ws → r ∉ key w) :
    masked (masked t (occByStart key ws t) r)
      (occByStart key ws (masked t (occByStart key ws t) r)) r =
      masked t (occByStart key ws t) r := by
  apply List.ext_getElem?
  intro q
  rw [masked_getElem? (masked t (occByStart key ws t) r), no_cover_after_mask hr q]
  simp

theorem foldText_masked {toLower : Rune → Rune} {cs : Bool} {text : String} {r : Rune}
    (ms : List MatchResult)
    (hfold : cs = false → toLower r = r ∧ ∀ x, toLower (toLower x) = toLower x) :
    foldText toLower cs (ofRunes (masked (foldText toLower cs text) ms r)) =
      masked (foldText toLower cs text) ms r := by
  cases cs with
  | true => simp [foldText, runes, ofRunes]
  | false =>
    obtain ⟨h1, h2⟩ := hfold rfl
    simp only [foldText, Bool.not_false, if_true, mapRunes, runes, ofRunes]
    conv_rhs => rw [← List.map_id (masked (List.map toLower text.data) ms r)]
    apply List.map_congr_left
    intro c hc
    rcases mem_masked hc with hcr | hct
    · rw [hcr, h1]; rfl
    · obtain ⟨x, _, rfl⟩ := List.mem_map.1 hct
      rw [h2]; rfl

/-- `Replace` applied to its own output, for a replacement outside the keys. -/
theorem replace_twice {toLower : Rune → Rune} {cs : Bool} {words : List Word} {text : String}
    {r : Rune} (hfold : cs = false → toLower r = r ∧ ∀ x, toLower (toLower x) = toLower x)
    (hr : ∀ w, w ∈ words → r ∉ foldText toLower cs w.Text) :
    ofRunes (masked
        (foldText toLower cs (ofRunes (masked (foldText toLower cs text)
          (occByStart (fun w => foldText toLower cs w.Text) words (foldText toLower cs text)) r)))
        (occByStart (fun w => foldText toLower cs w.Text) words
          (foldText toLower cs (ofRunes (masked (foldText toLower cs text)
            (occByStart (fun w => foldText toLower cs w.Text) words
              (foldText toLower cs text)) r)))) r) =
      ofRunes (masked (foldText toLower cs text)
        (occByStart (fun w => foldText toLower cs w.Text) words (foldText toLower cs text)) r) := by
  rw [foldText_masked _ hfold, masked_idem hr]

/-- C8 (failing input): with the entry "bad" and case-insensitive matching, the
only match in "Hello bad" is [6,9), yet `Replace` returns "hello ***" for both
automatons: position 0, covered by no match, carries 'h' and not the original
'H'. -/
theorem replace_lower_cases_unmatched_text :
    dfaMatch asciiToLower false [mkWord "bad"] "Hello bad" = [mkResult "bad" 6 9] ∧
    dfaReplace asciiToLower false [mkWord "bad"] "Hello bad" (runeValue '*') = some "hello ***" ∧
    acMatch id asciiToLower false [mkWord "bad"] "Hello bad" = some [mkResult "bad" 6 9] ∧
    acReplace id asciiToLower false [mkWord "bad"] "Hello bad" (runeValue '*') = some "hello ***" := by
  decide

/-- What `string(runes)` writes for a replacement: the replacement itself
when it is a Unicode scalar value, U+FFFD otherwise. -/
theorem encodedRune_spec (r : Int) :
    (0 ≤ r ∧ (r < 0xD800 ∨ (0xDFFF < r ∧ r < 0x110000)) → runeValue (encodedRune r) = r) ∧
    (¬ (0 ≤ r ∧ (r < 0xD800 ∨ (0xDFFF < r ∧ r < 0x110000))) →
      encodedRune r = Char.ofNat 0xFFFD) := by
  constructor
  · intro h
    have hvalid : r.toNat.isValidChar := by
      unfold Nat.isValidChar
      omega
    have hnat : (Char.ofNat r.toNat).toNat = r.toNat := by
      simp only [Char.ofNat, dif_pos hvalid, Char.ofNatAux, Char.toNat]
      rfl
    simp only [encodedRune, if_pos h, runeValue, Int.ofNat_eq_coe, hnat]
    omega
  · intro h
    simp only [encodedRune, if_neg h]

theorem encodedRune_runeValue (c : Rune) : encodedRune (runeValue c) = c := by
  have hvalid : c.toNat.isValidChar := c.valid
  have hcond : 0 ≤ runeValue c ∧
      (runeValue c < 0xD800 ∨ (0xDFFF < runeValue c ∧ runeValue c < 0x110000)) := by
    unfold Nat.isValidChar at hvalid
    simp only [runeValue, Int.ofNat_eq_coe]
    omega
  rw [encodedRune, if_pos hcond]
  simp only [runeValue, Int.ofNat_eq_coe, Int.toNat_ofNat]
  exact Char.ofNat_toNat c

/-- C9 (counterexample): with the entry "ab" and case-insensitive matching, the
replacement 'A' occurs in no entry, `Replace` turns "abb" into "AAb" and turns
"AAb" into "aAA", so replacing twice differs from replacing once, for both
automatons. And a replacement that is no code point, such as the surrogate
0xD800, is written as U+FFFD: with the entries "x" and U+FFFD "a", in
case-sensitive mode, `Replace` turns "xa" into U+FFFD "a" and that into
U+FFFD U+FFFD. -/
theorem replace_not_idempotent_for_upper_case :
    'A' ∉ runes (mkWord "ab").Text ∧
    (dfaReplace asciiToLower false [mkWord "ab"] "abb" (runeValue 'A') = some "AAb" ∧
      dfaReplace asciiToLower false [mkWord "ab"] "AAb" (runeValue 'A') = some "aAA" ∧
      dfaReplace asciiToLower false [mkWord "ab"] "AAb" (runeValue 'A') ≠
        dfaReplace asciiToLower false [mkWord "ab"] "abb" (runeValue 'A')) ∧
    (acReplace id asciiToLower false [mkWord "ab"] "abb" (runeValue 'A') = some "AAb" ∧
      acReplace id asciiToLower false [mkWord "ab"] "AAb" (runeValue 'A') = some "aAA" ∧
      acReplace id asciiToLower false [mkWord "ab"] "AAb" (runeValue 'A') ≠
        acReplace id asciiToLower false [mkWord "ab"] "abb" (runeValue 'A')) ∧
    (dfaReplace asciiToLower true [mkWord "x", mkWord "\uFFFDa"] "xa" 0xD800 =
        some "\uFFFDa" ∧
      dfaReplace asciiToLower true [mkWord "x", mkWord "\uFFFDa"] "\uFFFDa" 0xD800 =
        some "\uFFFD\uFFFD") ∧
    (acReplace id asciiToLower true [mkWord "x", mkWord "\uFFFDa"] "xa" 0xD800 =
        some "\uFFFDa" ∧
      acReplace id asciiToLower true [mkWord "x", mkWord "\uFFFDa"] "\uFFFDa" 0xD800 =
        some "\uFFFD\uFFFD") := by
  decide

/-- C9 (amended): for every dictionary, text `t` and replacement `r` (any
`int32`), and for both automatons, `Replace(Replace(t, r), r) = Replace(t, r)`
provided the code point that `Replace` writes for `r` occurs in no entry as
stored (case-folded unless the matcher is case-sensitive) and, for a
case-insensitive matcher, is its own lower case, lower-casing twice being
lower-casing once. The code point written is `r` itself when `r` is a Unicode
scalar value and U+FFFD otherwise. -/
theorem replace_idempotent (visit : RangeOrder) (hv : visit.Valid)
    (toLower : Rune → Rune) (cs : Bool) (words : List Word) (text : String) (r : Int)
    (hfold : cs = false →
      toLower (encodedRune r) = encodedRune r ∧ ∀ x, toLower (toLower x) = toLower x)
    (hr : ∀ w, w ∈ words → encodedRune r ∉ foldText toLower cs w.Text) :
    (∃ out, dfaReplace toLower cs words text r = some out ∧
      dfaReplace toLower cs words out r = some out) ∧
    (∃ out, acReplace visit toLower cs words text r = some out ∧
      acReplace visit toLower cs words out r = some out) ∧
    (0 ≤ r ∧ (r < 0xD800 ∨ (0xDFFF < r ∧ r < 0x110000)) → runeValue (encodedRune r) = r) ∧
    (¬ (0 ≤ r ∧ (r < 0xD800 ∨ (0xDFFF < r ∧ r < 0x110000))) →
      encodedRune r = Char.ofNat 0xFFFD) := by
  refine ⟨⟨_, dfaReplace_eq toLower cs words text r, ?_⟩,
    ⟨_, acReplace_eq hv toLower cs words text r, ?_⟩, (encodedRune_spec r).1,
    (encodedRune_spec r).2⟩
  · rw [dfaReplace_eq, replace_twice hfold hr]
  · rw [acReplace_eq hv, replace_twice hfold hr]

/-- C9 (amended) at a concrete input: case-insensitive matching, the entry
"Bad", the text "a BAD day" and the replacement '*'. -/
theorem replace_idempotent_witness :
    RangeOrder.Valid id ∧
    ((false = false → asciiToLower (encodedRune (runeValue '*')) = encodedRune (runeValue '*') ∧
        ∀ x, asciiToLower (asciiToLower x) = asciiToLower x) ∧
     (∀ w, w ∈ [mkWord "Bad"] →
        encodedRune (runeValue '*') ∉ foldText asciiToLower false w.Text)) ∧
    ((∃ out, dfaReplace asciiToLower false [mkWord "Bad"] "a BAD day" (runeValue '*') =
        some out ∧
      dfaReplace asciiToLower false [mkWord "Bad"] out (runeValue '*') = some out) ∧
    (∃ out, acReplace id asciiToLower false [mkWord "Bad"] "a BAD day" (runeValue '*') =
        some out ∧
      acReplace id asciiToLower false [mkWord "Bad"] out (runeValue '*') = some out)) :=
  have h := replace_idempotent id RangeOrder.valid_id asciiToLower false [mkWord "Bad"]
    "a BAD day" (runeValue '*') (fun _ => ⟨by decide, asciiToLower_idem⟩) (by decide)
  ⟨RangeOrder.valid_id, ⟨fun _ => ⟨by decide, asciiToLower_idem⟩, by decide⟩, h.1, h.2.1⟩

/-- C10: with the single entry "ABC", `Match("abc")` reports "ABC" at [0,3) when
the matcher is case-insensitive and is empty when it is case-sensitive, for both
automatons; and a case-insensitive matcher reports, wherever the text equals a
non-empty entry up to per-code-point lower-casing, a result at these offsets
whose word equals the entry up to lower-casing. -/
theorem case_insensitive_match (visit : RangeOrder) (hv : visit.Valid) :
    (dfaMatch asciiToLower false [mkWord "ABC"] "abc" = [mkResult "ABC" 0 3] ∧
      acMatch visit asciiToLower false [mkWord "ABC"] "abc" = some [mkResult "ABC" 0 3] ∧
      dfaMatch asciiToLower true [mkWord "ABC"] "abc" = [] ∧
      acMatch visit asciiToLower true [mkWord "ABC"] "abc" = some []) ∧
    ∀ (toLower : Rune → Rune) (words : List Word) (text : String) (w : Word) (s : Nat),
      w ∈ words → runes w.Text ≠ [] →
      slice ((runes text).map toLower) s (s + (runes w.Text).length) =
        (runes w.Text).map toLower →
      (∃ m, m ∈ dfaMatch toLower false words text ∧ m.Start = (s : Int) ∧
        m.End = ((s + (runes w.Text).length : Nat) : Int) ∧
        (runes m.Word).map toLower = (runes w.Text).map toLower) ∧
      (∃ results, acMatch visit toLower false words text = some results ∧
        ∃ m, m ∈ results ∧ m.Start = (s : Int) ∧
          m.End = ((s + (runes w.Text).length : Nat) : Int) ∧
          (runes m.Word).map toLower = (runes w.Text).map toLower) := by
  refine ⟨⟨by decide, ?_, by decide, ?_⟩, ?_⟩
  · rw [acMatch_eq hv]; decide
  · rw [acMatch_eq hv]; decide
  · intro toLower words text w s hw hne hslice
    have hkey : ∀ x : Word, foldText toLower false x.Text = (runes x.Text).map toLower := by
      intro x; simp [foldText, mapRunes, runes, ofRunes]
    have htext : foldText toLower false text = (runes text).map toLower := by
      simp [foldText, mapRunes, runes, ofRunes]
    have hpos : 0 < (runes w.Text).length := List.length_pos.2 hne
    have hbound : s + (runes w.Text).length ≤ ((runes text).map toLower).length := by
      have := congrArg List.length hslice
      simp only [slice, List.length_take, List.length_drop, List.length_map] at this ⊢
      omega
    have hocc : Occurs (fun x => foldText toLower false x.Text) words
        (foldText toLower false text) s (s + (runes w.Text).length) := by
      refine ⟨by omega, by rw [htext]; exact hbound, w, hw, ?_⟩
      simp only [hkey, htext, hslice]
    obtain ⟨x, hx, _, hxk⟩ := lastWith_of_occurs hocc
    have hword : (runes (mkMatch x s (s + (runes w.Text).length)).Word).map toLower =
        (runes w.Text).map toLower := by
      simp only [mkMatch]
      rw [← hkey x, hxk, htext, hslice]
    refine ⟨⟨mkMatch x s (s + (runes w.Text).length), ?_, rfl, rfl, hword⟩,
      ⟨_, acMatch_eq hv toLower false words text,
        mkMatch x s (s + (runes w.Text).length), ?_, rfl, rfl, hword⟩⟩
    · rw [dfaMatch_eq, mem_occByStart]
      exact ⟨s, _, x, hocc.1, hocc.2.1, hx, rfl⟩
    · rw [mem_occByEnd]
      exact ⟨s, _, x, hocc.1, hocc.2.1, hx, rfl⟩

/-- C10 at a concrete input: the visiting order of insertion; the general part
at the entry "ABC", the text "xAbCx" and the offset 1. -/
theorem case_insensitive_match_witness :
    RangeOrder.Valid id ∧
    (dfaMatch asciiToLower false [mkWord "ABC"] "abc" = [mkResult "ABC" 0 3] ∧
      acMatch id asciiToLower false [mkWord "ABC"] "abc" = some [mkResult "ABC" 0 3] ∧
      dfaMatch asciiToLower true [mkWord "ABC"] "abc" = [] ∧
      acMatch id asciiToLower true [mkWord "ABC"] "abc" = some []) ∧
    ((∃ m, m ∈ dfaMatch asciiToLower false [mkWord "ABC"] "xAbCx" ∧ m.Start = ((1 : Nat) : Int) ∧
        m.End = ((1 + (runes (mkWord "ABC").Text).length : Nat) : Int) ∧
        (runes m.Word).map asciiToLower = (runes (mkWord "ABC").Text).map asciiToLower) ∧
      (∃ results, acMatch id asciiToLower false [mkWord "ABC"] "xAbCx" = some results ∧
        ∃ m, m ∈ results ∧ m.Start = ((1 : Nat) : Int) ∧
          m.End = ((1 + (runes (mkWord "ABC").Text).length : Nat) : Int) ∧
          (runes m.Word).map asciiToLower = (runes (mkWord "ABC").Text).map asciiToLower)) :=
  ⟨RangeOrder.valid_id,
    (case_insensitive_match id RangeOrder.valid_id).1,
    (case_insensitive_match id RangeOrder.valid_id).2 asciiToLower [mkWord "ABC"] "xAbCx"
      (mkWord "ABC") 1 (by simp) (by decide) (by decide)⟩

/-! ## Matchers behind the interface -/

theorem Matcher.match_built {env : Env} (hv : env.visit.Valid) {cs : Bool} {words : List Word}
    {m : Matcher} (hb : Matcher.BuiltFrom env cs words m) (text : String) :
    Matcher.Match env m text = some (Matcher.occ env.toLower cs words m text) := by
  rcases hb with rfl | ⟨a, ha, rfl⟩
  · simp only [Matcher.Match, Matcher.occ]
    exact congrArg some (DFAMatcher.Match_Build_eq env.toLower cs words text)
  · have h := acMatch_eq hv env.toLower cs words text
    simp only [acMatch, ha, Option.some_bind] at h
    simpa only [Matcher.Match, Matcher.occ] using h

theorem Matcher.occ_perm (toLower : Rune → Rune) (cs : Bool) (words : List Word) (m : Matcher)
    (text : String) :
    (Matcher.occ toLower cs words m text).Perm
      (occByStart (entryKey toLower cs) words (foldText toLower cs text)) := by
  cases m with
  | dfa _ => exact List.Perm.refl _
  | ac _ => exact occByEnd_perm _ _ _

theorem Matcher.mem_occ (toLower : Rune → Rune) (cs : Bool) (words : List Word) (m : Matcher)
    (text : String) (x : MatchResult) :
    x ∈ Matcher.occ toLower cs words m text ↔
      ∃ i j w, i < j ∧ j ≤ (foldText toLower cs text).length ∧
        lastWith (entryKey toLower cs) words (slice (foldText toLower cs text) i j) = some w ∧
        x = mkMatch w i j := by
  cases m with
  | dfa _ => exact mem_occByStart _ _ _ _
  | ac _ => exact mem_occByEnd _ _ _ _

theorem Matcher.validate_built {env : Env} (hv : env.visit.Valid) {cs : Bool} {words : List Word}
    {m : Matcher} (hb : Matcher.BuiltFrom env cs words m) (text : String) :
    Matcher.Validate env m text =
      some (occByStart (entryKey env.toLower cs) words (foldText env.toLower cs text)).isEmpty := by
  rcases hb with rfl | ⟨a, ha, rfl⟩
  · have h := dfaValidate_eq env.toLower cs words text
    rw [dfaMatch_eq] at h
    simp only [Matcher.Validate]
    exact congrArg some h
  · have h := acValidate_eq hv env.toLower cs words text
    simp only [acValidate, ha, Option.some_bind] at h
    simp only [Matcher.Validate, h]
    exact congrArg some (isEmpty_eq_of_perm (occByEnd_perm _ _ _))

theorem Matcher.replace_built {env : Env} (hv : env.visit.Valid) {cs : Bool} {words : List Word}
    {m : Matcher} (hb : Matcher.BuiltFrom env cs words m) (text : String) (repl : Int) :
    Matcher.Replace env m text repl =
      some (ofRunes (masked (foldText env.toLower cs text)
        (occByStart (entryKey env.toLower cs) words (foldText env.toLower cs text))
        (encodedRune repl))) := by
  rcases hb with rfl | ⟨a, ha, rfl⟩
  · exact dfaReplace_eq env.toLower cs words text repl
  · have h := acReplace_eq hv env.toLower cs words text repl
    simp only [acReplace, ha, Option.some_bind] at h
    simpa only [Matcher.Replace] using h

theorem Matcher.build_dfa (env : Env) (cs : Bool) (words : List Word) :
    ∃ m, Matcher.Build env (Matcher.dfa (NewDFAMatcher cs)) words = some (m, none) ∧
      Matcher.BuiltFrom env cs words m ∧ m.isAC = false :=
  ⟨_, rfl, Or.inl rfl, rfl⟩

theorem Matcher.build_ac {env : Env} (hv : env.visit.Valid) (cs : Bool) (words : List Word) :
    ∃ m, Matcher.Build env (Matcher.ac (NewACMatcher cs)) words = some (m, none) ∧
      Matcher.BuiltFrom env cs words m ∧ m.isAC = true := by
  obtain ⟨a, P, ha, _⟩ := ACMatcher.Build_spec hv env.toLower cs words
  exact ⟨Matcher.ac a, by simp [Matcher.Build, ha], Or.inr ⟨a, ha, rfl⟩, rfl⟩

/-! ## Entries with empty text -/

theorem lastWith_filter (key : Word → List Rune) (f : Word → Bool) (ws : List Word)
    (p : List Rune) (h : ∀ w, w ∈ ws → f w = false → key w ≠ p) :
    lastWith key (ws.filter f) p = lastWith key ws p := by
  induction ws using List.reverseRecOn with
  | nil => rfl
  | append_singleton ws x ih =>
    have ih1 := ih (fun w hw => h w (List.mem_append_left _ hw))
    rw [List.filter_append, lastWith_append]
    by_cases hx : f x = true
    · simp only [List.filter_cons, hx, if_true, List.filter_nil]
      rw [lastWith_append, ih1]
    · have hx1 : f x = false := by simpa using hx
      have := h x (by simp) hx1
      simp only [List.filter_cons, hx1, List.filter_nil, List.append_nil, this, if_false]
      simpa using ih1

theorem flatMap_congr_mem {α β : Type} (l : List α) (f g : α → List β)
    (h : ∀ a, a ∈ l → f a = g a) : l.flatMap f = l.flatMap g := by
  induction l with
  | nil => rfl
  | cons a l ih =>
    simp only [List.flatMap_cons]
    rw [h a (by simp), ih (fun b hb => h b (List.mem_cons_of_mem _ hb))]

theorem occByStart_congr {key : Word → List Rune} {ws ws1 : List Word} {t : List Rune}
    (h : ∀ i j, i < j → j ≤ t.length →
      lastWith key ws (slice t i j) = lastWith key ws1 (slice t i j)) :
    occByStart key ws t = occByStart key ws1 t := by
  unfold occByStart
  apply flatMap_congr_mem
  intro i hi
  apply List.filterMap_congr
  intro j hj
  simp only [List.mem_range, List.mem_range'_1] at hi hj
  simp only [resultAt]
  rw [h i j (by omega) (by omega)]

theorem occByEnd_congr {key : Word → List Rune} {ws ws1 : List Word} {t : List Rune}
    (h : ∀ i j, i < j → j ≤ t.length →
      lastWith key ws (slice t i j) = lastWith key ws1 (slice t i j)) :
    occByEnd key ws t = occByEnd key ws1 t := by
  unfold occByEnd
  apply flatMap_congr_mem
  intro j hj
  apply List.filterMap_congr
  intro i hi
  simp only [List.mem_range, List.mem_range'_1] at hi hj
  simp only [resultAt]
  rw [h i j (by omega) (by omega)]

theorem foldText_empty (toLower : Rune → Rune) (cs : Bool) : foldText toLower cs "" = [] := by
  cases cs <;> rfl

theorem lastWith_nonempty_entries (toLower : Rune → Rune) (cs : Bool) (words : List Word)
    {t : List Rune} {i j : Nat} (hij : i < j) (hj : j ≤ t.length) :
    lastWith (entryKey toLower cs) words (slice t i j) =
      lastWith (entryKey toLower cs) (words.filter (fun w => w.Text != "")) (slice t i j) := by
  rw [lastWith_filter]
  intro w _ hw hk
  have hw1 : w.Text = "" := by simpa using hw
  have hlen := slice_length (i := i) hj
  rw [← hk] at hlen
  simp only [entryKey, hw1, foldText_empty, List.length_nil] at hlen
  omega

theorem occByStart_no_entries (key : Word → List Rune) (t : List Rune) :
    occByStart key [] t = [] := by
  rw [List.eq_nil_iff_forall_not_mem]
  intro m hm
  obtain ⟨i, j, w, _, _, hw, _⟩ := (mem_occByStart key [] t m).1 hm
  simp [lastWith_nil] at hw

theorem occByEnd_no_entries (key : Word → List Rune) (t : List Rune) :
    occByEnd key [] t = [] := by
  rw [List.eq_nil_iff_forall_not_mem]
  intro m hm
  obtain ⟨i, j, w, _, _, hw, _⟩ := (mem_occByEnd key [] t m).1 hm
  simp [lastWith_nil] at hw

/-- The offsets of a reported occurrence. -/
theorem mkMatch_offsets (toLower : Rune → Rune) (cs : Bool) {words : List Word} {t : List Rune}
    {i j : Nat} {w : Word} (hij : i < j) (hj : j ≤ t.length)
    (hw : lastWith (entryKey toLower cs) words (slice t i j) = some w) :
    0 ≤ (mkMatch w i j).Start ∧ (mkMatch w i j).Start < (mkMatch w i j).End ∧
      (mkMatch w i j).End ≤ (t.length : Int) ∧
      (mkMatch w i j).End - (mkMatch w i j).Start = ((runes (mkMatch w i j).Word).length : Int) := by
  have hk := (lastWith_some hw).2
  have hlen := slice_length (i := i) hj
  rw [← hk] at hlen
  simp only [entryKey, foldText_length] at hlen
  simp only [mkMatch]
  omega

/-! ## Offsets of the matches; entries with empty text; the empty dictionary -/

/-- C11: every match that either automaton returns for a text of `n` code
points has `0 ≤ Start < End ≤ n` and `End - Start` equal to the number of code
points of its word. This holds for every entry sequence: `Build` of the
failure-link automaton returns for it, and the entries with empty text change
nothing, since `Match` and `Validate` of both automatons return the same as
for the sequence with these entries removed. -/
theorem match_offsets_within_text {visit : RangeOrder} (hv : visit.Valid) (toLower : Rune → Rune)
    (cs : Bool) (words : List Word) (text : String) :
    (∃ found, acMatch visit toLower cs words text = some found ∧
      ∀ m, m ∈ found → 0 ≤ m.Start ∧ m.Start < m.End ∧ m.End ≤ ((runes text).length : Int) ∧
        m.End - m.Start = ((runes m.Word).length : Int)) ∧
    (∀ m, m ∈ dfaMatch toLower cs words text →
      0 ≤ m.Start ∧ m.Start < m.End ∧ m.End ≤ ((runes text).length : Int) ∧
        m.End - m.Start = ((runes m.Word).length : Int)) ∧
    acMatch visit toLower cs words text =
      acMatch visit toLower cs (words.filter (fun w => w.Text != "")) text ∧
    dfaMatch toLower cs words text =
      dfaMatch toLower cs (words.filter (fun w => w.Text != "")) text ∧
    acValidate visit toLower cs words text =
      acValidate visit toLower cs (words.filter (fun w => w.Text != "")) text ∧
    dfaValidate toLower cs words text =
      dfaValidate toLower cs (words.filter (fun w => w.Text != "")) text := by
  have hs : occByStart (entryKey toLower cs) words (foldText toLower cs text) =
      occByStart (entryKey toLower cs) (words.filter (fun w => w.Text != ""))
        (foldText toLower cs text) :=
    occByStart_congr (fun i j hij hj => lastWith_nonempty_entries toLower cs words hij hj)
  have he : occByEnd (entryKey toLower cs) words (foldText toLower cs text) =
      occByEnd (entryKey toLower cs) (words.filter (fun w => w.Text != ""))
        (foldText toLower cs text) :=
    occByEnd_congr (fun i j hij hj => lastWith_nonempty_entries toLower cs words hij hj)
  refine ⟨⟨_, acMatch_eq hv toLower cs words text, ?_⟩, ?_, ?_, ?_, ?_, ?_⟩
  · intro m hm
    obtain ⟨i, j, w, hij, hj, hw, rfl⟩ := (mem_occByEnd _ _ _ m).1 hm
    have := mkMatch_offsets toLower cs hij hj hw
    rwa [foldText_length] at this
  · intro m hm
    rw [dfaMatch_eq] at hm
    obtain ⟨i, j, w, hij, hj, hw, rfl⟩ := (mem_occByStart _ _ _ m).1 hm
    have := mkMatch_offsets toLower cs hij hj hw
    rwa [foldText_length] at this
  · rw [acMatch_eq hv, acMatch_eq hv]
    exact congrArg some he
  · rw [dfaMatch_eq, dfaMatch_eq]
    exact hs
  · rw [acValidate_eq hv, acValidate_eq hv]
    exact congrArg (fun l => some (List.isEmpty l)) he
  · rw [dfaValidate_eq, dfaValidate_eq, dfaMatch_eq, dfaMatch_eq]
    exact congrArg List.isEmpty hs

/-- Witness of C11: insertion order for the children maps, the entries `""`
and `"he"`, and the text `"she"`. -/
theorem match_offsets_within_text_witness :
    (∃ found, acMatch id asciiToLower false [mkWord "", mkWord "he"] "she" = some found ∧
      ∀ m, m ∈ found → 0 ≤ m.Start ∧ m.Start < m.End ∧ m.End ≤ ((runes "she").length : Int) ∧
        m.End - m.Start = ((runes m.Word).length : Int)) ∧
    acMatch id asciiToLower false [mkWord "", mkWord "he"] "she" = some [mkResult "he" 1 3] ∧
    acValidate id asciiToLower false [mkWord ""] "she" = some true :=
  ⟨(match_offsets_within_text RangeOrder.valid_id asciiToLower false
      [mkWord "", mkWord "he"] "she").1, by decide, by decide⟩

/-- C12: `Build` of either automaton returns with a nil error for every entry
sequence; built from the empty sequence, the automaton matches nothing: for
every text, `Match` returns the empty list and `Validate` returns true. -/
theorem build_never_fails (env : Env) (hv : env.visit.Valid) (cs : Bool) (words : List Word)
    (text : String) :
    (∃ m, Matcher.Build env (Matcher.dfa (NewDFAMatcher cs)) words = some (m, none)) ∧
    (∃ m, Matcher.Build env (Matcher.ac (NewACMatcher cs)) words = some (m, none)) ∧
    (∃ m, Matcher.Build env (Matcher.dfa (NewDFAMatcher cs)) [] = some (m, none) ∧
      Matcher.Match env m text = some [] ∧ Matcher.Validate env m text = some true) ∧
    (∃ m, Matcher.Build env (Matcher.ac (NewACMatcher cs)) [] = some (m, none) ∧
      Matcher.Match env m text = some [] ∧ Matcher.Validate env m text = some true) := by
  obtain ⟨m1, h1, _, _⟩ := Matcher.build_dfa env cs words
  obtain ⟨m2, h2, _, _⟩ := Matcher.build_ac hv cs words
  obtain ⟨m3, h3, b3, k3⟩ := Matcher.build_dfa env cs []
  obtain ⟨m4, h4, b4, k4⟩ := Matcher.build_ac hv cs []
  refine ⟨⟨m1, h1⟩, ⟨m2, h2⟩, ⟨m3, h3, ?_, ?_⟩, ⟨m4, h4, ?_, ?_⟩⟩
  · rw [Matcher.match_built hv b3]
    cases m3 with
    | dfa _ => simp only [Matcher.occ, occByStart_no_entries]
    | ac _ => simp only [Matcher.occ, occByEnd_no_entries]
  · rw [Matcher.validate_built hv b3, occByStart_no_entries]
    rfl
  · rw [Matcher.match_built hv b4]
    cases m4 with
    | dfa _ => simp only [Matcher.occ, occByStart_no_entries]
    | ac _ => simp only [Matcher.occ, occByEnd_no_entries]
  · rw [Matcher.validate_built hv b4, occByStart_no_entries]
    rfl

/-- Witness of C12: insertion order for the children maps, the entries `"he"`
and `"she"` for the first half, the text `"she"`. -/
theorem build_never_fails_witness :
    (∃ m, Matcher.Build asciiEnv (Matcher.ac (NewACMatcher false)) [mkWord "he", mkWord "she"] =
      some (m, none)) ∧
    (∃ m, Matcher.Build asciiEnv (Matcher.ac (NewACMatcher false)) [] = some (m, none) ∧
      Matcher.Match asciiEnv m "she" = some [] ∧ Matcher.Validate asciiEnv m "she" = some true) :=
  ⟨(build_never_fails asciiEnv RangeOrder.valid_id false [mkWord "he", mkWord "she"] "she").2.1,
   (build_never_fails asciiEnv RangeOrder.valid_id false [mkWord "he", mkWord "she"] "she").2.2.2⟩

/-! ## `Find` against its reference -/

theorem Detector.categoryAllowed_eq (d : Detector) (m : MatchResult) :
    Detector.categoryAllowed d m =
      (d.options.Categories.isEmpty ||
        d.options.Categories.any (fun cat => Int.land m.Category cat != 0)) := by
  unfold Detector.categoryAllowed
  cases d.options.Categories <;> simp

/-- The test of the reference, through the method `shouldFilter` of the
detector. -/
theorem Detector.keeps_shouldFilter (env : Env) (d : Detector) (m : MatchResult) :
    Detector.keeps env d m =
      (!Detector.shouldFilter env d m.Word &&
        (d.options.Categories.isEmpty ||
          d.options.Categories.any (fun cat => Int.land m.Category cat != 0)) &&
        !decide (m.Level < d.options.MinLevel)) := by
  have h : d.filters.all (fun f => !Filter.ShouldFilter env.toLower f m.Word) =
      !Detector.shouldFilter env d m.Word := by
    unfold Detector.shouldFilter
    induction d.filters with
    | nil => rfl
    | cons f fs ih => simp only [List.all_cons, List.any_cons, ih, Bool.not_or]
  rw [Detector.keeps, h]

theorem Detector.collect_skip (env : Env) (d : Detector) (m : MatchResult)
    (rest : List MatchResult) (acc : List Match) (h : Detector.keeps env d m = false) :
    Detector.collect env d (m :: rest) acc = Detector.collect env d rest acc := by
  rw [Detector.keeps_shouldFilter, ← Detector.categoryAllowed_eq] at h
  rw [Detector.collect]
  by_cases h1 : Detector.shouldFilter env d m.Word = true
  · simp [h1]
  · by_cases h2 : Detector.categoryAllowed d m = true
    · by_cases h3 : m.Level < d.options.MinLevel
      · simp [h1, h2, h3]
      · simp [h1, h2, h3] at h
    · simp [h1, h2]

theorem Detector.collect_keep (env : Env) (d : Detector) (m : MatchResult)
    (rest : List MatchResult) (acc : List Match) (h : Detector.keeps env d m = true) :
    Detector.collect env d (m :: rest) acc =
      if d.options.MaxMatchCount > 0 ∧
          ((acc ++ [toMatch m]).length : Int) ≥ d.options.MaxMatchCount then
        acc ++ [toMatch m]
      else Detector.collect env d rest (acc ++ [toMatch m]) := by
  rw [Detector.keeps_shouldFilter, ← Detector.categoryAllowed_eq] at h
  simp only [Bool.and_eq_true, Bool.not_eq_true', decide_eq_false_iff_not] at h
  obtain ⟨⟨h1, h2⟩, h3⟩ := h
  rw [Detector.collect]
  simp [h1, h2, h3]

theorem Detector.collect_uncapped (env : Env) (d : Detector) (hk : ¬ d.options.MaxMatchCount > 0)
    (raw : List MatchResult) (acc : List Match) :
    Detector.collect env d raw acc = acc ++ (raw.filter (Detector.keeps env d)).map toMatch := by
  induction raw generalizing acc with
  | nil => simp [Detector.collect]
  | cons m rest ih =>
    cases h : Detector.keeps env d m with
    | false => rw [Detector.collect_skip env d m rest acc h, ih]; simp [h]
    | true =>
      rw [Detector.collect_keep env d m rest acc h, if_neg (fun hc => hk hc.1), ih]
      simp [h]

theorem Detector.collect_capped (env : Env) (d : Detector) (hk : d.options.MaxMatchCount > 0)
    (raw : List MatchResult) (acc : List Match)
    (hacc : (acc.length : Int) < d.options.MaxMatchCount) :
    Detector.collect env d raw acc =
      acc ++ ((raw.filter (Detector.keeps env d)).map toMatch).take
        (d.options.MaxMatchCount.toNat - acc.length) := by
  induction raw generalizing acc with
  | nil => simp [Detector.collect]
  | cons m rest ih =>
    cases h : Detector.keeps env d m with
    | false => rw [Detector.collect_skip env d m rest acc h, ih acc hacc]; simp [h]
    | true =>
      rw [Detector.collect_keep env d m rest acc h]
      simp only [List.filter_cons, h, if_true, List.map_cons]
      have hpos : d.options.MaxMatchCount.toNat - acc.length =
          (d.options.MaxMatchCount.toNat - (acc.length + 1)) + 1 := by omega
      rw [hpos, List.take_succ_cons]
      by_cases hc : d.options.MaxMatchCount > 0 ∧
          ((acc ++ [toMatch m]).length : Int) ≥ d.options.MaxMatchCount
      · rw [if_pos hc]
        have hlen := hc.2
        simp only [List.length_append, List.length_singleton] at hlen
        have hz : d.options.MaxMatchCount.toNat - (acc.length + 1) = 0 := by omega
        rw [hz, List.take_zero]
      · rw [if_neg hc]
        have hlt : ((acc ++ [toMatch m]).length : Int) < d.options.MaxMatchCount := by
          by_contra hge
          exact hc ⟨hk, by omega⟩
        rw [ih _ hlt]
        simp only [List.length_append, List.length_singleton, List.append_assoc,
          List.singleton_append]

/-- The loop of `Find` computes the reference. -/
theorem Detector.collect_eq_findRef (env : Env) (d : Detector) (raw : List MatchResult) :
    Detector.collect env d raw [] = Detector.findRef env d raw := by
  unfold Detector.findRef
  by_cases hk : d.options.MaxMatchCount > 0
  · rw [Detector.collect_capped env d hk raw [] (by simpa using hk)]
    simp [hk]
  · rw [Detector.collect_uncapped env d hk raw []]
    simp [hk]

theorem Detector.findRef_sublist (env : Env) (d : Detector) (raw : List MatchResult) :
    (Detector.findRef env d raw).Sublist (raw.map toMatch) := by
  unfold Detector.findRef
  have h1 : ((raw.filter (Detector.keeps env d)).map toMatch).Sublist (raw.map toMatch) :=
    (List.filter_sublist raw).map toMatch
  by_cases hk : d.options.MaxMatchCount > 0
  · simp only [hk, if_true]
    exact (List.take_sublist _ _).trans h1
  · simp only [hk, if_false]
    exact h1

theorem Detector.mem_findRef {env : Env} {d : Detector} {raw : List MatchResult} {x : Match}
    (h : x ∈ Detector.findRef env d raw) :
    ∃ m, m ∈ raw ∧ Detector.keeps env d m = true ∧ x = toMatch m := by
  have hx : x ∈ (raw.filter (Detector.keeps env d)).map toMatch := by
    unfold Detector.findRef at h
    by_cases hk : d.options.MaxMatchCount > 0
    · simp only [hk, if_true] at h
      exact List.mem_of_mem_take h
    · simpa only [hk, if_false] using h
  obtain ⟨m, hm, rfl⟩ := List.mem_map.1 hx
  rw [List.mem_filter] at hm
  exact ⟨m, hm.1, hm.2, rfl⟩

theorem Detector.find_built {env : Env} (hv : env.visit.Valid) {cs : Bool} {words : List Word}
    {d : Detector} (hb : Matcher.BuiltFrom env cs words d.matcher) (text : String) :
    Detector.Find env d text =
      some (Detector.findRef env d
        (Matcher.occ env.toLower cs words d.matcher (Detector.preprocessText env d text))) := by
  simp only [Detector.Find, Matcher.match_built hv hb, Option.map_some',
    Detector.collect_eq_findRef]

theorem Detector.findAll_built {env : Env} (hv : env.visit.Valid) {cs : Bool} {words : List Word}
    {d : Detector} (hb : Matcher.BuiltFrom env cs words d.matcher) (text : String) :
    ∃ filtered,
      Detector.ReplaceRune env d text d.options.ReplaceChar = some filtered ∧
      Detector.FindAll env d text =
        some { Found := decide ((Detector.findRef env d
                (Matcher.occ env.toLower cs words d.matcher
                  (Detector.preprocessText env d text))).length > 0),
               Matches := Detector.findRef env d
                (Matcher.occ env.toLower cs words d.matcher
                  (Detector.preprocessText env d text)),
               FilteredText := filtered } := by
  refine ⟨_, Matcher.replace_built hv hb _ _, ?_⟩
  simp only [Detector.FindAll, Matcher.match_built hv hb, Matcher.replace_built hv hb,
    Detector.collect_eq_findRef]

/-! ## `Find`, `FindAll` and the options -/

/-- What the test of the reference says, clause by clause. -/
theorem Detector.keeps_iff (env : Env) (d : Detector) (m : MatchResult) :
    Detector.keeps env d m = true ↔
      (∀ f, f ∈ d.filters → Filter.ShouldFilter env.toLower f m.Word = false) ∧
      (d.options.Categories = [] ∨
        ∃ cat, cat ∈ d.options.Categories ∧ Int.land m.Category cat ≠ 0) ∧
      d.options.MinLevel ≤ m.Level := by
  simp only [Detector.keeps, Bool.and_eq_true, List.all_eq_true, Bool.not_eq_true',
    Bool.or_eq_true, List.isEmpty_iff, List.any_eq_true, bne_iff_ne, ne_eq,
    decide_eq_false_iff_not, not_lt, and_assoc]

/-- C13: for a detector whose matcher has been built, `Match` on the
normalized text returns a list `raw`, and `Find` returns the reference computed
from it: the raw matches, in their order, that pass the test, cut to the first
`MaxMatchCount` when that is positive. A match passes the test exactly when
every installed filter leaves its word alone, the category list is empty or
holds a category sharing a bit with the category of the match, and the level
of the match is not below `MinLevel`. The result is a sublist of the raw
matches, and with an empty category list the category plays no part. -/
theorem find_eq_reference (env : Env) (hv : env.visit.Valid) (cs : Bool) (words : List Word)
    (d : Detector) (hb : Matcher.BuiltFrom env cs words d.matcher) (text : String) :
    ∃ raw, Matcher.Match env d.matcher (Detector.preprocessText env d text) = some raw ∧
      Detector.Find env d text = some (Detector.findRef env d raw) ∧
      Detector.findRef env d raw =
        (if d.options.MaxMatchCount > 0 then
          ((raw.filter (Detector.keeps env d)).map toMatch).take d.options.MaxMatchCount.toNat
        else (raw.filter (Detector.keeps env d)).map toMatch) ∧
      (∀ m : MatchResult, Detector.keeps env d m = true ↔
        (∀ f, f ∈ d.filters → Filter.ShouldFilter env.toLower f m.Word = false) ∧
        (d.options.Categories = [] ∨
          ∃ cat, cat ∈ d.options.Categories ∧ Int.land m.Category cat ≠ 0) ∧
        d.options.MinLevel ≤ m.Level) ∧
      (Detector.findRef env d raw).Sublist (raw.map toMatch) ∧
      (d.options.Categories = [] → ∀ m : MatchResult,
        (Detector.keeps env d m = true ↔
          (∀ f, f ∈ d.filters → Filter.ShouldFilter env.toLower f m.Word = false) ∧
          d.options.MinLevel ≤ m.Level)) := by
  refine ⟨_, Matcher.match_built hv hb _, Detector.find_built hv hb text, rfl,
    Detector.keeps_iff env d, Detector.findRef_sublist env d _, ?_⟩
  intro hc m
  rw [Detector.keeps_iff, hc]
  simp

/-- Witness of C13: a detector with a whitelist holding `hell`, the category
list `[abuse]`, `MinLevel` high and at most two matches, over six entries all
present in the text: `hell` is flagged by the filter, `abc` has another
category, `bad` is below the level, and of the remaining `damn`, `crap`, `jerk`
the first two are returned. -/
theorem find_eq_reference_witness :
    (∃ raw, Matcher.Match asciiEnv guardedDetector.matcher
        (Detector.preprocessText asciiEnv guardedDetector "damn hell abc bad crap jerk") =
          some raw ∧
      Detector.Find asciiEnv guardedDetector "damn hell abc bad crap jerk" =
        some (Detector.findRef asciiEnv guardedDetector raw) ∧
      (Detector.findRef asciiEnv guardedDetector raw).Sublist (raw.map toMatch)) ∧
    Detector.Find asciiEnv guardedDetector "damn hell abc bad crap jerk" =
      some [{ Word := "damn", Start := 0, End := 4, Category := CategoryAbuse,
              Level := LevelHigh },
            { Word := "crap", Start := 18, End := 22, Category := CategoryAbuse,
              Level := LevelCritical }] ∧
    Matcher.Match asciiEnv guardedDetector.matcher "damn hell abc bad crap jerk" =
      some [mkMatch (abuseWord "damn" LevelHigh) 0 4, mkMatch (abuseWord "hell" LevelHigh) 5 9,
            mkMatch (mkWord "abc") 10 13, mkMatch (abuseWord "bad" LevelLow) 14 17,
            mkMatch (abuseWord "crap" LevelCritical) 18 22,
            mkMatch (abuseWord "jerk" LevelHigh) 23 27] := by
  refine ⟨?_, by decide, by decide⟩
  obtain ⟨raw, h1, h2, _, _, h5, _⟩ :=
    find_eq_reference asciiEnv RangeOrder.valid_id false
      [abuseWord "damn" LevelHigh, abuseWord "hell" LevelHigh, mkWord "abc",
       abuseWord "bad" LevelLow, abuseWord "crap" LevelCritical, abuseWord "jerk" LevelHigh]
      guardedDetector (Or.inl rfl) "damn hell abc bad crap jerk"
  exact ⟨raw, h1, h2, h5⟩

/-- C14: for a detector built from a dictionary that holds an entry `w` of
level high and category abuse, `Find` returns, and its result does not hold
the match of `w` (at any offsets) when `MinLevel` is critical, nor when the
category list is `[violence]`; with the default options and no filter it
holds that match wherever the normalized text has the code points of `w` and
`w` is the entry stored for them. -/
theorem find_applies_level_and_category (env : Env) (hv : env.visit.Valid) (cs : Bool)
    (words : List Word) (d : Detector) (hb : Matcher.BuiltFrom env cs words d.matcher)
    (w : Word) (hw : w ∈ words) (hl : w.Level = LevelHigh) (hc : w.Category = CategoryAbuse)
    (text : String) (i j : Nat) :
    ∃ found, Detector.Find env d text = some found ∧
      (d.options.MinLevel = LevelCritical → toMatch (mkMatch w i j) ∉ found) ∧
      (d.options.Categories = [CategoryViolence] → toMatch (mkMatch w i j) ∉ found) ∧
      (d.options = DefaultOptions → d.filters = [] → i < j →
        j ≤ (foldText env.toLower cs (Detector.preprocessText env d text)).length →
        lastWith (entryKey env.toLower cs) words
          (slice (foldText env.toLower cs (Detector.preprocessText env d text)) i j) = some w →
        toMatch (mkMatch w i j) ∈ found) := by
  have _ := hw
  refine ⟨_, Detector.find_built hv hb text, ?_, ?_, ?_⟩
  · intro hmin hmem
    obtain ⟨m, _, hk, hx⟩ := Detector.mem_findRef hmem
    have hlev : m.Level = LevelHigh := by
      have := congrArg Match.Level hx
      simp only [toMatch, mkMatch] at this
      rw [← this, hl]
    simp [Detector.keeps, hmin, hlev, LevelHigh, LevelCritical] at hk
  · intro hcat hmem
    obtain ⟨m, _, hk, hx⟩ := Detector.mem_findRef hmem
    have hcm : m.Category = CategoryAbuse := by
      have := congrArg Match.Category hx
      simp only [toMatch, mkMatch] at this
      rw [← this, hc]
    have hland : Int.land CategoryAbuse CategoryViolence = 0 := by decide
    simp [Detector.keeps, hcat, hcm, hland] at hk
  · intro hopt hf hij hj hlast
    have hraw : mkMatch w i j ∈ Matcher.occ env.toLower cs words d.matcher
        (Detector.preprocessText env d text) :=
      (Matcher.mem_occ _ _ _ _ _ _).2 ⟨i, j, w, hij, hj, hlast, rfl⟩
    have hkeep : Detector.keeps env d (mkMatch w i j) = true := by
      simp [Detector.keeps, Detector.shouldFilter, hf, hopt, DefaultOptions, mkMatch, hl,
        LevelHigh, LevelLow]
    have hcap : ¬ d.options.MaxMatchCount > 0 := by simp [hopt, DefaultOptions]
    simp only [Detector.findRef, hcap, if_false]
    exact List.mem_map.2 ⟨_, List.mem_filter.2 ⟨hraw, hkeep⟩, rfl⟩

/-- Witness of C14: the entry `"damn"` (abuse, high) and the text
`"you damn fool"`, through `Builder.Build`: excluded when `MinLevel` is
critical, excluded when the category list is `[violence]`, returned with the
default options. -/
theorem find_applies_level_and_category_witness :
    (∃ found, Detector.Find asciiEnv (plainDetector asciiEnv DefaultOptions [] [abuseEntry])
        "you damn fool" = some found ∧
      toMatch (mkMatch abuseEntry 4 8) ∈ found) ∧
    buildFind asciiEnv
      ((New.LoadWords [abuseEntry]).SetOptions { DefaultOptions with MinLevel := LevelCritical })
      "you damn fool" = some [] ∧
    buildFind asciiEnv
      ((New.LoadWords [abuseEntry]).SetOptions
        { DefaultOptions with Categories := [CategoryViolence] })
      "you damn fool" = some [] ∧
    buildFind asciiEnv (New.LoadWords [abuseEntry]) "you damn fool" =
      some [{ Word := "damn", Start := 4, End := 8, Category := CategoryAbuse,
              Level := LevelHigh }] := by
  refine ⟨?_, by decide, by decide, by decide⟩
  obtain ⟨found, h1, _, _, h4⟩ :=
    find_applies_level_and_category asciiEnv RangeOrder.valid_id false [abuseEntry]
      (plainDetector asciiEnv DefaultOptions [] [abuseEntry]) (Or.inl rfl) abuseEntry
      (by simp) rfl rfl "you damn fool" 4 8
  exact ⟨found, h1, h4 rfl rfl (by decide) (by decide) (by decide)⟩

/-! ## `Reload` and `Builder.Build` -/

theorem Matcher.build_new {env : Env} (hv : env.visit.Valid) (cs : Bool) (words : List Word)
    (k : Matcher) (hk : k = Matcher.dfa (NewDFAMatcher cs) ∨ k = Matcher.ac (NewACMatcher cs)) :
    ∃ m, Matcher.Build env k words = some (m, none) ∧ Matcher.BuiltFrom env cs words m ∧
      m.isAC = k.isAC := by
  rcases hk with rfl | rfl
  · exact Matcher.build_dfa env cs words
  · exact Matcher.build_ac hv cs words

theorem Detector.reloadMatcher_new (d : Detector) (words : List Word) :
    (Detector.reloadMatcher d words = Matcher.dfa (NewDFAMatcher d.options.CaseSensitive) ∨
      Detector.reloadMatcher d words = Matcher.ac (NewACMatcher d.options.CaseSensitive)) ∧
    (Detector.reloadMatcher d words).isAC = decide (5000 ≤ words.length) := by
  unfold Detector.reloadMatcher
  by_cases h : words.length < 5000
  · rw [if_pos h]
    exact ⟨Or.inl rfl, by simp only [Matcher.isAC]; symm; simpa using h⟩
  · rw [if_neg h]
    exact ⟨Or.inr rfl, by simp only [Matcher.isAC]; symm; simpa using h⟩

theorem Builder.newMatcher_new (b : Builder) (words : List Word) :
    Builder.newMatcher b words = Matcher.dfa (NewDFAMatcher b.options.CaseSensitive) ∨
      Builder.newMatcher b words = Matcher.ac (NewACMatcher b.options.CaseSensitive) := by
  unfold Builder.newMatcher
  split
  · split
    · exact Or.inl rfl
    · exact Or.inr rfl
  · split
    · exact Or.inl rfl
    · exact Or.inr rfl

/-- The method `Reload` returns, with a nil error, and installs the matcher
built from the new entries, of the kind given by their number. -/
theorem Detector.reload_built {env : Env} (hv : env.visit.Valid) (d : Detector)
    (words : List Word) :
    ∃ m, Detector.Reload env d words = some ({ d with matcher := m }, none) ∧
      Matcher.Build env (Detector.reloadMatcher d words) words = some (m, none) ∧
      Matcher.BuiltFrom env d.options.CaseSensitive words m ∧
      m.isAC = decide (5000 ≤ words.length) := by
  obtain ⟨hnew, hkind⟩ := Detector.reloadMatcher_new d words
  obtain ⟨m, hm, hb, hk⟩ := Matcher.build_new hv d.options.CaseSensitive words _ hnew
  refine ⟨m, ?_, hm, hb, hk.trans hkind⟩
  simp only [Detector.Reload, Detector.reloadWith, hm]

/-- The method `Builder.Build` returns a detector when the loaders succeed. -/
theorem Builder.build_spec {env : Env} (hv : env.visit.Valid) (b : Builder) (ws : List Word)
    (hload : Builder.loadAll env b.loaders b.words = Except.ok ws) :
    ∃ det, Builder.Build env b = some (Except.ok det) ∧ det.options = b.options ∧
      Matcher.Build env (Builder.newMatcher b ws) ws = some (det.matcher, none) ∧
      Matcher.BuiltFrom env b.options.CaseSensitive ws det.matcher ∧
      det.matcher.isAC = (Builder.newMatcher b ws).isAC ∧
      det.processors = Builder.processors b.options := by
  obtain ⟨m, hm, hb, hk⟩ :=
    Matcher.build_new hv b.options.CaseSensitive ws _ (Builder.newMatcher_new b ws)
  simp only [Builder.Build, hload, hm]
  exact ⟨_, rfl, rfl, rfl, hb, hk, rfl⟩

theorem Detector.keeps_congr (env : Env) {d d1 : Detector} (hf : d1.filters = d.filters)
    (ho : d1.options = d.options) : Detector.keeps env d1 = Detector.keeps env d := by
  funext m
  simp only [Detector.keeps, hf, ho]

/-! ## The whitelist -/

theorem boolMapGet_cons (k1 k2 : String) (v2 : Bool) (rest : List (String × Bool)) :
    boolMapGet ((k2, v2) :: rest) k1 = if k1 = k2 then v2 else boolMapGet rest k1 := by
  unfold boolMapGet
  rw [List.lookup_cons]
  by_cases h : k1 = k2
  · subst h
    simp
  · have hb : (k1 == k2) = false := by simpa using h
    simp [hb, h]

theorem boolMapGet_set (m : List (String × Bool)) (k : String) (v : Bool) (k1 : String) :
    boolMapGet (boolMapSet k v m) k1 = if k1 = k then v else boolMapGet m k1 := by
  induction m with
  | nil => simp only [boolMapSet, boolMapGet_cons]
  | cons e rest ih =>
    obtain ⟨k2, v2⟩ := e
    by_cases h2 : k2 = k
    · subst h2
      simp only [boolMapSet, if_true, boolMapGet_cons]
      split_ifs <;> rfl
    · simp only [boolMapSet, h2, if_false, boolMapGet_cons, ih]
      by_cases h3 : k1 = k2
      · have : ¬ k1 = k := fun hc => h2 (h3.symm.trans hc)
        simp only [h3, if_true]
        rw [if_neg (fun hc => h2 hc)]
      · simp only [h3, if_false]

theorem boolMapGet_fold (toLower : Rune → Rune) (k : String) (ws : List String)
    (acc : List (String × Bool))
    (h : boolMapGet acc k = true ∨ ∃ v, v ∈ ws ∧ mapRunes toLower v = k) :
    boolMapGet (ws.foldl (fun wordMap word => boolMapSet (mapRunes toLower word) true wordMap)
      acc) k = true := by
  induction ws generalizing acc with
  | nil =>
    rcases h with h | ⟨v, hv, _⟩
    · exact h
    · simp at hv
  | cons x rest ih =>
    simp only [List.foldl_cons]
    apply ih
    by_cases hx : k = mapRunes toLower x
    · left
      rw [boolMapGet_set, if_pos hx]
    · rcases h with h | ⟨v, hv, hk⟩
      · left
        rw [boolMapGet_set, if_neg hx]
        exact h
      · rcases List.mem_cons.1 hv with rfl | hv
        · exact absurd hk.symm hx
        · exact Or.inr ⟨v, hv, hk⟩

/-- A whitelist created from a list that holds `w` in some letter case
contains `w`. -/
theorem NewWhitelist_contains (toLower : Rune → Rune) (ws : List String) (v w : String)
    (hv : v ∈ ws) (he : mapRunes toLower v = mapRunes toLower w) :
    Whitelist.Contains toLower (NewWhitelist toLower ws) w = true := by
  unfold Whitelist.Contains NewWhitelist
  exact boolMapGet_fold toLower _ ws [] (Or.inr ⟨v, hv, he⟩)

/-- A detector with a whitelist that contains `w` drops every match whose
word is `w` up to letter case. -/
theorem Detector.keeps_whitelisted {env : Env} {d : Detector} {wl : Whitelist} {w : String}
    (hwl : Filter.whitelist wl ∈ d.filters) (hc : Whitelist.Contains env.toLower wl w = true)
    {m : MatchResult} (hk : Detector.keeps env d m = true) :
    mapRunes env.toLower m.Word ≠ mapRunes env.toLower w := by
  intro he
  have hflag : Detector.shouldFilter env d m.Word = true := by
    unfold Detector.shouldFilter
    rw [List.any_eq_true]
    refine ⟨_, hwl, ?_⟩
    simp only [Filter.ShouldFilter, Whitelist.ShouldFilter, he]
    exact hc
  simp [Detector.keeps_shouldFilter, hflag] at hk

theorem Detector.preprocessText_congr (env : Env) {d d1 : Detector}
    (h : d1.processors = d.processors) (text : String) :
    Detector.preprocessText env d1 text = Detector.preprocessText env d text := by
  simp only [Detector.preprocessText, h]

/-- C17 (amended): `Reload(entries)` returns and installs the plain trie when
there are fewer than 5000 entries and the failure-link automaton otherwise,
whatever the options say. `Builder.Build`, for the same entries, agrees with it
when the algorithm is `AlgorithmAuto` (the reloaded automaton is then the one
`Build` made); with `AlgorithmDFA` it builds the plain trie and with any other
value the failure-link automaton, whatever the number of entries. -/
theorem reload_and_build_choose_automaton (env : Env) (hv : env.visit.Valid) (b : Builder)
    (ws : List Word) (hload : Builder.loadAll env b.loaders b.words = Except.ok ws)
    (hsync : b.algorithmType = b.options.Algorithm) :
    ∃ det, Builder.Build env b = some (Except.ok det) ∧
      ∃ det1, Detector.Reload env det ws = some (det1, none) ∧
        det1.matcher.isAC = decide (5000 ≤ ws.length) ∧
        (b.options.Algorithm = AlgorithmAuto → det1.matcher = det.matcher) ∧
        (b.options.Algorithm = AlgorithmDFA → det.matcher.isAC = false) ∧
        (b.options.Algorithm ≠ AlgorithmAuto → b.options.Algorithm ≠ AlgorithmDFA →
          det.matcher.isAC = true) := by
  obtain ⟨det, hbuild, hopt, hm, _, hkind, _⟩ := Builder.build_spec hv b ws hload
  obtain ⟨m, hr, hm1, _, hk1⟩ := Detector.reload_built hv det ws
  refine ⟨det, hbuild, _, hr, hk1, ?_, ?_, ?_⟩
  · intro hauto
    have hsame : Detector.reloadMatcher det ws = Builder.newMatcher b ws := by
      simp only [Detector.reloadMatcher, Builder.newMatcher, hsync, hauto, hopt, if_true]
    rw [hsame, hm] at hm1
    simp only [Option.some.injEq, Prod.mk.injEq, and_true] at hm1
    exact hm1.symm
  · intro hdfa
    rw [hkind]
    simp [Builder.newMatcher, hsync, hdfa, AlgorithmDFA, AlgorithmAuto, Matcher.isAC]
  · intro h1 h2
    rw [hkind]
    simp [Builder.newMatcher, hsync, h1, h2, Matcher.isAC]

/-- Witness of C17: the builder with the single entry `"x"` and default
options. -/
theorem reload_and_build_choose_automaton_witness :
    ∃ det, Builder.Build asciiEnv (New.LoadWords [mkWord "x"]) = some (Except.ok det) ∧
      ∃ det1, Detector.Reload asciiEnv det [mkWord "x"] = some (det1, none) ∧
        det1.matcher.isAC = false ∧ det1.matcher = det.matcher := by
  obtain ⟨det, h1, det1, h2, h3, h4, _⟩ :=
    reload_and_build_choose_automaton asciiEnv RangeOrder.valid_id (New.LoadWords [mkWord "x"])
      [mkWord "x"] rfl rfl
  exact ⟨det, h1, det1, h2, by simpa using h3, h4 rfl⟩

/-- Counterexample to C17 as written: with `UseAlgorithm(AlgorithmAC)` and a
single entry, `Builder.Build` builds the failure-link automaton although there
are fewer than 5000 entries, and `Reload` of the same entry installs the plain
trie, not the kind that `Build` built. -/
theorem explicit_algorithm_overrides_threshold :
    buildKind asciiEnv ((New.UseAlgorithm AlgorithmAC).LoadWords [mkWord "x"]) = some true ∧
    buildReloadKind asciiEnv ((New.UseAlgorithm AlgorithmAC).LoadWords [mkWord "x"])
      [mkWord "x"] = some false := by
  decide

/-- C18: whatever the implementation `build` of the call
`newMatcher.Build(words)`, when `Reload` returns an error the detector is the
one before the call, so every operation on it returns what it returned before;
and when the matcher of the detector has changed, `Reload` returned nil and the
new matcher is the one that `build` returned together with a nil error. The
method `Reload` is this with the `Build` of the two automatons. -/
theorem reload_failure_keeps_detector (build : Matcher → List Word → Option (Matcher × GoError))
    (d : Detector) (words : List Word) (d1 : Detector) (e : GoError)
    (h : Detector.reloadWith build d words = some (d1, e)) :
    (e ≠ none → d1 = d) ∧
    (d1.matcher ≠ d.matcher →
      e = none ∧ build (Detector.reloadMatcher d words) words = some (d1.matcher, none)) ∧
    (∀ env : Env, Detector.Reload env d words =
      Detector.reloadWith (Matcher.Build env) d words) := by
  unfold Detector.reloadWith at h
  refine ⟨?_, ?_, fun _ => rfl⟩
  · intro he
    cases hb : build (Detector.reloadMatcher d words) words with
    | none => simp [hb] at h
    | some r =>
      obtain ⟨m, err⟩ := r
      cases err with
      | none =>
        simp only [hb, Option.some.injEq, Prod.mk.injEq] at h
        exact absurd h.2.symm he
      | some s =>
        simp only [hb, Option.some.injEq, Prod.mk.injEq] at h
        exact h.1.symm
  · intro hne
    cases hb : build (Detector.reloadMatcher d words) words with
    | none => simp [hb] at h
    | some r =>
      obtain ⟨m, err⟩ := r
      cases err with
      | none =>
        simp only [hb, Option.some.injEq, Prod.mk.injEq] at h
        obtain ⟨h1, h2⟩ := h
        subst h1
        exact ⟨h2.symm, rfl⟩
      | some s =>
        simp only [hb, Option.some.injEq, Prod.mk.injEq] at h
        exact absurd (by rw [← h.1]) hne

/-- Witness of C18: a build step that fails, on a detector over the entry
`"x"`. -/
theorem reload_failure_keeps_detector_witness :
    Detector.reloadWith failingBuild (plainDetector asciiEnv DefaultOptions [] [mkWord "x"])
        [mkWord "y"] =
      some (plainDetector asciiEnv DefaultOptions [] [mkWord "x"], some "build failed") ∧
    ((some "build failed" : GoError) ≠ none →
      plainDetector asciiEnv DefaultOptions [] [mkWord "x"] =
        plainDetector asciiEnv DefaultOptions [] [mkWord "x"]) :=
  ⟨rfl, (reload_failure_keeps_detector failingBuild
      (plainDetector asciiEnv DefaultOptions [] [mkWord "x"]) [mkWord "y"]
      (plainDetector asciiEnv DefaultOptions [] [mkWord "x"]) (some "build failed") rfl).1⟩

/-- C19: `Reload` returns, and the filters, the processors, the options and
the watchers of the detector are the same after it as before; this holds as
well for every implementation of the build step, whether it fails or not. -/
theorem reload_changes_only_matcher (env : Env) (hv : env.visit.Valid) (d : Detector)
    (words : List Word) :
    (∃ d1, Detector.Reload env d words = some (d1, none) ∧ d1.filters = d.filters ∧
      d1.processors = d.processors ∧ d1.options = d.options ∧ d1.watchers = d.watchers) ∧
    (∀ (build : Matcher → List Word → Option (Matcher × GoError)) (d1 : Detector) (e : GoError),
      Detector.reloadWith build d words = some (d1, e) →
        d1.filters = d.filters ∧ d1.processors = d.processors ∧ d1.options = d.options ∧
          d1.watchers = d.watchers) := by
  constructor
  · obtain ⟨m, hr, _⟩ := Detector.reload_built hv d words
    exact ⟨_, hr, rfl, rfl, rfl, rfl⟩
  · intro build d1 e h
    unfold Detector.reloadWith at h
    cases hb : build (Detector.reloadMatcher d words) words with
    | none => simp [hb] at h
    | some r =>
      obtain ⟨m, err⟩ := r
      cases err with
      | none =>
        simp only [hb, Option.some.injEq, Prod.mk.injEq] at h
        obtain ⟨h1, _⟩ := h
        subst h1
        exact ⟨rfl, rfl, rfl, rfl⟩
      | some s =>
        simp only [hb, Option.some.injEq, Prod.mk.injEq] at h
        obtain ⟨h1, _⟩ := h
        subst h1
        exact ⟨rfl, rfl, rfl, rfl⟩

/-- Witness of C19: a detector with a whitelist, reloaded with the entry
`"y"`. -/
theorem reload_changes_only_matcher_witness :
    ∃ d1, Detector.Reload asciiEnv
        (plainDetector asciiEnv DefaultOptions
          [Filter.whitelist (NewWhitelist asciiToLower ["x"])] [mkWord "x"])
        [mkWord "y"] = some (d1, none) ∧
      d1.filters = [Filter.whitelist (NewWhitelist asciiToLower ["x"])] ∧
      d1.options = DefaultOptions :=
  let ⟨d1, h1, h2, _, h4, _⟩ :=
    (reload_changes_only_matcher asciiEnv RangeOrder.valid_id
      (plainDetector asciiEnv DefaultOptions
        [Filter.whitelist (NewWhitelist asciiToLower ["x"])] [mkWord "x"]) [mkWord "y"]).1
  ⟨d1, h1, h2, h4⟩

/-! ## The whitelist -/

/-- C20: for a detector that has a whitelist containing `w`, `Find` returns
and so does `FindAll`, and no match among theirs has a word equal to `w` up to
lower-casing; `Contains`, `Validate`, `ReplaceRune` and the `FilteredText` of
`FindAll` return the same whatever the list of filters is, in particular
without the whitelist. A whitelist created from a list that holds `w` in some
letter case contains `w`. -/
theorem whitelist_affects_only_reports (env : Env) (hv : env.visit.Valid) (cs : Bool)
    (words : List Word) (d : Detector) (hb : Matcher.BuiltFrom env cs words d.matcher)
    (wl : Whitelist) (w : String) (hwl : Filter.whitelist wl ∈ d.filters)
    (hc : Whitelist.Contains env.toLower wl w = true) (text : String) :
    (∃ found, Detector.Find env d text = some found ∧
      ∀ m, m ∈ found → mapRunes env.toLower m.Word ≠ mapRunes env.toLower w) ∧
    (∃ r, Detector.FindAll env d text = some r ∧
      ∀ m, m ∈ r.Matches → mapRunes env.toLower m.Word ≠ mapRunes env.toLower w) ∧
    (∀ fs : List Filter,
      Detector.Contains env { d with filters := fs } text = Detector.Contains env d text ∧
      Detector.Validate env { d with filters := fs } text = Detector.Validate env d text ∧
      (∀ r, Detector.ReplaceRune env { d with filters := fs } text r =
        Detector.ReplaceRune env d text r) ∧
      (Detector.FindAll env { d with filters := fs } text).map Result.FilteredText =
        (Detector.FindAll env d text).map Result.FilteredText) ∧
    (∀ (ws : List String) (v : String), v ∈ ws →
      mapRunes env.toLower v = mapRunes env.toLower w →
      Whitelist.Contains env.toLower (NewWhitelist env.toLower ws) w = true) := by
  have hdrop : ∀ m, m ∈ Detector.findRef env d
      (Matcher.occ env.toLower cs words d.matcher (Detector.preprocessText env d text)) →
      mapRunes env.toLower m.Word ≠ mapRunes env.toLower w := by
    intro x hx
    obtain ⟨m, _, hk, rfl⟩ := Detector.mem_findRef hx
    exact Detector.keeps_whitelisted hwl hc hk
  obtain ⟨filtered, hrep, hall⟩ := Detector.findAll_built hv hb text
  refine ⟨⟨_, Detector.find_built hv hb text, hdrop⟩, ⟨_, hall, hdrop⟩, ?_, ?_⟩
  · intro fs
    have hb1 : Matcher.BuiltFrom env cs words ({ d with filters := fs } : Detector).matcher := hb
    obtain ⟨filtered1, hrep1, hall1⟩ := Detector.findAll_built hv hb1 text
    refine ⟨rfl, rfl, fun _ => rfl, ?_⟩
    rw [hall, hall1]
    have : filtered1 = filtered := by
      have h1 : Detector.ReplaceRune env ({ d with filters := fs } : Detector) text
          d.options.ReplaceChar = Detector.ReplaceRune env d text d.options.ReplaceChar := rfl
      have h2 : Detector.ReplaceRune env ({ d with filters := fs } : Detector) text
          d.options.ReplaceChar = some filtered1 := hrep1
      rw [h1, hrep] at h2
      exact (Option.some.inj h2).symm
    simp only [Option.map_some', this]
  · intro ws v hv1 he
    exact NewWhitelist_contains env.toLower ws v w hv1 he

/-- Witness of C20: the dictionary `"bad"`, `"evil"` with the whitelist
`["Bad"]`, and the text `"bad evil"`: `Find` reports only `evil`, while the
filtered text masks both words. -/
theorem whitelist_affects_only_reports_witness :
    (∃ found, Detector.Find asciiEnv
        (plainDetector asciiEnv DefaultOptions
          [Filter.whitelist (NewWhitelist asciiToLower ["Bad"])] [mkWord "bad", mkWord "evil"])
        "bad evil" = some found ∧
      ∀ m, m ∈ found → mapRunes asciiToLower m.Word ≠ mapRunes asciiToLower "BAD") ∧
    (Detector.FindAll asciiEnv
        (plainDetector asciiEnv DefaultOptions
          [Filter.whitelist (NewWhitelist asciiToLower ["Bad"])] [mkWord "bad", mkWord "evil"])
        "bad evil") =
      some { Found := true,
             Matches := [{ Word := "evil", Start := 4, End := 8, Category := CategoryOther,
                           Level := LevelMedium }],
             FilteredText := "*** ****" } :=
  ⟨(whitelist_affects_only_reports asciiEnv RangeOrder.valid_id false
      [mkWord "bad", mkWord "evil"]
      (plainDetector asciiEnv DefaultOptions
        [Filter.whitelist (NewWhitelist asciiToLower ["Bad"])] [mkWord "bad", mkWord "evil"])
      (Or.inl rfl) (NewWhitelist asciiToLower ["Bad"]) "BAD" (by simp [plainDetector])
      (by decide) "bad evil").1, by decide⟩

/-! ## Maps with code-point keys -/

theorem lookup_runeMapPut {β : Type} (m : List (Rune × β)) (k : Rune) (v : β) (k1 : Rune) :
    (runeMapPut k v m).lookup k1 = if k1 = k then some v else m.lookup k1 := by
  induction m with
  | nil =>
    by_cases h : k1 = k
    · subst h; simp [runeMapPut, List.lookup_cons]
    · have hb : (k1 == k) = false := by simpa using h
      simp [runeMapPut, List.lookup_cons, hb, h]
  | cons e rest ih =>
    obtain ⟨k2, v2⟩ := e
    by_cases h2 : k2 = k
    · subst h2
      by_cases h : k1 = k2
      · subst h; simp [runeMapPut, List.lookup_cons]
      · have hb : (k1 == k2) = false := by simpa using h
        simp [runeMapPut, List.lookup_cons, hb, h]
    · by_cases h3 : k1 = k2
      · subst h3
        simp [runeMapPut, h2, List.lookup_cons]
      · have hb : (k1 == k2) = false := by simpa using h3
        simp [runeMapPut, h2, List.lookup_cons, hb, ih]

theorem mem_of_lookup {β : Type} {l : List (Rune × β)} {k : Rune} {v : β}
    (h : l.lookup k = some v) : (k, v) ∈ l := by
  induction l with
  | nil => simp at h
  | cons e rest ih =>
    obtain ⟨k2, v2⟩ := e
    rw [List.lookup_cons] at h
    by_cases hk : k = k2
    · subst hk
      simp only [beq_self_eq_true, Option.some.injEq] at h
      subst h
      exact List.mem_cons_self _ _
    · have hb : (k == k2) = false := by simpa using hk
      simp only [hb] at h
      exact List.mem_cons_of_mem _ (ih h)

theorem lookup_isSome_of_mem {β : Type} {l : List (Rune × β)} {k : Rune} {v : β}
    (h : (k, v) ∈ l) : (l.lookup k).isSome = true := by
  induction l with
  | nil => simp at h
  | cons e rest ih =>
    obtain ⟨k2, v2⟩ := e
    rw [List.lookup_cons]
    by_cases hk : k = k2
    · subst hk; simp
    · have hb : (k == k2) = false := by simpa using hk
      simp only [hb]
      apply ih
      rcases List.mem_cons.1 h with h1 | h1
      · exact absurd (congrArg Prod.fst h1) hk
      · exact h1

/-- The map filled by `t2s[v] = k` for the entries `(k, v)` of a list whose
second components are distinct. -/
theorem lookup_inverse_map (l : List (Rune × Rune)) (hn : (l.map Prod.snd).Nodup) (v k : Rune) :
    (l.foldl (fun m e => runeMapPut e.2 e.1 m) []).lookup v = some k ↔ (k, v) ∈ l := by
  induction l using List.reverseRecOn with
  | nil => simp
  | append_singleton l e ih =>
    rw [List.map_append, List.nodup_append] at hn
    obtain ⟨hn1, _, hdis⟩ := hn
    rw [List.foldl_append, List.foldl_cons, List.foldl_nil, lookup_runeMapPut]
    by_cases hv : v = e.2
    · rw [if_pos hv]
      constructor
      · intro h
        have hk : e.1 = k := Option.some.inj h
        rw [← hk, hv]
        simp
      · intro h
        rcases List.mem_append.1 h with h1 | h1
        · exfalso
          have hmem : v ∈ l.map Prod.snd := List.mem_map.2 ⟨(k, v), h1, rfl⟩
          exact hdis hmem (by rw [hv]; simp)
        · simp only [List.mem_singleton] at h1
          rw [← h1]
    · rw [if_neg hv, ih hn1]
      constructor
      · intro h
        exact List.mem_append_left _ h
      · intro h
        rcases List.mem_append.1 h with h1 | h1
        · exact h1
        · simp only [List.mem_singleton] at h1
          exact absurd (by rw [← h1]) hv

theorem map_eq_self_iff {f : Rune → Rune} {l : List Rune} :
    l.map f = l ↔ ∀ r, r ∈ l → f r = r := by
  induction l with
  | nil => simp
  | cons a l ih => simp [ih]

theorem runes_ofRunes (l : List Rune) : runes (ofRunes l) = l := rfl

theorem ofRunes_runes (s : String) : ofRunes (runes s) = s := rfl

theorem ofRunes_inj {a b : List Rune} (h : ofRunes a = ofRunes b) : a = b :=
  congrArg runes h

theorem flatMap_flatMap_self {f : Rune → List Rune} (h : ∀ r, (f r).flatMap f = f r)
    (l : List Rune) : (l.flatMap f).flatMap f = l.flatMap f := by
  induction l with
  | nil => rfl
  | cons a l ih => simp only [List.flatMap_cons, List.flatMap_append, h, ih]

/-! ## The conversion maps -/

/-- The traditional forms of the table are distinct. -/
theorem s2t_values_nodup : ((mapOfLiteral s2tLiteral).map Prod.snd).Nodup := by decide!

/-- A simplified form of the table that is also a traditional form is the
traditional form of itself. -/
theorem s2t_key_as_value :
    ∀ e, e ∈ mapOfLiteral s2tLiteral → ∀ e1, e1 ∈ mapOfLiteral s2tLiteral →
      e1.2 = e.1 → e1.1 = e.1 := by decide!

theorem t2s_lookup {visit : List (Rune × Rune) → List (Rune × Rune)} (hv : ValidOrder visit)
    (v k : Rune) :
    (NewTraditionalProcessor visit).t2sMap.lookup v = some k ↔
      (k, v) ∈ mapOfLiteral s2tLiteral := by
  have hperm := hv (mapOfLiteral s2tLiteral)
  have hn : ((visit (mapOfLiteral s2tLiteral)).map Prod.snd).Nodup :=
    ((hperm.map Prod.snd).nodup_iff).2 s2t_values_nodup
  simp only [NewTraditionalProcessor, buildConversionMaps]
  rw [lookup_inverse_map _ hn, hperm.mem_iff]

theorem simplifiedOf_value {visit : List (Rune × Rune) → List (Rune × Rune)}
    (hv : ValidOrder visit) (k v : Rune) (h : (k, v) ∈ mapOfLiteral s2tLiteral) :
    TraditionalProcessor.simplifiedOf (NewTraditionalProcessor visit) v = k := by
  simp only [TraditionalProcessor.simplifiedOf, (t2s_lookup hv v k).2 h]

/-- What `ToSimplified` writes is left unchanged by it. -/
theorem simplifiedOf_idem {visit : List (Rune × Rune) → List (Rune × Rune)}
    (hv : ValidOrder visit) (r : Rune) :
    TraditionalProcessor.simplifiedOf (NewTraditionalProcessor visit)
        (TraditionalProcessor.simplifiedOf (NewTraditionalProcessor visit) r) =
      TraditionalProcessor.simplifiedOf (NewTraditionalProcessor visit) r := by
  cases h : (NewTraditionalProcessor visit).t2sMap.lookup r with
  | none => simp only [TraditionalProcessor.simplifiedOf, h]
  | some k =>
    have hk := (t2s_lookup hv r k).1 h
    have hr : TraditionalProcessor.simplifiedOf (NewTraditionalProcessor visit) r = k := by
      simp only [TraditionalProcessor.simplifiedOf, h]
    rw [hr]
    cases h1 : (NewTraditionalProcessor visit).t2sMap.lookup k with
    | none => simp only [TraditionalProcessor.simplifiedOf, h1]
    | some k1 =>
      have hk1 := (t2s_lookup hv k k1).1 h1
      simp only [TraditionalProcessor.simplifiedOf, h1]
      exact s2t_key_as_value (k, r) hk (k1, k) hk1 rfl

theorem ToSimplified_idem {visit : List (Rune × Rune) → List (Rune × Rune)}
    (hv : ValidOrder visit) (text : String) :
    TraditionalProcessor.ToSimplified (NewTraditionalProcessor visit)
        (TraditionalProcessor.ToSimplified (NewTraditionalProcessor visit) text) =
      TraditionalProcessor.ToSimplified (NewTraditionalProcessor visit) text := by
  simp only [TraditionalProcessor.ToSimplified, runes_ofRunes, List.map_map]
  congr 1
  apply List.map_congr_left
  intro r _
  exact simplifiedOf_idem hv r

theorem ToSimplified_ToTraditional {visit : List (Rune × Rune) → List (Rune × Rune)}
    (hv : ValidOrder visit) (text : String)
    (h : TraditionalProcessor.ToSimplified (NewTraditionalProcessor visit) text = text) :
    TraditionalProcessor.ToSimplified (NewTraditionalProcessor visit)
        (TraditionalProcessor.ToTraditional (NewTraditionalProcessor visit) text) = text := by
  have hfix : ∀ r, r ∈ runes text →
      TraditionalProcessor.simplifiedOf (NewTraditionalProcessor visit) r = r := by
    have h1 := ofRunes_inj (h.trans (ofRunes_runes text).symm)
    exact map_eq_self_iff.1 h1
  simp only [TraditionalProcessor.ToSimplified, TraditionalProcessor.ToTraditional,
    runes_ofRunes, List.map_map]
  conv_rhs => rw [← ofRunes_runes text]
  congr 1
  conv_rhs => rw [← List.map_id (runes text)]
  apply List.map_congr_left
  intro r hr
  simp only [Function.comp, id]
  cases hs : (NewTraditionalProcessor visit).s2tMap.lookup r with
  | none =>
    simp only [TraditionalProcessor.traditionalOf, hs]
    exact hfix r hr
  | some v =>
    have hmem : (r, v) ∈ mapOfLiteral s2tLiteral := mem_of_lookup hs
    simp only [TraditionalProcessor.traditionalOf, hs]
    exact simplifiedOf_value hv r v hmem

/-- A text none of whose code points is a traditional form of another one is
returned unchanged. -/
theorem ToSimplified_of_simplified {visit : List (Rune × Rune) → List (Rune × Rune)}
    (hv : ValidOrder visit) (text : String)
    (h : ∀ r, r ∈ runes text → ∀ e, e ∈ mapOfLiteral s2tLiteral → e.2 = r → e.1 = r) :
    TraditionalProcessor.ToSimplified (NewTraditionalProcessor visit) text = text := by
  simp only [TraditionalProcessor.ToSimplified]
  conv_rhs => rw [← ofRunes_runes text]
  congr 1
  conv_rhs => rw [← List.map_id (runes text)]
  apply List.map_congr_left
  intro r hr
  cases hs : (NewTraditionalProcessor visit).t2sMap.lookup r with
  | none => simp only [TraditionalProcessor.simplifiedOf, hs, id]
  | some k =>
    simp only [TraditionalProcessor.simplifiedOf, hs, id]
    exact h r hr (k, r) ((t2s_lookup hv r k).1 hs) rfl

theorem validOrder_id {α : Type} : ValidOrder (id : List α → List α) :=
  fun l => List.Perm.refl l

theorem validOrder_reverse {α : Type} : ValidOrder (List.reverse : List α → List α) :=
  fun l => List.reverse_perm l

/-! ## The symbol processor -/

theorem SymbolProcessor.process_new (isLetter isDigit isSpace : Rune → Bool) (text : String) :
    SymbolProcessor.Process isLetter isDigit isSpace NewSymbolProcessor text =
      ofRunes ((runes text).flatMap (SymbolProcessor.step isLetter isDigit isSpace)) := rfl

theorem SymbolProcessor.step_kept {isLetter isDigit isSpace : Rune → Bool} {r : Rune}
    (h : (isLetter r || isDigit r || isCJK r) = true) :
    SymbolProcessor.step isLetter isDigit isSpace r = [r] := by
  simp only [SymbolProcessor.step, h, if_true]

theorem SymbolProcessor.step_space {isLetter isDigit isSpace : Rune → Bool} {r : Rune}
    (h : (isLetter r || isDigit r || isCJK r) = false) (hs : isSpace r = true) :
    SymbolProcessor.step isLetter isDigit isSpace r = [' '] := by
  simp [SymbolProcessor.step, h, hs]

theorem SymbolProcessor.step_dropped {isLetter isDigit isSpace : Rune → Bool} {r : Rune}
    (h : (isLetter r || isDigit r || isCJK r) = false) (hs : isSpace r = false) :
    SymbolProcessor.step isLetter isDigit isSpace r = [] := by
  simp [SymbolProcessor.step, h, hs]

theorem SymbolProcessor.step_cases (isLetter isDigit isSpace : Rune → Bool) (r : Rune) :
    SymbolProcessor.step isLetter isDigit isSpace r = [r] ∧
        (isLetter r || isDigit r || isCJK r) = true ∨
      SymbolProcessor.step isLetter isDigit isSpace r = [' '] ∧
        (isLetter r || isDigit r || isCJK r) = false ∧ isSpace r = true ∨
      SymbolProcessor.step isLetter isDigit isSpace r = [] ∧
        (isLetter r || isDigit r || isCJK r) = false ∧ isSpace r = false := by
  cases h : (isLetter r || isDigit r || isCJK r)
  · cases hs : isSpace r
    · exact Or.inr (Or.inr ⟨SymbolProcessor.step_dropped h hs, rfl, rfl⟩)
    · exact Or.inr (Or.inl ⟨SymbolProcessor.step_space h hs, rfl, rfl⟩)
  · exact Or.inl ⟨SymbolProcessor.step_kept h, rfl⟩

theorem SymbolProcessor.symbol_step_step {isLetter isDigit isSpace : Rune → Bool}
    (hsp : isSpace ' ' = true) (r : Rune) :
    (SymbolProcessor.step isLetter isDigit isSpace r).flatMap
        (SymbolProcessor.step isLetter isDigit isSpace) =
      SymbolProcessor.step isLetter isDigit isSpace r := by
  rcases SymbolProcessor.step_cases isLetter isDigit isSpace r with ⟨h, hk⟩ | ⟨h, _, _⟩ | ⟨h, _, _⟩
  · rw [h]
    simp [SymbolProcessor.step_kept hk]
  · rw [h]
    cases hk : (isLetter ' ' || isDigit ' ' || isCJK ' ')
    · simp [SymbolProcessor.step_space hk hsp]
    · simp [SymbolProcessor.step_kept hk]
  · rw [h]
    rfl

theorem SymbolProcessor.symbol_idem {isLetter isDigit isSpace : Rune → Bool}
    (hsp : isSpace ' ' = true) (text : String) :
    SymbolProcessor.Process isLetter isDigit isSpace NewSymbolProcessor
        (SymbolProcessor.Process isLetter isDigit isSpace NewSymbolProcessor text) =
      SymbolProcessor.Process isLetter isDigit isSpace NewSymbolProcessor text := by
  simp only [SymbolProcessor.process_new, runes_ofRunes]
  rw [flatMap_flatMap_self (SymbolProcessor.symbol_step_step hsp)]

theorem SymbolProcessor.mem_output {isLetter isDigit isSpace : Rune → Bool} {l : List Rune}
    {r : Rune} (h : r ∈ l.flatMap (SymbolProcessor.step isLetter isDigit isSpace)) :
    (isLetter r || isDigit r || isCJK r) = true ∨ r = ' ' := by
  obtain ⟨x, _, hx⟩ := List.mem_flatMap.1 h
  rcases SymbolProcessor.step_cases isLetter isDigit isSpace x with ⟨hs, hk⟩ | ⟨hs, _, _⟩ | ⟨hs, _, _⟩
  · rw [hs, List.mem_singleton] at hx
    exact Or.inl (hx ▸ hk)
  · rw [hs, List.mem_singleton] at hx
    exact Or.inr hx
  · rw [hs] at hx
    simp at hx

theorem SymbolProcessor.length_output (isLetter isDigit isSpace : Rune → Bool) (l : List Rune) :
    (l.flatMap (SymbolProcessor.step isLetter isDigit isSpace)).length =
      l.countP (fun r => isLetter r || isDigit r || isCJK r || isSpace r) := by
  induction l with
  | nil => rfl
  | cons x l ih =>
    rw [List.flatMap_cons, List.length_append, ih, List.countP_cons]
    rcases SymbolProcessor.step_cases isLetter isDigit isSpace x with
      ⟨hs, hk⟩ | ⟨hs, hk, hsp⟩ | ⟨hs, hk, hsp⟩
    · simp [hs, hk]; omega
    · simp [hs, hk, hsp]; omega
    · simp [hs, hk, hsp]

/-- Inserted code points that the processor drops leave no trace. -/
theorem SymbolProcessor.strip_inserted (env : Env) (w t : List Rune)
    (hw : ∀ r, r ∈ w → symbolKept env r = true)
    (h : insertedOnly (symbolDropped env) w t = true) :
    t.flatMap (SymbolProcessor.step env.isLetter env.isDigit env.isSpace) = w := by
  induction t generalizing w with
  | nil =>
    cases w with
    | nil => rfl
    | cons r w => simp [insertedOnly] at h
  | cons x t ih =>
    have hdrop : symbolDropped env x = true →
        SymbolProcessor.step env.isLetter env.isDigit env.isSpace x = [] := by
      intro hx
      simp only [symbolDropped, symbolKept, Bool.and_eq_true, Bool.not_eq_true'] at hx
      exact SymbolProcessor.step_dropped hx.1 hx.2
    cases w with
    | nil =>
      simp only [insertedOnly, List.all_cons, Bool.and_eq_true] at h
      rw [List.flatMap_cons, hdrop h.1]
      exact ih [] hw (by simpa [insertedOnly] using h.2)
    | cons r w =>
      rw [insertedOnly] at h
      by_cases hx : symbolDropped env x = true
      · rw [if_pos hx] at h
        rw [List.flatMap_cons, hdrop hx]
        exact ih (r :: w) hw h
      · rw [if_neg hx] at h
        simp only [Bool.and_eq_true, beq_iff_eq] at h
        obtain ⟨hxr, hrest⟩ := h
        subst hxr
        have hk : symbolKept env x = true := hw x (List.mem_cons_self _ _)
        rw [List.flatMap_cons, SymbolProcessor.step_kept hk,
          ih w (fun r hr => hw r (List.mem_cons_of_mem _ hr)) hrest]
        rfl

/-! ## The pinyin processor -/

/-- The keys of the pinyin table lie outside ASCII, and its syllables are
non-empty and made of ASCII code points. -/
theorem pinyin_table_shape :
    ∀ e, e ∈ buildBasicPinyinMap →
      128 ≤ e.1.toNat ∧ runes e.2 ≠ [] ∧ ∀ c, c ∈ runes e.2 → c.toNat < 128 := by decide!

theorem pinyin_lookup_ascii {c : Rune} (h : c.toNat < 128) :
    buildBasicPinyinMap.lookup c = none := by
  cases hl : buildBasicPinyinMap.lookup c with
  | none => rfl
  | some py =>
    have := (pinyin_table_shape (c, py) (mem_of_lookup hl)).1
    simp only at this
    omega

theorem PinyinProcessor.step_ascii {c : Rune} (h : c.toNat < 128) :
    PinyinProcessor.step NewPinyinProcessor c = [c] := by
  simp only [PinyinProcessor.step, NewPinyinProcessor, pinyin_lookup_ascii h]

theorem PinyinProcessor.pinyin_step_step (r : Rune) :
    (PinyinProcessor.step NewPinyinProcessor r).flatMap (PinyinProcessor.step NewPinyinProcessor) =
      PinyinProcessor.step NewPinyinProcessor r := by
  have hfix : ∀ l : List Rune, (∀ c, c ∈ l → c.toNat < 128) →
      l.flatMap (PinyinProcessor.step NewPinyinProcessor) = l := by
    intro l hl
    induction l with
    | nil => rfl
    | cons a l ih =>
      rw [List.flatMap_cons, PinyinProcessor.step_ascii (hl a (List.mem_cons_self _ _)),
        ih (fun c hc => hl c (List.mem_cons_of_mem _ hc))]
      rfl
  cases hl : buildBasicPinyinMap.lookup r with
  | none =>
    have hr : PinyinProcessor.step NewPinyinProcessor r = [r] := by
      simp only [PinyinProcessor.step, NewPinyinProcessor, hl]
    rw [hr, List.flatMap_cons, hr]
    rfl
  | some py =>
    have hr : PinyinProcessor.step NewPinyinProcessor r = runes py := by
      simp only [PinyinProcessor.step, NewPinyinProcessor, hl]
    rw [hr]
    exact hfix _ (pinyin_table_shape (r, py) (mem_of_lookup hl)).2.2

theorem PinyinProcessor.pinyin_idem (text : String) :
    PinyinProcessor.Process NewPinyinProcessor
        (PinyinProcessor.Process NewPinyinProcessor text) =
      PinyinProcessor.Process NewPinyinProcessor text := by
  simp only [PinyinProcessor.Process, runes_ofRunes]
  rw [flatMap_flatMap_self PinyinProcessor.pinyin_step_step]

/-- A text of characters of the table becomes the concatenation of their
syllables. -/
theorem PinyinProcessor.process_keys (cs : List Rune)
    (h : ∀ c, c ∈ cs → (buildBasicPinyinMap.lookup c).isSome = true) :
    PinyinProcessor.Process NewPinyinProcessor (ofRunes cs) = syllables cs := by
  simp only [PinyinProcessor.Process, runes_ofRunes, syllables]
  congr 1
  apply flatMap_congr_mem
  intro c hc
  obtain ⟨py, hpy⟩ := Option.isSome_iff_exists.1 (h c hc)
  simp [PinyinProcessor.step, NewPinyinProcessor, syllable, hpy]

/-- A text with no character of the table is returned unchanged. -/
theorem PinyinProcessor.process_other (text : String)
    (h : ∀ c, c ∈ runes text → buildBasicPinyinMap.lookup c = none) :
    PinyinProcessor.Process NewPinyinProcessor text = text := by
  simp only [PinyinProcessor.Process]
  conv_rhs => rw [← ofRunes_runes text]
  congr 1
  generalize runes text = l at h
  induction l with
  | nil => rfl
  | cons a l ih =>
    have ha : PinyinProcessor.step NewPinyinProcessor a = [a] := by
      simp only [PinyinProcessor.step, NewPinyinProcessor, h a (List.mem_cons_self _ _)]
    rw [List.flatMap_cons, ha, ih (fun c hc => h c (List.mem_cons_of_mem _ hc))]
    rfl

theorem syllables_ne_nil (cs : List Rune) (hne : cs ≠ [])
    (h : ∀ c, c ∈ cs → (buildBasicPinyinMap.lookup c).isSome = true) :
    runes (syllables cs) ≠ [] := by
  cases cs with
  | nil => exact absurd rfl hne
  | cons c cs =>
    obtain ⟨py, hpy⟩ := Option.isSome_iff_exists.1 (h c (List.mem_cons_self _ _))
    have hs := (pinyin_table_shape (c, py) (mem_of_lookup hpy)).2.1
    simp only [syllables, runes_ofRunes, List.flatMap_cons, syllable, hpy, Option.getD_some]
    intro hnil
    exact hs (List.append_eq_nil.1 hnil).1

/-! ## The whitelist as a set -/

theorem boolMapGet_nil (k : String) : boolMapGet [] k = false := rfl

theorem boolMapGet_delete (m : List (String × Bool)) (k k1 : String) :
    boolMapGet (boolMapDelete k m) k1 = if k1 = k then false else boolMapGet m k1 := by
  induction m with
  | nil => simp [boolMapDelete, boolMapGet_nil]
  | cons e rest ih =>
    obtain ⟨k2, v2⟩ := e
    unfold boolMapDelete at ih ⊢
    by_cases h2 : k2 = k
    · subst h2
      simp only [List.filter_cons, bne_self_eq_false, Bool.false_eq_true, if_false, ih,
        boolMapGet_cons]
      split_ifs <;> rfl
    · have hb : (k2 != k) = true := by simpa using h2
      simp only [List.filter_cons, hb, if_true, boolMapGet_cons, ih]
      by_cases h3 : k1 = k2
      · simp only [h3, if_true]
        rw [if_neg h2]
      · simp only [h3, if_false]

theorem Whitelist.holds_new (toLower : Rune → Rune) (ws : List String) :
    Whitelist.Holds (NewWhitelist toLower ws) (ws.map (mapRunes toLower)).toFinset := by
  induction ws using List.reverseRecOn with
  | nil =>
    intro k
    simp [NewWhitelist, boolMapGet_nil]
  | append_singleton ws x ih =>
    intro k
    have hk := ih k
    simp only [NewWhitelist, List.foldl_append, List.foldl_cons, List.foldl_nil,
      boolMapGet_set] at hk ⊢
    simp only [List.map_append, List.map_cons, List.map_nil, List.toFinset_append,
      List.toFinset_cons, List.toFinset_nil, Finset.mem_union, Finset.mem_insert,
      Finset.not_mem_empty, or_false]
    by_cases h : k = mapRunes toLower x
    · simp [h]
    · simp only [h, if_false, or_false]
      exact hk

theorem Whitelist.holds_apply (toLower : Rune → Rune) {w : Whitelist} {s : Finset String}
    (h : Whitelist.Holds w s) (op : WhitelistOp) :
    Whitelist.Holds (Whitelist.apply toLower w op) (wordSetApply toLower s op) := by
  intro k
  cases op with
  | add word =>
    simp only [Whitelist.apply, Whitelist.Add, wordSetApply, boolMapGet_set, Finset.mem_insert]
    by_cases hk : k = mapRunes toLower word
    · simp [hk]
    · simp only [hk, if_false, false_or]
      exact h k
  | remove word =>
    simp only [Whitelist.apply, Whitelist.Remove, wordSetApply, boolMapGet_delete,
      Finset.mem_erase]
    by_cases hk : k = mapRunes toLower word
    · simp [hk]
    · simp only [hk, if_false, ne_eq, not_false_eq_true, true_and]
      exact h k
  | clear =>
    simp [Whitelist.apply, Whitelist.Clear, wordSetApply, boolMapGet_nil]

theorem Whitelist.holds_run (toLower : Rune → Rune) (ws : List String) (ops : List WhitelistOp) :
    Whitelist.Holds (Whitelist.run toLower (NewWhitelist toLower ws) ops)
      (wordSetAfter toLower ws ops) := by
  unfold Whitelist.run wordSetAfter
  induction ops using List.reverseRecOn with
  | nil => exact Whitelist.holds_new toLower ws
  | append_singleton ops op ih =>
    rw [List.foldl_append, List.foldl_append]
    exact Whitelist.holds_apply toLower ih op

/-! ## A text whose normal form is an entry is flagged -/

theorem Detector.flags_entry {env : Env} (hv : env.visit.Valid) {cs : Bool} {words : List Word}
    {d : Detector} (hb : Matcher.BuiltFrom env cs words d.matcher) (w : Word) (hw : w ∈ words)
    (hne : runes w.Text ≠ []) (text : String)
    (hnorm : Detector.preprocessText env d text = w.Text) :
    Detector.Contains env d text = some true ∧
    ∃ w1, w1 ∈ words ∧ entryKey env.toLower cs w1 = entryKey env.toLower cs w ∧
      mkMatch w1 0 (runes w.Text).length ∈
        Matcher.occ env.toLower cs words d.matcher (Detector.preprocessText env d text) := by
  have hlen : (foldText env.toLower cs w.Text).length = (runes w.Text).length :=
    foldText_length _ _ _
  have hpos : 0 < (runes w.Text).length := List.length_pos.2 hne
  have hslice : slice (foldText env.toLower cs w.Text) 0 (runes w.Text).length =
      foldText env.toLower cs w.Text := by
    simp [slice, ← hlen]
  have hocc : Occurs (entryKey env.toLower cs) words (foldText env.toLower cs w.Text) 0
      (runes w.Text).length :=
    ⟨hpos, by omega, w, hw, by rw [hslice]⟩
  obtain ⟨w1, hlast, hmem, hkey⟩ := lastWith_of_occurs hocc
  have hin : mkMatch w1 0 (runes w.Text).length ∈
      occByStart (entryKey env.toLower cs) words (foldText env.toLower cs w.Text) :=
    (mem_occByStart _ _ _ _).2 ⟨0, _, w1, hpos, by omega, hlast, rfl⟩
  constructor
  · simp only [Detector.Contains, Matcher.validate_built hv hb, hnorm, Option.map_some']
    cases hl : occByStart (entryKey env.toLower cs) words (foldText env.toLower cs w.Text) with
    | nil => rw [hl] at hin; simp at hin
    | cons a l => rfl
  · refine ⟨w1, hmem, ?_, ?_⟩
    · rw [hkey, hslice]
    · rw [hnorm]
      exact (Matcher.mem_occ _ _ _ _ _ _).2 ⟨0, _, w1, hpos, by omega, hlast, rfl⟩

theorem Detector.finds_entry {env : Env} (hv : env.visit.Valid) {cs : Bool} {words : List Word}
    {d : Detector} (hb : Matcher.BuiltFrom env cs words d.matcher) (hf : d.filters = [])
    (hcat : d.options.Categories = []) (hmin : d.options.MinLevel = LevelLow)
    (hcap : d.options.MaxMatchCount = 0) (hlev : ∀ x, x ∈ words → LevelLow ≤ x.Level)
    (w : Word) (hw : w ∈ words) (hne : runes w.Text ≠ []) (text : String)
    (hnorm : Detector.preprocessText env d text = w.Text) :
    ∃ found m, Detector.Find env d text = some found ∧ m ∈ found ∧ m.Start = 0 ∧
      m.End = ((runes w.Text).length : Int) ∧
      foldText env.toLower cs m.Word = foldText env.toLower cs w.Text := by
  obtain ⟨_, w1, hw1, hkey, hocc⟩ := Detector.flags_entry hv hb w hw hne text hnorm
  refine ⟨_, toMatch (mkMatch w1 0 (runes w.Text).length), Detector.find_built hv hb text, ?_,
    rfl, rfl, hkey⟩
  have hkeep : Detector.keeps env d (mkMatch w1 0 (runes w.Text).length) = true := by
    have := hlev w1 hw1
    simp only [Detector.keeps, hf, hcat, hmin, mkMatch, List.all_nil,
      List.isEmpty_nil, Bool.true_or, Bool.and_self, Bool.true_and,
      Bool.not_eq_true', decide_eq_false_iff_not, not_lt]
    exact this
  have hnocap : ¬ d.options.MaxMatchCount > 0 := by rw [hcap]; decide
  simp only [Detector.findRef, hnocap, if_false]
  exact List.mem_map.2 ⟨_, List.mem_filter.2 ⟨hocc, hkeep⟩, rfl⟩

/-- The method `Builder.Build` on a builder without loaders and without
whitelist. -/
theorem Builder.build_plain {env : Env} (hv : env.visit.Valid) (b : Builder)
    (hl : b.loaders = []) (hw1 : b.whitelist = []) (hw2 : b.whitelistLoaders = []) :
    ∃ d, Builder.Build env b = some (Except.ok d) ∧ d.options = b.options ∧ d.filters = [] ∧
      d.processors = Builder.processors b.options ∧
      Matcher.BuiltFrom env b.options.CaseSensitive b.words d.matcher := by
  have hload : Builder.loadAll env b.loaders b.words = Except.ok b.words := by
    rw [hl]; rfl
  obtain ⟨m, hm, hb, _⟩ :=
    Matcher.build_new hv b.options.CaseSensitive b.words _ (Builder.newMatcher_new b b.words)
  simp only [Builder.Build, hload, hm, hw1, hw2, Builder.loadWhitelist, List.append_nil,
    List.length_nil, gt_iff_lt, lt_self_iff_false, if_false]
  exact ⟨_, rfl, rfl, rfl, rfl, hb⟩

/-! ## The whitelist -/

/-- C21: after `NewWhitelist(ws)` and any sequence of `Add`, `Remove` and
`Clear`, `ShouldFilter(w)` and `Contains(w)` are equal, and true exactly when
the lower-cased `w` is in the set obtained from the lower-cased words of `ws`
by insert for `Add`, delete for `Remove` and emptying for `Clear`. So
`Contains(w)` is true after `Add(w)`, false after `Remove(w)`, false for every
word after `Clear`, and the same for two words that agree after lower-casing. -/
theorem whitelist_is_set_of_lower_cased_words (toLower : Rune → Rune) (ws : List String)
    (ops : List WhitelistOp) (w : String) :
    (Whitelist.ShouldFilter toLower (Whitelist.run toLower (NewWhitelist toLower ws) ops) w = true ↔
      mapRunes toLower w ∈ wordSetAfter toLower ws ops) ∧
    Whitelist.ShouldFilter toLower (Whitelist.run toLower (NewWhitelist toLower ws) ops) w =
      Whitelist.Contains toLower (Whitelist.run toLower (NewWhitelist toLower ws) ops) w ∧
    Whitelist.Contains toLower
      (Whitelist.Add toLower (Whitelist.run toLower (NewWhitelist toLower ws) ops) w) w = true ∧
    Whitelist.Contains toLower
      (Whitelist.Remove toLower (Whitelist.run toLower (NewWhitelist toLower ws) ops) w) w =
        false ∧
    (∀ x, Whitelist.Contains toLower
      (Whitelist.Clear (Whitelist.run toLower (NewWhitelist toLower ws) ops)) x = false) ∧
    (∀ x, mapRunes toLower x = mapRunes toLower w →
      Whitelist.Contains toLower (Whitelist.run toLower (NewWhitelist toLower ws) ops) x =
        Whitelist.Contains toLower (Whitelist.run toLower (NewWhitelist toLower ws) ops) w) := by
  refine ⟨Whitelist.holds_run toLower ws ops (mapRunes toLower w), rfl, ?_, ?_, ?_, ?_⟩
  · simp [Whitelist.Contains, Whitelist.Add, boolMapGet_set]
  · simp [Whitelist.Contains, Whitelist.Remove, boolMapGet_delete]
  · intro x
    rfl
  · intro x hx
    simp only [Whitelist.Contains, hx]

/-! ## The symbol processor -/

/-- C22 (amended): `SymbolProcessor.Process` goes through the input code
point by code point and writes, for each, the code point itself when it is a
letter, a digit or a CJK ideograph, one space when it is another white-space
code point, and nothing otherwise. So a run of white-space code points between
two parts of the text yields as many spaces as the run is long (runs are not
collapsed), the output holds no code point other than letters, digits, CJK
ideographs and spaces, and it has as many code points as the input has
letters, digits, CJK ideographs and white-space code points. -/
theorem symbol_process_one_space_per_whitespace (isLetter isDigit isSpace : Rune → Bool)
    (text : String) :
    (∃ out : Rune → List Rune,
      (∀ r, (isLetter r || isDigit r || isCJK r) = true → out r = [r]) ∧
      (∀ r, (isLetter r || isDigit r || isCJK r) = false → isSpace r = true →
        out r = [' ']) ∧
      (∀ r, (isLetter r || isDigit r || isCJK r) = false → isSpace r = false → out r = []) ∧
      ∀ t : String,
        runes (SymbolProcessor.Process isLetter isDigit isSpace NewSymbolProcessor t) =
          (runes t).flatMap out) ∧
    (∀ a ws b : List Rune,
      (∀ r, r ∈ ws → (isLetter r || isDigit r || isCJK r) = false ∧ isSpace r = true) →
      runes (SymbolProcessor.Process isLetter isDigit isSpace NewSymbolProcessor
          (ofRunes (a ++ ws ++ b))) =
        runes (SymbolProcessor.Process isLetter isDigit isSpace NewSymbolProcessor (ofRunes a)) ++
          List.replicate ws.length ' ' ++
          runes (SymbolProcessor.Process isLetter isDigit isSpace NewSymbolProcessor
            (ofRunes b))) ∧
    (∀ r, r ∈ runes (SymbolProcessor.Process isLetter isDigit isSpace NewSymbolProcessor text) →
      (isLetter r || isDigit r || isCJK r) = true ∨ r = ' ') ∧
    (runes (SymbolProcessor.Process isLetter isDigit isSpace NewSymbolProcessor text)).length =
      (runes text).countP (fun r => isLetter r || isDigit r || isCJK r || isSpace r) := by
  refine ⟨⟨SymbolProcessor.step isLetter isDigit isSpace,
      fun r h => SymbolProcessor.step_kept h, fun r h hs => SymbolProcessor.step_space h hs,
      fun r h hs => SymbolProcessor.step_dropped h hs, fun t => rfl⟩, ?_, ?_, ?_⟩
  · intro a ws b hws
    have hrun : ws.flatMap (SymbolProcessor.step isLetter isDigit isSpace) =
        List.replicate ws.length ' ' := by
      induction ws with
      | nil => rfl
      | cons x ws ih =>
        have hx := hws x (List.mem_cons_self _ _)
        rw [List.flatMap_cons, SymbolProcessor.step_space hx.1 hx.2,
          ih (fun r hr => hws r (List.mem_cons_of_mem _ hr))]
        rfl
    simp only [SymbolProcessor.process_new, runes_ofRunes, List.flatMap_append, hrun]
  · intro r hr
    exact SymbolProcessor.mem_output hr
  · exact SymbolProcessor.length_output isLetter isDigit isSpace (runes text)

/-- Counterexample to C22 as written: two spaces between two letters stay two
spaces. -/
theorem symbol_process_keeps_whitespace_run :
    SymbolProcessor.Process asciiIsLetter asciiIsDigit asciiIsSpace NewSymbolProcessor "a  b" =
      "a  b" ∧
    Processor.Process asciiEnv Processor.symbol "a \t b" = "a   b" := by
  decide

/-- C23: for a dictionary with an entry `w` that is not empty and made of
letters, digits and CJK ideographs only, and a text obtained from `w` by
inserting code points that are neither letter, digit, CJK ideograph nor white
space, the symbol processor returns `w`, and the detector built with only the
symbol filter enabled flags the text: `Contains` is true and `Find` reports a
match over the whole of `w` whose word is `w` up to letter case (entries
having levels not below low). -/
theorem symbol_strip_defeats_punctuation (env : Env) (hv : env.visit.Valid) (words : List Word)
    (hlev : ∀ x, x ∈ words → LevelLow ≤ x.Level) (w : Word) (hw : w ∈ words)
    (hne : runes w.Text ≠ []) (hkept : ∀ r, r ∈ runes w.Text → symbolKept env r = true)
    (text : String)
    (hins : insertedOnly (symbolDropped env) (runes w.Text) (runes text) = true) :
    Processor.Process env Processor.symbol text = w.Text ∧
    ∃ d, Builder.Build env ((New.LoadWords words).EnableSymbol) = some (Except.ok d) ∧
      Detector.Contains env d text = some true ∧
      ∃ found m, Detector.Find env d text = some found ∧ m ∈ found ∧ m.Start = 0 ∧
        m.End = ((runes w.Text).length : Int) ∧
        foldText env.toLower false m.Word = foldText env.toLower false w.Text := by
  have hproc : Processor.Process env Processor.symbol text = w.Text := by
    simp only [Processor.Process, SymbolProcessor.process_new]
    rw [SymbolProcessor.strip_inserted env _ _ hkept hins]
    rfl
  obtain ⟨d, hbuild, hopt, hfil, hprocs, hb⟩ :=
    Builder.build_plain hv ((New.LoadWords words).EnableSymbol) rfl rfl rfl
  have hwords : ((New.LoadWords words).EnableSymbol).words = words := by
    simp [Builder.EnableSymbol, Builder.LoadWords, New]
  rw [hwords] at hb
  have hnorm : Detector.preprocessText env d text = w.Text := by
    simp only [Detector.preprocessText, hprocs]
    exact hproc
  refine ⟨hproc, d, hbuild, (Detector.flags_entry hv hb w hw hne text hnorm).1, ?_⟩
  exact Detector.finds_entry hv hb hfil (by rw [hopt]; rfl) (by rw [hopt]; rfl)
    (by rw [hopt]; rfl) hlev w hw hne text hnorm

/-- Witness of C23: the entry `"bad"` and the text `"b.a-d!"`, and the entry
`"测试"` inside `"测@试#"`. -/
theorem symbol_strip_defeats_punctuation_witness :
    Processor.Process asciiEnv Processor.symbol "b.a-d!" = "bad" ∧
    buildContains asciiEnv ((New.LoadWords [mkWord "bad"]).EnableSymbol) "b.a-d!" = some true ∧
    buildFind asciiEnv ((New.LoadWords [mkWord "测试"]).EnableSymbol) "测@试#" =
      some [{ Word := "测试", Start := 0, End := 2, Category := CategoryOther,
              Level := LevelMedium }] :=
  ⟨(symbol_strip_defeats_punctuation asciiEnv RangeOrder.valid_id [mkWord "bad"] (by decide)
      (mkWord "bad") (by decide) (by decide) (by decide) "b.a-d!" (by decide)).1,
    by decide, by decide⟩

/-! ## The traditional processor -/

/-- C24: whatever the order in which `buildConversionMaps` ranges over `s2t`,
`ToSimplified(ToTraditional(t)) = t` for every text `t` that `ToSimplified`
leaves unchanged; so for a dictionary with such an entry `w`, not empty, the
detector built with only the traditional processor enabled flags
`ToTraditional(w)`. `ToSimplified` returns its own results unchanged, and also
every text none of whose code points is the traditional form of another one. -/
theorem traditional_variants_detectable (env : Env) (hv : env.visit.Valid)
    (hvp : ValidOrder env.visitPairs) (words : List Word)
    (hlev : ∀ x, x ∈ words → LevelLow ≤ x.Level) (w : Word) (hw : w ∈ words)
    (hne : runes w.Text ≠ [])
    (hfix : TraditionalProcessor.ToSimplified (NewTraditionalProcessor env.visitPairs) w.Text =
      w.Text) :
    (∀ t, TraditionalProcessor.ToSimplified (NewTraditionalProcessor env.visitPairs) t = t →
      TraditionalProcessor.ToSimplified (NewTraditionalProcessor env.visitPairs)
        (TraditionalProcessor.ToTraditional (NewTraditionalProcessor env.visitPairs) t) = t) ∧
    (∃ d, Builder.Build env ((New.LoadWords words).EnableVariant) = some (Except.ok d) ∧
      Detector.Contains env d
        (TraditionalProcessor.ToTraditional (NewTraditionalProcessor env.visitPairs) w.Text) =
        some true ∧
      ∃ found m, Detector.Find env d
          (TraditionalProcessor.ToTraditional (NewTraditionalProcessor env.visitPairs) w.Text) =
          some found ∧ m ∈ found ∧ m.Start = 0 ∧ m.End = ((runes w.Text).length : Int) ∧
        foldText env.toLower false m.Word = foldText env.toLower false w.Text) ∧
    (∀ t, TraditionalProcessor.ToSimplified (NewTraditionalProcessor env.visitPairs)
        (TraditionalProcessor.ToSimplified (NewTraditionalProcessor env.visitPairs) t) =
      TraditionalProcessor.ToSimplified (NewTraditionalProcessor env.visitPairs) t) ∧
    (∀ t, (∀ r, r ∈ runes t → ∀ e, e ∈ mapOfLiteral s2tLiteral → e.2 = r → e.1 = r) →
      TraditionalProcessor.ToSimplified (NewTraditionalProcessor env.visitPairs) t = t) := by
  refine ⟨fun t ht => ToSimplified_ToTraditional hvp t ht, ?_, fun t => ToSimplified_idem hvp t,
    fun t ht => ToSimplified_of_simplified hvp t ht⟩
  obtain ⟨d, hbuild, hopt, hfil, hprocs, hb⟩ :=
    Builder.build_plain hv ((New.LoadWords words).EnableVariant) rfl rfl rfl
  have hwords : ((New.LoadWords words).EnableVariant).words = words := by
    simp [Builder.EnableVariant, Builder.LoadWords, New]
  rw [hwords] at hb
  have hnorm : Detector.preprocessText env d
      (TraditionalProcessor.ToTraditional (NewTraditionalProcessor env.visitPairs) w.Text) =
      w.Text := by
    simp only [Detector.preprocessText, hprocs]
    exact ToSimplified_ToTraditional hvp w.Text hfix
  refine ⟨d, hbuild, (Detector.flags_entry hv hb w hw hne _ hnorm).1, ?_⟩
  exact Detector.finds_entry hv hb hfil (by rw [hopt]; rfl) (by rw [hopt]; rfl)
    (by rw [hopt]; rfl) hlev w hw hne _ hnorm

/-- Witness of C24: the entry `"测试"` flags `"測試"`. -/
theorem traditional_variants_detectable_witness :
    TraditionalProcessor.ToTraditional (NewTraditionalProcessor id) "测试" = "測試" ∧
    (∃ d, Builder.Build asciiEnv ((New.LoadWords [mkWord "测试"]).EnableVariant) =
        some (Except.ok d) ∧
      Detector.Contains asciiEnv d
        (TraditionalProcessor.ToTraditional (NewTraditionalProcessor id) "测试") = some true) :=
  ⟨by decide!,
    let ⟨d, h1, h2, _⟩ :=
      (traditional_variants_detectable asciiEnv RangeOrder.valid_id validOrder_id
        [mkWord "测试"] (by decide) (mkWord "测试") (by decide) (by decide) (by decide!)).2.1
    ⟨d, h1, h2⟩⟩

/-! ## The similar-character processor -/

/-- C25 (it fails): in the similar-character map the code point `O` is a
variant both in the group of `0` and in the group of `o` (and `0` and `o` are
each a variant in the group of the other), so what `findBase` returns for it
depends on the order in which the `range` visits the groups: `0` when the
groups are visited in source order, `o` when they are visited in the opposite
order. `Process` then differs on the text `O`, and `IsSimilar` denies that
`O` is similar to itself when its two calls of `findBase` visit the groups in
these two orders. Within one call of `Process` every code point has its own
call of `findBase`: the text `ll` becomes `1i` when the first call visits in
source order and the second in the opposite order. -/
theorem similar_base_depends_on_visiting_order :
    ValidOrder (id : List (Rune × List Rune) → List (Rune × List Rune)) ∧
    ValidOrder (List.reverse : List (Rune × List Rune) → List (Rune × List Rune)) ∧
    buildSimilarMap.lookup '0' = some ['O', 'o', '〇', '零', '○'] ∧
    buildSimilarMap.lookup 'o' = some ['0', 'O', '〇'] ∧
    SimilarProcessor.findBase id NewSimilarProcessor 'O' = '0' ∧
    SimilarProcessor.findBase List.reverse NewSimilarProcessor 'O' = 'o' ∧
    SimilarProcessor.Process (fun _ => id) NewSimilarProcessor "O" = "0" ∧
    SimilarProcessor.Process (fun _ => List.reverse) NewSimilarProcessor "O" = "o" ∧
    IsSimilar id List.reverse 'O' 'O' = false ∧
    SimilarProcessor.Process (fun k => if k = 0 then id else List.reverse) NewSimilarProcessor
      "ll" = "1i" :=
  ⟨validOrder_id, validOrder_reverse, by decide, by decide, by decide, by decide, by decide,
    by decide, by decide, by decide⟩

/-- C26 (it fails): when the groups are visited in the order opposite to the
source, `Process` maps the text `一` to `1` (only the group of `1` holds `一`)
and maps `1` to `i` (the group of `i`, which lists `1` as a variant, is visited
before the group of `1`), so applying it twice differs from applying it once;
the base `傻`, which is in no other group, is mapped to itself. -/
theorem similar_process_not_idempotent :
    ValidOrder (List.reverse : List (Rune × List Rune) → List (Rune × List Rune)) ∧
    SimilarProcessor.Process (fun _ => List.reverse) NewSimilarProcessor "一" = "1" ∧
    SimilarProcessor.Process (fun _ => List.reverse) NewSimilarProcessor
      (SimilarProcessor.Process (fun _ => List.reverse) NewSimilarProcessor "一") = "i" ∧
    SimilarProcessor.findBase List.reverse NewSimilarProcessor
      (SimilarProcessor.findBase List.reverse NewSimilarProcessor '一') ≠
        SimilarProcessor.findBase List.reverse NewSimilarProcessor '一' ∧
    SimilarProcessor.findBase List.reverse NewSimilarProcessor '傻' = '傻' ∧
    SimilarProcessor.findBase id NewSimilarProcessor '傻' = '傻' :=
  ⟨validOrder_reverse, by decide, by decide, by decide, by decide, by decide⟩

/-! ## Idempotence of the other processors -/

/-- C27: the symbol processor, the traditional processor and the pinyin
processor each return their own result unchanged, for every text; the space is
white space for `unicode.IsSpace`, and the order in which
`buildConversionMaps` ranges over `s2t` is arbitrary. -/
theorem processors_idempotent (env : Env) (hsp : env.isSpace ' ' = true)
    (hvp : ValidOrder env.visitPairs) (text : String) :
    Processor.Process env Processor.symbol (Processor.Process env Processor.symbol text) =
      Processor.Process env Processor.symbol text ∧
    Processor.Process env Processor.traditional
        (Processor.Process env Processor.traditional text) =
      Processor.Process env Processor.traditional text ∧
    Processor.Process env Processor.pinyin (Processor.Process env Processor.pinyin text) =
      Processor.Process env Processor.pinyin text :=
  ⟨SymbolProcessor.symbol_idem hsp text, ToSimplified_idem hvp text,
    PinyinProcessor.pinyin_idem text⟩

/-- Witness of C27: the text `"測, 试!"`. -/
theorem processors_idempotent_witness :
    Processor.Process asciiEnv Processor.symbol
        (Processor.Process asciiEnv Processor.symbol "測, 试!") =
      Processor.Process asciiEnv Processor.symbol "測, 试!" ∧
    Processor.Process asciiEnv Processor.symbol "測, 试!" = "測 试" ∧
    Processor.Process asciiEnv Processor.pinyin "測, 试!" = "測, shi!" :=
  ⟨(processors_idempotent asciiEnv (by decide) validOrder_id "測, 试!").1, by decide,
    by decide!⟩

/-! ## The pinyin processor in the detector -/

/-- C28: for a non-empty sequence `cs` of characters of the pinyin table, the
pinyin processor maps the text `cs` to the concatenation of their syllables,
so the detector built with only the pinyin processor enabled from a dictionary
that holds this concatenation flags the text `cs`; a text with no character of
the table is returned unchanged by the processor. -/
theorem pinyin_entry_matches_characters (env : Env) (hv : env.visit.Valid) (words : List Word)
    (hlev : ∀ x, x ∈ words → LevelLow ≤ x.Level) (cs : List Rune) (hcs : cs ≠ [])
    (hkeys : ∀ c, c ∈ cs → (buildBasicPinyinMap.lookup c).isSome = true) (w : Word)
    (hw : w ∈ words) (htext : w.Text = syllables cs) :
    Processor.Process env Processor.pinyin (ofRunes cs) = syllables cs ∧
    (∃ d, Builder.Build env ((New.LoadWords words).EnablePinyin) = some (Except.ok d) ∧
      Detector.Contains env d (ofRunes cs) = some true ∧
      ∃ found m, Detector.Find env d (ofRunes cs) = some found ∧ m ∈ found ∧ m.Start = 0 ∧
        m.End = ((runes w.Text).length : Int) ∧
        foldText env.toLower false m.Word = foldText env.toLower false w.Text) ∧
    (∀ t, (∀ c, c ∈ runes t → buildBasicPinyinMap.lookup c = none) →
      Processor.Process env Processor.pinyin t = t) := by
  have hproc : Processor.Process env Processor.pinyin (ofRunes cs) = syllables cs :=
    PinyinProcessor.process_keys cs hkeys
  refine ⟨hproc, ?_, fun t ht => PinyinProcessor.process_other t ht⟩
  obtain ⟨d, hbuild, hopt, hfil, hprocs, hb⟩ :=
    Builder.build_plain hv ((New.LoadWords words).EnablePinyin) rfl rfl rfl
  have hwords : ((New.LoadWords words).EnablePinyin).words = words := by
    simp [Builder.EnablePinyin, Builder.LoadWords, New]
  rw [hwords] at hb
  have hne : runes w.Text ≠ [] := by
    rw [htext]
    exact syllables_ne_nil cs hcs hkeys
  have hnorm : Detector.preprocessText env d (ofRunes cs) = w.Text := by
    simp only [Detector.preprocessText, hprocs]
    exact hproc.trans htext.symm
  refine ⟨d, hbuild, (Detector.flags_entry hv hb w hw hne _ hnorm).1, ?_⟩
  exact Detector.finds_entry hv hb hfil (by rw [hopt]; rfl) (by rw [hopt]; rfl)
    (by rw [hopt]; rfl) hlev w hw hne _ hnorm

/-- Witness of C28: the entry `"ceshi"` flags the text `"测试"`. -/
theorem pinyin_entry_matches_characters_witness :
    Processor.Process asciiEnv Processor.pinyin (ofRunes (runes "测试")) = syllables (runes "测试") ∧
    syllables (runes "测试") = "ceshi" ∧
    buildContains asciiEnv ((New.LoadWords [mkWord "ceshi"]).EnablePinyin) "测试" = some true :=
  ⟨(pinyin_entry_matches_characters asciiEnv RangeOrder.valid_id [mkWord "ceshi"] (by decide)
      (runes "测试") (by decide) (by decide!) (mkWord "ceshi") (by decide) (by decide!)).1,
    by decide!, by decide!⟩

/-! ## The order of the pipeline -/

/-- C29: the detector that `Builder.Build` returns normalizes a text by the
symbol stage, then the traditional stage, then the similar stage, then the
pinyin stage, each applied exactly when its option is enabled, so by the
identity when none is; and the `Enable` methods of the builder commute, so
the order of their calls does not matter. -/
theorem normalizer_order_fixed (env : Env) (hv : env.visit.Valid) (b : Builder)
    (ws : List Word) (hload : Builder.loadAll env b.loaders b.words = Except.ok ws)
    (text : String) :
    (∃ d, Builder.Build env b = some (Except.ok d) ∧
      Detector.preprocessText env d text =
        stage env b.options.EnablePinyin Processor.pinyin
          (stage env b.options.EnableSimilarChar Processor.similar
            (stage env b.options.EnableTraditional Processor.traditional
              (stage env b.options.EnableSymbolFilter Processor.symbol text))) ∧
      (b.options.EnableSymbolFilter = false → b.options.EnableTraditional = false →
        b.options.EnableSimilarChar = false → b.options.EnablePinyin = false →
        Detector.preprocessText env d text = text)) ∧
    (b.EnableSymbol).EnableVariant = (b.EnableVariant).EnableSymbol ∧
    (b.EnableSymbol).EnableSimilarChar = (b.EnableSimilarChar).EnableSymbol ∧
    (b.EnableSymbol).EnablePinyin = (b.EnablePinyin).EnableSymbol ∧
    (b.EnableVariant).EnableSimilarChar = (b.EnableSimilarChar).EnableVariant ∧
    (b.EnableVariant).EnablePinyin = (b.EnablePinyin).EnableVariant ∧
    (b.EnableSimilarChar).EnablePinyin = (b.EnablePinyin).EnableSimilarChar := by
  refine ⟨?_, rfl, rfl, rfl, rfl, rfl, rfl⟩
  obtain ⟨d, hbuild, _, _, _, _, hprocs⟩ := Builder.build_spec hv b ws hload
  have hform : Detector.preprocessText env d text =
      stage env b.options.EnablePinyin Processor.pinyin
        (stage env b.options.EnableSimilarChar Processor.similar
          (stage env b.options.EnableTraditional Processor.traditional
            (stage env b.options.EnableSymbolFilter Processor.symbol text))) := by
    simp only [Detector.preprocessText, hprocs, Builder.processors, stage]
    cases b.options.EnableSymbolFilter <;> cases b.options.EnableTraditional <;>
      cases b.options.EnableSimilarChar <;> cases b.options.EnablePinyin <;> rfl
  refine ⟨d, hbuild, hform, ?_⟩
  intro h1 h2 h3 h4
  rw [hform, h1, h2, h3, h4]
  rfl

/-- Witness of C29: pinyin enabled before the symbol filter; the symbol stage
still runs first. -/
theorem normalizer_order_fixed_witness :
    (∃ d, Builder.Build asciiEnv (((New.LoadWords [mkWord "shi"]).EnablePinyin).EnableSymbol) =
        some (Except.ok d) ∧
      Detector.preprocessText asciiEnv d "试!" =
        Processor.Process asciiEnv Processor.pinyin
          (Processor.Process asciiEnv Processor.symbol "试!")) ∧
    buildNormalize asciiEnv (((New.LoadWords [mkWord "shi"]).EnablePinyin).EnableSymbol) "试!" =
      some "shi" :=
  by
  refine ⟨?_, by decide!⟩
  obtain ⟨d, h1, h2, _⟩ :=
    (normalizer_order_fixed asciiEnv RangeOrder.valid_id
      (((New.LoadWords [mkWord "shi"]).EnablePinyin).EnableSymbol) [mkWord "shi"] rfl "试!").1
  refine ⟨d, h1, ?_⟩
  rw [h2]
  rfl

/-! ## `Replace` with a replacement string -/

/-- C30: for a detector whose matcher has been built, `Replace` with the
empty replacement returns the text itself, and with a replacement whose first
code point is `r` it returns what `ReplaceRune` returns for `r`, whatever
follows `r`. -/
theorem replace_uses_first_code_point (env : Env) (hv : env.visit.Valid) (cs : Bool)
    (words : List Word) (d : Detector) (hb : Matcher.BuiltFrom env cs words d.matcher)
    (text : String) :
    Detector.Replace env d text "" = some text ∧
    (∀ (r : Rune) (rest : List Rune), ∃ out,
      Detector.ReplaceRune env d text (runeValue r) = some out ∧
      Detector.Replace env d text (ofRunes (r :: rest)) = some out) := by
  refine ⟨rfl, ?_⟩
  intro r rest
  exact ⟨_, Matcher.replace_built hv hb _ (runeValue r),
    Matcher.replace_built hv hb _ (runeValue r)⟩

/-- Witness of C30: the entry `"bad"`, the text `"a bad"` and the replacements
`"#x"` and `""`. -/
theorem replace_uses_first_code_point_witness :
    Detector.Replace asciiEnv (plainDetector asciiEnv DefaultOptions [] [mkWord "bad"]) "a Bad"
      "" = some "a Bad" ∧
    Detector.Replace asciiEnv (plainDetector asciiEnv DefaultOptions [] [mkWord "bad"]) "a Bad"
      "#x" = some "a ###" ∧
    Detector.ReplaceRune asciiEnv (plainDetector asciiEnv DefaultOptions [] [mkWord "bad"])
      "a Bad" (runeValue '#') = some "a ###" :=
  ⟨(replace_uses_first_code_point asciiEnv RangeOrder.valid_id false [mkWord "bad"]
      (plainDetector asciiEnv DefaultOptions [] [mkWord "bad"]) (Or.inl rfl) "a Bad").1,
    by decide, by decide⟩

/-! ## `Close` and the file watchers -/

theorem Detector.stopAll_some (ws : List FileWatcher)
    (h : ∀ w, w ∈ ws → w.running = true → w.stopClosed = false) :
    Detector.stopAll ws = some () := by
  induction ws with
  | nil => rfl
  | cons w ws ih =>
    have hw := h w (List.mem_cons_self _ _)
    have hrest := ih (fun x hx => h x (List.mem_cons_of_mem _ hx))
    unfold Detector.stopAll
    cases hr : w.running
    · simp [FileWatcher.Stop, hr, hrest]
    · simp [FileWatcher.Stop, hr, hw hr, hrest]

theorem FileWatcher.start_new (env : Env) (loader : Loader) (interval : Int) :
    (FileWatcher.Start env (NewFileWatcher loader interval)).running = true ∧
      (FileWatcher.Start env (NewFileWatcher loader interval)).stopClosed = false := by
  cases loader with
  | file path =>
    cases h : env.modTime path <;> simp [FileWatcher.Start, NewFileWatcher, h]
  | memory words => exact ⟨rfl, rfl⟩
  | http url => exact ⟨rfl, rfl⟩

/-- The watchers of a detector that `Builder.Build` returns are running, with
their stop channel open. -/
theorem Builder.build_watchers {env : Env} {b : Builder} {det : Detector}
    (h : Builder.Build env b = some (Except.ok det)) :
    ∀ w, w ∈ det.watchers → w.running = true ∧ w.stopClosed = false := by
  unfold Builder.Build at h
  cases hl : Builder.loadAll env b.loaders b.words with
  | error err => simp [hl] at h
  | ok ws =>
    simp only [hl] at h
    cases hm : Matcher.Build env (Builder.newMatcher b ws) ws with
    | none => simp [hm] at h
    | some r =>
      obtain ⟨m, err⟩ := r
      cases err with
      | some e => simp [hm] at h
      | none =>
        simp only [hm, Option.some.injEq, Except.ok.injEq] at h
        subst h
        intro w hw
        simp only at hw
        split at hw
        · obtain ⟨path, _, rfl⟩ := List.mem_map.1 hw
          exact FileWatcher.start_new env _ _
        · simp at hw

/-! ## `parseWords` -/

theorem parseWords.foldl_eq (isSpace : Rune → Bool) (lines : List (List Rune))
    (acc : List Word) :
    lines.foldl (parseWords.step isSpace) acc =
      acc ++ (((lines.map (trimSpace isSpace)).filter
        (fun line => !(line.isEmpty || hasHashPrefix line))).map
        (fun line => mkWord (ofRunes line))) := by
  induction lines generalizing acc with
  | nil => simp
  | cons line lines ih =>
    rw [List.foldl_cons, ih]
    simp only [parseWords.step, List.map_cons, List.filter_cons]
    by_cases h1 : trimSpace isSpace line = []
    · simp [h1]
    · by_cases h2 : hasHashPrefix (trimSpace isSpace line) = true
      · simp [h1, h2]
      · simp [h1, h2, mkWord]

theorem parseWords_eq_ref (isSpace : Rune → Bool) (content : String) :
    parseWords isSpace content = parseWordsRef isSpace content := by
  unfold parseWords parseWordsRef
  rw [parseWords.foldl_eq]
  simp

/-! ## Entries with the same folded text -/

/-! ## Trimming and the reference for `parseWords` -/

theorem head?_dropWhile_neg {p : Rune → Bool} (l : List Rune) {c : Rune}
    (h : (l.dropWhile p).head? = some c) : p c = false := by
  induction l with
  | nil => simp at h
  | cons a l ih =>
    by_cases ha : p a = true
    · rw [List.dropWhile_cons_of_pos ha] at h
      exact ih h
    · rw [List.dropWhile_cons_of_neg ha] at h
      simp only [List.head?_cons, Option.some.injEq] at h
      subst h
      simpa using ha

theorem dropWhile_eq_self_of_head {p : Rune → Bool} (l : List Rune)
    (h : ∀ c, l.head? = some c → p c = false) : l.dropWhile p = l := by
  cases l with
  | nil => rfl
  | cons a l =>
    have ha : ¬ p a = true := by
      have := h a rfl
      simp [this]
    exact List.dropWhile_cons_of_neg ha

theorem dropWhile_all {p : Rune → Bool} (l : List Rune) (h : ∀ c, c ∈ l → p c = true) :
    l.dropWhile p = [] := by
  induction l with
  | nil => rfl
  | cons a l ih =>
    rw [List.dropWhile_cons_of_pos (h a (List.mem_cons_self _ _))]
    exact ih (fun c hc => h c (List.mem_cons_of_mem _ hc))

theorem dropWhile_append_all {p : Rune → Bool} (l₁ l₂ : List Rune)
    (h : ∀ c, c ∈ l₁ → p c = true) : (l₁ ++ l₂).dropWhile p = l₂.dropWhile p := by
  induction l₁ with
  | nil => rfl
  | cons a l ih =>
    rw [List.cons_append, List.dropWhile_cons_of_pos (h a (List.mem_cons_self _ _))]
    exact ih (fun c hc => h c (List.mem_cons_of_mem _ hc))

theorem dropWhile_append_head {p : Rune → Bool} (l₁ l₂ : List Rune) (hne : l₁ ≠ [])
    (h : ∀ c, l₁.head? = some c → p c = false) : (l₁ ++ l₂).dropWhile p = l₁ ++ l₂ := by
  apply dropWhile_eq_self_of_head
  intro c hc
  cases l₁ with
  | nil => exact absurd rfl hne
  | cons a l => exact h c hc

/-- The code's trimming meets the specification. -/
theorem trimmedOf_trimSpace (isSpace : Rune → Bool) (line : List Rune) :
    TrimmedOf isSpace line (trimSpace isSpace line) := by
  have h1 : line = line.takeWhile isSpace ++ line.dropWhile isSpace :=
    (List.takeWhile_append_dropWhile isSpace line).symm
  have h2 : (line.dropWhile isSpace).reverse =
      (line.dropWhile isSpace).reverse.takeWhile isSpace ++
        (line.dropWhile isSpace).reverse.dropWhile isSpace :=
    (List.takeWhile_append_dropWhile isSpace _).symm
  have h3 : line.dropWhile isSpace =
      ((line.dropWhile isSpace).reverse.dropWhile isSpace).reverse ++
        ((line.dropWhile isSpace).reverse.takeWhile isSpace).reverse := by
    have := congrArg List.reverse h2
    rw [List.reverse_reverse, List.reverse_append] at this
    exact this
  refine ⟨line.takeWhile isSpace,
    ((line.dropWhile isSpace).reverse.takeWhile isSpace).reverse, ?_, ?_, ?_, ?_, ?_⟩
  · unfold trimSpace
    rw [List.append_assoc, ← h3]
    exact h1
  · intro c hc
    exact (List.mem_takeWhile_imp hc)
  · intro c hc
    exact (List.mem_takeWhile_imp (List.mem_reverse.1 hc))
  · intro c hc
    unfold trimSpace at hc
    have hhead : (line.dropWhile isSpace).head? = some c := by
      rw [h3]
      cases ht : ((line.dropWhile isSpace).reverse.dropWhile isSpace).reverse with
      | nil => rw [ht] at hc; simp at hc
      | cons a l => rw [ht] at hc; simpa using hc
    exact head?_dropWhile_neg line hhead
  · intro c hc
    unfold trimSpace at hc
    rw [List.getLast?_reverse] at hc
    exact head?_dropWhile_neg _ hc

/-- The specification of trimming has one solution, the one the code computes. -/
theorem TrimmedOf.eq_trimSpace {isSpace : Rune → Bool} {line t : List Rune}
    (h : TrimmedOf isSpace line t) : t = trimSpace isSpace line := by
  obtain ⟨pre, post, rfl, hpre, hpost, hhead, hlast⟩ := h
  unfold trimSpace
  cases ht : t with
  | nil =>
    have hall : ∀ c, c ∈ pre ++ [] ++ post → isSpace c = true := by
      intro c hc
      simp only [List.append_nil, List.mem_append] at hc
      rcases hc with hc | hc
      · exact hpre c hc
      · exact hpost c hc
    rw [dropWhile_all _ hall]
    rfl
  | cons a rest =>
    rw [← ht]
    have hne : t ≠ [] := by rw [ht]; exact List.cons_ne_nil _ _
    rw [List.append_assoc, dropWhile_append_all _ _ hpre,
      dropWhile_append_head t post hne hhead, List.reverse_append,
      dropWhile_append_all _ _ (fun c hc => hpost c (List.mem_reverse.1 hc))]
    rw [dropWhile_eq_self_of_head t.reverse
      (fun c hc => hlast c (by rw [← List.head?_reverse]; exact hc)), List.reverse_reverse]

theorem hasHashPrefix_iff (t : List Rune) : hasHashPrefix t = true ↔ t.head? = some '#' := by
  cases t with
  | nil => simp [hasHashPrefix]
  | cons a l => simp [hasHashPrefix]

theorem parsedFrom_lines (isSpace : Rune → Bool) (lines : List (List Rune)) :
    ParsedFrom isSpace lines
      (((lines.map (trimSpace isSpace)).filter
        (fun line => !(line.isEmpty || hasHashPrefix line))).map
        (fun line => mkWord (ofRunes line))) := by
  induction lines with
  | nil => exact ParsedFrom.done
  | cons line lines ih =>
    rw [List.map_cons, List.filter_cons]
    by_cases hk : (!(List.isEmpty (trimSpace isSpace line) ||
        hasHashPrefix (trimSpace isSpace line))) = true
    · rw [if_pos hk, List.map_cons]
      simp only [Bool.not_eq_true', Bool.or_eq_false_iff, List.isEmpty_eq_false] at hk
      refine ParsedFrom.keep (trimmedOf_trimSpace isSpace line) hk.1 ?_ ih
      intro hh
      have := (hasHashPrefix_iff _).2 hh
      rw [hk.2] at this
      exact absurd this (by decide)
    · rw [if_neg hk]
      refine ParsedFrom.skip (trimmedOf_trimSpace isSpace line) ?_ ih
      simp only [Bool.not_eq_true', Bool.not_eq_false, Bool.or_eq_true, List.isEmpty_iff] at hk
      rcases hk with hk | hk
      · exact Or.inl hk
      · exact Or.inr ((hasHashPrefix_iff _).1 hk)

theorem ParsedFrom.eq_parsed {isSpace : Rune → Bool} {lines : List (List Rune)}
    {words : List Word} (h : ParsedFrom isSpace lines words) :
    words = (((lines.map (trimSpace isSpace)).filter
        (fun line => !(line.isEmpty || hasHashPrefix line))).map
        (fun line => mkWord (ofRunes line))) := by
  induction h with
  | done => rfl
  | @skip line t lines words ht hskip _ ih =>
    have ht1 := ht.eq_trimSpace
    rw [List.map_cons, List.filter_cons]
    have hk : ¬ (!(List.isEmpty (trimSpace isSpace line) ||
        hasHashPrefix (trimSpace isSpace line))) = true := by
      rw [← ht1]
      rcases hskip with h0 | h0
      · simp [h0]
      · simp [(hasHashPrefix_iff t).2 h0]
    rw [if_neg hk]
    exact ih
  | @keep line t lines words ht hne hhash _ ih =>
    have ht1 := ht.eq_trimSpace
    rw [List.map_cons, List.filter_cons]
    have hk : (!(List.isEmpty (trimSpace isSpace line) ||
        hasHashPrefix (trimSpace isSpace line))) = true := by
      rw [← ht1]
      have h1 : hasHashPrefix t = false := by
        cases hh : hasHashPrefix t
        · rfl
        · exact absurd ((hasHashPrefix_iff t).1 hh) hhash
      simp [h1, hne]
    rw [if_pos hk, List.map_cons, ← ih, ← ht1]
    rfl

theorem splitLines_ne_nil (l : List Rune) : splitLines l ≠ [] := by
  induction l with
  | nil => simp [splitLines]
  | cons r rest ih =>
    unfold splitLines
    split
    · simp
    · split
      · simp
      · simp

/-- The pieces of `strings.Split(content, "\n")` hold no line feed, and
joined by line feeds they give the content back. -/
theorem splitLines_spec (l : List Rune) :
    (∀ line, line ∈ splitLines l → '\n' ∉ line) ∧
      List.intercalate ['\n'] (splitLines l) = l := by
  induction l with
  | nil => simp [splitLines, List.intercalate]
  | cons r rest ih =>
    obtain ⟨ih1, ih2⟩ := ih
    unfold splitLines
    by_cases hr : r = '\n'
    · rw [if_pos hr]
      constructor
      · intro line hline
        rcases List.mem_cons.1 hline with h | h
        · rw [h]; simp
        · exact ih1 line h
      · cases hs : splitLines rest with
        | nil => exact absurd hs (splitLines_ne_nil rest)
        | cons a as =>
          rw [hs] at ih2
          rw [← ih2, hr]
          simp [List.intercalate, List.intersperse]
    · rw [if_neg hr]
      cases hs : splitLines rest with
      | nil => exact absurd hs (splitLines_ne_nil rest)
      | cons a as =>
        rw [hs] at ih1 ih2
        constructor
        · intro line hline
          rcases List.mem_cons.1 hline with h | h
          · rw [h]
            intro hmem
            rcases List.mem_cons.1 hmem with h1 | h1
            · exact hr h1.symm
            · exact ih1 a (List.mem_cons_self _ _) h1
          · exact ih1 line (List.mem_cons_of_mem _ h)
        · rw [← ih2]
          cases as with
          | nil => simp [List.intercalate, List.intersperse]
          | cons b bs => simp [List.intercalate, List.intersperse]


theorem lastWith_split (key : Word → List Rune) (pre post : List Word) (w : Word)
    (hpost : ∀ x, x ∈ post → key x ≠ key w) :
    lastWith key (pre ++ w :: post) (key w) = some w := by
  induction post using List.reverseRecOn with
  | nil =>
    rw [lastWith_append]
    simp
  | append_singleton post x ih =>
    have hx : key x ≠ key w := hpost x (by simp)
    have : pre ++ w :: (post ++ [x]) = (pre ++ w :: post) ++ [x] := by simp
    rw [this, lastWith_append, if_neg hx]
    exact ih (fun y hy => hpost y (by simp [hy]))

theorem occByEnd_bounds {key : Word → List Rune} {ws : List Word} {t : List Rune}
    {m : MatchResult} (h : m ∈ occByEnd key ws t) :
    ∃ a b : Nat, m.Start = a ∧ m.End = b ∧ a ≤ b ∧ b ≤ t.length := by
  obtain ⟨i, j, w, h1, h2, _, rfl⟩ := (mem_occByEnd key ws t m).1 h
  exact ⟨i, j, rfl, rfl, by omega, h2⟩

/-! ## The failure links after `Build` -/

/-- The state of the breadth-first loop when it starts. -/
theorem BInv.start {m : ACMatcher} {P : Nat → List Rune} (hS0 : Shape m.nodes P)
    (hF : ∀ c, (Node.get m.nodes c).fail = none) {visit : RangeOrder} (hv : visit.Valid) :
    BInv m.nodes P
      (ACMatcher.initQueue 0 (visit (Node.get m.nodes 0).children) m.nodes []).1 []
      (ACMatcher.initQueue 0 (visit (Node.get m.nodes 0).children) m.nodes []).2 := by
  obtain ⟨hq, hT, hL, hseen⟩ := ACMatcher.initQueue_spec hS0
    (visit (Node.get m.nodes 0).children) m.nodes [] (SameTrie.refl_same _)
    (fun c hc => absurd (hF c) hc) (fun r c hmem => (hS0.mem_visit hv 0 r c).1 hmem)
  have hmemcs := hS0.mem_visit_snd hv 0
  simp only [List.nil_append] at hq
  rw [hq]
  have hkid_depth : ∀ c, c ∈ (visit (Node.get m.nodes 0).children).map Prod.snd →
      (P c).length = 1 := by
    intro c hc
    obtain ⟨r, hr⟩ := (hmemcs c).1 hc
    rw [(hS0.child 0 r c hr).2.2, hS0.root]; simp
  refine ⟨hT, hL, ?_, ?_, ?_, ?_, ?_, ?_⟩
  · intro c
    rw [hseen c]
    simp [hF c]
  · simpa using hS0.nodup_visit_snd hv 0
  · intro c hc
    simp only [List.nil_append] at hc
    obtain ⟨r, hr⟩ := (hmemcs c).1 hc
    exact ⟨(hS0.child 0 r c hr).2.1, hS0.child_ne_root hr⟩
  · intro n r c hch
    simp only [List.nil_append, List.not_mem_nil, or_false]
    rw [hmemcs c]
    constructor
    · rintro ⟨r', hr'⟩
      exact (hS0.parent_unique hch hr').1
    · intro hn; subst hn; exact ⟨r, hch⟩
  · rw [List.pairwise_iff_forall_sublist]
    intro a b hab
    have ha := hab.subset (List.mem_cons_self _ _)
    have hb := hab.subset (List.mem_cons_of_mem _ (List.mem_singleton_self _))
    rw [hkid_depth a ha, hkid_depth b hb]
  · intro a ha b hb
    rw [hkid_depth a ha, hkid_depth b hb]; omega

/-- The breadth-first loop never sets the failure link of the root. -/
theorem ACMatcher.bfs_root_fail {nodes0 : List Node} {P : Nat → List Rune}
    (hS0 : Shape nodes0 P) {visit : RangeOrder} (hv : visit.Valid) (fuel : Nat)
    (nodes : List Node) (done queue : List Nat) (hB : BInv nodes0 P nodes done queue)
    (nodes1 : List Node) (h : ACMatcher.bfs visit 0 fuel nodes queue = some nodes1) :
    (Node.get nodes1 0).fail = none := by
  induction fuel generalizing nodes done queue with
  | zero =>
    cases queue with
    | nil =>
      simp only [ACMatcher.bfs, Option.some.injEq] at h
      subst h
      by_contra hne
      exact (hB.valid 0 ((hB.seen 0).1 hne)).2 rfl
    | cons a q => simp [ACMatcher.bfs] at h
  | succ fuel ih =>
    cases queue with
    | nil =>
      simp only [ACMatcher.bfs, Option.some.injEq] at h
      subst h
      by_contra hne
      exact (hB.valid 0 ((hB.seen 0).1 hne)).2 rfl
    | cons a q =>
      obtain ⟨nodes2, hrun, hB1⟩ := hB.step hS0 hv
      simp only [ACMatcher.bfs, hrun] at h
      exact ih nodes2 (done ++ [a]) _ hB1 h

theorem ACMatcher.buildFailurePointers_root {m : ACMatcher} {P : Nat → List Rune}
    (hroot : m.root = 0) (hS0 : Shape m.nodes P) (hF : ∀ c, (Node.get m.nodes c).fail = none)
    {visit : RangeOrder} (hv : visit.Valid) (m1 : ACMatcher)
    (h : ACMatcher.buildFailurePointers visit m = some m1) :
    (Node.get m1.nodes 0).fail = none := by
  simp only [ACMatcher.buildFailurePointers, hroot, Option.map_eq_some'] at h
  obtain ⟨ns, hrun, rfl⟩ := h
  exact ACMatcher.bfs_root_fail hS0 hv _ _ [] _ (BInv.start hS0 hF hv) ns hrun

/-- The failure link of a node is determined by the trie. -/
theorem Linked.unique {nodes1 nodes2 : List Node} {P : Nat → List Rune}
    (hlen : nodes2.length = nodes1.length)
    (hinj : ∀ a b, a < nodes1.length → b < nodes1.length → P a = P b → a = b) {c : Nat}
    (h1 : Linked nodes1 P c) (h2 : Linked nodes2 P c) :
    (Node.get nodes1 c).fail = (Node.get nodes2 c).fail := by
  obtain ⟨k1, hf1, hk1, hs1, hl1, hmax1⟩ := h1
  obtain ⟨k2, hf2, hk2, hs2, hl2, hmax2⟩ := h2
  rw [hlen] at hk2
  have ha := hmax1 k2 hk2 hs2 hl2
  have hb := hmax2 k1 (by rw [hlen]; exact hk1) hs1 hl1
  have hP : P k1 = P k2 := suffix_eq_of_length hs1 hs2 (by omega)
  rw [hf1, hf2, hinj k1 k2 hk1 hk2 hP]

theorem Node.ext_fields {a b : Node} (h1 : a.children = b.children) (h2 : a.fail = b.fail)
    (h3 : a.word = b.word) (h4 : a.isEnd = b.isEnd) : a = b := by
  cases a; cases b
  simp only at h1 h2 h3 h4
  subst h1; subst h2; subst h3; subst h4
  rfl

/-- What `Build` leaves does not depend on the order in which the children
maps are visited. -/
theorem ACMatcher.Build_order {visit1 visit2 : RangeOrder} (hv1 : visit1.Valid)
    (hv2 : visit2.Valid) (toLower : Rune → Rune) (cs : Bool) (words : List Word) :
    ACMatcher.Build visit1 toLower (NewACMatcher cs) words =
      ACMatcher.Build visit2 toLower (NewACMatcher cs) words := by
  obtain ⟨hroot, _, P, hS, _, hF⟩ := ACMatcher.trie_inv toLower cs words
  obtain ⟨n1, hrun1, hT1, hA1⟩ := ACMatcher.buildFailurePointers_spec hroot hS hF hv1
  obtain ⟨n2, hrun2, hT2, hA2⟩ := ACMatcher.buildFailurePointers_spec hroot hS hF hv2
  have hr1 := ACMatcher.buildFailurePointers_root hroot hS hF hv1 _ hrun1
  have hr2 := ACMatcher.buildFailurePointers_root hroot hS hF hv2 _ hrun2
  simp only at hr1 hr2
  unfold ACMatcher.Build
  rw [hrun1, hrun2]
  have hnodes : n1 = n2 := by
    apply List.ext_getElem
    · rw [hT1.length_eq, hT2.length_eq]
    · intro i h1 h2
      have e1 : Node.get n1 i = n1[i] := Node.get_of_lt h1
      have e2 : Node.get n2 i = n2[i] := Node.get_of_lt h2
      rw [← e1, ← e2]
      apply Node.ext_fields
      · rw [hT1.children_eq, hT2.children_eq]
      · by_cases h0 : i = 0
        · subst h0
          rw [hr1, hr2]
        · exact Linked.unique (by rw [hT1.length_eq, hT2.length_eq])
            (by rw [hT1.length_eq]; exact hS.inj) (hA1 i h1 h0) (hA2 i h2 h0)
      · rw [hT1.word_eq, hT2.word_eq]
      · rw [hT1.isEnd_eq, hT2.isEnd_eq]
  rw [hnodes]

/-! ## `Close` -/

theorem Detector.findRef_congr (env : Env) {d d1 : Detector} (hf : d1.filters = d.filters)
    (ho : d1.options = d.options) (raw : List MatchResult) :
    Detector.findRef env d1 raw = Detector.findRef env d raw := by
  simp only [Detector.findRef, Detector.keeps_congr env hf ho, ho]

theorem Detector.find_congr (env : Env) {d d1 : Detector} (hm : d1.matcher = d.matcher)
    (hf : d1.filters = d.filters) (hp : d1.processors = d.processors)
    (ho : d1.options = d.options) (text : String) :
    Detector.Find env d1 text = Detector.Find env d text ∧
      Detector.FindAll env d1 text = Detector.FindAll env d text := by
  have hpre := Detector.preprocessText_congr env hp text
  simp only [Detector.Find, Detector.FindAll, Detector.collect_eq_findRef, hm, hpre, ho,
    Detector.findRef_congr env hf ho]
  exact ⟨trivial, trivial⟩

/-- C31: for a detector whose running watchers have their stop channel open
(as they have in every detector that `Builder.Build` returns), `Close` returns
a nil error and leaves no watcher; `Close` on the closed detector returns nil
again and leaves it as it is; and `Close` keeps the matcher, the filters, the
processors and the options, so `Contains`, `Find`, `FindAll`, `Validate` and
`ReplaceRune` return the same after it as before. -/
theorem close_idempotent (env : Env) (d : Detector)
    (hw : ∀ w, w ∈ d.watchers → w.running = true → w.stopClosed = false) (text : String) :
    (∃ d1, Detector.Close d = some (d1, none) ∧ d1.watchers = [] ∧
      Detector.Close d1 = some (d1, none) ∧
      d1.matcher = d.matcher ∧ d1.filters = d.filters ∧ d1.processors = d.processors ∧
      d1.options = d.options ∧
      Detector.Contains env d1 text = Detector.Contains env d text ∧
      Detector.Find env d1 text = Detector.Find env d text ∧
      Detector.FindAll env d1 text = Detector.FindAll env d text ∧
      Detector.Validate env d1 text = Detector.Validate env d text ∧
      (∀ r, Detector.ReplaceRune env d1 text r = Detector.ReplaceRune env d text r)) ∧
    (∀ (b : Builder) (det : Detector), Builder.Build env b = some (Except.ok det) →
      ∀ w, w ∈ det.watchers → w.running = true → w.stopClosed = false) := by
  constructor
  · have hfind := @Detector.find_congr env d { d with watchers := [] } rfl rfl rfl rfl text
    refine ⟨{ d with watchers := [] }, ?_, rfl, rfl, rfl, rfl, rfl, rfl, rfl, hfind.1, hfind.2,
      rfl, fun _ => rfl⟩
    simp only [Detector.Close, Detector.stopAll_some d.watchers hw]
  · intro b det hbuild w hmem _
    exact (Builder.build_watchers hbuild w hmem).2

/-- Witness of C31: a detector with one started watcher. -/
theorem close_idempotent_witness :
    ∃ d1, Detector.Close
        { plainDetector asciiEnv DefaultOptions [] [mkWord "x"] with
          watchers := [FileWatcher.Start asciiEnv (NewFileWatcher (Loader.file "words.txt") 30)] } =
        some (d1, none) ∧
      d1.watchers = [] ∧ Detector.Close d1 = some (d1, none) :=
  let ⟨d1, h1, h2, h3, _⟩ :=
    (close_idempotent asciiEnv
      { plainDetector asciiEnv DefaultOptions [] [mkWord "x"] with
        watchers := [FileWatcher.Start asciiEnv (NewFileWatcher (Loader.file "words.txt") 30)] }
      (by decide) "x").1
  ⟨d1, h1, h2, h3⟩

/-! ## The built-in dictionary -/

/-- C32: `parseWords` returns the list that the specification describes, and
no other list fits it: going through the lines of the content in order (the
pieces between the line feeds), a line that after trimming is empty or begins
with `#` gives nothing, and any other line gives one word whose text is the
trimmed line, of category other and level medium; the trimmed line is the line
without its leading and trailing white space. So every returned word comes
from a line, and its text is not empty, neither begins nor ends with white
space and does not begin with `#`. The content of the test, with two comment
lines and one blank line, gives `word1`, `word2`, `word3`, and so do padded
lines among blank and comment lines. -/
theorem parseWords_returns_kept_lines (isSpace : Rune → Bool) (content : String) :
    ParsedFrom isSpace (splitLines (runes content)) (parseWords isSpace content) ∧
    (∀ words, ParsedFrom isSpace (splitLines (runes content)) words →
      words = parseWords isSpace content) ∧
    ((∀ line, line ∈ splitLines (runes content) → '\n' ∉ line) ∧
      List.intercalate ['\n'] (splitLines (runes content)) = runes content) ∧
    (∀ w, w ∈ parseWords isSpace content →
      ∃ line, line ∈ splitLines (runes content) ∧
        TrimmedOf isSpace line (runes w.Text) ∧ runes w.Text ≠ [] ∧
        (runes w.Text).head? ≠ some '#' ∧ w.Category = CategoryOther ∧
        w.Level = LevelMedium) ∧
    parseWords asciiIsSpace "# Comment\nword1\nword2\n\n# Another comment\nword3" =
      [mkWord "word1", mkWord "word2", mkWord "word3"] ∧
    parseWords asciiIsSpace "  word1 \r\n\t\n # c\n\tword2  \n#x\n \t word3" =
      [mkWord "word1", mkWord "word2", mkWord "word3"] := by
  have href : parseWords isSpace content =
      ((((splitLines (runes content)).map (trimSpace isSpace)).filter
        (fun line => !(line.isEmpty || hasHashPrefix line))).map
        (fun line => mkWord (ofRunes line))) := parseWords_eq_ref isSpace content
  refine ⟨?_, ?_, splitLines_spec (runes content), ?_, by decide, by decide⟩
  · rw [href]
    exact parsedFrom_lines isSpace _
  · intro words hwords
    rw [href]
    exact hwords.eq_parsed
  · intro w hw
    rw [href] at hw
    simp only [List.mem_map, List.mem_filter] at hw
    obtain ⟨l, ⟨⟨line, hline, rfl⟩, hkeep⟩, rfl⟩ := hw
    simp only [Bool.not_eq_true', Bool.or_eq_false_iff, List.isEmpty_eq_false] at hkeep
    refine ⟨line, hline, trimmedOf_trimSpace isSpace line, hkeep.1, ?_, rfl, rfl⟩
    intro hhead
    have hh := (hasHashPrefix_iff _).2 hhead
    simp only [mkWord, runes_ofRunes] at hh
    rw [hkeep.2] at hh
    exact absurd hh (by decide)

/-! ## The order of the failure-link results -/

/-- C34: `Match` of the failure-link automaton returns its results ordered by
end and, for the same end, by start: along the list the end never decreases,
and of two results with the same end the one with the smaller start (the
longer word) comes first. The list need not be ordered by start: for the
entries `abc`, `b` and the text `abc` it is `b` at `[1,2)`, then `abc` at
`[0,3)`. -/
theorem ac_match_sorted_by_end {visit : RangeOrder} (hv : visit.Valid) (toLower : Rune → Rune)
    (cs : Bool) (words : List Word) (text : String) :
    (∃ found, acMatch visit toLower cs words text = some found ∧
      found.Pairwise byEnd ∧ found.Pairwise (fun a b => a.End ≤ b.End) ∧
      found.Pairwise (fun a b => a.End = b.End → a.Start < b.Start)) ∧
    acMatch id asciiToLower true [mkWord "abc", mkWord "b"] "abc" =
      some [mkResult "b" 1 2, mkResult "abc" 0 3] := by
  refine ⟨⟨_, acMatch_eq hv toLower cs words text, occByEnd_pairwise _ _ _, ?_, ?_⟩, by decide⟩
  · apply (occByEnd_pairwise _ _ _).imp
    intro a b hab
    unfold byEnd at hab
    omega
  · apply (occByEnd_pairwise _ _ _).imp
    intro a b hab heq
    unfold byEnd at hab
    omega

/-- Witness of C34: the entries `he`, `she` and the text `she`. -/
theorem ac_match_sorted_by_end_witness :
    ∃ found, acMatch id asciiToLower false [mkWord "he", mkWord "she"] "she" = some found ∧
      found.Pairwise byEnd :=
  let ⟨found, h1, h2, _⟩ :=
    (ac_match_sorted_by_end RangeOrder.valid_id asciiToLower false [mkWord "he", mkWord "she"]
      "she").1
  ⟨found, h1, h2⟩

/-! ## The failure links -/

/-- C35: `Build` of the failure-link automaton returns a matcher in which,
`P c` being the code points on the way from the root to node `c`, every node
other than the root has a failure link, to the node whose path is the longest
proper suffix of its own path that is a path of the trie (the root, with the
empty path, when no other is); the target is strictly less deep. The matcher
is the same for every order of visiting the children maps, and `Match` and
`Validate` on it return for every text. -/
theorem failure_links_longest_proper_suffix {visit : RangeOrder} (hv : visit.Valid)
    (toLower : Rune → Rune) (cs : Bool) (words : List Word) :
    ∃ (m : ACMatcher) (P : Nat → List Rune),
      ACMatcher.Build visit toLower (NewACMatcher cs) words = some m ∧
      P m.root = [] ∧
      (∀ p c, Node.walk m.nodes m.root p = some c ↔ c < m.nodes.length ∧ P c = p) ∧
      (∀ c, c < m.nodes.length → c ≠ m.root →
        ∃ k, (Node.get m.nodes c).fail = some k ∧ k < m.nodes.length ∧ P k <:+ P c ∧
          (P k).length < (P c).length ∧
          ∀ c1, c1 < m.nodes.length → P c1 <:+ P c → (P c1).length < (P c).length →
            (P c1).length ≤ (P k).length) ∧
      (∀ visit1 : RangeOrder, visit1.Valid →
        ACMatcher.Build visit1 toLower (NewACMatcher cs) words = some m) ∧
      (∀ text, ∃ found, ACMatcher.Match toLower m text = some found) ∧
      (∀ text, ∃ clean, ACMatcher.Validate toLower m text = some clean) := by
  obtain ⟨m, P, hbuild, hroot, _, hS, _, hA, _⟩ := ACMatcher.Build_spec hv toLower cs words
  refine ⟨m, P, hbuild, by rw [hroot]; exact hS.root, ?_, ?_, ?_, ?_, ?_⟩
  · intro p c
    rw [hroot]
    exact hS.walk_iff p c
  · intro c hc h0
    rw [hroot] at h0
    exact hA c hc h0
  · intro visit1 hv1
    rw [ACMatcher.Build_order hv1 hv, hbuild]
  · intro text
    have h := acMatch_eq hv toLower cs words text
    simp only [acMatch, hbuild, Option.some_bind] at h
    exact ⟨_, h⟩
  · intro text
    have h := acValidate_eq hv toLower cs words text
    simp only [acValidate, hbuild, Option.some_bind] at h
    exact ⟨_, h⟩

/-- Witness of C35: the entries `he`, `she`; the nodes are the root, `h`,
`he`, `s`, `sh`, `she`, and the links of `sh` and `she` lead to `h` and `he`,
in insertion order as in the opposite order. -/
theorem failure_links_longest_proper_suffix_witness :
    (∃ m, ACMatcher.Build id asciiToLower (NewACMatcher false) [mkWord "he", mkWord "she"] =
        some m ∧
      ACMatcher.Build List.reverse asciiToLower (NewACMatcher false)
        [mkWord "he", mkWord "she"] = some m) ∧
    (ACMatcher.Build id asciiToLower (NewACMatcher false) [mkWord "he", mkWord "she"]).map
        (fun m => m.nodes.map (fun n => n.fail)) =
      some [none, some 0, some 0, some 0, some 1, some 2] := by
  refine ⟨?_, by decide⟩
  obtain ⟨m, _, h1, _, _, _, h5, _⟩ :=
    failure_links_longest_proper_suffix RangeOrder.valid_id asciiToLower false
      [mkWord "he", mkWord "she"]
  exact ⟨m, h1, h5 List.reverse (fun l => List.reverse_perm l)⟩

/-! ## The mask of `Replace` -/

/-- C36: for both automatons, every dictionary, every replacement (any
`int32`) and every text of `n` code points, `Match` returns, the loop of `Replace` that marks the positions of the
matches in a mask of length `n` runs to its end without an index out of range,
`Replace` returns, and every position `p` of a match, `Start ≤ p < End`,
has `0 ≤ p < n`. -/
theorem replace_mask_in_range {visit : RangeOrder} (hv : visit.Valid) (toLower : Rune → Rune)
    (cs : Bool) (words : List Word) (text : String) (repl : Int) :
    (∃ found mask out, acMatch visit toLower cs words text = some found ∧
      markAll found (List.replicate (foldText toLower cs text).length false) = some mask ∧
      mask.length = (runes text).length ∧
      acReplace visit toLower cs words text repl = some out ∧
      ∀ m, m ∈ found → ∀ p : Int, m.Start ≤ p → p < m.End →
        0 ≤ p ∧ p < ((runes text).length : Int)) ∧
    (∃ mask out,
      markAll (dfaMatch toLower cs words text)
        (List.replicate (foldText toLower cs text).length false) = some mask ∧
      mask.length = (runes text).length ∧
      dfaReplace toLower cs words text repl = some out ∧
      ∀ m, m ∈ dfaMatch toLower cs words text → ∀ p : Int, m.Start ≤ p → p < m.End →
        0 ≤ p ∧ p < ((runes text).length : Int)) := by
  have hlen := foldText_length toLower cs text
  constructor
  · have hb : ∀ m, m ∈ occByEnd (fun w => foldText toLower cs w.Text) words
        (foldText toLower cs text) →
        ∃ a b : Nat, m.Start = a ∧ m.End = b ∧ a ≤ b ∧
          b ≤ (List.replicate (foldText toLower cs text).length false).length := by
      intro m hm
      obtain ⟨a, b, h1, h2, h3, h4⟩ := occByEnd_bounds hm
      exact ⟨a, b, h1, h2, h3, by simpa using h4⟩
    obtain ⟨mask, hrun, hmlen, _⟩ := markAll_spec _ _ hb
    refine ⟨_, mask, _, acMatch_eq hv toLower cs words text, hrun, ?_,
      acReplace_eq hv toLower cs words text repl, ?_⟩
    · rw [hmlen, List.length_replicate, hlen]
    · intro m hm p h1 h2
      obtain ⟨a, b, hs, he, _, hle⟩ := occByEnd_bounds hm
      rw [hlen] at hle
      omega
  · rw [dfaMatch_eq]
    have hb : ∀ m, m ∈ occByStart (fun w => foldText toLower cs w.Text) words
        (foldText toLower cs text) →
        ∃ a b : Nat, m.Start = a ∧ m.End = b ∧ a ≤ b ∧
          b ≤ (List.replicate (foldText toLower cs text).length false).length := by
      intro m hm
      obtain ⟨a, b, h1, h2, h3, h4⟩ := occ_bounds hm
      exact ⟨a, b, h1, h2, h3, by simpa using h4⟩
    obtain ⟨mask, hrun, hmlen, _⟩ := markAll_spec _ _ hb
    refine ⟨mask, _, hrun, ?_, dfaReplace_eq toLower cs words text repl, ?_⟩
    · rw [hmlen, List.length_replicate, hlen]
    · intro m hm p h1 h2
      obtain ⟨a, b, hs, he, _, hle⟩ := occ_bounds hm
      rw [hlen] at hle
      omega

/-- Witness of C36: the entries `he`, `she` and the text `she`. -/
theorem replace_mask_in_range_witness :
    (∃ mask out,
      markAll (dfaMatch asciiToLower false [mkWord "he", mkWord "she"] "she")
        (List.replicate (foldText asciiToLower false "she").length false) = some mask ∧
      mask.length = (runes "she").length ∧
      dfaReplace asciiToLower false [mkWord "he", mkWord "she"] "she" (runeValue '*') = some out ∧
      ∀ m, m ∈ dfaMatch asciiToLower false [mkWord "he", mkWord "she"] "she" →
        ∀ p : Int, m.Start ≤ p → p < m.End → 0 ≤ p ∧ p < ((runes "she").length : Int)) ∧
    acReplace id asciiToLower false [mkWord "he", mkWord "she"] "she" (runeValue '*') = some "***" :=
  ⟨(replace_mask_in_range RangeOrder.valid_id asciiToLower false [mkWord "he", mkWord "she"]
      "she" (runeValue '*')).2, by decide⟩

/-! ## Entries that collide -/

/-- C37: when `w` is the last entry of the sequence with its folded text (no
entry after it has the same), then wherever the folded text has the code
points of `w`, both automatons return exactly one match with these offsets,
and it carries the text, the category and the level of `w`, whatever the
entries with the same folded text before it. -/
theorem last_colliding_entry_wins {visit : RangeOrder} (hv : visit.Valid)
    (toLower : Rune → Rune) (cs : Bool) (pre post : List Word) (w : Word)
    (hpost : ∀ x, x ∈ post → foldText toLower cs x.Text ≠ foldText toLower cs w.Text)
    (text : String) (i j : Nat) (hij : i < j) (hj : j ≤ (foldText toLower cs text).length)
    (hocc : slice (foldText toLower cs text) i j = foldText toLower cs w.Text) :
    (∃ found, acMatch visit toLower cs (pre ++ w :: post) text = some found ∧
      mkMatch w i j ∈ found ∧
      found.countP (fun m => decide (m.Start = (i : Int) ∧ m.End = (j : Int))) = 1) ∧
    (mkMatch w i j ∈ dfaMatch toLower cs (pre ++ w :: post) text ∧
      (dfaMatch toLower cs (pre ++ w :: post) text).countP
        (fun m => decide (m.Start = (i : Int) ∧ m.End = (j : Int))) = 1) := by
  have hlast : lastWith (fun x => foldText toLower cs x.Text) (pre ++ w :: post)
      (slice (foldText toLower cs text) i j) = some w := by
    rw [hocc]
    exact lastWith_split (fun x => foldText toLower cs x.Text) pre post w hpost
  have hO : Occurs (fun x => foldText toLower cs x.Text) (pre ++ w :: post)
      (foldText toLower cs text) i j :=
    ⟨hij, hj, w, by simp, hocc.symm⟩
  constructor
  · refine ⟨_, acMatch_eq hv toLower cs _ text,
      (mem_occByEnd _ _ _ _).2 ⟨i, j, w, hij, hj, hlast, rfl⟩, ?_⟩
    exact (occ_countP (nodup_of_pairwise byEnd_irrefl (occByEnd_pairwise _ _ _))
      (mem_occByEnd _ _ _) i j).1 hO
  · rw [dfaMatch_eq]
    refine ⟨(mem_occByStart _ _ _ _).2 ⟨i, j, w, hij, hj, hlast, rfl⟩, ?_⟩
    exact (occ_countP (nodup_of_pairwise byStart_irrefl (occByStart_pairwise _ _ _))
      (mem_occByStart _ _ _) i j).1 hO

/-- Witness of C37: the entries `ABC` (level low) and `abc` (level high),
case-insensitive, and the text `xAbC`: the single match carries `abc` and
level high. -/
theorem last_colliding_entry_wins_witness :
    (mkMatch { Text := "abc", Category := CategoryAbuse, Level := LevelHigh, Tags := [] } 1 4 ∈
        dfaMatch asciiToLower false
          ([{ Text := "ABC", Category := CategoryOther, Level := LevelLow, Tags := [] }] ++
            { Text := "abc", Category := CategoryAbuse, Level := LevelHigh, Tags := [] } :: [])
          "xAbC" ∧
      (dfaMatch asciiToLower false
          ([{ Text := "ABC", Category := CategoryOther, Level := LevelLow, Tags := [] }] ++
            { Text := "abc", Category := CategoryAbuse, Level := LevelHigh, Tags := [] } :: [])
          "xAbC").countP (fun m => decide (m.Start = ((1 : Nat) : Int) ∧
            m.End = ((4 : Nat) : Int))) = 1) ∧
    acMatch id asciiToLower false
        [{ Text := "ABC", Category := CategoryOther, Level := LevelLow, Tags := [] },
         { Text := "abc", Category := CategoryAbuse, Level := LevelHigh, Tags := [] }] "xAbC" =
      some [{ Word := "abc", Start := 1, End := 4, Category := CategoryAbuse,
              Level := LevelHigh }] :=
  ⟨(last_colliding_entry_wins RangeOrder.valid_id asciiToLower false
      [{ Text := "ABC", Category := CategoryOther, Level := LevelLow, Tags := [] }] []
      { Text := "abc", Category := CategoryAbuse, Level := LevelHigh, Tags := [] }
      (by simp) "xAbC" 1 4 (by decide) (by decide) (by decide)).2, by decide⟩

/-! ## The file watcher -/

/-- C40 (it fails): `Stop` on a watcher that is not running changes nothing,
and after `Start`, `Stop` the watcher is stopped with its channel closed; but
`Start` on it sets `running` again without a new channel, so after `Start`,
`Stop`, `Start` the watcher is running with a closed stop channel, and the
next `Stop` closes the closed channel: the sequence `Start`, `Stop`, `Start`,
`Stop` panics. -/
theorem watcher_restart_then_stop_panics :
    (∀ w : FileWatcher, w.running = false → FileWatcher.Stop w = some w) ∧
    FileWatcher.calls asciiEnv (NewFileWatcher (Loader.file "words.txt") 30)
        [WatcherCall.start, WatcherCall.stop] =
      some { loader := Loader.file "words.txt", interval := 30, lastMod := none,
             stopClosed := true, running := false } ∧
    FileWatcher.calls asciiEnv (NewFileWatcher (Loader.file "words.txt") 30)
        [WatcherCall.start, WatcherCall.stop, WatcherCall.start] =
      some { loader := Loader.file "words.txt", interval := 30, lastMod := none,
             stopClosed := true, running := true } ∧
    FileWatcher.calls asciiEnv (NewFileWatcher (Loader.file "words.txt") 30)
        [WatcherCall.start, WatcherCall.stop, WatcherCall.start, WatcherCall.stop] = none := by
  refine ⟨?_, by decide, by decide, by decide⟩
  intro w hw
  simp [FileWatcher.Stop, hw]

/-! ## Offsets and the normalized text -/

theorem mem_of_mem_slice {t : List Rune} {i j : Nat} {c : Rune} (h : c ∈ slice t i j) : c ∈ t :=
  List.mem_of_mem_drop (List.mem_of_mem_take h)

theorem SimilarProcessor.mem_processFrom
    {visits : Nat → List (Rune × List Rune) → List (Rune × List Rune)} {p : SimilarProcessor}
    {k : Nat} {l : List Rune} {c : Rune} (h : c ∈ SimilarProcessor.processFrom visits p k l) :
    ∃ i x, SimilarProcessor.findBase (visits i) p x = c := by
  induction l generalizing k with
  | nil => simp [SimilarProcessor.processFrom] at h
  | cons a l ih =>
    rw [SimilarProcessor.processFrom] at h
    rcases List.mem_cons.1 h with h1 | h1
    · exact ⟨k, a, h1.symm⟩
    · exact ih h1

theorem SimilarProcessor.findBaseIn_cases (groups : List (Rune × List Rune)) (x : Rune) :
    SimilarProcessor.findBaseIn groups x = x ∨
      SimilarProcessor.findBaseIn groups x ∈ groups.map Prod.fst := by
  induction groups with
  | nil => exact Or.inl rfl
  | cons g rest ih =>
    obtain ⟨base, similars⟩ := g
    unfold SimilarProcessor.findBaseIn
    split
    · right; simp
    · split
      · right; simp
      · rcases ih with h | h
        · exact Or.inl h
        · right
          simp only [List.map_cons, List.mem_cons]
          exact Or.inr h

/-- The result of `findBaseIn` is the base of a visited group holding the
code point, or the code point itself when no visited group holds it. -/
theorem SimilarProcessor.findBaseIn_group (groups : List (Rune × List Rune)) (x : Rune) :
    (SimilarProcessor.findBaseIn groups x = x ∧ ∀ g, g ∈ groups → x ≠ g.1 ∧ x ∉ g.2) ∨
      ∃ g, g ∈ groups ∧ (x = g.1 ∨ x ∈ g.2) ∧ SimilarProcessor.findBaseIn groups x = g.1 := by
  induction groups with
  | nil => exact Or.inl ⟨rfl, fun g hg => absurd hg (List.not_mem_nil g)⟩
  | cons g rest ih =>
    obtain ⟨base, similars⟩ := g
    unfold SimilarProcessor.findBaseIn
    split
    · rename_i hany
      right
      refine ⟨(base, similars), List.mem_cons_self _ _, Or.inr ?_, rfl⟩
      obtain ⟨y, hy, hxy⟩ := List.any_eq_true.1 hany
      have hxy1 : x = y := by simpa using hxy
      rw [hxy1]
      exact hy
    · rename_i hany
      split
      · rename_i hbase
        right
        exact ⟨(base, similars), List.mem_cons_self _ _, Or.inl hbase, rfl⟩
      · rename_i hbase
        rcases ih with ⟨h1, h2⟩ | ⟨g, hg, hx, hres⟩
        · left
          refine ⟨h1, ?_⟩
          intro g hg
          rcases List.mem_cons.1 hg with rfl | hg
          · refine ⟨hbase, ?_⟩
            intro hmem
            apply hany
            exact List.any_eq_true.2 ⟨x, hmem, by simp⟩
          · exact h2 g hg
        · right
          exact ⟨g, List.mem_cons_of_mem _ hg, hx, hres⟩

/-- In every visiting order the numeral `一` is mapped to `1`: only the group
of `1` holds it. -/
theorem SimilarProcessor.findBase_numeral_one
    (visit : List (Rune × List Rune) → List (Rune × List Rune)) (hv : ValidOrder visit) :
    SimilarProcessor.findBase visit NewSimilarProcessor '一' = '1' := by
  have honly : ∀ g, g ∈ NewSimilarProcessor.similarMap → ('一' = g.1 ∨ '一' ∈ g.2) → g.1 = '1' := by
    decide!
  have hin : (('1', ['l', 'I', 'i', '|', '一']) : Rune × List Rune) ∈
      NewSimilarProcessor.similarMap := by decide!
  unfold SimilarProcessor.findBase
  rcases SimilarProcessor.findBaseIn_group (visit NewSimilarProcessor.similarMap) '一' with
    ⟨_, h2⟩ | ⟨g, hg, hx, hres⟩
  · exact absurd (by decide) (h2 _ ((hv _).mem_iff.2 hin)).2
  · rw [hres]
    exact honly g ((hv _).mem_iff.1 hg) hx

/-- In source order no code point is mapped to `l`. -/
theorem findBase_ne_l (k : Nat) (x : Rune) :
    SimilarProcessor.findBase (asciiEnv.visitGroups k) NewSimilarProcessor x ≠ 'l' := by
  have hid : asciiEnv.visitGroups k = id := rfl
  rw [hid]
  by_cases hx : x = 'l'
  · subst hx
    decide
  · intro h
    rcases SimilarProcessor.findBaseIn_cases (id NewSimilarProcessor.similarMap) x with h1 | h1
    · exact hx (h1.symm.trans h)
    · have hmem : 'l' ∈ (id NewSimilarProcessor.similarMap).map Prod.fst := by
        unfold SimilarProcessor.findBase at h
        rw [← h]
        exact h1
      exact absurd hmem (by decide)

/-- A code point of the normalized text is a result of `findBase`. -/
theorem SimilarProcessor.mem_normalized {env : Env} {d : Detector}
    (hp : d.processors = [Processor.similar]) {text : String} {c : Rune}
    (h : c ∈ runes (Detector.preprocessText env d text)) :
    ∃ k x, SimilarProcessor.findBase (env.visitGroups k) NewSimilarProcessor x = c := by
  simp only [Detector.preprocessText, hp, List.foldl_cons, List.foldl_nil, Processor.Process,
    SimilarProcessor.Process, runes_ofRunes] at h
  exact SimilarProcessor.mem_processFrom h

/-- C39 (it fails for code points that `findBase` still produces): for a
case-sensitive detector with only the similar processor, an entry holding a
code point that `findBase` returns for no code point is never reported by
`Find`, and a dictionary of such entries never makes `Contains` true (`k`
ranges over the calls of `findBase`, each with its own visiting order). A code
point that `findBase` does not map to itself may still be returned for another
one: when the groups are visited in the order opposite to the source,
`findBase` maps `1` to `i` and `一` to `1`, and the entry `1` is reported for
the text `一`. In every visiting order `一` is mapped to `1`, and the entry is
reported in source order as well. -/
theorem unnormalized_entry_reported_through_overlap (env : Env) (hv : env.visit.Valid)
    (words : List Word) (d : Detector) (hb : Matcher.BuiltFrom env true words d.matcher)
    (hp : d.processors = [Processor.similar]) (w : Word) (c : Rune) (hc : c ∈ runes w.Text)
    (himg : ∀ k x, SimilarProcessor.findBase (env.visitGroups k) NewSimilarProcessor x ≠ c)
    (text : String) :
    (∃ found, Detector.Find env d text = some found ∧ ∀ m, m ∈ found → m.Word ≠ w.Text) ∧
    ((∀ x, x ∈ words → ∃ c1, c1 ∈ runes x.Text ∧
        ∀ k y, SimilarProcessor.findBase (env.visitGroups k) NewSimilarProcessor y ≠ c1) →
      Detector.Contains env d text = some false) ∧
    SimilarProcessor.findBase (reverseEnv.visitGroups 0) NewSimilarProcessor '1' = 'i' ∧
    (∀ visit, ValidOrder visit →
      SimilarProcessor.findBase visit NewSimilarProcessor '一' = '1') ∧
    buildContains asciiEnv
      (((New.LoadWords [mkWord "1"]).EnableSimilarChar).SetCaseSensitive true) "一" =
      some true ∧
    buildContains reverseEnv
      (((New.LoadWords [mkWord "1"]).EnableSimilarChar).SetCaseSensitive true) "一" =
      some true ∧
    buildFind reverseEnv
      (((New.LoadWords [mkWord "1"]).EnableSimilarChar).SetCaseSensitive true) "一" =
      some [{ Word := "1", Start := 0, End := 1, Category := CategoryOther,
              Level := LevelMedium }] := by
  have hkey : ∀ (m : MatchResult), m ∈ Matcher.occ env.toLower true words d.matcher
      (Detector.preprocessText env d text) →
      ∃ w1, w1 ∈ words ∧ m.Word = w1.Text ∧
        ∀ c1, c1 ∈ runes w1.Text →
          ∃ k x, SimilarProcessor.findBase (env.visitGroups k) NewSimilarProcessor x = c1 := by
    intro m hm
    obtain ⟨i, j, w1, _, _, hlast, rfl⟩ := (Matcher.mem_occ _ _ _ _ _ _).1 hm
    obtain ⟨hmem, hk⟩ := lastWith_some hlast
    refine ⟨w1, hmem, rfl, ?_⟩
    intro c1 hc1
    have hin : c1 ∈ slice (foldText env.toLower true (Detector.preprocessText env d text)) i j := by
      rw [← hk]
      exact hc1
    exact SimilarProcessor.mem_normalized hp (mem_of_mem_slice hin)
  refine ⟨⟨_, Detector.find_built hv hb text, ?_⟩, ?_, by decide,
    SimilarProcessor.findBase_numeral_one, by decide, by decide, by decide⟩
  · intro x hx hword
    obtain ⟨m, hm, _, rfl⟩ := Detector.mem_findRef hx
    obtain ⟨w1, _, hw1, himage⟩ := hkey m hm
    have hw : w1.Text = w.Text := hw1.symm.trans hword
    obtain ⟨k, y, hy⟩ := himage c (by rw [hw]; exact hc)
    exact himg k y hy
  · intro hall
    have hempty : Matcher.occ env.toLower true words d.matcher
        (Detector.preprocessText env d text) = [] := by
      rw [List.eq_nil_iff_forall_not_mem]
      intro m hm
      obtain ⟨w1, hmem, _, himage⟩ := hkey m hm
      obtain ⟨c1, hc1, hno⟩ := hall w1 hmem
      obtain ⟨k, y, hy⟩ := himage c1 hc1
      exact hno k y hy
    have hperm := Matcher.occ_perm env.toLower true words d.matcher
      (Detector.preprocessText env d text)
    rw [hempty] at hperm
    have hnil := hperm.symm.eq_nil
    simp only [Detector.Contains, Matcher.validate_built hv hb, hnil, Option.map_some']
    rfl

/-- Witness of C39: in source order no code point is mapped to `l`, so the
entry `hello` is never reported, not even for the text `hello`. -/
theorem unnormalized_entry_reported_through_overlap_witness :
    (∃ found, Detector.Find asciiEnv
        { plainDetector asciiEnv { DefaultOptions with CaseSensitive := true } []
            [mkWord "hello"] with processors := [Processor.similar] } "hello" = some found ∧
      ∀ m, m ∈ found → m.Word ≠ (mkWord "hello").Text) ∧
    buildContains asciiEnv
      (((New.LoadWords [mkWord "hello"]).EnableSimilarChar).SetCaseSensitive true) "hello" =
      some false :=
  ⟨(unnormalized_entry_reported_through_overlap asciiEnv RangeOrder.valid_id [mkWord "hello"]
      { plainDetector asciiEnv { DefaultOptions with CaseSensitive := true } []
          [mkWord "hello"] with processors := [Processor.similar] } (Or.inl rfl) rfl
      (mkWord "hello") 'l' (by decide) findBase_ne_l "hello").1, by decide⟩

/-! ## `FindAll` against the single operations -/

/-- A detector without the similar processor normalizes alike whatever the
visiting orders of the similar-character map. -/
theorem Detector.preprocessText_visitGroups (env : Env)
    (visits : Nat → List (Rune × List Rune) → List (Rune × List Rune)) (d : Detector)
    (h : Processor.similar ∉ d.processors) (text : String) :
    Detector.preprocessText { env with visitGroups := visits } d text =
      Detector.preprocessText env d text := by
  unfold Detector.preprocessText
  generalize d.processors = procs at h
  induction procs generalizing text with
  | nil => rfl
  | cons p ps ih =>
    have hp : p ≠ Processor.similar := fun he => h (he ▸ List.mem_cons_self _ _)
    have hps : Processor.similar ∉ ps := fun hm => h (List.mem_cons_of_mem _ hm)
    have hstep : Processor.Process { env with visitGroups := visits } p text =
        Processor.Process env p text := by
      cases p with
      | symbol => rfl
      | traditional => rfl
      | similar => exact absurd rfl hp
      | pinyin => rfl
    rw [List.foldl_cons, List.foldl_cons, hstep]
    exact ih _ hps

/-- C15 (it fails with the similar processor): for a detector whose matcher
has been built, `FindAll` returns a result whose `Found` is true exactly when
its `Matches` is not empty; a call of `Find` returns its `Matches`, and calls
of `Filter` and of `ReplaceRune` with `options.ReplaceChar` return its
`FilteredText`, when these calls meet the same visiting orders of the
similar-character map as the call of `FindAll`, or when the detector has no
similar processor. Otherwise they need not: every call normalizes the text
anew, and for the detector built from the entry `o` with the similar
processor and the text `O`, a call of `Find` that visits the groups in source
order returns no match while a call of `FindAll` that visits them in the
opposite order returns the match `o` at `[0,1)`. -/
theorem findAll_agrees_with_single_operations (env : Env) (hv : env.visit.Valid) (cs : Bool)
    (words : List Word) (d : Detector) (hb : Matcher.BuiltFrom env cs words d.matcher)
    (text : String) :
    (∃ r, Detector.FindAll env d text = some r ∧ (r.Found = true ↔ r.Matches ≠ []) ∧
      ∀ visits, (visits = env.visitGroups ∨ Processor.similar ∉ d.processors) →
        Detector.Find { env with visitGroups := visits } d text = some r.Matches ∧
        Detector.Filter { env with visitGroups := visits } d text = some r.FilteredText ∧
        Detector.ReplaceRune { env with visitGroups := visits } d text d.options.ReplaceChar =
          some r.FilteredText) ∧
    buildFindThenFindAll asciiEnv reverseEnv ((New.LoadWords [mkWord "o"]).EnableSimilarChar)
        "O" =
      some ([], { Found := true,
                  Matches := [{ Word := "o", Start := 0, End := 1, Category := CategoryOther,
                                Level := LevelMedium }],
                  FilteredText := "*" }) ∧
    buildFindThenFindAll asciiEnv asciiEnv ((New.LoadWords [mkWord "o"]).EnableSimilarChar)
        "O" =
      some ([], { Found := false, Matches := [], FilteredText := "0" }) := by
  refine ⟨?_, by decide, by decide⟩
  obtain ⟨filtered, hr, hall⟩ := Detector.findAll_built hv hb text
  refine ⟨_, hall, by simp [List.length_pos], ?_⟩
  intro visits hvis
  have hpre : Detector.preprocessText { env with visitGroups := visits } d text =
      Detector.preprocessText env d text := by
    rcases hvis with rfl | hsim
    · rfl
    · exact Detector.preprocessText_visitGroups env visits d hsim text
  have hv2 : ({ env with visitGroups := visits } : Env).visit.Valid := hv
  have hb2 : Matcher.BuiltFrom { env with visitGroups := visits } cs words d.matcher := hb
  have hrep : Detector.ReplaceRune { env with visitGroups := visits } d text
      d.options.ReplaceChar = some filtered := by
    rw [← hr]
    simp only [Detector.ReplaceRune, Matcher.replace_built hv2 hb2, Matcher.replace_built hv hb,
      hpre]
  refine ⟨?_, hrep, hrep⟩
  rw [Detector.find_built hv2 hb2 text, hpre]
  rfl

/-- Witness of C15: the entries `"abc"` and `"b"` and the text `"xabc"`. -/
theorem findAll_agrees_with_single_operations_witness :
    (∃ r, Detector.FindAll asciiEnv
        (plainDetector asciiEnv DefaultOptions [] [mkWord "abc", mkWord "b"]) "xabc" = some r ∧
      Detector.Find reverseEnv
        (plainDetector asciiEnv DefaultOptions [] [mkWord "abc", mkWord "b"]) "xabc" =
        some r.Matches ∧
      Detector.Filter reverseEnv
        (plainDetector asciiEnv DefaultOptions [] [mkWord "abc", mkWord "b"]) "xabc" =
        some r.FilteredText ∧
      (r.Found = true ↔ r.Matches ≠ [])) ∧
    Detector.FindAll asciiEnv
      (plainDetector asciiEnv DefaultOptions [] [mkWord "abc", mkWord "b"]) "xabc" =
      some { Found := true,
             Matches := [{ Word := "abc", Start := 1, End := 4, Category := CategoryOther,
                           Level := LevelMedium },
                         { Word := "b", Start := 2, End := 3, Category := CategoryOther,
                           Level := LevelMedium }],
             FilteredText := "x***" } := by
  refine ⟨?_, by decide⟩
  obtain ⟨r, h1, h2, h3⟩ :=
    (findAll_agrees_with_single_operations asciiEnv RangeOrder.valid_id false
      [mkWord "abc", mkWord "b"]
      (plainDetector asciiEnv DefaultOptions [] [mkWord "abc", mkWord "b"]) (Or.inl rfl)
      "xabc").1
  have h4 := h3 (fun _ => List.reverse) (Or.inr (by decide))
  exact ⟨r, h1, h4.1, h4.2.1, h2⟩

end GoSensitive
